import Mathlib

/-!
# Shard state machine (`blobstore/shardnode/storage/shard_sm.go`)

A shallow embedding of `shardSM`: the raft apply loop, its per-operation
handlers over the shard's key-value store, and snapshot ingest.

The key-value engine, the protobuf codecs and the key encodings are external
collaborators of `shard_sm.go`.  The store is embedded as a reliable in-memory
map (a read of a missing key answers `ErrNotFound`, writes succeed); the codecs
and key encodings are fields of `Env`.
-/

namespace Storage

/-- A byte string (`[]byte`); bytes are never computed with, only compared. -/
abbrev Bytes := List Nat

/-- Go `error` values that `shard_sm.go` distinguishes. -/
inductive Err where
  /-- The value of `kvstore.ErrNotFound`. -/
  | notFound
  /-- The value of `io.EOF`. -/
  | eof
  /-- The value of `errShardStopWriting`. -/
  | shardStopWriting
  /-- An `Unmarshal` failure. -/
  | unmarshal
  /-- A `Marshal` failure. -/
  | marshal
  /-- Any other error, by code. -/
  | other (code : Nat)
  deriving DecidableEq, Repr

/-- The message `shardnodeproto.Field`. -/
structure Field where
  ID : Nat
  Value : Bytes
  deriving DecidableEq, Repr

/-- The message `shardnodeproto.Item` (`item` in package storage). -/
structure Item where
  ID : Bytes
  Fields : List Field
  deriving DecidableEq, Repr

/-- Modelled from the spec: `proto.Location`, the location descriptor of a blob
(`{ ClusterID, CodeMode, Size, SliceSize, Slices, Crc }`); its declaration is not
part of the sources. -/
structure Location where
  ClusterID : Nat
  CodeMode : Nat
  Size : Nat
  SliceSize : Nat
  Slices : List Bytes
  Crc : Nat
  deriving DecidableEq, Repr

/-- Modelled from the spec: `proto.Blob` (`{ Name, Location }`); its declaration
is not part of the sources. -/
structure Blob where
  Name : Bytes
  Location : Location
  deriving DecidableEq, Repr

/-- The zero value `proto.Blob{}`. -/
def Blob.zero : Blob := ⟨[], ⟨0, 0, 0, 0, [], 0⟩⟩

/-- The message `clustermgr.ShardUnit`, with the fields `shardSM` writes. -/
structure ShardUnit where
  Suid : Nat
  DiskID : Nat
  Learner : Bool
  deriving DecidableEq, Repr

/-- The collaborators of `shard_sm.go` whose code lives elsewhere: the `kv`
framing of proposal data (`newKV`), the generated protobuf codecs, the shard's
key encodings, the width of `proto.DiskID` and `SaveShardInfo`. -/
structure Env where
  /-- The accessor `newKV(data).Key()`. -/
  kvKey : Bytes → Bytes
  /-- The accessor `newKV(data).Value()`. -/
  kvValue : Bytes → Bytes
  /-- The method `(*item).Unmarshal`. -/
  unmarshalItem : Bytes → Except Err Item
  /-- The method `(*item).Marshal`. -/
  marshalItem : Item → Except Err Bytes
  /-- The method `(*proto.Blob).Unmarshal`. -/
  unmarshalBlob : Bytes → Except Err Blob
  /-- The method `(*ShardMemberCtx).Unmarshal`, answering the decoded `Suid`. -/
  unmarshalMemberCtx : Bytes → Except Err Nat
  /-- The number of bits of `proto.DiskID`. -/
  diskIDBits : Nat
  /-- The key `shardKeys.encodeShardDataPrefix()`. -/
  shardDataPrefix : Bytes
  /-- The key `shardKeys.encodeShardDataMaxPrefix()`. -/
  shardDataMaxPrefix : Bytes
  /-- The outcome of `SaveShardInfo` on the units and applied index to persist. -/
  saveShardInfo : List ShardUnit → Nat → Option Err

/-- The codecs are inverse to each other on everything that is encoded: what
`Marshal` produces, `Unmarshal` reads back. -/
def Env.ItemRoundTrip (env : Env) : Prop :=
  ∀ it b, env.marshalItem it = .ok b → env.unmarshalItem b = .ok it

/-! ## The key-value store -/

/-- One key-value operation of a write batch. -/
inductive BatchOp where
  | put (key value : Bytes)
  | delete (key : Bytes)
  | deleteRange (start stop : Bytes)
  deriving DecidableEq, Repr

/-- A mutating call received by the store. -/
inductive KVWrite where
  | setRaw (key value : Bytes)
  | delete (key : Bytes)
  | write (batch : List BatchOp)
  deriving DecidableEq, Repr

/-- The column family `dataCF` of the shard's store: its contents, and the
mutating calls it has received, latest last. -/
structure KVStore where
  data : Bytes → Option Bytes
  writes : List KVWrite

/-- The call `kvStore.Get(ctx, dataCF, key, nil)`. -/
def KVStore.Get (s : KVStore) (key : Bytes) : Except Err Bytes :=
  match s.data key with
  | some v => .ok v
  | none => .error Err.notFound

/-- The call `kvStore.SetRaw(ctx, dataCF, key, value, nil)`. -/
def KVStore.SetRaw (s : KVStore) (key value : Bytes) : KVStore × Option Err :=
  (⟨fun k => if k = key then some value else s.data k, s.writes ++ [KVWrite.setRaw key value]⟩, none)

/-- The call `kvStore.Delete(ctx, dataCF, key, nil)`. -/
def KVStore.Delete (s : KVStore) (key : Bytes) : KVStore × Option Err :=
  (⟨fun k => if k = key then none else s.data k, s.writes ++ [KVWrite.delete key]⟩, none)

/-! ## The per-operation handlers -/

def raftOpInsertItem : Nat := 1
def raftOpUpdateItem : Nat := 2
def raftOpDeleteItem : Nat := 3
def raftOpInsertBlob : Nat := 4
def raftOpUpdateBlob : Nat := 5
def raftOpDeleteBlob : Nat := 6

def setRaw : String := "set"
def getRaw : String := "get"
def delRaw : String := "del"

/-- What a handler leaves behind: the store, the track log of its span (the tags
of `AppendTrackLog`, durations left out) and its return value. -/
structure Handled (α : Type) where
  kv : KVStore
  track : List String
  ret : Except Err α

/-- The assignment `item.Fields[idx].Value = value`. -/
def setFieldValue : List Field → Nat → Bytes → List Field
  | [], _, _ => []
  | f :: fs, 0, v => { f with Value := v } :: fs
  | f :: fs, idx + 1, v => f :: setFieldValue fs idx v

/-- The loop `for i := range item.Fields { fieldMap[item.Fields[i].ID] = i }`,
started at index `i` over the map `m`. -/
def buildFieldMap : List Field → Nat → (Nat → Option Nat) → (Nat → Option Nat)
  | [], _, m => m
  | f :: fs, i, m => buildFieldMap fs (i + 1) (fun id => if id = f.ID then some i else m id)

/-- The loop over `pi.Fields` of `applyUpdateItem`: a field whose ID is in
`fieldMap` overwrites the value at that index, any other is appended. -/
def updateFields (fieldMap : Nat → Option Nat) : List Field → List Field → List Field
  | [], fields => fields
  | u :: us, fields =>
    match fieldMap u.ID with
    | some idx => updateFields fieldMap us (setFieldValue fields idx u.Value)
    | none => updateFields fieldMap us (fields ++ [⟨u.ID, u.Value⟩])

/-- The field merge of `applyUpdateItem`: the stored item after the update
fields of `pi` went in. -/
def mergeItem (item pi : Item) : Item :=
  { item with Fields := updateFields (buildFieldMap item.Fields 0 (fun _ => none)) pi.Fields item.Fields }

/-- The method `shardSM.applyUpdateItem`. -/
def applyUpdateItem (env : Env) (kv : KVStore) (data : Bytes) : Handled Unit :=
  let key := env.kvKey data
  match env.unmarshalItem (env.kvValue data) with
  | .error e => ⟨kv, [], .error e⟩
  | .ok pi =>
    match kv.Get key with
    | .error e =>
      if e = Err.notFound then ⟨kv, [], .ok ()⟩ else ⟨kv, [], .error e⟩
    | .ok vg =>
      match env.unmarshalItem vg with
      | .error e => ⟨kv, [], .error e⟩
      | .ok item =>
        match env.marshalItem (mergeItem item pi) with
        | .error e => ⟨kv, [], .error e⟩
        | .ok data' =>
          match kv.SetRaw key data' with
          | (kv', some e) => ⟨kv', [], .error e⟩
          | (kv', none) => ⟨kv', [], .ok ()⟩

/-- The method `shardSM.applyInsertItem`. -/
def applyInsertItem (env : Env) (kv : KVStore) (data : Bytes) : Handled Unit :=
  let key := env.kvKey data
  match kv.Get key with
  | .error e =>
    if e = Err.notFound then
      match kv.SetRaw key (env.kvValue data) with
      | (kv', some e') => ⟨kv', [getRaw, setRaw], .error e'⟩
      | (kv', none) => ⟨kv', [getRaw, setRaw], .ok ()⟩
    else ⟨kv, [getRaw], .error e⟩
  | .ok _ => ⟨kv, [getRaw], .ok ()⟩

/-- The method `shardSM.applyInsertBlob`. -/
def applyInsertBlob (env : Env) (kv : KVStore) (data : Bytes) : Handled Blob :=
  let key := env.kvKey data
  match kv.Get key with
  | .error e =>
    if e = Err.notFound then
      match kv.SetRaw key (env.kvValue data) with
      | (kv', some e') => ⟨kv', [getRaw, setRaw], .error e'⟩
      | (kv', none) =>
        match env.unmarshalBlob (env.kvValue data) with
        | .error e' => ⟨kv', [getRaw, setRaw], .error e'⟩
        | .ok b => ⟨kv', [getRaw, setRaw], .ok b⟩
    else ⟨kv, [getRaw], .error e⟩
  | .ok vg =>
    match env.unmarshalBlob vg with
    | .error e => ⟨kv, [getRaw], .error e⟩
    | .ok b => ⟨kv, [getRaw], .ok b⟩

/-- The method `shardSM.applyUpdateBlob`. -/
def applyUpdateBlob (env : Env) (kv : KVStore) (data : Bytes) : Handled Unit :=
  let key := env.kvKey data
  match kv.Get key with
  | .error e =>
    if e = Err.notFound then ⟨kv, [getRaw], .ok ()⟩ else ⟨kv, [getRaw], .error e⟩
  | .ok vg =>
    if env.kvValue data = vg then ⟨kv, [getRaw], .ok ()⟩
    else
      match kv.SetRaw key (env.kvValue data) with
      | (kv', some e) => ⟨kv', [getRaw, setRaw], .error e⟩
      | (kv', none) => ⟨kv', [getRaw, setRaw], .ok ()⟩

/-- The method `shardSM.applyDeleteRaw`. -/
def applyDeleteRaw (_env : Env) (kv : KVStore) (data : Bytes) : Handled Unit :=
  match kv.Get data with
  | .error e =>
    if e = Err.notFound then ⟨kv, [getRaw], .ok ()⟩ else ⟨kv, [getRaw], .error e⟩
  | .ok _ =>
    match kv.Delete data with
    | (kv', some e) => ⟨kv', [getRaw, delRaw], .error e⟩
    | (kv', none) => ⟨kv', [getRaw, delRaw], .ok ()⟩

/-! ## The apply loop -/

/-- The message `raft.ProposalData`, with the fields `Apply` reads. -/
structure ProposalData where
  Op : Nat
  Data : Bytes
  deriving DecidableEq, Repr

/-- The struct `applyRet`. -/
structure applyRet where
  traceLog : List String
  blob : Blob
  deriving DecidableEq, Repr

/-- How the loop of `Apply` is left. -/
inductive Exit where
  /-- Every record was handled. -/
  | done
  /-- A handler answered an error and `Apply` returned it. -/
  | failed (err : Err)
  /-- The `default` case: `panic("unsupported operation type: ...")`. -/
  | panicked (op : Nat)
  deriving DecidableEq, Repr

/-- The loop `for i := range pd` of `shardSM.Apply`, from record `i` on, over the
result slice `rets`. -/
def applyLoop (env : Env) : List ProposalData → Nat → KVStore → List (Option applyRet) →
    KVStore × List (Option applyRet) × Exit
  | [], _, kv, rets => (kv, rets, Exit.done)
  | p :: ps, i, kv, rets =>
    if p.Op = raftOpInsertItem then
      let h := applyInsertItem env kv p.Data
      match h.ret with
      | .error e => (h.kv, rets, Exit.failed e)
      | .ok _ => applyLoop env ps (i + 1) h.kv (rets.set i (some ⟨h.track, Blob.zero⟩))
    else if p.Op = raftOpUpdateItem then
      let h := applyUpdateItem env kv p.Data
      match h.ret with
      | .error e => (h.kv, rets, Exit.failed e)
      | .ok _ => applyLoop env ps (i + 1) h.kv (rets.set i (some ⟨h.track, Blob.zero⟩))
    else if p.Op = raftOpInsertBlob then
      let h := applyInsertBlob env kv p.Data
      match h.ret with
      | .error e => (h.kv, rets, Exit.failed e)
      | .ok blob => applyLoop env ps (i + 1) h.kv (rets.set i (some ⟨h.track, blob⟩))
    else if p.Op = raftOpUpdateBlob then
      let h := applyUpdateBlob env kv p.Data
      match h.ret with
      | .error e => (h.kv, rets, Exit.failed e)
      | .ok _ => applyLoop env ps (i + 1) h.kv (rets.set i (some ⟨h.track, Blob.zero⟩))
    else if p.Op = raftOpDeleteBlob ∨ p.Op = raftOpDeleteItem then
      let h := applyDeleteRaw env kv p.Data
      match h.ret with
      | .error e => (h.kv, rets, Exit.failed e)
      | .ok _ => applyLoop env ps (i + 1) h.kv (rets.set i (some ⟨h.track, Blob.zero⟩))
    else (kv, rets, Exit.panicked p.Op)

/-- The part of a `shard` that `shardSM` reads and writes.  `rwGate` and
`inflight` stand for `shardState`, `savedInfo` for the persisted shard info. -/
structure Shard where
  kv : KVStore
  AppliedIndex : Nat
  Units : List ShardUnit
  rwGate : Option Err
  inflight : Nat
  savedInfo : Option (List ShardUnit × Nat)

/-- The method `shardSM.setAppliedIndex`. -/
def setAppliedIndex (s : Shard) (index : Nat) : Shard :=
  { s with AppliedIndex := index }

/-- The method `shardSM.getAppliedIndex`. -/
def getAppliedIndex (s : Shard) : Nat :=
  s.AppliedIndex

/-- How a call of `Apply` ends: it returns `(rets, err)`, or it panics. -/
inductive Outcome where
  | returned (rets : List (Option applyRet)) (err : Option Err)
  | panicked (op : Nat)
  deriving DecidableEq, Repr

/-- The method `shardSM.Apply`: the shard it leaves and how it ends. -/
def Apply (env : Env) (s : Shard) (pd : List ProposalData) (index : Nat) : Shard × Outcome :=
  match applyLoop env pd 0 s.kv (List.replicate pd.length none) with
  | (kv, rets, Exit.done) => (setAppliedIndex { s with kv := kv } index, Outcome.returned rets none)
  | (kv, rets, Exit.failed e) => ({ s with kv := kv }, Outcome.returned rets (some e))
  | (kv, _, Exit.panicked op) => ({ s with kv := kv }, Outcome.panicked op)

/-! ## Snapshot ingest -/

/-- The byte-wise order of keys (`bytes.Compare(a, b) < 0`). -/
def bytesLess : Bytes → Bytes → Bool
  | [], [] => false
  | [], _ :: _ => true
  | _ :: _, [] => false
  | a :: as, b :: bs => decide (a < b) || (decide (a = b) && bytesLess as bs)

/-- The key range `[start, stop)`. -/
def inRange (start stop key : Bytes) : Bool :=
  !bytesLess key start && bytesLess key stop

/-- The effect of one batch operation on the contents of the store. -/
def applyBatchOp (d : Bytes → Option Bytes) : BatchOp → (Bytes → Option Bytes)
  | BatchOp.put key value => fun k => if k = key then some value else d k
  | BatchOp.delete key => fun k => if k = key then none else d k
  | BatchOp.deleteRange start stop => fun k => if inRange start stop k then none else d k

/-- The call `kvStore.Write(ctx, batch, nil)`: the operations of the batch, in
order. -/
def KVStore.Write (s : KVStore) (batch : List BatchOp) : KVStore × Option Err :=
  (⟨batch.foldl applyBatchOp s.data, s.writes ++ [KVWrite.write batch]⟩, none)

/-- The message `raft.Member`. -/
structure Member where
  NodeID : Nat
  Learner : Bool
  Context : Bytes
  deriving DecidableEq, Repr

/-- The message `raft.RaftSnapshotHeader`, with the field `ApplySnapshot` reads. -/
structure RaftSnapshotHeader where
  Members : List Member
  deriving DecidableEq, Repr

/-- A `raft.Snapshot` as `ApplySnapshot` sees it: its index and the successive
answers `(batch, err)` of `ReadBatch`; once they are used up `ReadBatch` answers
`(nil, io.EOF)`. -/
structure Snapshot where
  index : Nat
  reads : List (Option (List BatchOp) × Option Err)
  deriving DecidableEq, Repr

/-- The conversion `proto.DiskID(nodeID)` of a 64-bit node id. -/
def toDiskID (env : Env) (nodeID : Nat) : Nat :=
  nodeID % 2 ^ env.diskIDBits

/-- Modelled from the spec: `shardState.prepRWCheck`, which refuses when the
shard's read-write gate is shut (with `errShardStopWriting` while the shard is
being deleted) and otherwise counts one more call in flight. -/
def prepRWCheck (s : Shard) : Shard × Option Err :=
  match s.rwGate with
  | some e => (s, some e)
  | none => ({ s with inflight := s.inflight + 1 }, none)

/-- Modelled from the spec: `shardState.prepRWCheckDone`, which matches
`prepRWCheck`. -/
def prepRWCheckDone (s : Shard) : Shard :=
  { s with inflight := s.inflight - 1 }

/-- The loop `for { batch, err := snap.ReadBatch() ... }` of `ApplySnapshot`. -/
def readBatches : List (Option (List BatchOp) × Option Err) → KVStore → KVStore × Option Err
  | [], kv => (kv, none)
  | (batch, err) :: rest, kv =>
    if err ≠ none ∧ err ≠ some Err.eof then (kv, err)
    else
      match batch with
      | some b =>
        match kv.Write b with
        | (kv', some e) => (kv', some e)
        | (kv', none) => if err = some Err.eof then (kv', none) else readBatches rest kv'
      | none => if err = some Err.eof then (kv, none) else readBatches rest kv

/-- The loop `for i := range members` of `ApplySnapshot`, appending to `units`. -/
def unitsFromMembers (env : Env) : List Member → List ShardUnit → Except Err (List ShardUnit)
  | [], units => .ok units
  | m :: ms, units =>
    match env.unmarshalMemberCtx m.Context with
    | .error e => .error e
    | .ok suid => unitsFromMembers env ms (units ++ [⟨suid, toDiskID env m.NodeID, m.Learner⟩])

/-- The method `shardSM.ApplySnapshot`: the shard it leaves and the error it
returns.  Wrapping by `errors.Info` is left out: the error is passed on as is. -/
def ApplySnapshot (env : Env) (s : Shard) (header : RaftSnapshotHeader) (snap : Snapshot) :
    Shard × Option Err :=
  match prepRWCheck s with
  | (s0, some e) => if e = Err.shardStopWriting then (s0, none) else (s0, some e)
  | (s1, none) =>
    let body : Shard × Option Err :=
      match s1.kv.Write [BatchOp.deleteRange env.shardDataPrefix env.shardDataMaxPrefix] with
      | (kv1, some e) => ({ s1 with kv := kv1 }, some e)
      | (kv1, none) =>
        match readBatches snap.reads kv1 with
        | (kv2, some e) => ({ s1 with kv := kv2 }, some e)
        | (kv2, none) =>
          let s2 := setAppliedIndex { s1 with kv := kv2 } snap.index
          match unitsFromMembers env header.Members [] with
          | .error e => (s2, some e)
          | .ok units =>
            let s3 := { s2 with Units := units }
            match env.saveShardInfo s3.Units s3.AppliedIndex with
            | some e => if e = Err.shardStopWriting then (s3, none) else (s3, some e)
            | none => ({ s3 with savedInfo := some (s3.Units, s3.AppliedIndex) }, none)
    (prepRWCheckDone body.1, body.2)

/-! ## Auxiliary definitions for the statements -/

/-- The `switch pd[i].Op` of `Apply` on one record: what the handler of the
record leaves behind, with the `applyRet` of the record as its value; `none` is
the `default` case. -/
def applyRecord (env : Env) (kv : KVStore) (p : ProposalData) : Option (Handled applyRet) :=
  if p.Op = raftOpInsertItem then
    let h := applyInsertItem env kv p.Data
    some ⟨h.kv, h.track, h.ret.map fun _ => ⟨h.track, Blob.zero⟩⟩
  else if p.Op = raftOpUpdateItem then
    let h := applyUpdateItem env kv p.Data
    some ⟨h.kv, h.track, h.ret.map fun _ => ⟨h.track, Blob.zero⟩⟩
  else if p.Op = raftOpInsertBlob then
    let h := applyInsertBlob env kv p.Data
    some ⟨h.kv, h.track, h.ret.map fun blob => ⟨h.track, blob⟩⟩
  else if p.Op = raftOpUpdateBlob then
    let h := applyUpdateBlob env kv p.Data
    some ⟨h.kv, h.track, h.ret.map fun _ => ⟨h.track, Blob.zero⟩⟩
  else if p.Op = raftOpDeleteBlob ∨ p.Op = raftOpDeleteItem then
    let h := applyDeleteRaw env kv p.Data
    some ⟨h.kv, h.track, h.ret.map fun _ => ⟨h.track, Blob.zero⟩⟩
  else none

/-- The proposal data `newKV(key, value)` of the sample environment: the length
of the key, the key, the value. -/
def sampleKV (key value : Bytes) : Bytes :=
  key.length :: key ++ value

/-- The field list of an item in the sample encoding: per field its ID, the
length of its value, its value. -/
def sampleEncodeFields : List Field → Bytes
  | [] => []
  | f :: fs => f.ID :: f.Value.length :: f.Value ++ sampleEncodeFields fs

/-- The decoder of `sampleEncodeFields`, reading at most `fuel` fields. -/
def sampleDecodeFields : Nat → Bytes → Except Err (List Field)
  | _, [] => .ok []
  | 0, _ :: _ => .error Err.unmarshal
  | _ + 1, [_] => .error Err.unmarshal
  | fuel + 1, id :: len :: rest =>
    if len ≤ rest.length then
      match sampleDecodeFields fuel (rest.drop len) with
      | .ok fs => .ok (⟨id, rest.take len⟩ :: fs)
      | .error e => .error e
    else .error Err.unmarshal

/-- The sample item encoding: the length of the ID, the ID, the fields. -/
def sampleMarshalItem (it : Item) : Except Err Bytes :=
  .ok (it.ID.length :: it.ID ++ sampleEncodeFields it.Fields)

/-- The decoder of `sampleMarshalItem`. -/
def sampleUnmarshalItem : Bytes → Except Err Item
  | [] => .error Err.unmarshal
  | n :: rest =>
    if n ≤ rest.length then
      match sampleDecodeFields rest.length (rest.drop n) with
      | .ok fs => .ok ⟨rest.take n, fs⟩
      | .error e => .error e
    else .error Err.unmarshal

/-- The sample blob decoder: a cluster id followed by the name; the empty string
is no blob. -/
def sampleUnmarshalBlob : Bytes → Except Err Blob
  | [] => .error Err.unmarshal
  | c :: name => .ok ⟨name, ⟨c, 0, 0, 0, [], 0⟩⟩

/-- A concrete environment: length-prefixed framing and codecs, 32-bit disk
ids, the data range `[[1], [2])`, and a `SaveShardInfo` that succeeds. -/
def sampleEnv : Env where
  kvKey := fun d => match d with
    | [] => []
    | n :: rest => rest.take n
  kvValue := fun d => match d with
    | [] => []
    | n :: rest => rest.drop n
  unmarshalItem := sampleUnmarshalItem
  marshalItem := sampleMarshalItem
  unmarshalBlob := sampleUnmarshalBlob
  unmarshalMemberCtx := fun b => match b with
    | [suid] => .ok suid
    | _ => .error Err.unmarshal
  diskIDBits := 32
  shardDataPrefix := [1]
  shardDataMaxPrefix := [2]
  saveShardInfo := fun _ _ => none

/-- The store with no key. -/
def emptyKV : KVStore := ⟨fun _ => none, []⟩

/-- A shard over the store `kv`, at applied index 0, without units, its gate
open. -/
def sampleShard (kv : KVStore) : Shard := ⟨kv, 0, [], none, 0, none⟩

/-- The record `p` has one of the six known operation codes. -/
def knownOp (p : ProposalData) : Prop :=
  1 ≤ p.Op ∧ p.Op ≤ 6

instance (p : ProposalData) : Decidable (knownOp p) := by
  unfold knownOp; infer_instance

/-! ## The field merge, in closed form -/

/-- The field IDs of a field list, in order. -/
def fieldIDs (fs : List Field) : List Nat :=
  fs.map fun f => f.ID

/-- The field `f` with the value that `c` assigns to its ID, if any. -/
def assign (c : Nat → Option Bytes) (f : Field) : Field :=
  match c f.ID with
  | some v => { f with Value := v }
  | none => f

/-- The field list with the values of `c` put into the fields that are the last
of their ID. -/
def assignLast (c : Nat → Option Bytes) : List Field → List Field
  | [] => []
  | f :: fs => (if f.ID ∈ fieldIDs fs then f else assign c f) :: assignLast c fs

/-- The assignment `c` overridden by the fields of `us`, later fields winning. -/
def override (c : Nat → Option Bytes) : List Field → (Nat → Option Bytes)
  | [] => c
  | u :: us => override (fun id => if id = u.ID then some u.Value else c id) us

/-- The value of the last field of `us` with the given ID. -/
def lastValue (us : List Field) (id : Nat) : Option Bytes :=
  ((us.filter fun u => u.ID = id).getLast?).map fun u => u.Value

/-- The merge in the words of the specification: the stored fields in their
order, each with the value of the last update field of the same ID when there is
one, followed by the update fields whose ID the stored item does not have. -/
def mergeFieldsSpec (stored us : List Field) : List Field :=
  (stored.map fun f =>
      match lastValue us f.ID with
      | some v => { f with Value := v }
      | none => f) ++
    us.filter fun u => u.ID ∉ fieldIDs stored

/-- The bytes of an item in the sample encoding. -/
def sampleItemBytes (it : Item) : Bytes :=
  it.ID.length :: it.ID ++ sampleEncodeFields it.Fields

/-- A stored item with the fields 1 and 2. -/
def sampleStored : Item := ⟨[5], [⟨1, [10]⟩, ⟨2, [20]⟩]⟩

/-- An update that writes field 2 twice and the new field 3. -/
def sampleUpdate : Item := ⟨[5], [⟨2, [21]⟩, ⟨3, [30]⟩, ⟨2, [22]⟩]⟩

/-- The store that holds `sampleStored` under the key `[1, 5]`. -/
def sampleItemKV : KVStore :=
  (emptyKV.SetRaw [1, 5] (sampleItemBytes sampleStored)).1

/-! ## The effect of a record on the key it addresses -/

/-- The key a record addresses: its data for the delete operations, the key of
its `kv` framing for the others. -/
def recordKey (env : Env) (p : ProposalData) : Bytes :=
  if p.Op = raftOpDeleteBlob ∨ p.Op = raftOpDeleteItem then p.Data else env.kvKey p.Data

/-- What the handler of a record leaves under the record's key when the store
holds `x` there: `some y` when the handler returns no error, `none` when it
returns one (or the operation is unknown). -/
def recordEffect (env : Env) (p : ProposalData) (x : Option Bytes) : Option (Option Bytes) :=
  if p.Op = raftOpInsertItem then
    match x with
    | none => some (some (env.kvValue p.Data))
    | some vg => some (some vg)
  else if p.Op = raftOpUpdateItem then
    match env.unmarshalItem (env.kvValue p.Data) with
    | .error _ => none
    | .ok pi =>
      match x with
      | none => some none
      | some vg =>
        match env.unmarshalItem vg with
        | .error _ => none
        | .ok item =>
          match env.marshalItem (mergeItem item pi) with
          | .error _ => none
          | .ok data' => some (some data')
  else if p.Op = raftOpInsertBlob then
    match x with
    | none =>
      match env.unmarshalBlob (env.kvValue p.Data) with
      | .error _ => none
      | .ok _ => some (some (env.kvValue p.Data))
    | some vg =>
      match env.unmarshalBlob vg with
      | .error _ => none
      | .ok _ => some (some vg)
  else if p.Op = raftOpUpdateBlob then
    match x with
    | none => some none
    | some vg => if env.kvValue p.Data = vg then some (some vg) else some (some (env.kvValue p.Data))
  else if p.Op = raftOpDeleteBlob ∨ p.Op = raftOpDeleteItem then some none
  else none

/-- What a batch leaves under the key `κ` when the store holds `x` there and
every record addressing `κ` is handled without error: the effects of those
records, in order. -/
def keyEffect (env : Env) (κ : Bytes) : List ProposalData → Option Bytes → Option (Option Bytes)
  | [], x => some x
  | p :: ps, x =>
    if recordKey env p = κ then
      match recordEffect env p x with
      | some y => keyEffect env κ ps y
      | none => none
    else keyEffect env κ ps x

/-- The log of the apply-replay scenario: insert, update, delete and insert
again of a blob under one key. -/
def replayScenario (key d1 d2 d3 : Bytes) : List ProposalData :=
  [⟨raftOpInsertBlob, d1⟩, ⟨raftOpUpdateBlob, d2⟩, ⟨raftOpDeleteBlob, key⟩, ⟨raftOpInsertBlob, d3⟩]

/-- A key of the sample data range. -/
def sampleKey : Bytes := [1, 5]

/-- Proposal data for `sampleKey` carrying a first blob encoding. -/
def sampleData1 : Bytes := sampleKV sampleKey [3, 7]

/-- Proposal data for `sampleKey` carrying a second blob encoding. -/
def sampleData2 : Bytes := sampleKV sampleKey [3, 8]

/-- Proposal data for `sampleKey` carrying a third blob encoding. -/
def sampleData3 : Bytes := sampleKV sampleKey [3, 9]

/-- The assignment `c'` overridden by `c`. -/
def overrideBy (c c' : Nat → Option Bytes) : Nat → Option Bytes :=
  fun id => match c id with
    | some v => some v
    | none => c' id

/-- The assignment that a sequence of updates makes, later updates winning. -/
def updatesAssign (us : List Item) : Nat → Option Bytes :=
  us.foldl (fun c u => overrideBy (lastValue u.Fields) c) (fun _ => none)

/-- The item after a sequence of updates went in, one after the other. -/
def mergeAll (item : Item) (us : List Item) : Item :=
  us.foldl mergeItem item

/-- The record that applies `sampleUpdate` to the item under `sampleKey`. -/
def sampleUpdateRecord : ProposalData :=
  ⟨raftOpUpdateItem, sampleKV sampleKey (sampleItemBytes sampleUpdate)⟩

/-! ## Auxiliary definitions for snapshot ingest -/

/-- The batches that the read loop of `ApplySnapshot` consumes: those answered
by `ReadBatch` up to the first `io.EOF` (or the first other error). -/
def consumedBatches : List (Option (List BatchOp) × Option Err) → List (List BatchOp)
  | [] => []
  | (batch, err) :: rest =>
    if err ≠ none ∧ err ≠ some Err.eof then []
    else batch.toList ++ (if err = some Err.eof then [] else consumedBatches rest)

/-- The contents of a store after the batches were written to it, in order. -/
def writeBatches (d : Bytes → Option Bytes) (batches : List (List BatchOp)) :
    Bytes → Option Bytes :=
  batches.foldl (fun d b => b.foldl applyBatchOp d) d

/-- The batch operation writes or deletes the key `k`. -/
def BatchOp.touches : BatchOp → Bytes → Bool
  | BatchOp.put key _, k => decide (k = key)
  | BatchOp.delete key, k => decide (k = key)
  | BatchOp.deleteRange start stop, k => inRange start stop k

/-- A store that holds `[0]` under the key `[1, 9]` of the sample data range and
`[1]` under the key `[3]` outside of it. -/
def sampleDataKV : KVStore :=
  ((emptyKV.SetRaw [1, 9] [0]).1.SetRaw [3] [1]).1

/-- A shard whose gate is shut because it is being deleted, at applied index 0,
without units, over `sampleDataKV`. -/
def sampleStoppedShard : Shard :=
  ⟨sampleDataKV, 0, [], some Err.shardStopWriting, 0, none⟩

/-- The shard `sampleStoppedShard` with its gate open. -/
def sampleOpenShard : Shard :=
  ⟨sampleDataKV, 0, [], none, 0, none⟩

/-- A snapshot at index 7 with one batch that puts `[7]` under `[1, 5]`. -/
def sampleSnapshot : Snapshot :=
  ⟨7, [(some [BatchOp.put [1, 5] [7]], none), (none, some Err.eof)]⟩

/-- A snapshot header with one member, on node 12, of suid 40. -/
def sampleHeader : RaftSnapshotHeader :=
  ⟨[⟨12, false, [40]⟩]⟩

/-! ## Auxiliary definitions for replaying a log -/

/-- The record is a delete (`DeleteItem` or `DeleteBlob`). -/
def isDelete (p : ProposalData) : Prop :=
  p.Op = raftOpDeleteBlob ∨ p.Op = raftOpDeleteItem

/-- The record is an update (`UpdateItem` or `UpdateBlob`). -/
def isUpdate (p : ProposalData) : Prop :=
  p.Op = raftOpUpdateItem ∨ p.Op = raftOpUpdateBlob

/-- The record writes an item (`InsertItem` or `UpdateItem`). -/
def isItemWrite (p : ProposalData) : Prop :=
  p.Op = raftOpInsertItem ∨ p.Op = raftOpUpdateItem

/-- The record writes a blob (`InsertBlob` or `UpdateBlob`). -/
def isBlobWrite (p : ProposalData) : Prop :=
  p.Op = raftOpInsertBlob ∨ p.Op = raftOpUpdateBlob

instance (p : ProposalData) : Decidable (isDelete p) := by unfold isDelete; infer_instance

instance (p : ProposalData) : Decidable (isUpdate p) := by unfold isUpdate; infer_instance

instance (p : ProposalData) : Decidable (isItemWrite p) := by unfold isItemWrite; infer_instance

instance (p : ProposalData) : Decidable (isBlobWrite p) := by unfold isBlobWrite; infer_instance

/-- The values that the records of the log carry are encodings of their kind: a
blob for `InsertBlob` and `UpdateBlob`, an item for `InsertItem`. -/
def valuesWellFormed (env : Env) (ps : List ProposalData) : Prop :=
  (∀ p ∈ ps, isBlobWrite p → ∃ b, env.unmarshalBlob (env.kvValue p.Data) = .ok b) ∧
    ∀ p ∈ ps, p.Op = raftOpInsertItem → ∃ it, env.unmarshalItem (env.kvValue p.Data) = .ok it

/-- No key is written both as a blob and as an item by the log. -/
def kindsSeparate (env : Env) (ps : List ProposalData) : Prop :=
  ∀ p ∈ ps, ∀ q ∈ ps, isBlobWrite p → isItemWrite q → env.kvKey p.Data ≠ env.kvKey q.Data

/-- The item codec encodes every item, and decodes what it encoded. -/
def Env.ItemCodecLawful (env : Env) : Prop :=
  (∀ it, ∃ b, env.marshalItem it = .ok b) ∧ env.ItemRoundTrip

/-- Some record of the log deletes the key `κ`. -/
def hasDelete (env : Env) (κ : Bytes) (ps : List ProposalData) : Prop :=
  ∃ p ∈ ps, recordKey env p = κ ∧ isDelete p

/-- The record is an insert (`InsertItem` or `InsertBlob`). -/
def isInsert (p : ProposalData) : Prop :=
  p.Op = raftOpInsertItem ∨ p.Op = raftOpInsertBlob

instance (p : ProposalData) : Decidable (isInsert p) := by unfold isInsert; infer_instance

instance (env : Env) (κ : Bytes) (ps : List ProposalData) : Decidable (hasDelete env κ ps) := by
  unfold hasDelete; infer_instance

/-- The keys of the updates of the log that come before an insert of the same
key. -/
def earlyUpdateKeys (env : Env) : List ProposalData → List Bytes
  | [] => []
  | p :: ps =>
    if isUpdate p ∧ ∃ q ∈ ps, recordKey env q = recordKey env p ∧ isInsert q then
      recordKey env p :: earlyUpdateKeys env ps
    else earlyUpdateKeys env ps

/-- No update of the log comes before an insert of its key, unless the store
holds the key or the log deletes it. -/
def updatesFollowInserts (env : Env) (ps : List ProposalData) (kv : KVStore) : Prop :=
  ∀ κ ∈ earlyUpdateKeys env ps, kv.data κ ≠ none ∨ hasDelete env κ ps

instance (env : Env) (ps : List ProposalData) (kv : KVStore) :
    Decidable (updatesFollowInserts env ps kv) := by
  unfold updatesFollowInserts; infer_instance

/-- The decoded update items of the `UpdateItem` records addressing `κ`, in
order. -/
def keyUpdates (env : Env) (κ : Bytes) : List ProposalData → List Item
  | [] => []
  | p :: ps =>
    if recordKey env p = κ ∧ p.Op = raftOpUpdateItem then
      match env.unmarshalItem (env.kvValue p.Data) with
      | .ok pi => pi :: keyUpdates env κ ps
      | .error _ => keyUpdates env κ ps
    else keyUpdates env κ ps

/-- The log that updates a blob before it inserts it. -/
def updateBeforeInsert : List ProposalData :=
  [⟨raftOpUpdateBlob, sampleData2⟩, ⟨raftOpInsertBlob, sampleData1⟩]

/-- A log that inserts a blob and then updates it with a value that is no blob
encoding. -/
def updateWithBadValue : List ProposalData :=
  [⟨raftOpInsertBlob, sampleData1⟩, ⟨raftOpUpdateBlob, sampleKV sampleKey []⟩]

/-- A log that inserts a value that is no blob encoding and then deletes the
key. -/
def insertBadThenDelete : List ProposalData :=
  [⟨raftOpInsertBlob, sampleKV sampleKey []⟩, ⟨raftOpDeleteBlob, sampleKey⟩]

/-- A log that updates an item, deletes it and inserts under its key a value
that is no item encoding. -/
def reinsertBadItem : List ProposalData :=
  [sampleUpdateRecord, ⟨raftOpDeleteItem, sampleKey⟩, ⟨raftOpInsertItem, sampleKV sampleKey []⟩]

/-- A log that updates an item, deletes it and inserts a blob under its key. -/
def reinsertAsBlob : List ProposalData :=
  [sampleUpdateRecord, ⟨raftOpDeleteItem, sampleKey⟩, ⟨raftOpInsertBlob, sampleData1⟩]

/-- The store that holds the blob encoding `[3, 7]` under `sampleKey`. -/
def sampleBlobKV : KVStore := (emptyKV.SetRaw sampleKey [3, 7]).1

/-- What the store holds under a key, if anything, decodes as a blob. -/
def goodBlob (env : Env) (t : Option Bytes) : Prop :=
  ∀ v, t = some v → ∃ b, env.unmarshalBlob v = .ok b

/-- What the store holds under a key, if anything, decodes as an item. -/
def goodItem (env : Env) (t : Option Bytes) : Prop :=
  ∀ v, t = some v → ∃ it, env.unmarshalItem v = .ok it

/-- The records of the log that address `κ` are blob writes that carry blob
encodings, or deletes. -/
def blobKey (env : Env) (κ : Bytes) (ps : List ProposalData) : Prop :=
  ∀ p ∈ ps, recordKey env p = κ →
    (isBlobWrite p ∨ isDelete p) ∧
      (isBlobWrite p → ∃ b, env.unmarshalBlob (env.kvValue p.Data) = .ok b)

/-- The records of the log that address `κ` are item writes that carry item
encodings, or deletes. -/
def itemKey (env : Env) (κ : Bytes) (ps : List ProposalData) : Prop :=
  ∀ p ∈ ps, recordKey env p = κ →
    (isItemWrite p ∨ isDelete p) ∧
      (isItemWrite p → ∃ it, env.unmarshalItem (env.kvValue p.Data) = .ok it)

/-- A log that updates the sample item, inserts and updates a blob under a second
key, and inserts, deletes and then updates a blob under a third key. -/
def sampleLog : List ProposalData :=
  [sampleUpdateRecord, ⟨raftOpInsertBlob, sampleKV [1, 6] [3, 7]⟩,
    ⟨raftOpUpdateBlob, sampleKV [1, 6] [3, 8]⟩, ⟨raftOpInsertBlob, sampleKV [1, 7] [3, 9]⟩,
    ⟨raftOpDeleteBlob, [1, 7]⟩, ⟨raftOpUpdateBlob, sampleKV [1, 7] [3, 8]⟩]

/-- A snapshot at index 7 whose second read fails, after a batch that puts `[7]`
under `[1, 5]`. -/
def sampleBrokenSnapshot : Snapshot :=
  ⟨7, [(some [BatchOp.put [1, 5] [7]], none), (none, some (Err.other 1))]⟩

/-- A snapshot header whose only member carries a context that does not decode. -/
def sampleBadHeader : RaftSnapshotHeader :=
  ⟨[⟨12, false, []⟩]⟩

/-- A shard at applied index 5 over the empty store, its gate open. -/
def sampleAppliedShard : Shard := ⟨emptyKV, 5, [], none, 0, none⟩

end Storage

namespace Raft

/-! ## The snapshot recorder of `common/raft/snapshot.go`

The recorder keeps the outgoing snapshots in a doubly linked list (oldest use
first) and in a map from snapshot id to list element.  A list element is a
pointer in the source; here it is a numbered cell, and the map holds the number.
Clock readings are arguments: `since` is what `time.Since` reads in `Set`, `now`
is what `time.Now()` returns. -/

/-- The `outgoingSnapshot` struct: the id, the state machine snapshot and the
members (both by name only), and the expiry time. -/
structure outgoingSnapshot where
  id : String
  st : Nat
  mrs : List Nat
  expire : Int
deriving DecidableEq, Repr

/-- An element of the eviction list (`*list.Element`): `handle` is the identity
of the cell, `Value` the snapshot it holds. -/
structure Element where
  handle : Nat
  Value : outgoingSnapshot
deriving DecidableEq, Repr

/-- The `snapshotRecorder` struct; `nextHandle` numbers the next list cell that
`PushBack` allocates. -/
structure snapshotRecorder where
  maxSnapshot : Int
  timeout : Int
  evictList : List Element
  snaps : List (String × Nat)
  nextHandle : Nat
deriving DecidableEq, Repr

/-- Errors of `Set`. -/
inductive RecorderError where
  | ErrSnapshotTemporarilyUnavailable
  | exist (id : String)
deriving DecidableEq, Repr

/-- Map lookup `m[k]`. -/
def mapGet (m : List (String × Nat)) (k : String) : Option Nat :=
  (m.find? (fun p => p.1 = k)).map Prod.snd

/-- Builtin `delete(m, k)`. -/
def mapDelete (m : List (String × Nat)) (k : String) : List (String × Nat) :=
  m.filter (fun p => p.1 ≠ k)

/-- Map assignment `m[k] = v`. -/
def mapSet (m : List (String × Nat)) (k : String) (v : Nat) : List (String × Nat) :=
  (k, v) :: mapDelete m k

/-- List method `Remove(e)` of `container/list`: takes the cell out of the list. -/
def listRemove (l : List Element) (h : Nat) : List Element :=
  l.filter (fun e => e.handle ≠ h)

/-- The cell of the list with the given identity. -/
def listFind (l : List Element) (h : Nat) : Option Element :=
  l.find? (fun e => e.handle = h)

/-- Constructor `newSnapshotRecorder(maxSnapshot, timeout)`. -/
def newSnapshotRecorder (maxSnapshot timeout : Int) : snapshotRecorder :=
  ⟨maxSnapshot, timeout, [], [], 0⟩

/-- The second half of `Set` (lines 159-164): refuse a tracked id, else stamp the
expiry time and push the snapshot at the back. -/
def SetInsert (s : snapshotRecorder) (st : outgoingSnapshot) (now : Int) :
    snapshotRecorder × Option RecorderError :=
  match mapGet s.snaps st.id with
  | some _ => (s, some (RecorderError.exist st.id))
  | none =>
    ({ s with
        evictList := s.evictList ++ [⟨s.nextHandle, { st with expire := now + s.timeout }⟩]
        snaps := mapSet s.snaps st.id s.nextHandle
        nextHandle := s.nextHandle + 1 }, none)

/-- Method `snapshotRecorder.Set`.  `none` is the nil dereference of
`elem.Value` when the list is empty and `maxSnapshot <= 0`. -/
def snapshotRecorder.Set (s : snapshotRecorder) (st : outgoingSnapshot) (since now : Int) :
    Option (snapshotRecorder × Option RecorderError) :=
  if s.maxSnapshot ≤ (s.evictList.length : Int) then
    match s.evictList.head? with
    | none => none
    | some elem =>
      if since - elem.Value.expire < 0 then
        some (s, some RecorderError.ErrSnapshotTemporarilyUnavailable)
      else
        some (SetInsert
          { s with
            evictList := listRemove s.evictList elem.handle
            snaps := mapDelete s.snaps elem.Value.id } st now)
  else some (SetInsert s st now)

/-- Method `snapshotRecorder.Pop`: the oldest snapshot, which stays tracked. -/
def snapshotRecorder.Pop (s : snapshotRecorder) : Option outgoingSnapshot :=
  if s.evictList.length = 0 then none else s.evictList.head?.map (fun e => e.Value)

/-- Method `snapshotRecorder.Get`.  A map entry always names a cell of the list
(`Tracked.cells` below), so the last branch is never taken from a recorder built
by `newSnapshotRecorder`. -/
def snapshotRecorder.Get (s : snapshotRecorder) (key : String) (now : Int) :
    snapshotRecorder × Option outgoingSnapshot :=
  match mapGet s.snaps key with
  | some v =>
    match listFind s.evictList v with
    | some e =>
      ({ s with
          evictList := listRemove s.evictList v ++
            [⟨v, { e.Value with expire := now + s.timeout }⟩] },
        some { e.Value with expire := now + s.timeout })
    | none => (s, none)
  | none => (s, none)

/-- Method `snapshotRecorder.Delete`. -/
def snapshotRecorder.Delete (s : snapshotRecorder) (key : String) : snapshotRecorder :=
  match mapGet s.snaps key with
  | some v => { s with snaps := mapDelete s.snaps key, evictList := listRemove s.evictList v }
  | none => s

/-- Method `snapshotRecorder.Close`: every entry of the map is deleted and its
cell removed from the list. -/
def snapshotRecorder.Close (s : snapshotRecorder) : snapshotRecorder :=
  s.snaps.foldl
    (fun r p => { r with snaps := mapDelete r.snaps p.1, evictList := listRemove r.evictList p.2 })
    s

/-- A call on the recorder, with the clock readings it makes. -/
inductive RecorderCall where
  | Set (st : outgoingSnapshot) (since now : Int)
  | Pop
  | Get (key : String) (now : Int)
  | Delete (key : String)
  | Close
deriving DecidableEq, Repr

/-- The recorder after one call; `none` when the call panics. -/
def recorderStep (s : snapshotRecorder) : RecorderCall → Option snapshotRecorder
  | .Set st since now => (s.Set st since now).map Prod.fst
  | .Pop => some s
  | .Get key now => some (s.Get key now).1
  | .Delete key => some (s.Delete key)
  | .Close => some s.Close

/-- The recorder after a sequence of calls, first call first. -/
def recorderRun (s : snapshotRecorder) : List RecorderCall → Option snapshotRecorder
  | [] => some s
  | c :: cs => (recorderStep s c).bind (fun r => recorderRun r cs)

/-- The pair that the map holds for a list cell. -/
def Element.entry (e : Element) : String × Nat := (e.Value.id, e.handle)

/-- The recorder invariant: the map entries are the cells of the list, no id and
no cell is tracked twice, and every cell number has been allocated. -/
structure Tracked (s : snapshotRecorder) : Prop where
  cells : (s.evictList.map Element.entry).Perm s.snaps
  ids : (s.snaps.map Prod.fst).Nodup
  handles : (s.snaps.map Prod.snd).Nodup
  fresh : ∀ p ∈ s.snaps, p.2 < s.nextHandle

/-- Sample snapshots and a sequence of calls on a recorder of capacity two. -/
def sampleSnap (id : String) : outgoingSnapshot := ⟨id, 0, [], 0⟩

/-- Three sets on capacity two (the third evicts the expired oldest), a get, a
pop, a delete and a close. -/
def sampleCalls : List RecorderCall :=
  [.Set (sampleSnap "a") 0 0, .Set (sampleSnap "b") 1 1, .Set (sampleSnap "c") 20 20,
    .Get "b" 21, .Pop, .Delete "c", .Close]

end Raft

namespace Stream

/-! ## The blob dispatcher of `access/stream/stream_blob.go`

The handler talks to the cluster controller, the shard controller and the
shardnode client; none of them is in the sources at hand, so their answers are
fields of `Env`.  Every call on them is recorded in a trace, and an answer may
depend on the trace so far (which stands for the state of the world): a
method of the handler is a function from the trace so far to the calls it adds
and its result. -/

/-- What `rpc.DetectStatusCode` can answer: the codes of the decision table, by
name, and any other code. -/
inductive StatusCode where
  | CodeDiskBroken
  | CodeShardNodeDiskNotFound
  | CodeShardDoesNotExist
  | CodeShardRouteVersionNeedUpdate
  | CodeShardNodeNotLeader
  | CodeShardNoLeader
  | other (code : Nat)
deriving DecidableEq, Repr

/-- A Go `error` value (not nil): the values of package `errcode` that the handler
returns by name, an error made by `fmt.Errorf` (by its message), and any other
error value. -/
inductive Error where
  | ErrConnectionRefused
  | ErrShardNoLeader
  | ErrAccessExceedSize
  | ErrIllegalArguments
  | errorf (msg : String)
  | other (id : Nat)
deriving DecidableEq, Repr

/-- The type `acapi.GetShardMode`. -/
inductive GetShardMode where
  | GetShardModeLeader
  | GetShardModeRandom
  | other (mode : Nat)
deriving DecidableEq, Repr

/-- The struct `shardnode.ShardStats` (the fields the handler reads or passes on);
`default` is `ShardStats{}`. -/
structure ShardStats where
  Suid : Nat
  AppliedIndex : Nat
  LeaderDiskID : Nat
  RouteVersion : Nat
deriving DecidableEq, Repr, Inhabited

/-- What `shard.GetMember` returns. -/
structure ShardOpInfo where
  DiskID : Nat
  Suid : Nat
  RouteVersion : Nat
deriving DecidableEq, Repr, Inhabited

/-- The struct `shardnode.ShardOpHeader`. -/
structure ShardOpHeader where
  SpaceID : Nat
  DiskID : Nat
  Suid : Nat
  RouteVersion : Nat
  ShardKeys : Option (List Storage.Bytes)
deriving DecidableEq, Repr, Inhabited

/-- The struct `sharding.Range`: its type (field `Type`) and its sub-ranges;
`Range{}` is `default`, of type 0. -/
structure Range where
  Type_ : Nat
  Subs : List (Nat × Nat)
deriving DecidableEq, Repr, Inhabited

/-- A `controller.Shard` (not nil): the shard id and the range `GetRange()`
answers. -/
structure Shard where
  ShardID : Nat
  Range : Range
deriving DecidableEq, Repr, Inhabited

/-- The struct `shardnode.ListBlobArgs`, the request of one shard listing. -/
structure ShardListBlobArgs where
  Header : ShardOpHeader
  Prefix : Storage.Bytes
  Marker : Option Storage.Bytes
  Count : Nat
deriving DecidableEq, Repr

/-- The struct `shardnode.ListBlobRet`; a nil `NextMarker` is `none`. -/
structure ListBlobRet where
  Blobs : List Storage.Blob
  NextMarker : Option Storage.Bytes
deriving DecidableEq, Repr, Inhabited

/-- The struct `acapi.ListBlobEncodeMarker`. -/
structure ListBlobEncodeMarker where
  Range : Range
  Marker : Option Storage.Bytes
deriving DecidableEq, Repr, Inhabited

/-- A recorded call: the calls on the controllers and on the shardnode client,
the sleeps, and the entries of the three recovery methods and of the
single-flight group. -/
inductive Call where
  | GetShardController (clusterID : Nat)
  | GetServiceController (clusterID : Nat)
  | GetShardnodeHost (clusterID diskID : Nat)
  | GetShardByID (clusterID shardID : Nat)
  | GetMember (shardID : Nat) (mode : GetShardMode) (exclude : Nat)
  | GetShardStats (host : String) (diskID suid : Nat)
  | UpdateShard (clusterID : Nat) (stat : ShardStats)
  | UpdateRoute (clusterID : Nat)
  | punishShardnodeDisk (clusterID diskID : Nat) (host : String) (reason : String)
  | Sleep (ms : Int)
  | waitShardnodeNextLeader (clusterID suid badDisk : Nat)
  | updateShardRoute (clusterID : Nat)
  | updateShard (clusterID : Nat) (host : String) (diskID suid : Nat)
  | groupDo (key : String)
  | groupDone (key : String)
  | ChooseOne
  | GetFisrtShard (clusterID : Nat)
  | GetShardByRange (clusterID : Nat) (range : Range)
  | GetNextShard (clusterID : Nat) (range : Range)
  | ListBlob (host : String) (args : ShardListBlobArgs)
deriving DecidableEq, Repr

/-- The collaborators of the handler.  An answer may depend on the calls made so
far.  `DetectStatusCode` and `errorConnectionRefused` are the two observations
the handler makes on an error; `ShardID` is `suid.ShardID()`; `marshalMarker`
gives the bytes and the error of `Marshal`. -/
structure Env where
  DetectStatusCode : Error → StatusCode
  errorConnectionRefused : Error → Bool
  ShardID : Nat → Nat
  GetShardController : List Call → Nat → Option Error
  GetServiceController : List Call → Nat → Option Error
  GetShardnodeHost : List Call → Nat → Nat → Except Error String
  GetShardByID : List Call → Nat → Nat → Except Error Shard
  GetMember : List Call → Shard → GetShardMode → Nat → Except Error ShardOpInfo
  GetShardStats : List Call → String → Nat → Nat → Except Error ShardStats
  UpdateShard : List Call → Nat → ShardStats → Option Error
  UpdateRoute : List Call → Nat → Option Error
  GetSpaceID : Nat → Nat
  SelectCodeMode : Int → Nat
  IsValid : Nat → Bool
  ChooseOne : List Call → Except Error Nat
  GetFisrtShard : List Call → Nat → Except Error Shard
  GetShardByRange : List Call → Nat → Range → Except Error Shard
  GetNextShard : List Call → Nat → Range → Except Error (Option Shard)
  ListBlob : List Call → String → ShardListBlobArgs → Except Error ListBlobRet
  unmarshalMarker : Storage.Bytes → Except Error ListBlobEncodeMarker
  marshalMarker : ListBlobEncodeMarker → Option Storage.Bytes × Option Error

/-- The configuration fields of `Handler` that the methods below read. -/
structure Handler where
  ShardnodeRetryTimes : Int
  ShardnodeRetryIntervalMS : Int
  maxObjectSize : Int
  MaxBlobSize : Nat
deriving DecidableEq, Repr

/-- A method: from the calls made so far to the calls it adds and its result. -/
abbrev Run (α : Type) : Type := List Call → List Call × α

/-- A method that makes no call. -/
def Run.ret {α : Type} (a : α) : Run α := fun _ => ([], a)

/-- One method after another; the second sees the calls of the first. -/
def Run.andThen {α β : Type} (m : Run α) (f : α → Run β) : Run β :=
  fun past => ((m past).1 ++ (f (m past).2 (past ++ (m past).1)).1,
    (f (m past).2 (past ++ (m past).1)).2)

/-- One recorded call whose answer is `answer` of the calls made before it. -/
def Run.call {α : Type} (c : Call) (answer : List Call → α) : Run α :=
  fun past => ([c], answer past)

instance : Monad Run where
  pure := Run.ret
  bind := Run.andThen

/-- Method `Handler.getShardHost` (lines 453-467). -/
def getShardHost (env : Env) (clusterID diskID : Nat) : Run (Except Error String) := do
  match ← Run.call (Call.GetServiceController clusterID)
      (fun past => env.GetServiceController past clusterID) with
  | some err => return .error err
  | none =>
    Run.call (Call.GetShardnodeHost clusterID diskID)
      (fun past => env.GetShardnodeHost past clusterID diskID)

/-- The loop of `getLeaderShardInfo` with `n` rounds left. -/
def getLeaderShardInfoLoop (env : Env) (h : Handler) (host : String)
    (diskID suid badDisk : Nat) : Nat → Run (Except Error ShardStats)
  | 0 => return .error Error.ErrShardNoLeader
  | n + 1 => do
    match ← Run.call (Call.GetShardStats host diskID suid)
        (fun past => env.GetShardStats past host diskID suid) with
    | .error err =>
      if env.DetectStatusCode err = StatusCode.CodeShardNoLeader then do
        Run.call (Call.Sleep h.ShardnodeRetryIntervalMS) (fun _ => ())
        getLeaderShardInfoLoop env h host diskID suid badDisk n
      else return .error err
    | .ok leader =>
      if leader.LeaderDiskID = 0 ∨ leader.LeaderDiskID = badDisk then do
        Run.call (Call.Sleep h.ShardnodeRetryIntervalMS) (fun _ => ())
        getLeaderShardInfoLoop env h host diskID suid badDisk n
      else return .ok leader

/-- Method `Handler.getLeaderShardInfo` (lines 600-629): the loop runs
`ShardnodeRetryTimes` rounds, none when that is not positive. -/
def getLeaderShardInfo (env : Env) (h : Handler) (host : String)
    (diskID suid badDisk : Nat) : Run (Except Error ShardStats) :=
  getLeaderShardInfoLoop env h host diskID suid badDisk h.ShardnodeRetryTimes.toNat

/-- Method `Handler.updateShardRoute` (lines 547-554). -/
def updateShardRoute (env : Env) (clusterID : Nat) : Run (Option Error) := do
  Run.call (Call.updateShardRoute clusterID) (fun _ => ())
  match ← Run.call (Call.GetShardController clusterID)
      (fun past => env.GetShardController past clusterID) with
  | some err => return some err
  | none => Run.call (Call.UpdateRoute clusterID) (fun past => env.UpdateRoute past clusterID)

/-- The argument of `punishAndUpdate`: the op header and the failed call. -/
structure punishArgs where
  header : ShardOpHeader
  clusterID : Nat
  host : String
  mode : GetShardMode
  err : Error
deriving DecidableEq, Repr

/-- Method `Handler.updateShard` (lines 556-568). -/
def updateShard (env : Env) (h : Handler) (args : punishArgs) : Run (Option Error) := do
  Run.call (Call.updateShard args.clusterID args.host args.header.DiskID args.header.Suid)
    (fun _ => ())
  match ← Run.call (Call.GetShardController args.clusterID)
      (fun past => env.GetShardController past args.clusterID) with
  | some err => return some err
  | none =>
    match ← getLeaderShardInfo env h args.host args.header.DiskID args.header.Suid 0 with
    | .error err => return some err
    | .ok shardStat =>
      Run.call (Call.UpdateShard args.clusterID shardStat)
        (fun past => env.UpdateShard past args.clusterID shardStat)

/-- Method `Handler.waitShardnodeNextLeader` (lines 570-598). -/
def waitShardnodeNextLeader (env : Env) (h : Handler) (clusterID suid badDisk : Nat) :
    Run (Option Error) := do
  Run.call (Call.waitShardnodeNextLeader clusterID suid badDisk) (fun _ => ())
  match ← Run.call (Call.GetShardController clusterID)
      (fun past => env.GetShardController past clusterID) with
  | some err => return some err
  | none =>
    match ← Run.call (Call.GetShardByID clusterID (env.ShardID suid))
        (fun past => env.GetShardByID past clusterID (env.ShardID suid)) with
    | .error err => return some err
    | .ok shard =>
      match ← Run.call (Call.GetMember shard.ShardID GetShardMode.GetShardModeRandom badDisk)
          (fun past => env.GetMember past shard GetShardMode.GetShardModeRandom badDisk) with
      | .error err => return some err
      | .ok newDisk =>
        match ← getShardHost env clusterID newDisk.DiskID with
        | .error err => return some err
        | .ok newHost =>
          match ← getLeaderShardInfo env h newHost newDisk.DiskID newDisk.Suid badDisk with
          | .error err => return some err
          | .ok shardStat =>
            Run.call (Call.UpdateShard clusterID shardStat)
              (fun past => env.UpdateShard past clusterID shardStat)

/-- Method `punishShardnodeDisk`: recorded, no result. -/
def punishShardnodeDisk (clusterID diskID : Nat) (host reason : String) : Run Unit :=
  Run.call (Call.punishShardnodeDisk clusterID diskID host reason) (fun _ => ())

/-- The key of the single-flight group: `"shardnode-leader-" + DiskID.ToString()`. -/
def groupKey (diskID : Nat) : String := "shardnode-leader-" ++ toString diskID

/-- Call `h.groupRun.Do(key, fn)` by a caller that finds no call in flight for
the key: it runs `fn`. -/
def groupRunDo {α : Type} (key : String) (fn : Run α) : Run α := do
  Run.call (Call.groupDo key) (fun _ => ())
  let r ← fn
  Run.call (Call.groupDone key) (fun _ => ())
  return r

/-- Method `Handler.punishAndUpdate` (lines 477-545): the interrupt flag and the
error it returns. -/
def punishAndUpdate (env : Env) (h : Handler) (args : punishArgs) : Run (Bool × Error) :=
  match env.DetectStatusCode args.err with
  | StatusCode.CodeDiskBroken => do
    punishShardnodeDisk args.clusterID args.header.DiskID args.host "Broken"
    if args.mode = GetShardMode.GetShardModeLeader then do
      let _ ← waitShardnodeNextLeader env h args.clusterID args.header.Suid args.header.DiskID
      return (false, args.err)
    else return (false, args.err)
  | StatusCode.CodeShardNodeDiskNotFound => do
    punishShardnodeDisk args.clusterID args.header.DiskID args.host "NotFound"
    let _ ← updateShardRoute env args.clusterID
    return (false, args.err)
  | StatusCode.CodeShardDoesNotExist => do
    let _ ← updateShardRoute env args.clusterID
    return (false, args.err)
  | StatusCode.CodeShardRouteVersionNeedUpdate => do
    let _ ← updateShardRoute env args.clusterID
    return (false, args.err)
  | StatusCode.CodeShardNodeNotLeader => do
    let _ ← updateShard env h args
    return (false, args.err)
  | _ =>
    if env.errorConnectionRefused args.err then do
      let _ ← groupRunDo (groupKey args.header.DiskID) (do
        punishShardnodeDisk args.clusterID args.header.DiskID args.host "Refused"
        waitShardnodeNextLeader env h args.clusterID args.header.Suid args.header.DiskID)
      return (false, Error.ErrConnectionRefused)
    else return (false, args.err)

/-- The calls of the decision table: a punishment, the entry of a recovery
method, and the entry and the exit of the single-flight group. -/
def Call.isAction : Call → Bool
  | .punishShardnodeDisk _ _ _ _ => true
  | .waitShardnodeNextLeader _ _ _ => true
  | .updateShardRoute _ => true
  | .updateShard _ _ _ _ => true
  | .groupDo _ => true
  | .groupDone _ => true
  | _ => false

/-- The calls of the decision table among the recorded calls, in order. -/
def actions (calls : List Call) : List Call := calls.filter Call.isAction

/-- Whether a recorded call is a `GetShardStats` call. -/
def Call.isStats : Call → Bool
  | .GetShardStats _ _ _ => true
  | _ => false

/-- The number of `GetShardStats` calls among the recorded calls. -/
def statsCalls (calls : List Call) : Nat := (calls.filter Call.isStats).length

/-- The calls made so far when the poll of index `i` (from 0) of
`getLeaderShardInfo` is issued, when every poll before it was followed by a
sleep. -/
def pollPast (past : List Call) (poll sleep : Call) : Nat → List Call
  | 0 => past
  | i + 1 => pollPast (past ++ [poll, sleep]) poll sleep i

/-- Whether an answer of `GetShardStats` makes `getLeaderShardInfo` poll again:
an error of code `ShardNoLeader`, or a leader disk that is 0 or the bad disk. -/
def pollAgain (env : Env) (badDisk : Nat) : Except Error ShardStats → Bool
  | .error err => decide (env.DetectStatusCode err = StatusCode.CodeShardNoLeader)
  | .ok leader => decide (leader.LeaderDiskID = 0 ∨ leader.LeaderDiskID = badDisk)

/-- The answer to the poll of index `i` of `getLeaderShardInfo`. -/
def pollAnswer (env : Env) (h : Handler) (past : List Call) (host : String)
    (diskID suid : Nat) (i : Nat) : Except Error ShardStats :=
  env.GetShardStats
    (pollPast past (Call.GetShardStats host diskID suid) (Call.Sleep h.ShardnodeRetryIntervalMS) i)
    host diskID suid

/-- The struct `acapi.CreateBlobArgs`; `Size` is a `uint64`, `SliceSize` a
`uint32`, `CodeMode` a `uint8`. -/
structure CreateBlobArgs where
  ClusterID : Nat
  BlobName : Storage.Bytes
  CodeMode : Nat
  Size : Nat
  SliceSize : Nat
  ShardKeys : Option (List Storage.Bytes)
deriving DecidableEq, Repr

/-- The Go conversion `int64(x)` of a `uint64`: the two's complement reading of
its 64 bits. -/
def int64 (x : Nat) : Int :=
  if x % 2 ^ 64 < 2 ^ 63 then ((x % 2 ^ 64 : Nat) : Int) else ((x % 2 ^ 64 : Nat) : Int) - 2 ^ 64

/-- Method `Handler.fixCreateBlobArgs` (lines 631-663): the arguments as it
leaves them and the error it returns. -/
def fixCreateBlobArgs (env : Env) (h : Handler) (args : CreateBlobArgs) :
    Run (CreateBlobArgs × Option Error) :=
  if int64 args.Size > h.maxObjectSize then
    return (args, some Error.ErrAccessExceedSize)
  else
    let args1 := if args.SliceSize = 0 then { args with SliceSize := h.MaxBlobSize } else args
    let args2 :=
      if args1.CodeMode = 0 then
        { args1 with CodeMode := env.SelectCodeMode (int64 args1.Size) }
      else args1
    if env.IsValid args2.CodeMode = false then
      return (args2, some Error.ErrIllegalArguments)
    else if args2.ClusterID = 0 then do
      match ← Run.call Call.ChooseOne env.ChooseOne with
      | .error err => return (args2, some err)
      | .ok cluster => return ({ args2 with ClusterID := cluster }, none)
    else return (args2, none)

/-- A sample codec of list markers: the range type, then the sub-ranges' count
and bounds, then the marker (0 for none, else 1 and the bytes). -/
def sampleMarshalMarker (m : ListBlobEncodeMarker) : Storage.Bytes :=
  m.Range.Type_ :: m.Range.Subs.length :: (m.Range.Subs.flatMap (fun p => [p.1, p.2])) ++
    (match m.Marker with
      | none => [0]
      | some b => 1 :: b)

/-- Reads `n` pairs from the front of the bytes. -/
def samplePairs : Nat → Storage.Bytes → Option (List (Nat × Nat) × Storage.Bytes)
  | 0, bs => some ([], bs)
  | n + 1, a :: b :: bs => (samplePairs n bs).map (fun r => ((a, b) :: r.1, r.2))
  | _ + 1, _ => none

/-- The decoder of `sampleMarshalMarker`. -/
def sampleUnmarshalMarker : Storage.Bytes → Except Error ListBlobEncodeMarker
  | t :: n :: bs =>
    match samplePairs n bs with
    | some (subs, [0]) => .ok ⟨⟨t, subs⟩, none⟩
    | some (subs, 1 :: b) => .ok ⟨⟨t, subs⟩, some b⟩
    | _ => .error (Error.other 90)
  | _ => .error (Error.other 90)

/-- The sample blob of a shard: its name is the shard id and the index. -/
def sampleBlob (shardID i : Nat) : Storage.Blob := ⟨[shardID, i], ⟨1, 1, 0, 0, [], 0⟩⟩

/-- The sample range of a shard. -/
def sampleRange (shardID : Nat) : Range := ⟨1, [(shardID, shardID + 1)]⟩

/-- The sample shard of an id. -/
def sampleShardOf (shardID : Nat) : Shard := ⟨shardID, sampleRange shardID⟩

/-- The sample shardnode's answer to a listing of a shard that holds `held`
blobs, in pages of at most `page`: the blobs from the marker on (from the start
without a marker), at most `page` and at most `count` of them, and the name of
the next blob as the next marker, nil at the end of the shard. -/
def sampleListShard (shardID held page : Nat) (marker : Option Storage.Bytes) (count : Nat) :
    ListBlobRet :=
  let start := match marker with
    | some [_, i] => i
    | _ => 0
  let n := min (min page count) (held - start)
  ⟨(List.range n).map (fun j => sampleBlob shardID (start + j)),
    if start + n < held then some [shardID, start + n] else none⟩

/-- How the sample errors read: code and connection-refused flag.  Errors 1 to 6
carry the six named codes, error 7 is a refused connection that carries code
`DiskBroken`, error 8 a refused connection of another code. -/
def sampleDetectStatusCode : Error → StatusCode
  | .ErrShardNoLeader => StatusCode.CodeShardNoLeader
  | .other 1 => StatusCode.CodeDiskBroken
  | .other 2 => StatusCode.CodeShardNodeDiskNotFound
  | .other 3 => StatusCode.CodeShardDoesNotExist
  | .other 4 => StatusCode.CodeShardRouteVersionNeedUpdate
  | .other 5 => StatusCode.CodeShardNodeNotLeader
  | .other 6 => StatusCode.CodeShardNoLeader
  | .other 7 => StatusCode.CodeDiskBroken
  | .other n => StatusCode.other n
  | _ => StatusCode.other 0

/-- The connection-refused flag of the sample errors. -/
def sampleRefused : Error → Bool
  | .ErrConnectionRefused => true
  | .other 7 => true
  | .other 8 => true
  | _ => false

/-- A sample world of `shards` shards (ids 1 to `shards`) that hold `held` blobs
each and list them in pages of `page`.  Cluster 0 is unknown to the cluster
controller.  The first poll for a leader fails with `ShardNoLeader`, the second
reports no leader, the later ones report disk 2. -/
def sampleEnv (shards held page : Nat) : Env where
  DetectStatusCode := sampleDetectStatusCode
  errorConnectionRefused := sampleRefused
  ShardID := fun suid => suid / 256
  GetShardController := fun _ c => if c = 0 then some (Error.other 20) else none
  GetServiceController := fun _ _ => none
  GetShardnodeHost := fun _ _ d => .ok (toString d)
  GetShardByID := fun _ _ id => .ok (sampleShardOf id)
  GetMember := fun _ sh _ ex => .ok ⟨if ex = 1 then 2 else 1, sh.ShardID * 256, 1⟩
  GetShardStats := fun past _ _ suid =>
    match statsCalls past with
    | 0 => .error (Error.other 6)
    | 1 => .ok ⟨suid, 0, 0, 1⟩
    | _ => .ok ⟨suid, 0, 2, 1⟩
  UpdateShard := fun _ _ _ => none
  UpdateRoute := fun _ _ => none
  GetSpaceID := fun _ => 1
  SelectCodeMode := fun size => if size ≤ 1024 then 1 else 2
  IsValid := fun m => decide (m = 1 ∨ m = 2)
  ChooseOne := fun _ => .ok 9
  GetFisrtShard := fun _ _ => .ok (sampleShardOf 1)
  GetShardByRange := fun _ _ r =>
    match r.Subs with
    | [(id, _)] => .ok (sampleShardOf id)
    | _ => .error (Error.other 21)
  GetNextShard := fun _ _ r =>
    match r.Subs with
    | [(id, _)] => .ok (if id < shards then some (sampleShardOf (id + 1)) else none)
    | _ => .error (Error.other 21)
  ListBlob := fun _ _ args =>
    .ok (sampleListShard (args.Header.Suid / 256) held page args.Marker args.Count)
  unmarshalMarker := sampleUnmarshalMarker
  marshalMarker := fun m => (some (sampleMarshalMarker m), none)

/-- A sample handler: three polls for a leader, objects of at most 5 GiB. -/
def sampleHandler : Handler := ⟨3, 10, 5368709120, 4194304⟩

/-- Sample arguments of `punishAndUpdate`: disk 1 of cluster 1, with the given
mode and error. -/
def samplePunishArgs (mode : GetShardMode) (err : Error) : punishArgs :=
  ⟨⟨1, 1, 256, 1, none⟩, 1, "1", mode, err⟩

/-- Whether a code is one of the five cases of the switch of `punishAndUpdate`. -/
def switchCode : StatusCode → Bool
  | .CodeDiskBroken => true
  | .CodeShardNodeDiskNotFound => true
  | .CodeShardDoesNotExist => true
  | .CodeShardRouteVersionNeedUpdate => true
  | .CodeShardNodeNotLeader => true
  | _ => false

/-- Sample arguments of `fixCreateBlobArgs` with every field given and a size of
2^63 bytes. -/
def sampleHugeArgs : CreateBlobArgs := ⟨9, [1], 1, 9223372036854775808, 4096, none⟩

/-- Sample arguments of `fixCreateBlobArgs` that name a blob and its size only. -/
def sampleBareArgs : CreateBlobArgs := ⟨0, [1], 0, 2048, 0, none⟩

/-! ### Listing blobs across shards -/

/-- The struct `acapi.ListBlobArgs`; a nil `Marker` is `none`, `Count` is a
`uint64`. -/
structure ListBlobArgs where
  ClusterID : Nat
  ShardID : Nat
  Mode : GetShardMode
  Prefix : Storage.Bytes
  Marker : Option Storage.Bytes
  Count : Nat
deriving DecidableEq, Repr

/-- Go `len` of a byte slice that may be nil. -/
def markerLen : Option Storage.Bytes → Nat
  | none => 0
  | some b => b.length

/-- The Go conversion `uint64(x)` of an `int64`. -/
def uint64 (x : Int) : Nat := (x % 2 ^ 64).toNat

/-- Method `Handler.getOpHeaderByShard` (lines 430-451); the shard controller is
that of the cluster. -/
def getOpHeaderByShard (env : Env) (clusterID : Nat) (shard : Shard) (mode : GetShardMode)
    (shardKeys : Option (List Storage.Bytes)) : Run (Except Error ShardOpHeader) := do
  match ← Run.call (Call.GetMember shard.ShardID mode 0)
      (fun past => env.GetMember past shard mode 0) with
  | .error err => return .error err
  | .ok info =>
    return .ok ⟨env.GetSpaceID clusterID, info.DiskID, info.Suid, info.RouteVersion, shardKeys⟩

/-- Method `Handler.listSingleShardEnough` (lines 372-396): the listing, the
interrupt flag and the error. -/
def listSingleShardEnough (env : Env) (h : Handler) (args : ListBlobArgs)
    (header : ShardOpHeader) : Run (ListBlobRet × Bool × Option Error) := do
  match ← getShardHost env args.ClusterID header.DiskID with
  | .error err => return (default, true, some err)
  | .ok host =>
    match ← Run.call (Call.ListBlob host ⟨header, args.Prefix, args.Marker, args.Count⟩)
        (fun past => env.ListBlob past host ⟨header, args.Prefix, args.Marker, args.Count⟩) with
    | .error err => do
      let r ← punishAndUpdate env h ⟨header, args.ClusterID, host, args.Mode, err⟩
      return (default, r.1, some r.2)
    | .ok ret => return (ret, true, none)

/-- Modelled from the spec: `retry.ExponentialBackoff(attempts, delay).RuptOn(fn)`
(package `retry` is not part of the sources).  It calls `fn` up to `attempts`
times; a call without error ends it with nil, a call that asks to interrupt ends
it with that call's error, and so does the last call; between two calls it
sleeps, twice as long each time.  `fn` works on the variables it captures, here
the state `st`. -/
def RuptOn {σ : Type} (fn : σ → Run (σ × Bool × Option Error)) :
    Nat → Int → σ → Run (σ × Option Error)
  | 0, _, st => return (st, none)
  | n + 1, delay, st => do
    let r ← fn st
    match r.2.2 with
    | none => return (r.1, none)
    | some err =>
      if r.2.1 = true ∨ n = 0 then return (r.1, some err)
      else do
        Run.call (Call.Sleep delay) (fun _ => ())
        RuptOn fn n (2 * delay) r.1

/-- The function that `listManyShards` hands to `RuptOn` (lines 322-336).  The
state is the pair of the captured variables `ret` and `interrupt`; `marker` is
`allBlob.NextMarker`, `count` the captured `count`. -/
def listAttempt (env : Env) (h : Handler) (args : ListBlobArgs) (shard : Shard)
    (marker : Option Storage.Bytes) (count : Int) (st : ListBlobRet × Bool) :
    Run ((ListBlobRet × Bool) × Bool × Option Error) := do
  match ← getOpHeaderByShard env args.ClusterID shard args.Mode none with
  | .error err => return (st, st.2, some err)
  | .ok header =>
    let r ← listSingleShardEnough env h { args with Marker := marker, Count := uint64 count }
      header
    match r.2.2 with
    | some err => return ((r.1, r.2.1), r.2.1, some err)
    | none => return ((r.1, r.2.1), true, none)

/-- The loop of `listManyShards` (lines 319-356) with `fuel` rounds allowed:
`none` when the fuel runs out, else the error, or `allBlob` and `lastRange` at
the end of the loop. -/
def listManyShardsLoop (env : Env) (h : Handler) (args : ListBlobArgs) :
    Nat → Shard → Range → Int → ListBlobRet → Run (Option (Except Error (ListBlobRet × Range)))
  | 0, _, lastRange, count, allBlob =>
    if 0 < count then return none else return some (.ok (allBlob, lastRange))
  | fuel + 1, shard, lastRange, count, allBlob =>
    if 0 < count then do
      let r ← RuptOn (listAttempt env h args shard allBlob.NextMarker count) 3 200
        (default, false)
      match r.2 with
      | some rerr => return some (.error rerr)
      | none =>
        if r.1.1.NextMarker = none then do
          match ← Run.call (Call.GetNextShard args.ClusterID lastRange)
              (fun past => env.GetNextShard past args.ClusterID lastRange) with
          | .error err => return some (.error err)
          | .ok none =>
            return some (.ok (⟨allBlob.Blobs ++ r.1.1.Blobs, r.1.1.NextMarker⟩, default))
          | .ok (some next) =>
            listManyShardsLoop env h args fuel next next.Range
              (count - (r.1.1.Blobs.length : Int))
              ⟨allBlob.Blobs ++ r.1.1.Blobs, r.1.1.NextMarker⟩
        else
          listManyShardsLoop env h args fuel shard lastRange
            (count - (r.1.1.Blobs.length : Int))
            ⟨allBlob.Blobs ++ r.1.1.Blobs, r.1.1.NextMarker⟩
    else return some (.ok (allBlob, lastRange))

/-- The start of `listManyShards` (lines 299-315): the first shard without a
marker, else the shard of the range in the marker and the marker inside it. -/
def listStart (env : Env) (args : ListBlobArgs) :
    Run (Except Error (Shard × Option Storage.Bytes)) :=
  if markerLen args.Marker = 0 then do
    match ← Run.call (Call.GetFisrtShard args.ClusterID)
        (fun past => env.GetFisrtShard past args.ClusterID) with
    | .error err => return .error err
    | .ok shard => return .ok (shard, none)
  else
    match env.unmarshalMarker (args.Marker.getD []) with
    | .error _ => return .error (Error.errorf "fail to unmarshal marker")
    | .ok unionMarker => do
      match ← Run.call (Call.GetShardByRange args.ClusterID unionMarker.Range)
          (fun past => env.GetShardByRange past args.ClusterID unionMarker.Range) with
      | .error err => return .error err
      | .ok shard => return .ok (shard, unionMarker.Marker)

/-- The end of `listManyShards` (lines 358-369): the marker is returned as it is
when it is empty and the range is of type 0, else the encoding of the range and
the marker takes its place. -/
def listFinish (env : Env) (allBlob : ListBlobRet) (lastRange : Range) :
    ListBlobRet × Option Error :=
  if markerLen allBlob.NextMarker = 0 ∧ lastRange.Type_ = 0 then (allBlob, none)
  else
    (⟨allBlob.Blobs, (env.marshalMarker ⟨lastRange, allBlob.NextMarker⟩).1⟩,
      (env.marshalMarker ⟨lastRange, allBlob.NextMarker⟩).2)

/-- Method `Handler.listManyShards` (lines 288-370) with `fuel` rounds of the loop
allowed; `none` when the fuel runs out. -/
def listManyShards (env : Env) (h : Handler) (fuel : Nat) (args : ListBlobArgs) :
    Run (Option (ListBlobRet × Option Error)) := do
  match ← Run.call (Call.GetShardController args.ClusterID)
      (fun past => env.GetShardController past args.ClusterID) with
  | some err => return some (default, some err)
  | none =>
    match ← listStart env args with
    | .error err => return some (default, some err)
    | .ok (shard, marker) =>
      match ← listManyShardsLoop env h args fuel shard shard.Range (int64 args.Count)
          ⟨[], marker⟩ with
      | none => return none
      | some (.error err) => return some (default, some err)
      | some (.ok (allBlob, lastRange)) => return some (listFinish env allBlob lastRange)

/-- One round of a listing: the shard asked, the marker and the count it was
asked with, and its answer. -/
structure Round where
  shard : Shard
  marker : Option Storage.Bytes
  count : Int
  ret : ListBlobRet
deriving DecidableEq, Repr

/-- The answer of the round is an answer of the shardnode client to a listing of
the round's shard (addressed through a member of the shard) with the round's
marker and count. -/
def Round.answered (env : Env) (args : ListBlobArgs) (r : Round) : Prop :=
  ∃ past past' info host,
    env.GetMember past r.shard args.Mode 0 = .ok info ∧
    env.ListBlob past' host
      ⟨⟨env.GetSpaceID args.ClusterID, info.DiskID, info.Suid, info.RouteVersion, none⟩,
        args.Prefix, r.marker, uint64 r.count⟩ = .ok r.ret

/-- A listing across shards in the words of the spec, from a shard, a marker and
a count left: the rounds it makes, the marker of the last answer and the range
to resume at.  With nothing left to list it stops.  Otherwise it asks the shard;
an answer with a next marker keeps the listing on the shard; an answer with a
nil next marker advances to `GetNextShard` of the shard's range, and ends the
listing with the empty range when there is no next shard. -/
inductive Listing (env : Env) (args : ListBlobArgs) :
    Shard → Option Storage.Bytes → Int → List Round → Option Storage.Bytes → Range → Prop
  | done {s : Shard} {m : Option Storage.Bytes} {c : Int} (hc : c ≤ 0) :
    Listing env args s m c [] m s.Range
  | stay {s : Shard} {m : Option Storage.Bytes} {c : Int} {ret : ListBlobRet}
    {rs : List Round} {m' : Option Storage.Bytes} {g' : Range}
    (hc : 0 < c) (ha : Round.answered env args ⟨s, m, c, ret⟩)
    (hm : ret.NextMarker ≠ none)
    (rest : Listing env args s ret.NextMarker (c - (ret.Blobs.length : Int)) rs m' g') :
    Listing env args s m c (⟨s, m, c, ret⟩ :: rs) m' g'
  | advance {s : Shard} {m : Option Storage.Bytes} {c : Int} {ret : ListBlobRet}
    {next : Shard} {rs : List Round} {m' : Option Storage.Bytes} {g' : Range}
    (hc : 0 < c) (ha : Round.answered env args ⟨s, m, c, ret⟩)
    (hm : ret.NextMarker = none) (past : List Call)
    (hn : env.GetNextShard past args.ClusterID s.Range = .ok (some next))
    (rest : Listing env args next none (c - (ret.Blobs.length : Int)) rs m' g') :
    Listing env args s m c (⟨s, m, c, ret⟩ :: rs) m' g'
  | last {s : Shard} {m : Option Storage.Bytes} {c : Int} {ret : ListBlobRet}
    (hc : 0 < c) (ha : Round.answered env args ⟨s, m, c, ret⟩)
    (hm : ret.NextMarker = none) (past : List Call)
    (hn : env.GetNextShard past args.ClusterID s.Range = .ok none) :
    Listing env args s m c [⟨s, m, c, ret⟩] none default

/-- The blobs of the rounds, in the order of the rounds. -/
def roundBlobs (rounds : List Round) : List Storage.Blob :=
  rounds.flatMap (fun r => r.ret.Blobs)

/-- Sample arguments of a listing of cluster 1 from the start. -/
def sampleListArgs (count : Nat) : ListBlobArgs :=
  ⟨1, 0, GetShardMode.GetShardModeRandom, [], none, count⟩

/-- The sample blobs of a shard from index `start`, `n` of them. -/
def sampleBlobs (shardID start n : Nat) : List Storage.Blob :=
  (List.range n).map (fun j => sampleBlob shardID (start + j))

end Stream

namespace Raft

/-- A recorder of capacity two and timeout 10 that tracks `a` (set at time 0) and
`b` (set at time 1): it is what `Set a` at 0 and `Set b` at 1 make of the new
recorder. -/
def sampleFull : snapshotRecorder :=
  ⟨2, 10, [⟨0, ⟨"a", 0, [], 10⟩⟩, ⟨1, ⟨"b", 0, [], 11⟩⟩], [("b", 1), ("a", 0)], 2⟩

/-- The ids that a recorder tracks. -/
def snapshotRecorder.ids (s : snapshotRecorder) : List String := s.snaps.map Prod.fst

/-- The snapshot that a recorder holds under an id: the value of the list cell
that the map entry of the id names. -/
def snapshotRecorder.bound (s : snapshotRecorder) (key : String) : Option outgoingSnapshot :=
  (mapGet s.snaps key).bind (fun v => (listFind s.evictList v).map (fun e => e.Value))

/-- The clock readings of a call, in the order it makes them. -/
def RecorderCall.readings : RecorderCall → List Int
  | .Set _ since now => [since, now]
  | .Get _ now => [now]
  | _ => []

/-- The clock readings of a sequence of calls, in order. -/
def clockReadings (calls : List RecorderCall) : List Int :=
  calls.flatMap RecorderCall.readings

/-- The eviction list is in order of expiry time, and no expiry time is later
than `t + timeout`. -/
def snapshotRecorder.ordered (s : snapshotRecorder) (t : Int) : Prop :=
  s.evictList.Pairwise (fun a b => a.Value.expire ≤ b.Value.expire) ∧
    ∀ e ∈ s.evictList, e.Value.expire ≤ t + s.timeout

end Raft

namespace Transport

/-! ## The frame allocator of `common/rpc2/transport/allocator.go`

A byte slice is its length and its capacity (the bytes play no part).  A
`sync.Pool` is its `New` value and the items it holds; which item `Get` hands
out is the caller's `pick`. -/

/-- The constant `maxsize = 1 << 24`. -/
def maxsize : Nat := 2 ^ 24

/-- The table `debruijinPos`. -/
def debruijinPos : List Nat :=
  [0, 9, 1, 10, 13, 21, 2, 29, 11, 14,
    16, 18, 22, 25, 3, 30, 8, 12, 20, 28,
    15, 17, 24, 7, 19, 27, 23, 6, 26, 5, 4, 31]

/-- The Go conversion `uint32(x)` of an `int`. -/
def uint32 (x : Int) : Nat := (x % 2 ^ 32).toNat

/-- Function `msb` (lines 108-116): the position of the most significant bit, by
smearing the bits to the right and looking the De Bruijn product up; the product
is taken in 32 bits. -/
def msb (size : Int) : Nat :=
  let v := uint32 size
  let v := v ||| (v >>> 1)
  let v := v ||| (v >>> 2)
  let v := v ||| (v >>> 4)
  let v := v ||| (v >>> 8)
  let v := v ||| (v >>> 16)
  debruijinPos.getD (((v * 0x07C4ACDD) % 2 ^ 32) >>> 27) 0

/-- A byte slice: `len` and `cap`.  The nil slice is `⟨0, 0⟩`. -/
structure Buffer where
  len : Nat
  cap : Nat
deriving DecidableEq, Repr

/-- A `sync.Pool` of byte slices: what `New` makes and the items put and not yet
taken. -/
structure Pool where
  New : Buffer
  items : List Buffer
deriving DecidableEq, Repr

/-- Pool method `Get`: the item picked, taken out of the pool, or a new one when
nothing is picked or the pick is not there. -/
def Pool.Get (p : Pool) (pick : Option Nat) : Buffer × Pool :=
  match pick with
  | none => (p.New, p)
  | some i =>
    match p.items[i]? with
    | some b => (b, { p with items := p.items.eraseIdx i })
    | none => (p.New, p)

/-- Pool method `Put`. -/
def Pool.Put (p : Pool) (b : Buffer) : Pool := { p with items := b :: p.items }

/-- The struct `allocator`: its pools. -/
structure allocator where
  buffers : List Pool
deriving DecidableEq, Repr

/-- The struct `assignedBuffer`; `alloc` tells whether the pointer to the
allocator is set, `buffer` is `none` for nil. -/
structure assignedBuffer where
  offset : Int
  buffer : Option Buffer
  alloc : Bool
deriving DecidableEq, Repr

/-- The error `ErrAllocOversize`. -/
inductive AllocError where
  | ErrAllocOversize
deriving DecidableEq, Repr

/-- How a call ends: it returns, or it panics (an index out of range, a slice
bound out of range). -/
inductive Outcome (α : Type) where
  | returned (a : α)
  | panicked
deriving DecidableEq, Repr

/-- Constructor `NewAllocator` (lines 48-58): 25 pools, pool `k` making slices of
`1 << k` bytes. -/
def NewAllocator : allocator :=
  ⟨(List.range 25).map (fun k => ⟨⟨2 ^ k, 2 ^ k⟩, []⟩)⟩

/-- The pool index that `Alloc` uses for a size (lines 67-72). -/
def allocIndex (size : Int) : Nat :=
  if size = 2 ^ msb size then msb size else msb size + 1

/-- Method `allocator.Alloc` (lines 61-74): the allocator afterwards, the assigned
buffer (nil on error) and the error. -/
def allocator.Alloc (alloc : allocator) (pick : Option Nat) (size : Int) :
    Outcome (allocator × Option assignedBuffer × Option AllocError) :=
  if size ≤ 0 ∨ size > maxsize then
    .returned (alloc, none, some AllocError.ErrAllocOversize)
  else
    match alloc.buffers[allocIndex size]? with
    | none => .panicked
    | some pool =>
      if size ≤ ((pool.Get pick).1.cap : Int) then
        .returned (⟨alloc.buffers.set (allocIndex size) (pool.Get pick).2⟩,
          some ⟨0, some ⟨size.toNat, (pool.Get pick).1.cap⟩, true⟩, none)
      else .panicked

/-- Method `allocator.Free` (lines 78-85). -/
def allocator.Free (alloc : allocator) (buf : Buffer) :
    Outcome (allocator × Option AllocError) :=
  if buf.cap = 0 ∨ buf.cap > maxsize ∨ buf.cap ≠ 2 ^ msb buf.cap then
    .returned (alloc, some AllocError.ErrAllocOversize)
  else
    match alloc.buffers[msb buf.cap]? with
    | none => .panicked
    | some pool => .returned (⟨alloc.buffers.set (msb buf.cap) (pool.Put buf)⟩, none)

/-- Method `assignedBuffer.Free` (lines 96-104): the buffer afterwards, the
allocator afterwards and the error. -/
def assignedBuffer.Free (ab : assignedBuffer) (alloc : allocator) :
    Outcome (assignedBuffer × allocator × Option AllocError) :=
  if ab.alloc = false then .returned (ab, alloc, none)
  else
    match alloc.Free (ab.buffer.getD ⟨0, 0⟩) with
    | .panicked => .panicked
    | .returned r => .returned ({ ab with alloc := false, buffer := none }, r.1, r.2)

/-- The allocator invariant: 25 pools, and pool `k` makes and holds slices of
capacity `2 ^ k` only. -/
def allocator.wellFormed (alloc : allocator) : Prop :=
  alloc.buffers.length = 25 ∧
    ∀ k pool, alloc.buffers[k]? = some pool →
      pool.New.cap = 2 ^ k ∧ ∀ b ∈ pool.items, b.cap = 2 ^ k

end Transport

namespace Iterator

/-! ## The paging helpers of `util/iterator/iterator.go`

The input object has a state of type `σ`, the output object a state of type
`τ`; `I` is what `Input()` points to, `O` is a page.  The iterate function reads
its input and reads and writes the page it is handed.  Calls on the
collaborators are recorded as events. -/

/-- A call on a collaborator of `Merged` or `Next`. -/
inductive Event where
  | iterate
  | Update
  | Merge
  | Done
deriving DecidableEq, Repr

/-- An implementation of the interface `IterIn`. -/
structure IterIn (σ I O : Type) where
  Input : σ → I
  Update : σ → O → σ
  Close : σ → σ

/-- An implementation of the interface `IterOut`: `Output` is the page behind the
pointer that `Output()` returns, `assign` a write through that pointer. -/
structure IterOut (τ O : Type) where
  Done : τ → Bool
  Output : τ → O
  assign : τ → O → τ
  Merge : τ → O → τ
  Close : τ → τ

/-- The type `Iterate`: from the input and the page as it is to the page as the
function leaves it and the error. -/
abbrev Iterate (I O E : Type) : Type := I → O → O × Option E

/-- The events of one full round of `Merged`. -/
def roundEvents : List Event := [Event.iterate, Event.Update, Event.Merge, Event.Done]

/-- Function `Merged` (lines 56-70) from the page `page` (the contents of `_out`,
at first `new(O)`), with `fuel` rounds allowed; `none` when the fuel runs out.
It gives the input and output states at the end, the error, and the events. -/
def Merged {σ τ I O E : Type} (iterate : Iterate I O E) (inp : IterIn σ I O)
    (out : IterOut τ O) : Nat → σ → τ → O → Option (σ × τ × Option E × List Event)
  | 0, _, _, _ => none
  | fuel + 1, s, t, page =>
    match (iterate (inp.Input s) page).2 with
    | some err => some (s, t, some err, [Event.iterate])
    | none =>
      if out.Done (out.Merge t (iterate (inp.Input s) page).1) = true then
        some (inp.Update s (iterate (inp.Input s) page).1,
          out.Merge t (iterate (inp.Input s) page).1, none, roundEvents)
      else
        (Merged iterate inp out fuel (inp.Update s (iterate (inp.Input s) page).1)
          (out.Merge t (iterate (inp.Input s) page).1) (iterate (inp.Input s) page).1).map
          (fun r => (r.1, r.2.1, r.2.2.1, roundEvents ++ r.2.2.2))

/-- The struct `iterator`: the states of its input and output objects and the
error it keeps. -/
structure iterator (σ τ E : Type) where
  inp : σ
  out : τ
  err : Option E

/-- Constructor `New` (lines 79-81). -/
def New {σ τ E : Type} (s : σ) (t : τ) : iterator σ τ E := ⟨s, t, none⟩

/-- Method `iterator.Next` (lines 83-95): the iterator afterwards, the error and
the flag returned, and the events. -/
def Next {σ τ I O E : Type} (iterate : Iterate I O E) (inp : IterIn σ I O)
    (out : IterOut τ O) (i : iterator σ τ E) :
    iterator σ τ E × (Option E × Bool) × List Event :=
  match i.err with
  | some err => (i, (some err, true), [])
  | none =>
    if out.Done i.out = true then (i, (none, false), [Event.Done])
    else
      match (iterate (inp.Input i.inp) (out.Output i.out)).2 with
      | some err =>
        (⟨i.inp, out.assign i.out (iterate (inp.Input i.inp) (out.Output i.out)).1, some err⟩,
          (some err, true), [Event.Done, Event.iterate])
      | none =>
        (⟨inp.Update i.inp
            (out.Output (out.assign i.out (iterate (inp.Input i.inp) (out.Output i.out)).1)),
          out.assign i.out (iterate (inp.Input i.inp) (out.Output i.out)).1, none⟩,
          (none, true), [Event.Done, Event.iterate, Event.Update])

/-- A run of `Merged` in the words of the spec, from an input state, an output
state and the last page: the pages it merges, the states it ends in and the
error.  It calls iterate on the current input; a failure ends the run with the
error, nothing updated or merged; a page is first used to update the input and
then merged into the output, and the run ends when the output is done. -/
inductive Paging {σ τ I O E : Type} (iterate : Iterate I O E) (inp : IterIn σ I O)
    (out : IterOut τ O) : σ → τ → O → List O → σ → τ → Option E → Prop
  | fail {s : σ} {t : τ} {page : O} {err : E}
    (herr : (iterate (inp.Input s) page).2 = some err) :
    Paging iterate inp out s t page [] s t (some err)
  | last {s : σ} {t : τ} {page : O}
    (hok : (iterate (inp.Input s) page).2 = none)
    (hdone : out.Done (out.Merge t (iterate (inp.Input s) page).1) = true) :
    Paging iterate inp out s t page [(iterate (inp.Input s) page).1]
      (inp.Update s (iterate (inp.Input s) page).1)
      (out.Merge t (iterate (inp.Input s) page).1) none
  | more {s : σ} {t : τ} {page : O} {pages : List O} {s' : σ} {t' : τ} {r : Option E}
    (hok : (iterate (inp.Input s) page).2 = none)
    (hdone : out.Done (out.Merge t (iterate (inp.Input s) page).1) = false)
    (rest : Paging iterate inp out (inp.Update s (iterate (inp.Input s) page).1)
      (out.Merge t (iterate (inp.Input s) page).1) (iterate (inp.Input s) page).1
      pages s' t' r) :
    Paging iterate inp out s t page ((iterate (inp.Input s) page).1 :: pages) s' t' r

/-- The struct `in` of the test. -/
structure testIn where
  marker : Int
deriving DecidableEq, Repr

/-- The struct `out` of the test. -/
structure testOut where
  ints : List Int
  next : Int
deriving DecidableEq, Repr

/-- The test's implementation of `IterIn` by `*in`. -/
def testIterIn : IterIn testIn testIn testOut where
  Input := fun i => i
  Update := fun i o => { i with marker := o.next }
  Close := fun i => { i with marker := 0 }

/-- The test's implementation of `IterOut` by `*out`. -/
def testIterOut : IterOut testOut testOut where
  Done := fun o => decide (o.next < 0)
  Output := fun o => o
  assign := fun _ o => o
  Merge := fun o oo => ⟨o.ints ++ oo.ints, oo.next⟩
  Close := fun o => { o with next := 0 }

/-- The loop of the test's `next` function (lines 56-59), with `n` rounds
allowed; the page holds at most 10 numbers, so 10 rounds are all it can make. -/
def testNextLoop : Nat → Int → List Int → Int × List Int
  | 0, next, ints => (next, ints)
  | n + 1, next, ints =>
    if next < 101 ∧ ints.length < 10 then testNextLoop n (next + 1) (ints ++ [next + 1])
    else (next, ints)

/-- The test's `next` function (lines 53-66). -/
def testNext : Iterate testIn testOut String := fun i _ =>
  (⟨(testNextLoop 10 i.marker []).2,
    if (testNextLoop 10 i.marker []).1 ≥ 101 then -1 else (testNextLoop 10 i.marker []).1⟩,
    none)

/-- The test's `nexterr` function (lines 68-70); the page is left as it is. -/
def testNextErr : Iterate testIn testOut String := fun _ o => (o, some "next error")

/-- The numbers 1 to 101. -/
def oneTo101 : List Int := (List.range 101).map (fun k => (k : Int) + 1)

end Iterator

namespace ShardNode

/-! ## Shard tasks of `shardnode/shard.go`

The service holds disks, a disk holds shards by suid, and a shard has a route
version.  The methods of the disk and of the shard that change them live in the
storage package, which is not among the sources: they are fields of `Env`, and
every call on them is recorded. -/

/-- The type `proto.ShardTaskType`. -/
inductive ShardTaskType where
  | ClearShard
  | SyncRouteVersion
  | CheckAndClear
  | Checkpoint
  | other (n : Nat)
deriving DecidableEq, Repr

/-- The struct `clustermgr.ShardTask` (the fields `executeShardTask` reads). -/
structure ShardTask where
  TaskType : ShardTaskType
  DiskID : Nat
  Suid : Nat
  RouteVersion : Nat
  OldRouteVersion : Nat
deriving DecidableEq, Repr

/-- Errors: a disk or a shard that is not there, the error that
`executeShardTask` makes of the current version and the two versions of the
task, and any other error. -/
inductive Error where
  | diskNotFound
  | shardNotFound
  | routeVersionNotMatch (current old new : Nat)
  | other (id : Nat)
deriving DecidableEq, Repr

/-- A disk: the route version of the shard of each suid it holds. -/
abbrev Disk : Type := Nat → Option Nat

/-- The service: its disks by id. -/
structure service where
  disks : Nat → Option Disk

/-- A call on the storage layer. -/
inductive DiskCall where
  | DeleteShard (suid version : Nat)
  | UpdateShardRouteVersion (suid version : Nat)
  | CheckAndClearShard (suid : Nat)
  | Checkpoint (suid : Nat)
deriving DecidableEq, Repr

/-- The methods of the storage layer that the tasks call: the disk as each
leaves it and the error it returns. -/
structure Env where
  DeleteShard : Disk → Nat → Nat → Disk × Option Error
  UpdateShardRouteVersion : Disk → Nat → Nat → Disk × Option Error
  CheckAndClearShard : Disk → Nat → Disk × Option Error
  Checkpoint : Disk → Nat → Option Error

/-- What is assumed of the storage layer: `DeleteShard` and `CheckAndClearShard`
at most remove the shard they are called on, and `UpdateShardRouteVersion` at
most sets the route version of the shard it is called on to the version it is
given. -/
structure Env.Lawful (env : Env) : Prop where
  delete : ∀ d suid v k, (env.DeleteShard d suid v).1 k = d k ∨
    (k = suid ∧ (env.DeleteShard d suid v).1 k = none)
  update : ∀ d suid v k, (env.UpdateShardRouteVersion d suid v).1 k = d k ∨
    (k = suid ∧ (env.UpdateShardRouteVersion d suid v).1 k = some v)
  clear : ∀ d suid k, (env.CheckAndClearShard d suid).1 k = d k ∨
    (k = suid ∧ (env.CheckAndClearShard d suid).1 k = none)

/-- The service with one disk replaced. -/
def service.setDisk (s : service) (diskID : Nat) (d : Disk) : service :=
  ⟨fun k => if k = diskID then some d else s.disks k⟩

/-- What `executeShardTask` gives: the service afterwards, the error returned,
the calls made on the storage layer, and whether the task was handed to the
task pool instead of being run. -/
structure TaskResult where
  svc : service
  ret : Option Error
  calls : List DiskCall
  submitted : Bool

/-- The function `f` that `executeShardTask` builds for a task (lines 247-300),
run on the disk and with the current route version of the shard; `none` for a
task type without function. -/
def taskFunc (env : Env) (s : service) (task : ShardTask) (disk : Disk) (curVersion : Nat) :
    Option TaskResult :=
  match task.TaskType with
  | .ClearShard =>
    if curVersion = task.RouteVersion then
      some ⟨s.setDisk task.DiskID (env.DeleteShard disk task.Suid task.RouteVersion).1,
        (env.DeleteShard disk task.Suid task.RouteVersion).2,
        [DiskCall.DeleteShard task.Suid task.RouteVersion], false⟩
    else
      some ⟨s, some (Error.routeVersionNotMatch curVersion task.OldRouteVersion
        task.RouteVersion), [], false⟩
  | .SyncRouteVersion =>
    if curVersion < task.RouteVersion then
      some ⟨s.setDisk task.DiskID
          (env.UpdateShardRouteVersion disk task.Suid task.RouteVersion).1,
        (env.UpdateShardRouteVersion disk task.Suid task.RouteVersion).2,
        [DiskCall.UpdateShardRouteVersion task.Suid task.RouteVersion], false⟩
    else
      some ⟨s, some (Error.routeVersionNotMatch curVersion task.OldRouteVersion
        task.RouteVersion), [], false⟩
  | .CheckAndClear =>
    some ⟨s.setDisk task.DiskID (env.CheckAndClearShard disk task.Suid).1,
      (env.CheckAndClearShard disk task.Suid).2,
      [DiskCall.CheckAndClearShard task.Suid], false⟩
  | .Checkpoint =>
    some ⟨s, env.Checkpoint disk task.Suid, [DiskCall.Checkpoint task.Suid], false⟩
  | .other _ => none

/-- Method `service.executeShardTask` (lines 233-312).  The disk comes from
`getDisk`, the shard from `GetShardNoRWCheck`, each failing when there is none;
with `syncRun` the function of the task is run, without it the function is
handed to the task pool and nil is returned. -/
def executeShardTask (env : Env) (s : service) (task : ShardTask) (syncRun : Bool) :
    TaskResult :=
  match s.disks task.DiskID with
  | none => ⟨s, some Error.diskNotFound, [], false⟩
  | some disk =>
    match disk task.Suid with
    | none => ⟨s, some Error.shardNotFound, [], false⟩
    | some curVersion =>
      match taskFunc env s task disk curVersion with
      | none => ⟨s, none, [], false⟩
      | some r => if syncRun = true then r else ⟨s, none, [], true⟩

/-- A sample storage layer: `DeleteShard` removes the shard, `CheckAndClearShard`
leaves it, `UpdateShardRouteVersion` sets the version, none fails. -/
def sampleEnv : Env where
  DeleteShard := fun d suid _ => (fun k => if k = suid then none else d k, none)
  UpdateShardRouteVersion := fun d suid v =>
    (fun k => if k = suid then some v else d k, none)
  CheckAndClearShard := fun d _ => (d, none)
  Checkpoint := fun _ _ => none

/-- A sample service: disk 1 holds shard 7 at route version 5. -/
def sampleService : service := ⟨fun k => if k = 1 then some (fun suid =>
  if suid = 7 then some 5 else none) else none⟩

/-- The loop of `shardReports` over the tasks it was given (lines 358-370, the
filter on task types apart): each task is executed in turn, and the first error
ends the loop. -/
def shardReportsLoop (env : Env) (s : service) (syncRun : Bool) :
    List ShardTask → TaskResult
  | [] => ⟨s, none, [], false⟩
  | task :: rest =>
    let r := executeShardTask env s task syncRun
    match r.ret with
    | some e => ⟨r.svc, some e, r.calls, r.submitted⟩
    | none =>
      let r' := shardReportsLoop env r.svc syncRun rest
      ⟨r'.svc, r'.ret, r.calls ++ r'.calls, r.submitted || r'.submitted⟩

/-! ## Item requests of `shardnode/item.go` -/

/-- The errors `insertItem` returns: the two of `apierr` it makes itself, and
any error of the catalog or of the space. -/
inductive ItemError where
  | ErrItemIDEmpty
  | ErrKeySizeTooLarge
  | other (id : Nat)
deriving DecidableEq, Repr

/-- The message `shardnode.InsertItemArgs`: the space id of the header, the
whole header, and the id and the fields of the item. -/
structure InsertItemArgs where
  SpaceID : Nat
  Header : Nat
  ItemID : List Nat
  ItemFields : List (Nat × List Nat)
deriving DecidableEq, Repr

/-- A call that `insertItem` makes on the catalog or on a space. -/
inductive ItemCall where
  | GetSpace (sid : Nat)
  | InsertItem (space : Nat) (header : Nat) (id : List Nat) (fields : List (Nat × List Nat))
deriving DecidableEq, Repr

/-- What `insertItem` uses from elsewhere: the constant `storage.MaxKeySize`,
the method `catalog.GetSpace` (a space handle or an error) and the method
`Space.InsertItem`. -/
structure ItemEnv where
  MaxKeySize : Nat
  GetSpace : Nat → Except ItemError Nat
  InsertItem : Nat → Nat → List Nat → List (Nat × List Nat) → Option ItemError

/-- Method `service.insertItem` (item.go, lines 26-39): the error it returns and
the calls it makes. -/
def insertItem (env : ItemEnv) (req : InsertItemArgs) : Option ItemError × List ItemCall :=
  if req.ItemID.length < 1 then (some ItemError.ErrItemIDEmpty, [])
  else if req.ItemID.length > env.MaxKeySize then (some ItemError.ErrKeySizeTooLarge, [])
  else
    match env.GetSpace req.SpaceID with
    | .error err => (some err, [ItemCall.GetSpace req.SpaceID])
    | .ok space =>
      (env.InsertItem space req.Header req.ItemID req.ItemFields,
        [ItemCall.GetSpace req.SpaceID,
          ItemCall.InsertItem space req.Header req.ItemID req.ItemFields])

/-- A sample environment for item requests: keys of at most 4 bytes, space 3
only, and a space that takes every item. -/
def sampleItemEnv : ItemEnv where
  MaxKeySize := 4
  GetSpace := fun sid => if sid = 3 then .ok 30 else .error (ItemError.other 1)
  InsertItem := fun _ _ _ _ => none

end ShardNode

namespace Rpc

/-! ## The load-balancing client of `common/rpc/lb.go` -/

/-- The conversion to `int32` of an integer: the value of the same residue
modulo `2 ^ 32` between `-2 ^ 31` and `2 ^ 31 - 1`. -/
def int32 (x : Int) : Int := (x + 2 ^ 31) % 2 ^ 32 - 2 ^ 31

/-- The conversion to `uint32` of an integer: its residue modulo `2 ^ 32`. -/
def uint32 (x : Int) : Int := x % 2 ^ 32

/-- The struct `LbConfig` (lines 31-50); `ShouldRetry` is kept as whether it is
set, and the embedded `Config` of the simple client is left out. -/
structure LbConfig where
  Hosts : List String
  BackupHosts : List String
  RequestTryTimes : Int
  HostTryTimes : Int
  FailRetryIntervalS : Int
  MaxFailsPeriodS : Int
  ShouldRetry : Bool
deriving DecidableEq, Repr

/-- The struct `lbClient` (lines 52-59): the hosts of `clientMap`, in the order
they were put there, whether the selector was given, and the config. -/
structure lbClient where
  requestTryTimes : Int
  clientMap : List String
  selGiven : Bool
  cfg : LbConfig
deriving DecidableEq, Repr

/-- The config as `NewLbClient` leaves it (lines 66-83): each `if` of the
function in turn. -/
def fixConfig (cfg : LbConfig) : LbConfig :=
  let c1 := if cfg.HostTryTimes = 0 then
      { cfg with HostTryTimes := int32 ((cfg.Hosts.length + cfg.BackupHosts.length : Nat) * 2) }
    else cfg
  let c2 := if c1.MaxFailsPeriodS = 0 then { c1 with MaxFailsPeriodS := 1 } else c1
  let c3 := if c2.RequestTryTimes = 0 then
      { c2 with RequestTryTimes := uint32 (int32 (c2.HostTryTimes + 1)) }
    else c2
  let c4 := if c3.ShouldRetry = false then { c3 with ShouldRetry := true } else c3
  let c5 := if c4.HostTryTimes > int32 c4.RequestTryTimes then
      { c4 with HostTryTimes := int32 (uint32 (c4.RequestTryTimes - 1)) }
    else c4
  if c5.FailRetryIntervalS = 0 then { c5 with FailRetryIntervalS := -1 } else c5

/-- Function `NewLbClient` (lines 65-98); `selGiven` tells whether `sel` is not
nil. -/
def NewLbClient (cfg : LbConfig) (selGiven : Bool) : lbClient :=
  let c := fixConfig cfg
  ⟨c.RequestTryTimes, c.Hosts ++ c.BackupHosts, selGiven, c⟩

end Rpc

namespace Storage

/-! ## Leader and member changes -/

/-- The part of a shard that `LeaderChange` reads and writes. -/
structure LeaderState where
  /-- The field `shardInfoMu.leader`. -/
  leader : Nat
  /-- The field `shardState.restartLeaderReadIndex`. -/
  restartLeaderReadIndex : Nat
  /-- What `s.disk.DiskID()` returns. -/
  diskID : Nat
  deriving DecidableEq, Repr

/-- The method `shardSM.LeaderChange` (lines 101-114) on a 64-bit peer id, with
the constant `noNeedReadIndex`, whose definition is not in `shard_sm.go`, as a
parameter; it returns nil. -/
def LeaderChange (env : Env) (noNeedReadIndex : Nat) (s : LeaderState) (peerID : Nat) :
    LeaderState :=
  let s1 := { s with leader := toDiskID env peerID }
  if peerID > 0 ∧ peerID ≠ s1.diskID then
    { s1 with restartLeaderReadIndex := noNeedReadIndex }
  else s1

/-- The type `raft.MemberChangeType`. -/
inductive MemberChangeType where
  | AddMember
  | RemoveMember
  | other (n : Nat)
  deriving DecidableEq, Repr

/-- The message `raft.Member` as `ApplyMemberChange` reads it. -/
structure MemberChange where
  Type_ : MemberChangeType
  NodeID : Nat
  Learner : Bool
  Context : Bytes
  deriving DecidableEq, Repr

/-- The loop of the `AddMember` case (lines 133-139): the first unit of the disk
gets the learner flag; the units afterwards and `found`. -/
def markLearner (diskID : Nat) (learner : Bool) : List ShardUnit → List ShardUnit × Bool
  | [] => ([], false)
  | u :: us =>
    if u.DiskID = diskID then ({ u with Learner := learner } :: us, true)
    else ((markLearner diskID learner us).1.cons u, (markLearner diskID learner us).2)

/-- The loop of the `RemoveMember` case (lines 154-160): the first unit of the
disk is spliced out. -/
def spliceUnit (diskID : Nat) : List ShardUnit → List ShardUnit
  | [] => []
  | u :: us => if u.DiskID = diskID then us else u :: spliceUnit diskID us

/-- What `ApplyMemberChange` gives: the shard afterwards, the error returned,
and whether `RemoveRaftGroup` was called. -/
structure MemberChanged where
  shard : Shard
  ret : Option Err
  removedRaftGroup : Bool

/-- The end of `ApplyMemberChange` (lines 168-175): `SaveShardInfo`, whose
stop-writing error is turned into nil. -/
def saveMemberChange (env : Env) (s : Shard) (removed : Bool) : MemberChanged :=
  match env.saveShardInfo s.Units s.AppliedIndex with
  | some e => if e = Err.shardStopWriting then ⟨s, none, removed⟩ else ⟨s, some e, removed⟩
  | none => ⟨{ s with savedInfo := some (s.Units, s.AppliedIndex) }, none, removed⟩

/-- The method `shardSM.ApplyMemberChange` (lines 116-176) on a shard whose own
disk id (`s.diskID`) is `diskID`.  Wrapping by `errors.Info` is left out. -/
def ApplyMemberChange (env : Env) (diskID : Nat) (s : Shard) (cc : MemberChange) :
    MemberChanged :=
  match prepRWCheck s with
  | (s0, some _) => ⟨s0, none, false⟩
  | (s1, none) =>
    let body : MemberChanged :=
      match cc.Type_ with
      | .AddMember =>
        if (markLearner (toDiskID env cc.NodeID) cc.Learner s1.Units).2 = true then
          saveMemberChange env
            { s1 with Units := (markLearner (toDiskID env cc.NodeID) cc.Learner s1.Units).1 }
            false
        else
          match env.unmarshalMemberCtx cc.Context with
          | .error e => ⟨s1, some e, false⟩
          | .ok suid =>
            saveMemberChange env
              { s1 with Units := s1.Units ++ [⟨suid, toDiskID env cc.NodeID, cc.Learner⟩] }
              false
      | .RemoveMember =>
        saveMemberChange env
          { s1 with Units := spliceUnit (toDiskID env cc.NodeID) s1.Units }
          (decide (toDiskID env cc.NodeID = diskID))
      | .other _ => saveMemberChange env s1 false
    ⟨prepRWCheckDone body.shard, body.ret, body.removedRaftGroup⟩

/-- A shard with three units, on the disks 11, 12 and 13, its gate open. -/
def sampleUnitsShard : Shard :=
  ⟨emptyKV, 0, [⟨1, 11, false⟩, ⟨2, 12, false⟩, ⟨3, 13, true⟩], none, 0, none⟩

/-- The shard `sampleUnitsShard` with its gate shut because it is being
deleted. -/
def sampleStoppedUnitsShard : Shard :=
  { sampleUnitsShard with rwGate := some Err.shardStopWriting }

/-- An update that writes the new field 3 twice. -/
def sampleTwiceNew : Item := ⟨[5], [⟨3, [30]⟩, ⟨3, [31]⟩]⟩

end Storage

namespace Normaldb

/-! ## Node records of `clustermgr/persistence/normaldb/nodetbl.go`

The package `encoding/json` is the Go library, not part of the sources: its two
functions on a `NodeInfoRecord` are the fields of `Json`, and `goJson` is a model
of them on the documents that `json.Marshal` writes for the struct.  A Go string
is a sequence of bytes. -/

/-- The constant `NodeInfoVersionNormal` (`iota + 1`). -/
def NodeInfoVersionNormal : Nat := 1

/-- The struct `NodeInfoRecord` (lines 29-40); `Version` is a `uint8` that the
JSON encoding leaves out, the strings are byte sequences. -/
structure NodeInfoRecord where
  Version : Nat
  NodeID : Nat
  NodeSetID : Nat
  ClusterID : Nat
  DiskType : Nat
  Idc : List Nat
  Rack : List Nat
  Host : List Nat
  Role : Nat
  Status : Nat
deriving DecidableEq, Repr

/-- The zero value `&NodeInfoRecord{}`. -/
def NodeInfoRecord.zero : NodeInfoRecord := ⟨0, 0, 0, 0, 0, [], [], [], 0, 0⟩

/-- Errors of the record codec: the `*json.UnmarshalTypeError` of a value that
does not fit its field, `notRead` for a document that `json.Unmarshal` refuses
or that the model of it does not read, and the version error. -/
inductive CodecError where
  | unmarshalType
  | notRead
  | invalidVersion
deriving DecidableEq, Repr

/-- The functions `json.Marshal` and `json.Unmarshal` on node records:
`Unmarshal data ret` gives the record that `ret` has become and the error. -/
structure Json where
  Marshal : NodeInfoRecord → Except CodecError (List Nat)
  Unmarshal : List Nat → NodeInfoRecord → NodeInfoRecord × Option CodecError

/-- Function `encodeNodeInfoRecord` (lines 92-99). -/
def encodeNodeInfoRecord (json : Json) (info : NodeInfoRecord) : Except CodecError (List Nat) :=
  match json.Marshal info with
  | .error err => .error err
  | .ok data => .ok ([info.Version] ++ data)

/-- Function `decodeNodeInfoRecord` (lines 101-110): the record and the error
returned; `none` when it panics, on `data[0]` of an empty input. -/
def decodeNodeInfoRecord (json : Json) (data : List Nat) :
    Option (Option NodeInfoRecord × Option CodecError) :=
  match data with
  | [] => none
  | version :: rest =>
    if version = NodeInfoVersionNormal then
      some (some { (json.Unmarshal rest NodeInfoRecord.zero).1 with Version := version },
        (json.Unmarshal rest NodeInfoRecord.zero).2)
    else some (none, some CodecError.invalidVersion)

/-! ### UTF-8, as package `unicode/utf8` reads it -/

/-- A continuation byte of UTF-8. -/
def isCont (b : Nat) : Bool := 128 ≤ b && b ≤ 191

/-- The least second byte that may follow the first byte `b0` of a sequence (the
accept ranges of `unicode/utf8`). -/
def secondLow (b0 : Nat) : Nat :=
  if b0 = 224 then 160 else if b0 = 240 then 144 else 128

/-- The greatest second byte that may follow the first byte `b0`. -/
def secondHigh (b0 : Nat) : Nat :=
  if b0 = 237 then 159 else if b0 = 244 then 143 else 191

/-- The number of bytes of the UTF-8 sequence at the head of `s`; `none` where
`utf8.DecodeRune` answers `RuneError` with width 1 (or `s` is empty). -/
def runeSize : List Nat → Option Nat
  | [] => none
  | b0 :: rest =>
    if b0 < 128 then some 1
    else if 194 ≤ b0 ∧ b0 ≤ 223 then
      match rest with
      | b1 :: _ => if isCont b1 then some 2 else none
      | _ => none
    else if 224 ≤ b0 ∧ b0 ≤ 239 then
      match rest with
      | b1 :: b2 :: _ =>
        if secondLow b0 ≤ b1 ∧ b1 ≤ secondHigh b0 ∧ isCont b2 then some 3 else none
      | _ => none
    else if 240 ≤ b0 ∧ b0 ≤ 244 then
      match rest with
      | b1 :: b2 :: b3 :: _ =>
        if secondLow b0 ≤ b1 ∧ b1 ≤ secondHigh b0 ∧ isCont b2 ∧ isCont b3 then some 4
        else none
      | _ => none
    else none

/-- The loop of `utf8.Valid`. -/
def validLoop : Nat → List Nat → Bool
  | 0, s => s.isEmpty
  | _ + 1, [] => true
  | fuel + 1, b :: rest =>
    match runeSize (b :: rest) with
    | none => false
    | some n => validLoop fuel ((b :: rest).drop n)

/-- The string is valid UTF-8 (`utf8.Valid`). -/
def validUTF8 (s : List Nat) : Bool := validLoop s.length s

/-- The UTF-8 encoding of the replacement character U+FFFD. -/
def replacement : List Nat := [239, 191, 189]

/-- The bytes of a code point (`utf8.AppendRune`): surrogates and values above
U+10FFFF give the replacement character. -/
def runeBytes (cp : Nat) : List Nat :=
  if cp < 128 then [cp]
  else if cp < 2048 then [192 + cp / 64, 128 + cp % 64]
  else if (55296 ≤ cp ∧ cp < 57344) ∨ 1114111 < cp then replacement
  else if cp < 65536 then [224 + cp / 4096, 128 + cp / 64 % 64, 128 + cp % 64]
  else [240 + cp / 262144, 128 + cp / 4096 % 64, 128 + cp / 64 % 64, 128 + cp % 64]

/-! ### `json.Marshal` of the struct -/

/-- The digit of `"0123456789abcdef"` for a value below 16. -/
def hexDigit (d : Nat) : Nat := if d < 10 then 48 + d else 87 + d

/-- The ASCII bytes that the encoder copies as they are (`htmlSafeSet`): from the
space on, without the quote, the backslash, `<`, `>` and `&`. -/
def htmlSafe (b : Nat) : Bool :=
  32 ≤ b && b < 128 && b != 34 && b != 92 && b != 60 && b != 62 && b != 38

/-- What the encoder writes for an ASCII byte that is not copied: a backslash
before the quote and the backslash, the short escapes of backspace, form feed,
line feed, carriage return and tab, and four hexadecimal digits behind a
backslash and `u` for the others. -/
def escapeByte (b : Nat) : List Nat :=
  if b = 92 ∨ b = 34 then [92, b]
  else if b = 8 then [92, 98]
  else if b = 12 then [92, 102]
  else if b = 10 then [92, 110]
  else if b = 13 then [92, 114]
  else if b = 9 then [92, 116]
  else [92, 117, 48, 48, hexDigit (b / 16), hexDigit (b % 16)]

/-- The loop of the encoder's `appendString`, without the quotes: ASCII bytes
are copied or escaped, a byte that starts no UTF-8 sequence becomes the escape
of U+FFFD,
U+2028 and U+2029 are escaped, other sequences are copied. -/
def escapeLoop : Nat → List Nat → List Nat
  | 0, _ => []
  | _ + 1, [] => []
  | fuel + 1, b :: rest =>
    if b < 128 then
      (if htmlSafe b then [b] else escapeByte b) ++ escapeLoop fuel rest
    else
      match runeSize (b :: rest) with
      | none => [92, 117, 102, 102, 102, 100] ++ escapeLoop fuel rest
      | some n =>
        if (b :: rest).take 3 = [226, 128, 168] then
          [92, 117, 50, 48, 50, 56] ++ escapeLoop fuel (rest.drop 2)
        else if (b :: rest).take 3 = [226, 128, 169] then
          [92, 117, 50, 48, 50, 57] ++ escapeLoop fuel (rest.drop 2)
        else (b :: rest).take n ++ escapeLoop fuel ((b :: rest).drop n)

/-- The JSON string that the encoder writes for a Go string. -/
def appendString (s : List Nat) : List Nat :=
  [34] ++ escapeLoop s.length s ++ [34]

/-- The loop of `strconv.AppendUint` in base 10. -/
def decimalLoop : Nat → Nat → List Nat → List Nat
  | 0, _, acc => acc
  | fuel + 1, n, acc =>
    if n < 10 then (48 + n) :: acc else decimalLoop fuel (n / 10) ((48 + n % 10) :: acc)

/-- The decimal digits of an unsigned integer. -/
def decimal (n : Nat) : List Nat := decimalLoop (n + 1) n []

/-- The JSON names of the fields, from the struct tags. -/
def nameNodeID : List Nat := [110, 111, 100, 101, 95, 105, 100]

def nameNodeSetID : List Nat := [110, 111, 100, 101, 95, 115, 101, 116, 95, 105, 100]

def nameClusterID : List Nat := [99, 108, 117, 115, 116, 101, 114, 95, 105, 100]

def nameDiskType : List Nat := [100, 105, 115, 107, 95, 116, 121, 112, 101]

def nameIdc : List Nat := [105, 100, 99]

def nameRack : List Nat := [114, 97, 99, 107]

def nameHost : List Nat := [104, 111, 115, 116]

def nameRole : List Nat := [114, 111, 108, 101]

def nameStatus : List Nat := [115, 116, 97, 116, 117, 115]

/-- One member of the object: the quoted name, a colon, the value. -/
def member (name value : List Nat) : List Nat :=
  [34] ++ name ++ [34, 58] ++ value

/-- The document that `json.Marshal` writes for a node record: the fields with a
name, in the order of the struct, integers in decimal. -/
def marshalRecord (r : NodeInfoRecord) : List Nat :=
  [123] ++ member nameNodeID (decimal r.NodeID) ++ [44] ++
    member nameNodeSetID (decimal r.NodeSetID) ++ [44] ++
    member nameClusterID (decimal r.ClusterID) ++ [44] ++
    member nameDiskType (decimal r.DiskType) ++ [44] ++
    member nameIdc (appendString r.Idc) ++ [44] ++
    member nameRack (appendString r.Rack) ++ [44] ++
    member nameHost (appendString r.Host) ++ [44] ++
    member nameRole (decimal r.Role) ++ [44] ++
    member nameStatus (decimal r.Status) ++ [125]

/-! ### `json.Unmarshal` into the struct -/

/-- The value of a hexadecimal digit. -/
def hexVal (c : Nat) : Option Nat :=
  if 48 ≤ c ∧ c ≤ 57 then some (c - 48)
  else if 97 ≤ c ∧ c ≤ 102 then some (c - 87)
  else if 65 ≤ c ∧ c ≤ 70 then some (c - 55)
  else none

/-- The code unit of four hexadecimal digits (`getu4`, after the `\u`). -/
def getu4 (a b c d : Nat) : Option Nat :=
  match hexVal a, hexVal b, hexVal c, hexVal d with
  | some x, some y, some z, some w => some (x * 4096 + y * 256 + z * 16 + w)
  | _, _, _, _ => none

/-- The decoder on a string literal, after its opening quote: the bytes of the
string and the input behind the closing quote; `none` where the literal is not
valid.  Escapes are resolved, a pair of surrogates gives its code point, a lone
surrogate and a byte that starts no UTF-8 sequence give the replacement
character. -/
def readString : Nat → List Nat → Option (List Nat × List Nat)
  | 0, _ => none
  | _ + 1, [] => none
  | fuel + 1, c :: rest =>
    if c = 34 then some ([], rest)
    else if c = 92 then
      match rest with
      | [] => none
      | e :: rest1 =>
        if e = 34 ∨ e = 92 ∨ e = 47 then
          (readString fuel rest1).map fun p => (e :: p.1, p.2)
        else if e = 98 then (readString fuel rest1).map fun p => (8 :: p.1, p.2)
        else if e = 102 then (readString fuel rest1).map fun p => (12 :: p.1, p.2)
        else if e = 110 then (readString fuel rest1).map fun p => (10 :: p.1, p.2)
        else if e = 114 then (readString fuel rest1).map fun p => (13 :: p.1, p.2)
        else if e = 116 then (readString fuel rest1).map fun p => (9 :: p.1, p.2)
        else if e = 117 then
          match rest1 with
          | h1 :: h2 :: h3 :: h4 :: rest2 =>
            match getu4 h1 h2 h3 h4 with
            | none => none
            | some cp =>
              if 55296 ≤ cp ∧ cp < 57344 then
                match rest2 with
                | 92 :: 117 :: k1 :: k2 :: k3 :: k4 :: rest3 =>
                  match getu4 k1 k2 k3 k4 with
                  | some cp2 =>
                    if cp < 56320 ∧ 56320 ≤ cp2 ∧ cp2 < 57344 then
                      (readString fuel rest3).map fun p =>
                        (runeBytes (65536 + (cp - 55296) * 1024 + (cp2 - 56320)) ++ p.1, p.2)
                    else (readString fuel rest2).map fun p => (replacement ++ p.1, p.2)
                  | none => (readString fuel rest2).map fun p => (replacement ++ p.1, p.2)
                | _ => (readString fuel rest2).map fun p => (replacement ++ p.1, p.2)
              else (readString fuel rest2).map fun p => (runeBytes cp ++ p.1, p.2)
          | _ => none
        else none
    else if c < 32 then none
    else if c < 128 then (readString fuel rest).map fun p => (c :: p.1, p.2)
    else
      match runeSize (c :: rest) with
      | none => (readString fuel rest).map fun p => (replacement ++ p.1, p.2)
      | some n =>
        (readString fuel ((c :: rest).drop n)).map fun p => ((c :: rest).take n ++ p.1, p.2)

/-- A decimal digit. -/
def isDigit (c : Nat) : Bool := 48 ≤ c && c ≤ 57

/-- The decoder on an unsigned integer literal: its value and the input behind
it; `none` where no digit stands, or a zero leads other digits. -/
def readNumber (s : List Nat) : Option (Nat × List Nat) :=
  if s.takeWhile isDigit = [] then none
  else if 1 < (s.takeWhile isDigit).length ∧ (s.takeWhile isDigit).head? = some 48 then none
  else some ((s.takeWhile isDigit).foldl (fun a d => 10 * a + (d - 48)) 0, s.dropWhile isDigit)

/-- A value of a member: an unsigned integer or a string. -/
inductive Value where
  | num (n : Nat)
  | str (s : List Nat)
deriving DecidableEq, Repr

/-- The decoder on the value of a member: a string where a quote stands, an
unsigned integer otherwise. -/
def readValue (s : List Nat) : Option (Value × List Nat) :=
  match s with
  | [] => none
  | c :: rest =>
    if c = 34 then (readString rest.length rest).map fun p => (Value.str p.1, p.2)
    else (readNumber s).map fun p => (Value.num p.1, p.2)

/-- The decoder on the members of an object, after the opening brace: names and
values in the order of the document; `none` where the input is not a sequence
of members `"name":value`, separated by commas and closed by a brace that ends
the input. -/
def readMembers : Nat → List Nat → Option (List (List Nat × Value))
  | 0, _ => none
  | _ + 1, [] => none
  | fuel + 1, q :: rest =>
    if q = 34 then
      match readString rest.length rest with
      | some (name, c :: rest1) =>
        if c = 58 then
          match readValue rest1 with
          | some (v, d :: rest2) =>
            if d = 125 ∧ rest2 = [] then some [(name, v)]
            else if d = 44 then (readMembers fuel rest2).map fun ms => (name, v) :: ms
            else none
          | _ => none
        else none
      | _ => none
    else none

/-- The decoder on a document: the members of an object without white space
whose values are unsigned integers and strings. -/
def readObject (data : List Nat) : Option (List (List Nat × Value)) :=
  match data with
  | [] => none
  | c :: rest =>
    if c = 123 then (if rest = [125] then some [] else readMembers rest.length rest)
    else none

/-- The sizes in bits of the integer types of package `proto`, which is not part
of the sources. -/
structure ProtoBits where
  NodeID : Nat
  NodeSetID : Nat
  ClusterID : Nat
  DiskType : Nat
  NodeRole : Nat
  NodeStatus : Nat

/-- An integer field takes an integer that fits its type; any other value
leaves the field as it is and is remembered as the error, if it is the first. -/
def storeUint (bits : Nat) (v : Value) (old : Nat) (err : Option CodecError) :
    Nat × Option CodecError :=
  match v with
  | .num n => if n < 2 ^ bits then (n, err) else (old, err.orElse fun _ => some .unmarshalType)
  | .str _ => (old, err.orElse fun _ => some .unmarshalType)

/-- A string field takes a string, and treats an integer as `storeUint` treats a
string. -/
def storeString (v : Value) (old : List Nat) (err : Option CodecError) :
    List Nat × Option CodecError :=
  match v with
  | .str s => (s, err)
  | .num _ => (old, err.orElse fun _ => some .unmarshalType)

/-- One member goes into the record: into the field of its name; `none` for a
name that is none of the nine tags as written. -/
def storeMember (bits : ProtoBits) (st : NodeInfoRecord × Option CodecError)
    (m : List Nat × Value) : Option (NodeInfoRecord × Option CodecError) :=
  if m.1 = nameNodeID then
    some ({ st.1 with NodeID := (storeUint bits.NodeID m.2 st.1.NodeID st.2).1 },
      (storeUint bits.NodeID m.2 st.1.NodeID st.2).2)
  else if m.1 = nameNodeSetID then
    some ({ st.1 with NodeSetID := (storeUint bits.NodeSetID m.2 st.1.NodeSetID st.2).1 },
      (storeUint bits.NodeSetID m.2 st.1.NodeSetID st.2).2)
  else if m.1 = nameClusterID then
    some ({ st.1 with ClusterID := (storeUint bits.ClusterID m.2 st.1.ClusterID st.2).1 },
      (storeUint bits.ClusterID m.2 st.1.ClusterID st.2).2)
  else if m.1 = nameDiskType then
    some ({ st.1 with DiskType := (storeUint bits.DiskType m.2 st.1.DiskType st.2).1 },
      (storeUint bits.DiskType m.2 st.1.DiskType st.2).2)
  else if m.1 = nameIdc then
    some ({ st.1 with Idc := (storeString m.2 st.1.Idc st.2).1 }, (storeString m.2 st.1.Idc st.2).2)
  else if m.1 = nameRack then
    some ({ st.1 with Rack := (storeString m.2 st.1.Rack st.2).1 },
      (storeString m.2 st.1.Rack st.2).2)
  else if m.1 = nameHost then
    some ({ st.1 with Host := (storeString m.2 st.1.Host st.2).1 },
      (storeString m.2 st.1.Host st.2).2)
  else if m.1 = nameRole then
    some ({ st.1 with Role := (storeUint bits.NodeRole m.2 st.1.Role st.2).1 },
      (storeUint bits.NodeRole m.2 st.1.Role st.2).2)
  else if m.1 = nameStatus then
    some ({ st.1 with Status := (storeUint bits.NodeStatus m.2 st.1.Status st.2).1 },
      (storeUint bits.NodeStatus m.2 st.1.Status st.2).2)
  else none

/-- The members go into the record one after the other. -/
def storeMembers (bits : ProtoBits) :
    List (List Nat × Value) → NodeInfoRecord × Option CodecError →
      Option (NodeInfoRecord × Option CodecError)
  | [], st => some st
  | m :: ms, st =>
    match storeMember bits st m with
    | some st1 => storeMembers bits ms st1
    | none => none

/-- The model of `encoding/json` on node records.  `Marshal` writes
`marshalRecord` and never fails.  `Unmarshal` reads the objects without white
space whose members carry the nine names as written and hold unsigned integers
and strings, in any order; on every other input it leaves the record as it is
and answers `notRead`. -/
def goJson (bits : ProtoBits) : Json where
  Marshal := fun r => .ok (marshalRecord r)
  Unmarshal := fun data ret =>
    match readObject data with
    | none => (ret, some .notRead)
    | some ms =>
      match storeMembers bits ms (ret, none) with
      | none => (ret, some .notRead)
      | some st => st

/-- The sizes of the integer types: 32 bits for the identifiers, 8 for the
others. -/
def sampleBits : ProtoBits := ⟨32, 32, 32, 8, 8, 8⟩

/-- A sample node record of the normal version: idc `z0`, rack `r<1`, host
`h:80`. -/
def sampleNode : NodeInfoRecord :=
  ⟨1, 7, 2, 1, 3, [122, 48], [114, 60, 49], [104, 58, 56, 48], 1, 1⟩

/-- A node record whose host is the single byte `0xff`, which is no UTF-8. -/
def sampleBadHost : NodeInfoRecord := ⟨1, 7, 2, 1, 3, [122, 48], [114, 49], [255], 1, 1⟩

/-- The integers of the record fit their types. -/
def NodeInfoRecord.fits (r : NodeInfoRecord) (bits : ProtoBits) : Prop :=
  r.NodeID < 2 ^ bits.NodeID ∧ r.NodeSetID < 2 ^ bits.NodeSetID ∧
    r.ClusterID < 2 ^ bits.ClusterID ∧ r.DiskType < 2 ^ bits.DiskType ∧
    r.Role < 2 ^ bits.NodeRole ∧ r.Status < 2 ^ bits.NodeStatus


instance (r : NodeInfoRecord) (bits : ProtoBits) : Decidable (r.fits bits) := by
  unfold NodeInfoRecord.fits; infer_instance

/-- A name that the encoder writes as it is. -/
def plainName (name : List Nat) : Prop :=
  escapeLoop name.length name = name ∧ validUTF8 name = true

/-- The members of the document that the encoder writes for a record. -/
def recordMembers (r : NodeInfoRecord) : List (List Nat × Value) :=
  [(nameNodeID, Value.num r.NodeID), (nameNodeSetID, Value.num r.NodeSetID),
    (nameClusterID, Value.num r.ClusterID), (nameDiskType, Value.num r.DiskType),
    (nameIdc, Value.str r.Idc), (nameRack, Value.str r.Rack), (nameHost, Value.str r.Host),
    (nameRole, Value.num r.Role), (nameStatus, Value.num r.Status)]

end Normaldb

namespace Catalog

/-! ## The apply loop of the catalog manager

The file of `CatalogMgr.Apply` is not among the sources; only its test
(`clustermgr/catalog/applier_test.go`) is. -/

/-- The operation taxonomy of the catalog manager. -/
inductive OperType where
  | CreateSpace
  | InitCreateShard
  | IncreaseShardUnitsEpoch
  | CreateShard
  | UpdateShardUnit
  | UpdateShardUnitStatus
  | ShardReport
  | AllocShardUnit
  | AdminUpdateShard
  | AdminUpdateShardUnit
deriving DecidableEq, Repr

/-- The ten operation types, in the order of the taxonomy. -/
def OperType.all : List OperType :=
  [.CreateSpace, .InitCreateShard, .IncreaseShardUnitsEpoch, .CreateShard, .UpdateShardUnit,
    .UpdateShardUnitStatus, .ShardReport, .AllocShardUnit, .AdminUpdateShard,
    .AdminUpdateShardUnit]

/-- What the apply loop takes from elsewhere: the integer opcode of each
operation type, and whether a payload decodes for an operation type. -/
structure Env where
  opcode : OperType → Int
  decodes : OperType → List Nat → Bool

/-- One entry of a batch: the entries of the parallel sequences `opTypes`,
`payloads` and `ctxs` at one index. -/
structure Entry where
  opType : Int
  payload : List Nat
  ctx : Nat
deriving DecidableEq, Repr

/-- Why a batch fails. -/
inductive ApplyError where
  | unknownOpcode (code : Int)
  | decode (op : OperType)
deriving DecidableEq, Repr

/-- The operation type of an opcode, if it is one of the taxonomy. -/
def operTypeOf (env : Env) (code : Int) : Option OperType :=
  OperType.all.find? (fun t => decide (env.opcode t = code))

/-- Modelled from the spec: `CatalogMgr.Apply`, whose file is not among the
sources.  Each entry is decoded per opcode; a decode error or an unknown opcode
fails the batch.  The mutations of the entries that decode are left out. -/
def Apply (env : Env) : List Entry → Option ApplyError
  | [] => none
  | e :: rest =>
    match operTypeOf env e.opType with
    | none => some (ApplyError.unknownOpcode e.opType)
    | some t =>
      if env.decodes t e.payload = true then Apply env rest
      else some (ApplyError.decode t)

/-- A sample environment: the opcodes 1 to 10 in the order of the taxonomy, and
payloads of exactly one byte. -/
def sampleEnv : Env where
  opcode := fun t => (OperType.all.indexOf t : Int) + 1
  decodes := fun _ p => decide (p.length = 1)

/-- A batch with one well-formed entry of each of the ten operation types. -/
def sampleBatch : List Entry :=
  [0, 1, 2, 3, 4, 5, 6, 7, 8, 9].map (fun (k : Nat) => ⟨Int.ofNat k + 1, [k], 0⟩)

/-- The batch `sampleBatch` with one byte appended to the payload of entry `i`. -/
def sampleBatchExtra (i : Nat) : List Entry :=
  [0, 1, 2, 3, 4, 5, 6, 7, 8, 9].map
    (fun (k : Nat) => ⟨Int.ofNat k + 1, if k = i then [k, 1] else [k], 0⟩)

end Catalog

namespace Wrapper

/-! ## The k-faster selector of `sdk/data/wrapper/k_faster_random_selector.go`

Indices are Go `int`s and are kept as integers; every access to the slice checks
the index, and an index outside the slice is a panic.  The loops without bound
take fuel. -/

/-- The struct `DataPartition`, whose file is not among the sources, with what
the selector reads of it: the id, the media type, and the number that
`GetAvgWrite` returns. -/
structure DataPartition where
  PartitionID : Nat
  MediaType : Nat
  AvgWrite : Int
deriving DecidableEq, Repr

/-- How a function ends: with a value, with a panic (an index out of range), or
with the fuel used up. -/
inductive Result (α : Type) where
  | done (a : α)
  | panicked
  | outOfFuel
deriving DecidableEq, Repr

/-- The element `partitions[i]`, if the index is in range. -/
def getAt (partitions : List DataPartition) (i : Int) : Option DataPartition :=
  if i < 0 then none else partitions[i.toNat]?

/-- Function `swap` (lines 169-171); `none` when an index is out of range. -/
def swap (s : List DataPartition) (i j : Int) : Option (List DataPartition) :=
  match getAt s i, getAt s j with
  | some a, some b => some ((s.set i.toNat b).set j.toNat a)
  | _, _ => none

/-- The first inner loop of `partByPrivot` (lines 176-180), from `i`: the value
of `i` when it ends. -/
def scanUp (partitions : List DataPartition) (low high : Int) : Nat → Int → Result Int
  | 0, _ => Result.outOfFuel
  | fuel + 1, i =>
    if i < high then
      match getAt partitions i, getAt partitions low with
      | some a, some b =>
        if a.AvgWrite > b.AvgWrite then Result.done i
        else scanUp partitions low high fuel (i + 1)
      | _, _ => Result.panicked
    else Result.done i

/-- The second inner loop of `partByPrivot` (lines 181-185), from `j`: the value
of `j` when it ends. -/
def scanDown (partitions : List DataPartition) (low : Int) : Nat → Int → Result Int
  | 0, _ => Result.outOfFuel
  | fuel + 1, j =>
    if j > low then
      match getAt partitions j, getAt partitions low with
      | some a, some b =>
        if a.AvgWrite ≤ b.AvgWrite then Result.done j
        else scanDown partitions low fuel (j - 1)
      | _, _ => Result.panicked
    else Result.done j

/-- The outer loop of `partByPrivot` (lines 175-190): the slice and the value of
`j` when it ends.  Each inner loop is allowed `m` rounds. -/
def partLoop (m : Nat) (low high : Int) :
    Nat → List DataPartition → Result (List DataPartition × Int)
  | 0, _ => Result.outOfFuel
  | fuel + 1, partitions =>
    match scanUp partitions low high m (low + 1) with
    | Result.done i =>
      match scanDown partitions low m high with
      | Result.done j =>
        if i ≥ j then Result.done (partitions, j)
        else
          match swap partitions i j with
          | some swapped => partLoop m low high fuel swapped
          | none => Result.panicked
      | Result.panicked => Result.panicked
      | Result.outOfFuel => Result.outOfFuel
    | Result.panicked => Result.panicked
    | Result.outOfFuel => Result.outOfFuel

/-- Function `partByPrivot` (lines 173-195): the slice afterwards and the index
returned.  Every loop is allowed `m` rounds. -/
def partByPrivot (m : Nat) (partitions : List DataPartition) (low high : Int) :
    Result (List DataPartition × Int) :=
  match partLoop m low high m partitions with
  | Result.done (parted, j) =>
    if low ≠ j then
      match swap parted low j with
      | some swapped => Result.done (swapped, j)
      | none => Result.panicked
    else Result.done (parted, j)
  | Result.panicked => Result.panicked
  | Result.outOfFuel => Result.outOfFuel

/-- The loop of `selectKminDataPartition` (lines 202-212): the slice when it
returns. -/
def selectLoop (m : Nat) (k : Int) :
    Nat → List DataPartition → Int → Int → Result (List DataPartition)
  | 0, _, _, _ => Result.outOfFuel
  | fuel + 1, partitions, low, high =>
    match partByPrivot m partitions low high with
    | Result.done (parted, privot) =>
      if privot < k then selectLoop m k fuel parted (privot + 1) high
      else if privot > k then selectLoop m k fuel parted low (privot - 1)
      else Result.done parted
    | Result.panicked => Result.panicked
    | Result.outOfFuel => Result.outOfFuel

/-- Function `selectKminDataPartition` (lines 197-212): the slice afterwards
and the number returned.  Every loop is allowed `fuel` rounds. -/
def selectKminDataPartition (fuel : Nat) (partitions : List DataPartition) (k : Int) :
    Result (List DataPartition × Int) :=
  if partitions.length ≤ 1 then Result.done (partitions, k)
  else
    match selectLoop fuel k fuel partitions 0 ((partitions.length : Int) - 1) with
    | Result.done parted => Result.done (parted, k)
    | Result.panicked => Result.panicked
    | Result.outOfFuel => Result.outOfFuel

/-- The struct `KFasterRandomSelector` (lines 55-61), the mutexes left out. -/
structure KFasterRandomSelector where
  kValueHundred : Int
  kValue : Int
  partitions : List DataPartition
deriving DecidableEq, Repr

/-- Function `newKFasterRandomSelector` (lines 37-53) on the number that
`strconv.Atoi` made of the parameter, `none` when `Atoi` failed: the selector, or
`none` for the error. -/
def newKFasterRandomSelector (param : Option Int) : Option KFasterRandomSelector :=
  match param with
  | none => none
  | some p => if p ≤ 0 ∨ p ≥ 100 then none else some ⟨p, 0, []⟩

/-- Method `Refresh` (lines 67-77): the selector afterwards.  Every loop is
allowed `fuel` rounds. -/
def Refresh (fuel : Nat) (s : KFasterRandomSelector) (partitions : List DataPartition) :
    Result KFasterRandomSelector :=
  let kValue := Int.tdiv (((partitions.length : Int) - 1) * s.kValueHundred) 100 + 1
  match selectKminDataPartition fuel partitions kValue with
  | Result.done (parted, _) => Result.done { s with kValue := kValue, partitions := parted }
  | Result.panicked => Result.panicked
  | Result.outOfFuel => Result.outOfFuel

/-- Sample partitions, with the write latencies 50, 10, 40, 20, 30. -/
def sampleParts : List DataPartition :=
  [⟨1, 1, 50⟩, ⟨2, 1, 10⟩, ⟨3, 2, 40⟩, ⟨4, 1, 20⟩, ⟨5, 1, 30⟩]

/-- The write latency of `partitions[i]` (zero outside the slice). -/
def keyAt (partitions : List DataPartition) (i : Int) : Int :=
  match getAt partitions i with
  | some p => p.AvgWrite
  | none => 0

/-- The slice `l'` is the slice `l` with the elements at the indices from `low`
to `high` rearranged among themselves: the same length, a permutation, the same
elements outside the range, and inside the range elements of the range. -/
def Rearranged (l l' : List DataPartition) (low high : Int) : Prop :=
  l'.length = l.length ∧ l'.Perm l ∧
    (∀ t, t < low ∨ high < t → getAt l' t = getAt l t) ∧
    (∀ t, low ≤ t → t ≤ high → ∃ t', low ≤ t' ∧ t' ≤ high ∧ getAt l' t = getAt l t')

/-- The test `!isExcluded(dp, exclude) && dp.MediaType == mediaType` of
`Select`; `isExcluded` is not among the sources and is given as `excluded`. -/
def fits (excluded : DataPartition → Bool) (mediaType : Nat) (dp : DataPartition) : Bool :=
  !excluded dp && decide (dp.MediaType = mediaType)

/-- A loop of `Select` over the indices it tries in turn: the first partition
that fits, `none` when the loop ends without one. -/
def firstFit (partitions : List DataPartition) (excluded : DataPartition → Bool)
    (mediaType : Nat) : List Int → Result (Option DataPartition)
  | [] => Result.done none
  | t :: ts =>
    match getAt partitions t with
    | none => Result.panicked
    | some dp =>
      if fits excluded mediaType dp = true then Result.done (some dp)
      else firstFit partitions excluded mediaType ts

/-- The indices of the loop over the faster partitions (lines 104-111):
`(index + i) % kValue` for `i` from 1 below `kValue`. -/
def fasterIndices (kValue index : Int) : List Int :=
  (List.range (kValue - 1).toNat).map
    (fun (i : Nat) => Int.tmod (index + ((i : Int) + 1)) kValue)

/-- The indices of the loop over the slower partitions (lines 116-124):
`(index + i) % slowerRwPartitionsNum + kValue` for `i` from 0 below
`slowerRwPartitionsNum`. -/
def slowerIndices (kValue index slowerRwPartitionsNum : Int) : List Int :=
  (List.range slowerRwPartitionsNum.toNat).map
    (fun (i : Nat) => Int.tmod (index + (i : Int)) slowerRwPartitionsNum + kValue)

/-- Method `Select` (lines 79-129), with `index` the number that
`rand.Intn(kValue)` returned (`Intn` panics when `kValue` is not positive): the
partition returned, or `none` for the error. -/
def Select (s : KFasterRandomSelector) (excluded : DataPartition → Bool) (mediaType : Nat)
    (index : Int) : Result (Option DataPartition) :=
  if s.partitions.length = 0 then Result.done none
  else if s.kValue ≤ 0 then Result.panicked
  else
    match getAt s.partitions index with
    | none => Result.panicked
    | some dp =>
      if fits excluded mediaType dp = true then Result.done (some dp)
      else
        match firstFit s.partitions excluded mediaType (fasterIndices s.kValue index) with
        | Result.done (some dp) => Result.done (some dp)
        | Result.done none =>
          firstFit s.partitions excluded mediaType
            (slowerIndices s.kValue index ((s.partitions.length : Int) - s.kValue))
        | Result.panicked => Result.panicked
        | Result.outOfFuel => Result.outOfFuel

/-- The selector that `Refresh` makes of the sample partitions with
`kValueHundred` 50: `kValue` is 3. -/
def sampleSelector : KFasterRandomSelector :=
  ⟨50, 3, [⟨4, 1, 20⟩, ⟨2, 1, 10⟩, ⟨5, 1, 30⟩, ⟨3, 2, 40⟩, ⟨1, 1, 50⟩]⟩

end Wrapper

namespace Iterator

/-! ## The paginator of the test, with any bound and page size -/

/-- The loop of the test's `next` function (lines 56-59) with the bound 101
replaced by `n` and the page size 10 by `p`, with `fuel` rounds allowed; the page
holds at most `p` numbers, so `p` rounds are all it can make. -/
def pageLoop (n p : Nat) : Nat → Int → List Int → Int × List Int
  | 0, next, ints => (next, ints)
  | fuel + 1, next, ints =>
    if next < (n : Int) ∧ ints.length < p then pageLoop n p fuel (next + 1) (ints ++ [next + 1])
    else (next, ints)

/-- The test's `next` function (lines 53-66) with the bound 101 replaced by `n`
and the page size 10 by `p`. -/
def pageNext (n p : Nat) : Iterate testIn testOut String := fun i _ =>
  (⟨(pageLoop n p p i.marker []).2,
    if (pageLoop n p p i.marker []).1 ≥ (n : Int) then -1 else (pageLoop n p p i.marker []).1⟩,
    none)

/-- What the loop of `TestUtilIteratorNext` (lines 83-93) sees after a call of
`Next` that has more: the error, and the states of the input and of the
output. -/
structure Seen (σ τ E : Type) where
  err : Option E
  inp : σ
  out : τ

/-- The loop of `TestUtilIteratorNext` (lines 83-93): `Next` is called until it
returns with `hasnext` false; what was seen after each call before that, and the
iterator at the end.  `none` when the fuel runs out. -/
def nextLoop {σ τ I O E : Type} (iterate : Iterate I O E) (inp : IterIn σ I O)
    (out : IterOut τ O) : Nat → iterator σ τ E → Option (iterator σ τ E × List (Seen σ τ E))
  | 0, _ => none
  | fuel + 1, i =>
    if (Next iterate inp out i).2.1.2 = true then
      (nextLoop iterate inp out fuel (Next iterate inp out i).1).map
        (fun r => (r.1, ⟨(Next iterate inp out i).2.1.1, (Next iterate inp out i).1.inp,
          (Next iterate inp out i).1.out⟩ :: r.2))
    else some ((Next iterate inp out i).1, [])

/-- The numbers `m + 1` to `m + c`. -/
def seqFrom (m : Int) (c : Nat) : List Int :=
  (List.range c).map (fun (k : Nat) => m + 1 + (k : Int))

end Iterator

namespace Storage

/-- The records are handled one after the other without error: from the store
`kv`, the handler of each record's operation answers no error, and they leave
the store `kv'` and the results `rs`, one per record. -/
inductive Handles (env : Env) : KVStore → List ProposalData → KVStore → List applyRet → Prop
  | nil (kv : KVStore) : Handles env kv [] kv []
  | cons {kv kv' : KVStore} {p : ProposalData} {ps : List ProposalData} {h : Handled applyRet}
      {r : applyRet} {rs : List applyRet} (hrec : applyRecord env kv p = some h)
      (hret : h.ret = .ok r) (rest : Handles env h.kv ps kv' rs) :
      Handles env kv (p :: ps) kv' (r :: rs)

/-! ## Snapshot ingest on a store whose writes may fail -/

/-- The call `kvStore.Write(ctx, batch, nil)` on a store whose writes may fail:
`fault` is the error that this call returns, if any.  A write that fails is
taken to write nothing (a write batch goes in as a whole or not at all). -/
def KVStore.WriteF (s : KVStore) (batch : List BatchOp) (fault : Option Err) :
    KVStore × Option Err :=
  match fault with
  | some e => (s, some e)
  | none => s.Write batch

/-- The loop `for { batch, err := snap.ReadBatch() ... }` of `ApplySnapshot` on a
store whose writes may fail: `faults` holds, for the calls of `Write` in turn,
the error each returns, if any (none once the list is used up). -/
def readBatchesF : List (Option (List BatchOp) × Option Err) → List (Option Err) → KVStore →
    KVStore × Option Err
  | [], _, kv => (kv, none)
  | (batch, err) :: rest, faults, kv =>
    if err ≠ none ∧ err ≠ some Err.eof then (kv, err)
    else
      match batch with
      | some b =>
        match kv.WriteF b (faults.headD none) with
        | (kv', some e) => (kv', some e)
        | (kv', none) =>
          if err = some Err.eof then (kv', none) else readBatchesF rest faults.tail kv'
      | none => if err = some Err.eof then (kv, none) else readBatchesF rest faults kv

/-- The method `shardSM.ApplySnapshot` on a store whose writes may fail: `faults`
holds, for the calls of `kvStore.Write` in turn (the range delete first), the
error each returns, if any.  With no fault it is `ApplySnapshot`. -/
def ApplySnapshotF (env : Env) (faults : List (Option Err)) (s : Shard)
    (header : RaftSnapshotHeader) (snap : Snapshot) : Shard × Option Err :=
  match prepRWCheck s with
  | (s0, some e) => if e = Err.shardStopWriting then (s0, none) else (s0, some e)
  | (s1, none) =>
    let body : Shard × Option Err :=
      match s1.kv.WriteF [BatchOp.deleteRange env.shardDataPrefix env.shardDataMaxPrefix]
          (faults.headD none) with
      | (kv1, some e) => ({ s1 with kv := kv1 }, some e)
      | (kv1, none) =>
        match readBatchesF snap.reads faults.tail kv1 with
        | (kv2, some e) => ({ s1 with kv := kv2 }, some e)
        | (kv2, none) =>
          let s2 := setAppliedIndex { s1 with kv := kv2 } snap.index
          match unitsFromMembers env header.Members [] with
          | .error e => (s2, some e)
          | .ok units =>
            let s3 := { s2 with Units := units }
            match env.saveShardInfo s3.Units s3.AppliedIndex with
            | some e => if e = Err.shardStopWriting then (s3, none) else (s3, some e)
            | none => ({ s3 with savedInfo := some (s3.Units, s3.AppliedIndex) }, none)
    (prepRWCheckDone body.1, body.2)

/-- The batches that the read loop of `ApplySnapshot` has written when it ends,
on a store whose writes may fail: those answered by `ReadBatch` up to the first
`io.EOF`, the first other error, or the first write that fails. -/
def writtenBatches : List (Option (List BatchOp) × Option Err) → List (Option Err) →
    List (List BatchOp)
  | [], _ => []
  | (batch, err) :: rest, faults =>
    if err ≠ none ∧ err ≠ some Err.eof then []
    else
      match batch with
      | some b =>
        match faults.headD none with
        | some _ => []
        | none => b :: (if err = some Err.eof then [] else writtenBatches rest faults.tail)
      | none => if err = some Err.eof then [] else writtenBatches rest faults

/-- The contents of a store with the keys of the shard's range deleted. -/
def rangeDeleted (env : Env) (d : Bytes → Option Bytes) : Bytes → Option Bytes :=
  fun k => if inRange env.shardDataPrefix env.shardDataMaxPrefix k then none else d k

end Storage

/-! # Theorems -/

namespace Storage

/-! ## Facts about the codecs of the sample environment -/

theorem sampleDecodeFields_encode (fs : List Field) :
    ∀ fuel, fs.length ≤ fuel → sampleDecodeFields fuel (sampleEncodeFields fs) = .ok fs := by
  induction fs with
  | nil => intro fuel _; cases fuel <;> rfl
  | cons f fs ih =>
    intro fuel hf
    cases fuel with
    | zero => simp at hf
    | succ fuel =>
      have hlen : fs.length ≤ fuel := by simpa using hf
      simp [sampleEncodeFields, sampleDecodeFields, ih fuel hlen]

theorem sampleEncodeFields_length (fs : List Field) :
    fs.length ≤ (sampleEncodeFields fs).length := by
  induction fs with
  | nil => simp [sampleEncodeFields]
  | cons f fs ih => simp [sampleEncodeFields]; omega

theorem sampleEnv_itemRoundTrip : sampleEnv.ItemRoundTrip := by
  intro it b h
  simp only [sampleEnv, sampleMarshalItem, Except.ok.injEq] at h
  subst h
  have hl := sampleEncodeFields_length it.Fields
  have hd := sampleDecodeFields_encode it.Fields
    (it.ID.length + (sampleEncodeFields it.Fields).length) (by omega)
  simp [sampleEnv, sampleUnmarshalItem, hd]

theorem sampleEnv_kvKey (key value : Bytes) : sampleEnv.kvKey (sampleKV key value) = key := by
  simp [sampleEnv, sampleKV]

theorem sampleEnv_kvValue (key value : Bytes) : sampleEnv.kvValue (sampleKV key value) = value := by
  simp [sampleEnv, sampleKV]

/-! ## The apply loop, record by record -/

theorem applyLoop_cons (env : Env) (p : ProposalData) (ps : List ProposalData) (i : Nat)
    (kv : KVStore) (rets : List (Option applyRet)) :
    applyLoop env (p :: ps) i kv rets =
      match applyRecord env kv p with
      | none => (kv, rets, Exit.panicked p.Op)
      | some h =>
        match h.ret with
        | .error e => (h.kv, rets, Exit.failed e)
        | .ok r => applyLoop env ps (i + 1) h.kv (rets.set i (some r)) := by
  simp only [applyLoop, applyRecord]
  split_ifs <;> simp only [] <;> split <;> simp_all [Except.map]

theorem applyLoop_nil (env : Env) (i : Nat) (kv : KVStore) (rets : List (Option applyRet)) :
    applyLoop env [] i kv rets = (kv, rets, Exit.done) := by
  simp [applyLoop]

theorem applyLoop_append (env : Env) (pre rest : List ProposalData) :
    ∀ (i : Nat) (kv : KVStore) (rets : List (Option applyRet)),
      applyLoop env (pre ++ rest) i kv rets =
        match applyLoop env pre i kv rets with
        | (kv', rets', Exit.done) => applyLoop env rest (i + pre.length) kv' rets'
        | other => other := by
  induction pre with
  | nil => intro i kv rets; simp [applyLoop_nil]
  | cons p pre ih =>
    intro i kv rets
    simp only [List.cons_append, applyLoop_cons, List.length_cons]
    cases hrec : applyRecord env kv p with
    | none => simp
    | some h =>
      cases hret : h.ret with
      | error e => simp [hret]
      | ok r =>
        have : i + 1 + pre.length = i + (pre.length + 1) := by omega
        simp only [hret, ih, this]

theorem applyLoop_length (env : Env) (pd : List ProposalData) :
    ∀ (i : Nat) (kv : KVStore) (rets : List (Option applyRet)),
      (applyLoop env pd i kv rets).2.1.length = rets.length := by
  induction pd with
  | nil => intro i kv rets; simp [applyLoop_nil]
  | cons p pd ih =>
    intro i kv rets
    rw [applyLoop_cons]
    cases hrec : applyRecord env kv p with
    | none => simp
    | some h =>
      cases hret : h.ret with
      | error e => simp [hret]
      | ok r => simp [hret, ih]

/-- Entries of the result slice outside the window of the loop are not
touched. -/
theorem applyLoop_outside (env : Env) (pd : List ProposalData) :
    ∀ (i : Nat) (kv : KVStore) (rets : List (Option applyRet)) (j : Nat),
      j < i ∨ i + pd.length ≤ j → (applyLoop env pd i kv rets).2.1[j]? = rets[j]? := by
  induction pd with
  | nil => intro i kv rets j _; simp [applyLoop_nil]
  | cons p pd ih =>
    intro i kv rets j hj
    rw [applyLoop_cons]
    cases hrec : applyRecord env kv p with
    | none => simp
    | some h =>
      cases hret : h.ret with
      | error e => simp [hret]
      | ok r =>
        simp only [hret]
        rw [ih (i + 1) h.kv _ j (by simp only [List.length_cons] at hj; omega)]
        rw [List.getElem?_set_ne]
        simp only [List.length_cons] at hj
        omega

/-- When the loop is left normally, every entry of its window is filled. -/
theorem applyLoop_done_filled (env : Env) (pd : List ProposalData) :
    ∀ (i : Nat) (kv : KVStore) (rets : List (Option applyRet)) (j : Nat),
      (applyLoop env pd i kv rets).2.2 = Exit.done → i ≤ j → j < i + pd.length →
      j < rets.length → ∃ r, (applyLoop env pd i kv rets).2.1[j]? = some (some r) := by
  induction pd with
  | nil => intro i kv rets j _ h1 h2; simp at h2; omega
  | cons p pd ih =>
    intro i kv rets j hdone h1 h2 h3
    rw [applyLoop_cons] at hdone ⊢
    cases hrec : applyRecord env kv p with
    | none => simp [hrec] at hdone
    | some h =>
      cases hret : h.ret with
      | error e => simp [hrec, hret] at hdone
      | ok r =>
        simp only [hrec, hret] at hdone ⊢
        by_cases hji : j = i
        · subst hji
          refine ⟨r, ?_⟩
          rw [applyLoop_outside env pd (j + 1) h.kv _ j (Or.inl (by omega))]
          simp [List.getElem?_set, h3]
        · exact ih (i + 1) h.kv _ j hdone (by omega)
            (by simp only [List.length_cons] at h2; omega) (by simpa using h3)

/-- A loop that is left with an error handled a prefix of the records, failed
on the next one, and left the result slice as the prefix alone leaves it. -/
theorem applyLoop_failed (env : Env) (pd : List ProposalData) :
    ∀ (i : Nat) (kv kv' : KVStore) (rets rets' : List (Option applyRet)) (e : Err),
      applyLoop env pd i kv rets = (kv', rets', Exit.failed e) →
      ∃ pre p post kvp h, pd = pre ++ p :: post ∧
        applyLoop env pre i kv rets = (kvp, rets', Exit.done) ∧
        applyRecord env kvp p = some h ∧ h.ret = .error e ∧ kv' = h.kv := by
  induction pd with
  | nil => intro i kv kv' rets rets' e h; simp [applyLoop_nil] at h
  | cons p pd ih =>
    intro i kv kv' rets rets' e hl
    rw [applyLoop_cons] at hl
    cases hrec : applyRecord env kv p with
    | none => simp [hrec] at hl
    | some h =>
      cases hret : h.ret with
      | error e' =>
        simp only [hrec, hret, Prod.mk.injEq, Exit.failed.injEq] at hl
        obtain ⟨h1, h2, h3⟩ := hl
        subst h2 h3
        exact ⟨[], p, pd, kv, h, rfl, by simp [applyLoop_nil], hrec, hret, h1.symm⟩
      | ok r =>
        simp only [hrec, hret] at hl
        obtain ⟨pre, q, post, kvp, h', hpd, hpre, hq, hqe, hkv⟩ := ih _ _ _ _ _ _ hl
        refine ⟨p :: pre, q, post, kvp, h', by simp [hpd], ?_, hq, hqe, hkv⟩
        rw [applyLoop_cons]
        simp [hrec, hret, hpre]

/-- A loop that panics handled a prefix of the records and met a record of an
unknown operation next. -/
theorem applyLoop_panicked (env : Env) (pd : List ProposalData) :
    ∀ (i : Nat) (kv kv' : KVStore) (rets rets' : List (Option applyRet)) (op : Nat),
      applyLoop env pd i kv rets = (kv', rets', Exit.panicked op) →
      ∃ pre p post, pd = pre ++ p :: post ∧
        applyLoop env pre i kv rets = (kv', rets', Exit.done) ∧
        applyRecord env kv' p = none ∧ op = p.Op := by
  induction pd with
  | nil => intro i kv kv' rets rets' op h; simp [applyLoop_nil] at h
  | cons p pd ih =>
    intro i kv kv' rets rets' op hl
    rw [applyLoop_cons] at hl
    cases hrec : applyRecord env kv p with
    | none =>
      simp only [hrec, Prod.mk.injEq, Exit.panicked.injEq] at hl
      obtain ⟨h1, h2, h3⟩ := hl
      subst h1 h2 h3
      exact ⟨[], p, pd, rfl, by simp [applyLoop_nil], hrec, rfl⟩
    | some h =>
      cases hret : h.ret with
      | error e' => simp [hrec, hret] at hl
      | ok r =>
        simp only [hrec, hret] at hl
        obtain ⟨pre, q, post, hpd, hpre, hq, hop⟩ := ih _ _ _ _ _ _ hl
        refine ⟨p :: pre, q, post, by simp [hpd], ?_, hq, hop⟩
        rw [applyLoop_cons]
        simp [hrec, hret, hpre]

theorem applyRecord_eq_none (env : Env) (kv : KVStore) (p : ProposalData) :
    applyRecord env kv p = none ↔ ¬ knownOp p := by
  unfold applyRecord knownOp raftOpInsertItem raftOpUpdateItem raftOpInsertBlob raftOpUpdateBlob
    raftOpDeleteBlob raftOpDeleteItem
  split_ifs <;> simp <;> omega

/-- The three ways `Apply(batch, index)` ends, read back from its outcome: when
it returns without error there is one filled result per record and
`AppliedIndex` is `index`; when it returns the error `e`, a prefix of the batch
was handled, the next record failed with `e`, the results and the store are
those left by the prefix and the failing handler and `AppliedIndex` is what it
was; when it panics it stopped at a record of an unknown operation. -/
theorem Apply_outcome (env : Env) (s : Shard) (pd : List ProposalData) (index : Nat) :
    match Apply env s pd index with
    | (s', Outcome.returned rets none) =>
      rets.length = pd.length ∧ (∀ j, j < pd.length → ∃ r, rets[j]? = some (some r)) ∧
        getAppliedIndex s' = index ∧
        applyLoop env pd 0 s.kv (List.replicate pd.length none) = (s'.kv, rets, Exit.done)
    | (s', Outcome.returned rets (some e)) =>
      rets.length = pd.length ∧ getAppliedIndex s' = getAppliedIndex s ∧
        ∃ pre p post kvp h, pd = pre ++ p :: post ∧
          applyLoop env pre 0 s.kv (List.replicate pd.length none) = (kvp, rets, Exit.done) ∧
          applyRecord env kvp p = some h ∧ h.ret = .error e ∧ s'.kv = h.kv ∧
          ∀ j, pre.length ≤ j → j < pd.length → rets[j]? = some none
    | (s', Outcome.panicked op) =>
      getAppliedIndex s' = getAppliedIndex s ∧
        ∃ pre p post rets, pd = pre ++ p :: post ∧
          applyLoop env pre 0 s.kv (List.replicate pd.length none) = (s'.kv, rets, Exit.done) ∧
          ¬ knownOp p ∧ op = p.Op := by
  unfold Apply
  have hlen := applyLoop_length env pd 0 s.kv (List.replicate pd.length none)
  rcases hl : applyLoop env pd 0 s.kv (List.replicate pd.length none) with ⟨kv, rets, ex⟩
  rw [hl] at hlen
  simp only [List.length_replicate] at hlen
  cases ex with
  | done =>
    refine ⟨hlen, ?_, rfl, rfl⟩
    intro j hj
    have := applyLoop_done_filled env pd 0 s.kv (List.replicate pd.length none) j
      (by rw [hl]) (Nat.zero_le _) (by omega) (by simpa using hj)
    rw [hl] at this
    exact this
  | failed e =>
    refine ⟨hlen, rfl, ?_⟩
    obtain ⟨pre, p, post, kvp, h, hpd, hpre, hp, he, hkv⟩ := applyLoop_failed env pd _ _ _ _ _ _ hl
    refine ⟨pre, p, post, kvp, h, hpd, hpre, hp, he, hkv, ?_⟩
    intro j hj1 hj2
    have := applyLoop_outside env pre 0 s.kv (List.replicate pd.length none) j (Or.inr (by omega))
    rw [hpre] at this
    simp only [this]
    simp [List.getElem?_replicate, hj2]
  | panicked op =>
    refine ⟨rfl, ?_⟩
    obtain ⟨pre, p, post, hpd, hpre, hp, hop⟩ := applyLoop_panicked env pd _ _ _ _ _ _ hl
    exact ⟨pre, p, post, rets, hpd, hpre, (applyRecord_eq_none env kv p).1 hp, hop⟩

/-- C8. A record whose operation code is not one of the six known ones is fatal:
`Apply` never returns normally on a batch that holds one, it leaves
`AppliedIndex` as it was, and it panics on that record when the records before
it were handled without error. -/
theorem Apply_unknown_op (env : Env) (s : Shard) (pre post : List ProposalData)
    (p : ProposalData) (index : Nat) (hop : ¬ knownOp p) :
    getAppliedIndex (Apply env s (pre ++ p :: post) index).1 = getAppliedIndex s ∧
      (∀ rets, (Apply env s (pre ++ p :: post) index).2 ≠ Outcome.returned rets none) ∧
      ((applyLoop env pre 0 s.kv (List.replicate (pre ++ p :: post).length none)).2.2 = Exit.done →
        (Apply env s (pre ++ p :: post) index).2 = Outcome.panicked p.Op) := by
  have hnone := fun kv => (applyRecord_eq_none env kv p).2 hop
  have happ := applyLoop_append env pre (p :: post) 0 s.kv
    (List.replicate (pre ++ p :: post).length none)
  unfold Apply
  rcases hpre : applyLoop env pre 0 s.kv (List.replicate (pre ++ p :: post).length none)
    with ⟨kv, rets, ex⟩
  rw [hpre] at happ
  cases ex with
  | done =>
    simp only [applyLoop_cons, hnone] at happ
    rw [happ]
    simp [getAppliedIndex]
  | failed e =>
    simp only at happ
    rw [happ]
    simp [getAppliedIndex]
  | panicked op =>
    simp only at happ
    rw [happ]
    simp [getAppliedIndex]

/-- C8, at a batch of the sample environment: an insert followed by a record
with operation code 9. -/
theorem Apply_unknown_op_witness :
    ¬ knownOp (ProposalData.mk 9 []) ∧
      getAppliedIndex (Apply sampleEnv (sampleShard emptyKV)
        ([ProposalData.mk raftOpInsertItem (sampleKV [1, 5] [7])] ++ ProposalData.mk 9 [] :: []) 4).1 = 0 ∧
      (Apply sampleEnv (sampleShard emptyKV)
        ([ProposalData.mk raftOpInsertItem (sampleKV [1, 5] [7])] ++ ProposalData.mk 9 [] :: []) 4).2 =
          Outcome.panicked 9 :=
  ⟨by decide,
    (Apply_unknown_op sampleEnv (sampleShard emptyKV)
      [ProposalData.mk raftOpInsertItem (sampleKV [1, 5] [7])] [] (ProposalData.mk 9 []) 4
      (by decide)).1,
    (Apply_unknown_op sampleEnv (sampleShard emptyKV)
      [ProposalData.mk raftOpInsertItem (sampleKV [1, 5] [7])] [] (ProposalData.mk 9 []) 4
      (by decide)).2.2 (by decide)⟩

/-! ## The field merge of `applyUpdateItem` -/

theorem fieldIDs_assignLast (c : Nat → Option Bytes) (fs : List Field) :
    fieldIDs (assignLast c fs) = fieldIDs fs := by
  induction fs with
  | nil => rfl
  | cons f fs ih =>
    simp only [fieldIDs, assignLast, List.map_cons, List.cons.injEq] at ih ⊢
    refine ⟨?_, ih⟩
    split_ifs
    · rfl
    · unfold assign; split <;> rfl

theorem assignLast_congr (c c' : Nat → Option Bytes) (fs : List Field)
    (h : ∀ id ∈ fieldIDs fs, c id = c' id) : assignLast c fs = assignLast c' fs := by
  induction fs with
  | nil => rfl
  | cons f fs ih =>
    simp only [assignLast]
    rw [ih (fun id hid => h id (by simp [fieldIDs] at hid ⊢; exact Or.inr hid))]
    have : c f.ID = c' f.ID := h f.ID (by simp [fieldIDs])
    simp [assign, this]

theorem assignLast_none (fs : List Field) : assignLast (fun _ => none) fs = fs := by
  induction fs with
  | nil => rfl
  | cons f fs ih => simp [assignLast, ih, assign]

theorem buildFieldMap_not_mem (fs : List Field) :
    ∀ (i : Nat) (m : Nat → Option Nat) (id : Nat), id ∉ fieldIDs fs →
      buildFieldMap fs i m id = m id := by
  induction fs with
  | nil => intro i m id _; rfl
  | cons f fs ih =>
    intro i m id hid
    simp only [fieldIDs, List.map_cons, List.mem_cons, not_or] at hid
    simp only [buildFieldMap]
    rw [ih _ _ _ hid.2]
    simp [hid.1]

/-- The index `fieldMap` holds for an ID of the stored item is that of the last
field with this ID: writing a value there is assigning it to that ID. -/
theorem buildFieldMap_mem (fs : List Field) :
    ∀ (i : Nat) (m : Nat → Option Nat) (id : Nat), id ∈ fieldIDs fs →
      ∃ j, buildFieldMap fs i m id = some (i + j) ∧
        ∀ (c : Nat → Option Bytes) (tail : List Field) (v : Bytes),
          setFieldValue (assignLast c fs ++ tail) j v =
            assignLast (fun x => if x = id then some v else c x) fs ++ tail := by
  induction fs with
  | nil => intro i m id hid; simp [fieldIDs] at hid
  | cons f fs ih =>
    intro i m id hid
    by_cases hmem : id ∈ fieldIDs fs
    · obtain ⟨j, hj, hset⟩ := ih (i + 1) (fun x => if x = f.ID then some i else m x) id hmem
      refine ⟨j + 1, ?_, ?_⟩
      · simp only [buildFieldMap]; rw [hj]; congr 1; omega
      · intro c tail v
        simp only [assignLast, List.cons_append, setFieldValue, List.append_eq]
        rw [hset c tail v]
        congr 1
        by_cases h1 : f.ID ∈ fieldIDs fs
        · simp [h1]
        · have hne : f.ID ≠ id := fun h => h1 (h ▸ hmem)
          simp [h1, assign, hne]
    · have hid' : f.ID = id := by
        simp only [fieldIDs, List.map_cons, List.mem_cons] at hid
        rcases hid with h | h
        · exact h.symm
        · exact absurd h hmem
      refine ⟨0, ?_, ?_⟩
      · simp only [buildFieldMap]
        rw [buildFieldMap_not_mem fs _ _ id hmem]
        simp [hid']
      · intro c tail v
        subst hid'
        simp only [assignLast, hmem, if_false, List.cons_append, setFieldValue]
        rw [assignLast_congr c (fun x => if x = f.ID then some v else c x) fs
          (fun id hid => by
            have : id ≠ f.ID := fun h => hmem (h ▸ hid)
            simp [this])]
        congr 1
        simp only [assign, if_true]
        split <;> rfl

theorem override_congr (us : List Field) :
    ∀ (c c' : Nat → Option Bytes) (id : Nat), c id = c' id →
      override c us id = override c' us id := by
  induction us with
  | nil => intro c c' id h; exact h
  | cons u us ih =>
    intro c c' id h
    simp only [override]
    apply ih
    simp [h]

/-- The loop of `applyUpdateItem` in closed form, from any stage of the loop. -/
theorem updateFields_closed (z : List Field) (us : List Field) :
    ∀ (c : Nat → Option Bytes) (tail : List Field),
      updateFields (buildFieldMap z 0 (fun _ => none)) us (assignLast c z ++ tail) =
        assignLast (override c us) z ++ (tail ++ us.filter fun u => u.ID ∉ fieldIDs z) := by
  induction us with
  | nil => intro c tail; simp [updateFields, override]
  | cons u us ih =>
    intro c tail
    by_cases hmem : u.ID ∈ fieldIDs z
    · obtain ⟨j, hj, hset⟩ := buildFieldMap_mem z 0 (fun _ => none) u.ID hmem
      simp only [updateFields, hj, Nat.zero_add, hset c tail u.Value]
      rw [ih]
      simp [override, hmem]
    · have hnone := buildFieldMap_not_mem z 0 (fun _ => none) u.ID hmem
      simp only [updateFields, hnone]
      rw [List.append_assoc, ih]
      simp only [override]
      rw [assignLast_congr (override (fun id => if id = u.ID then some u.Value else c id) us)
        (override c us) z ?_]
      · simp [hmem]
      · intro id hid
        apply override_congr
        have : id ≠ u.ID := fun h => hmem (h ▸ hid)
        simp [this]

theorem lastValue_cons (u : Field) (us : List Field) (id : Nat) :
    lastValue (u :: us) id =
      match lastValue us id with
      | some v => some v
      | none => if u.ID = id then some u.Value else none := by
  unfold lastValue
  by_cases h : u.ID = id
  · simp only [List.filter_cons, h, decide_True, if_true]
    cases hl : (us.filter fun u => decide (u.ID = id)) with
    | nil => simp
    | cons a l =>
      rw [List.getLast?_cons_cons, List.getLast?_eq_getLast _ (List.cons_ne_nil a l)]
      rfl
  · rw [List.filter_cons_of_neg (by simpa using h)]
    generalize Option.map (fun u : Field => u.Value)
      (us.filter fun u => decide (u.ID = id)).getLast? = o
    cases o <;> simp [h]

theorem override_eq_lastValue (us : List Field) :
    ∀ (c : Nat → Option Bytes) (id : Nat),
      override c us id = match lastValue us id with
        | some v => some v
        | none => c id := by
  induction us with
  | nil => intro c id; simp [override, lastValue]
  | cons u us ih =>
    intro c id
    simp only [override, ih, lastValue_cons]
    cases lastValue us id with
    | some v => rfl
    | none =>
      by_cases h : u.ID = id
      · simp [h]
      · have : id ≠ u.ID := fun h' => h h'.symm
        simp [h, this]

/-- The field merge of `applyUpdateItem` in closed form: the last field of each
stored ID takes the last update value for that ID, and the update fields of new
IDs are appended. -/
theorem mergeItem_fields (item pi : Item) :
    (mergeItem item pi).Fields =
      assignLast (lastValue pi.Fields) item.Fields ++
        pi.Fields.filter fun u => u.ID ∉ fieldIDs item.Fields := by
  have h := updateFields_closed item.Fields pi.Fields (fun _ => none) []
  rw [assignLast_none, List.append_nil, List.nil_append] at h
  simp only [mergeItem, h]
  congr 1
  apply assignLast_congr
  intro id _
  rw [override_eq_lastValue]
  cases lastValue pi.Fields id <;> rfl

theorem assignLast_nodup (c : Nat → Option Bytes) (fs : List Field) (h : (fieldIDs fs).Nodup) :
    assignLast c fs = fs.map (assign c) := by
  induction fs with
  | nil => rfl
  | cons f fs ih =>
    simp only [fieldIDs, List.map_cons, List.nodup_cons] at h
    simp only [assignLast, List.map_cons]
    rw [ih h.2]
    simp [fieldIDs, h.1]

theorem mergeItem_eq_spec (item pi : Item) (h : (fieldIDs item.Fields).Nodup) :
    mergeItem item pi = { item with Fields := mergeFieldsSpec item.Fields pi.Fields } := by
  have hf := mergeItem_fields item pi
  have hid : (mergeItem item pi).ID = item.ID := rfl
  cases hm : mergeItem item pi with
  | mk ID Fields =>
    rw [hm] at hf hid
    simp only at hf hid
    subst hf hid
    simp only [mergeFieldsSpec, assignLast_nodup _ _ h, Item.mk.injEq, true_and]
    congr 1

/-- C7. `applyUpdateItem` merges fields by ID: on a stored item whose field IDs
are pairwise distinct, what it marshals and writes back under the key is the
item of the specification's merge - the stored fields in their order, each with
the value of the last update field of its ID if there is one, then the update
fields of IDs the stored item does not have, in their order. -/
theorem applyUpdateItem_merges_by_id (env : Env) (kv : KVStore) (data stored : Bytes)
    (item pi : Item) (hpi : env.unmarshalItem (env.kvValue data) = .ok pi)
    (hget : kv.data (env.kvKey data) = some stored)
    (hitem : env.unmarshalItem stored = .ok item)
    (hnodup : (fieldIDs item.Fields).Nodup) :
    mergeItem item pi = { item with Fields := mergeFieldsSpec item.Fields pi.Fields } ∧
      ∀ written, env.marshalItem ⟨item.ID, mergeFieldsSpec item.Fields pi.Fields⟩ = .ok written →
        (applyUpdateItem env kv data).ret = .ok () ∧
        (applyUpdateItem env kv data).kv.data (env.kvKey data) = some written ∧
        (∀ k, k ≠ env.kvKey data → (applyUpdateItem env kv data).kv.data k = kv.data k) ∧
        (applyUpdateItem env kv data).kv.writes =
          kv.writes ++ [KVWrite.setRaw (env.kvKey data) written] := by
  have hm := mergeItem_eq_spec item pi hnodup
  refine ⟨hm, ?_⟩
  intro written hw
  simp only [] at hm
  rw [← hm] at hw
  simp only [applyUpdateItem, hpi, KVStore.Get, hget, hitem, hw, KVStore.SetRaw]
  refine ⟨?_, ?_, ?_, ?_⟩
  · trivial
  · simp
  · intro k hk
    simp [hk]
  · trivial

/-- C7, at the sample item: field 2 takes the last update value, field 1 keeps
its value, field 3 is appended. -/
theorem applyUpdateItem_merges_by_id_witness :
    mergeItem sampleStored sampleUpdate = ⟨[5], [⟨1, [10]⟩, ⟨2, [22]⟩, ⟨3, [30]⟩]⟩ ∧
      (applyUpdateItem sampleEnv sampleItemKV
          (sampleKV [1, 5] (sampleItemBytes sampleUpdate))).kv.data [1, 5] =
        some (sampleItemBytes ⟨[5], [⟨1, [10]⟩, ⟨2, [22]⟩, ⟨3, [30]⟩]⟩) :=
  have h := applyUpdateItem_merges_by_id sampleEnv sampleItemKV
    (sampleKV [1, 5] (sampleItemBytes sampleUpdate)) (sampleItemBytes sampleStored)
    sampleStored sampleUpdate (by rfl) (by rfl) (by rfl) (by decide)
  ⟨h.1.trans (by decide), (h.2 _ (by rfl)).2.1⟩

/-! ## The handlers, by what the store holds under the key -/

theorem applyInsertItem_absent (env : Env) (kv : KVStore) (d : Bytes)
    (h : kv.data (env.kvKey d) = none) :
    applyInsertItem env kv d =
      ⟨(kv.SetRaw (env.kvKey d) (env.kvValue d)).1, [getRaw, setRaw], .ok ()⟩ := by
  simp [applyInsertItem, KVStore.Get, KVStore.SetRaw, h]

theorem applyInsertItem_present (env : Env) (kv : KVStore) (d vg : Bytes)
    (h : kv.data (env.kvKey d) = some vg) :
    applyInsertItem env kv d = ⟨kv, [getRaw], .ok ()⟩ := by
  simp [applyInsertItem, KVStore.Get, h]

theorem applyInsertBlob_absent (env : Env) (kv : KVStore) (d : Bytes)
    (h : kv.data (env.kvKey d) = none) :
    applyInsertBlob env kv d =
      ⟨(kv.SetRaw (env.kvKey d) (env.kvValue d)).1, [getRaw, setRaw],
        env.unmarshalBlob (env.kvValue d)⟩ := by
  simp only [applyInsertBlob, KVStore.Get, KVStore.SetRaw, h, if_true]
  cases env.unmarshalBlob (env.kvValue d) <;> rfl

theorem applyInsertBlob_present (env : Env) (kv : KVStore) (d vg : Bytes)
    (h : kv.data (env.kvKey d) = some vg) :
    applyInsertBlob env kv d = ⟨kv, [getRaw], env.unmarshalBlob vg⟩ := by
  simp only [applyInsertBlob, KVStore.Get, h]
  cases env.unmarshalBlob vg <;> rfl

theorem applyUpdateBlob_absent (env : Env) (kv : KVStore) (d : Bytes)
    (h : kv.data (env.kvKey d) = none) :
    applyUpdateBlob env kv d = ⟨kv, [getRaw], .ok ()⟩ := by
  simp [applyUpdateBlob, KVStore.Get, h]

theorem applyUpdateBlob_same (env : Env) (kv : KVStore) (d : Bytes)
    (h : kv.data (env.kvKey d) = some (env.kvValue d)) :
    applyUpdateBlob env kv d = ⟨kv, [getRaw], .ok ()⟩ := by
  simp [applyUpdateBlob, KVStore.Get, h]

theorem applyUpdateBlob_other (env : Env) (kv : KVStore) (d vg : Bytes)
    (h : kv.data (env.kvKey d) = some vg) (hne : env.kvValue d ≠ vg) :
    applyUpdateBlob env kv d =
      ⟨(kv.SetRaw (env.kvKey d) (env.kvValue d)).1, [getRaw, setRaw], .ok ()⟩ := by
  simp [applyUpdateBlob, KVStore.Get, KVStore.SetRaw, h, hne]

theorem applyDeleteRaw_absent (env : Env) (kv : KVStore) (d : Bytes)
    (h : kv.data d = none) :
    applyDeleteRaw env kv d = ⟨kv, [getRaw], .ok ()⟩ := by
  simp [applyDeleteRaw, KVStore.Get, h]

theorem applyDeleteRaw_present (env : Env) (kv : KVStore) (d vg : Bytes)
    (h : kv.data d = some vg) :
    applyDeleteRaw env kv d = ⟨(kv.Delete d).1, [getRaw, delRaw], .ok ()⟩ := by
  simp [applyDeleteRaw, KVStore.Get, KVStore.Delete, h]

theorem applyUpdateItem_undecodable (env : Env) (kv : KVStore) (d : Bytes) (e : Err)
    (hpi : env.unmarshalItem (env.kvValue d) = .error e) :
    applyUpdateItem env kv d = ⟨kv, [], .error e⟩ := by
  simp [applyUpdateItem, hpi]

theorem applyUpdateItem_absent (env : Env) (kv : KVStore) (d : Bytes) (pi : Item)
    (hpi : env.unmarshalItem (env.kvValue d) = .ok pi) (h : kv.data (env.kvKey d) = none) :
    applyUpdateItem env kv d = ⟨kv, [], .ok ()⟩ := by
  simp [applyUpdateItem, KVStore.Get, hpi, h]

theorem applyUpdateItem_present (env : Env) (kv : KVStore) (d vg : Bytes) (pi : Item)
    (hpi : env.unmarshalItem (env.kvValue d) = .ok pi) (h : kv.data (env.kvKey d) = some vg) :
    applyUpdateItem env kv d =
      match env.unmarshalItem vg with
      | .error e => ⟨kv, [], .error e⟩
      | .ok item =>
        match env.marshalItem (mergeItem item pi) with
        | .error e => ⟨kv, [], .error e⟩
        | .ok data' => ⟨(kv.SetRaw (env.kvKey d) data').1, [], .ok ()⟩ := by
  simp only [applyUpdateItem, KVStore.Get, hpi, h]
  cases env.unmarshalItem vg with
  | error e => rfl
  | ok item =>
    simp only []
    cases env.marshalItem (mergeItem item pi) <;> rfl

theorem SetRaw_data (kv : KVStore) (key value k : Bytes) :
    (kv.SetRaw key value).1.data k = if k = key then some value else kv.data k := rfl

theorem Delete_data (kv : KVStore) (key k : Bytes) :
    (kv.Delete key).1.data k = if k = key then none else kv.data k := rfl

/-! ## Handlers and the key they address -/

/-- A handler touches the store under the key of its record only, and what it
leaves there when it returns no error is `recordEffect`; it returns an error
exactly when `recordEffect` has no value. -/
theorem applyRecord_effect (env : Env) (kv : KVStore) (p : ProposalData)
    (h : Handled applyRet) (hrec : applyRecord env kv p = some h) :
    (∀ k, k ≠ recordKey env p → h.kv.data k = kv.data k) ∧
      match h.ret with
      | .ok _ => recordEffect env p (kv.data (recordKey env p)) = some (h.kv.data (recordKey env p))
      | .error _ => recordEffect env p (kv.data (recordKey env p)) = none := by
  unfold applyRecord at hrec
  split_ifs at hrec with h1 h2 h3 h4 h5
  · have hk : ¬ (p.Op = raftOpDeleteBlob ∨ p.Op = raftOpDeleteItem) := by
      rw [h1]; decide
    have hkey : recordKey env p = env.kvKey p.Data := by rw [recordKey, if_neg hk]
    simp only [Option.some.injEq] at hrec
    subst hrec
    rw [hkey]
    simp only [recordEffect, if_pos h1]
    cases hx : kv.data (env.kvKey p.Data) with
    | none =>
      rw [applyInsertItem_absent env kv p.Data hx]
      simp only [Except.map, SetRaw_data, if_true, and_true]
      intro k hk; simp [hk]
    | some vg =>
      rw [applyInsertItem_present env kv p.Data vg hx]
      simp [Except.map, hx]
  · have hk : ¬ (p.Op = raftOpDeleteBlob ∨ p.Op = raftOpDeleteItem) := by
      rw [h2]; decide
    have hkey : recordKey env p = env.kvKey p.Data := by rw [recordKey, if_neg hk]
    simp only [Option.some.injEq] at hrec
    subst hrec
    rw [hkey]
    simp only [recordEffect, if_neg h1, if_pos h2]
    cases hpi : env.unmarshalItem (env.kvValue p.Data) with
    | error e =>
      rw [applyUpdateItem_undecodable env kv p.Data e hpi]
      simp [Except.map]
    | ok pi =>
      cases hx : kv.data (env.kvKey p.Data) with
      | none =>
        rw [applyUpdateItem_absent env kv p.Data pi hpi hx]
        simp [Except.map, hx]
      | some vg =>
        rw [applyUpdateItem_present env kv p.Data vg pi hpi hx]
        cases hit : env.unmarshalItem vg with
        | error e => simp [Except.map, hit]
        | ok item =>
          cases hm : env.marshalItem (mergeItem item pi) with
          | error e => simp [Except.map, hit, hm]
          | ok d =>
            simp only [hit, hm, Except.map, SetRaw_data, if_true, and_true]
            intro k hk; simp [hk]
  · have hk : ¬ (p.Op = raftOpDeleteBlob ∨ p.Op = raftOpDeleteItem) := by
      rw [h3]; decide
    have hkey : recordKey env p = env.kvKey p.Data := by rw [recordKey, if_neg hk]
    simp only [Option.some.injEq] at hrec
    subst hrec
    rw [hkey]
    simp only [recordEffect, if_neg h1, if_neg h2, if_pos h3]
    cases hx : kv.data (env.kvKey p.Data) with
    | none =>
      rw [applyInsertBlob_absent env kv p.Data hx]
      cases hb : env.unmarshalBlob (env.kvValue p.Data) with
      | error e => simp only [hb, Except.map, SetRaw_data, if_true, and_true]; intro k hk; simp [hk]
      | ok b => simp only [hb, Except.map, SetRaw_data, if_true, and_true]; intro k hk; simp [hk]
    | some vg =>
      rw [applyInsertBlob_present env kv p.Data vg hx]
      cases hb : env.unmarshalBlob vg with
      | error e => simp [Except.map, hb]
      | ok b => simp [Except.map, hx, hb]
  · have hk : ¬ (p.Op = raftOpDeleteBlob ∨ p.Op = raftOpDeleteItem) := by
      rw [h4]; decide
    have hkey : recordKey env p = env.kvKey p.Data := by rw [recordKey, if_neg hk]
    simp only [Option.some.injEq] at hrec
    subst hrec
    rw [hkey]
    simp only [recordEffect, if_neg h1, if_neg h2, if_neg h3, if_pos h4]
    cases hx : kv.data (env.kvKey p.Data) with
    | none =>
      rw [applyUpdateBlob_absent env kv p.Data hx]
      simp [Except.map, hx]
    | some vg =>
      by_cases hv : env.kvValue p.Data = vg
      · rw [applyUpdateBlob_same env kv p.Data (by rw [hx, hv])]
        simp [Except.map, hx, hv]
      · rw [applyUpdateBlob_other env kv p.Data vg hx hv]
        simp only [hv, if_false, Except.map, SetRaw_data, if_true, and_true]
        intro k hk; simp [hk]
  · have hkey : recordKey env p = p.Data := by rw [recordKey, if_pos h5]
    simp only [Option.some.injEq] at hrec
    subst hrec
    rw [hkey]
    simp only [recordEffect, if_neg h1, if_neg h2, if_neg h3, if_neg h4, if_pos h5]
    cases hx : kv.data p.Data with
    | none =>
      rw [applyDeleteRaw_absent env kv p.Data hx]
      simp [Except.map, hx]
    | some vg =>
      rw [applyDeleteRaw_present env kv p.Data vg hx]
      simp only [Except.map, Delete_data, if_true, and_true]
      intro k hk; simp [hk]

/-! ## A batch, key by key -/

theorem applyRecord_known (env : Env) (kv : KVStore) (p : ProposalData) (hp : knownOp p) :
    ∃ h, applyRecord env kv p = some h := by
  cases hrec : applyRecord env kv p with
  | none => exact absurd hp ((applyRecord_eq_none env kv p).1 hrec)
  | some h => exact ⟨h, rfl⟩

theorem recordEffect_unknown (env : Env) (p : ProposalData) (x : Option Bytes)
    (hp : ¬ knownOp p) : recordEffect env p x = none := by
  unfold knownOp at hp
  unfold recordEffect raftOpInsertItem raftOpUpdateItem raftOpInsertBlob raftOpUpdateBlob
    raftOpDeleteBlob raftOpDeleteItem
  split_ifs <;> first | rfl | omega

/-- A batch that is handled without error leaves under every key what the
records addressing that key leave there. -/
theorem applyLoop_done_keyEffect (env : Env) (ps : List ProposalData) :
    ∀ (i : Nat) (kv kv' : KVStore) (rets rets' : List (Option applyRet)),
      applyLoop env ps i kv rets = (kv', rets', Exit.done) →
      ∀ κ, keyEffect env κ ps (kv.data κ) = some (kv'.data κ) := by
  induction ps with
  | nil =>
    intro i kv kv' rets rets' h κ
    simp only [applyLoop_nil, Prod.mk.injEq] at h
    rw [← h.1]; rfl
  | cons p ps ih =>
    intro i kv kv' rets rets' h κ
    rw [applyLoop_cons] at h
    cases hrec : applyRecord env kv p with
    | none => simp [hrec] at h
    | some hd =>
      have heff := applyRecord_effect env kv p hd hrec
      cases hret : hd.ret with
      | error e => simp [hrec, hret] at h
      | ok r =>
        simp only [hrec, hret] at h heff
        have hnext := ih _ _ _ _ _ h κ
        simp only [keyEffect]
        by_cases hk : recordKey env p = κ
        · subst hk
          simp only [if_true, heff.2]
          exact hnext
        · simp only [hk, if_false]
          rw [← heff.1 κ (fun h' => hk h'.symm)]
          exact hnext

/-- A batch whose records are handled without error key by key is handled
without error. -/
theorem applyLoop_done_of_keyEffect (env : Env) (ps : List ProposalData) :
    ∀ (i : Nat) (kv : KVStore) (rets : List (Option applyRet)),
      (∀ κ, ∃ y, keyEffect env κ ps (kv.data κ) = some y) →
      ∃ kv' rets', applyLoop env ps i kv rets = (kv', rets', Exit.done) := by
  induction ps with
  | nil => intro i kv rets _; exact ⟨kv, rets, applyLoop_nil env i kv rets⟩
  | cons p ps ih =>
    intro i kv rets hall
    obtain ⟨y, hy⟩ := hall (recordKey env p)
    simp only [keyEffect, if_true] at hy
    cases heffv : recordEffect env p (kv.data (recordKey env p)) with
    | none => simp [heffv] at hy
    | some x =>
      have hknown : knownOp p := by
        by_contra hn
        rw [recordEffect_unknown env p _ hn] at heffv
        exact Option.noConfusion heffv
      obtain ⟨hd, hrec⟩ := applyRecord_known env kv p hknown
      have heff := applyRecord_effect env kv p hd hrec
      rw [applyLoop_cons]
      cases hret : hd.ret with
      | error e =>
        simp only [hret] at heff
        rw [heff.2] at heffv
        exact Option.noConfusion heffv
      | ok r =>
        simp only [hrec, hret] at heff ⊢
        apply ih
        intro κ
        obtain ⟨z, hz⟩ := hall κ
        simp only [keyEffect] at hz
        by_cases hk : recordKey env p = κ
        · subst hk
          simp only [if_true, heff.2] at hz
          exact ⟨z, hz⟩
        · simp only [hk, if_false] at hz
          rw [heff.1 κ (fun h' => hk h'.symm)]
          exact ⟨z, hz⟩

/-- The call `Apply` returns no error exactly when the loop is left normally,
and then the shard holds the store the loop leaves, at the new applied index. -/
theorem Apply_ok_iff (env : Env) (s s' : Shard) (pd : List ProposalData) (index : Nat)
    (rets : List (Option applyRet)) :
    Apply env s pd index = (s', Outcome.returned rets none) ↔
      applyLoop env pd 0 s.kv (List.replicate pd.length none) = (s'.kv, rets, Exit.done) ∧
        s' = setAppliedIndex { s with kv := s'.kv } index := by
  unfold Apply
  rcases hl : applyLoop env pd 0 s.kv (List.replicate pd.length none) with ⟨kv, r, ex⟩
  cases ex with
  | done =>
    simp only [Prod.mk.injEq, Outcome.returned.injEq, and_true]
    constructor
    · rintro ⟨h1, h2⟩
      subst h1 h2
      exact ⟨⟨rfl, rfl⟩, rfl⟩
    · rintro ⟨⟨h1, h2⟩, h3⟩
      subst h1 h2
      exact ⟨h3.symm, rfl⟩
  | failed e => simp
  | panicked op => simp

theorem keyEffect_other (env : Env) (κ : Bytes) (ps : List ProposalData) :
    ∀ x, (∀ p ∈ ps, recordKey env p ≠ κ) → keyEffect env κ ps x = some x := by
  induction ps with
  | nil => intro x _; rfl
  | cons p ps ih =>
    intro x h
    simp only [keyEffect, h p (List.mem_cons_self p ps), if_false]
    exact ih x (fun q hq => h q (List.mem_cons_of_mem p hq))

/-- A batch whose records are handled without error key by key: `Apply` returns
no error and leaves, under every key, what the records addressing it leave. -/
theorem Apply_of_keyEffect (env : Env) (s : Shard) (pd : List ProposalData) (index : Nat)
    (hall : ∀ κ, ∃ y, keyEffect env κ pd (s.kv.data κ) = some y) :
    ∃ s' rets, Apply env s pd index = (s', Outcome.returned rets none) ∧
      ∀ κ, keyEffect env κ pd (s.kv.data κ) = some (s'.kv.data κ) := by
  obtain ⟨kv', rets', hl⟩ := applyLoop_done_of_keyEffect env pd 0 s.kv
    (List.replicate pd.length none) hall
  refine ⟨setAppliedIndex { s with kv := kv' } index, rets', ?_, ?_⟩
  · rw [Apply_ok_iff]
    exact ⟨hl, rfl⟩
  · exact applyLoop_done_keyEffect env pd 0 s.kv kv' _ rets' hl

theorem replayScenario_keys (env : Env) (key d1 d2 d3 : Bytes)
    (hk1 : env.kvKey d1 = key) (hk2 : env.kvKey d2 = key) (hk3 : env.kvKey d3 = key) :
    ∀ p ∈ replayScenario key d1 d2 d3, recordKey env p = key := by
  intro p hp
  simp only [replayScenario, List.mem_cons, List.mem_singleton, List.not_mem_nil, or_false] at hp
  rcases hp with h | h | h | h <;> subst h <;>
    simp [recordKey, raftOpInsertBlob, raftOpUpdateBlob, raftOpDeleteBlob, raftOpDeleteItem,
      hk1, hk2, hk3]

theorem recordEffect_insertItem (env : Env) (p : ProposalData) (x : Option Bytes)
    (h : p.Op = raftOpInsertItem) :
    recordEffect env p x = some (some (x.getD (env.kvValue p.Data))) := by
  simp only [recordEffect, if_pos h]
  cases x <;> rfl

theorem recordEffect_updateBlob (env : Env) (p : ProposalData) (x : Option Bytes)
    (h : p.Op = raftOpUpdateBlob) :
    recordEffect env p x = some (x.map fun _ => env.kvValue p.Data) := by
  have h1 : ¬ p.Op = raftOpInsertItem := by rw [h]; decide
  have h2 : ¬ p.Op = raftOpUpdateItem := by rw [h]; decide
  have h3 : ¬ p.Op = raftOpInsertBlob := by rw [h]; decide
  simp only [recordEffect, if_neg h1, if_neg h2, if_neg h3, if_pos h]
  cases x with
  | none => rfl
  | some vg =>
    by_cases hv : env.kvValue p.Data = vg
    · simp [hv]
    · simp [hv]

theorem recordEffect_delete (env : Env) (p : ProposalData) (x : Option Bytes)
    (h : p.Op = raftOpDeleteBlob ∨ p.Op = raftOpDeleteItem) :
    recordEffect env p x = some none := by
  have h1 : ¬ p.Op = raftOpInsertItem := by rcases h with h | h <;> rw [h] <;> decide
  have h2 : ¬ p.Op = raftOpUpdateItem := by rcases h with h | h <;> rw [h] <;> decide
  have h3 : ¬ p.Op = raftOpInsertBlob := by rcases h with h | h <;> rw [h] <;> decide
  have h4 : ¬ p.Op = raftOpUpdateBlob := by rcases h with h | h <;> rw [h] <;> decide
  simp only [recordEffect, if_neg h1, if_neg h2, if_neg h3, if_neg h4, if_pos h]

theorem recordEffect_insertBlob (env : Env) (p : ProposalData) (x : Option Bytes)
    (h : p.Op = raftOpInsertBlob) :
    recordEffect env p x =
      match env.unmarshalBlob (x.getD (env.kvValue p.Data)) with
      | .error _ => none
      | .ok _ => some (some (x.getD (env.kvValue p.Data))) := by
  have h1 : ¬ p.Op = raftOpInsertItem := by rw [h]; decide
  have h2 : ¬ p.Op = raftOpUpdateItem := by rw [h]; decide
  simp only [recordEffect, if_neg h1, if_neg h2, if_pos h]
  cases x <;> rfl

theorem recordEffect_updateItem (env : Env) (p : ProposalData) (x : Option Bytes)
    (h : p.Op = raftOpUpdateItem) :
    recordEffect env p x =
      match env.unmarshalItem (env.kvValue p.Data) with
      | .error _ => none
      | .ok pi =>
        match x with
        | none => some none
        | some vg =>
          match env.unmarshalItem vg with
          | .error _ => none
          | .ok item =>
            match env.marshalItem (mergeItem item pi) with
            | .error _ => none
            | .ok data' => some (some data') := by
  have h1 : ¬ p.Op = raftOpInsertItem := by rw [h]; decide
  simp only [recordEffect, if_neg h1, if_pos h]

/-- The state of the key after the first `i` records of the scenario. -/
theorem replayScenario_prefix (env : Env) (key d1 d2 d3 : Bytes) (b1 b3 : Blob)
    (hk1 : env.kvKey d1 = key) (hk2 : env.kvKey d2 = key) (hk3 : env.kvKey d3 = key)
    (hb1 : env.unmarshalBlob (env.kvValue d1) = .ok b1)
    (hb3 : env.unmarshalBlob (env.kvValue d3) = .ok b3) (i : Nat) (hi : i ≤ 4) :
    keyEffect env key ((replayScenario key d1 d2 d3).take i) none =
      some (if i = 0 then none else if i = 1 then some (env.kvValue d1)
        else if i = 2 then some (env.kvValue d2) else if i = 3 then none
        else some (env.kvValue d3)) := by
  interval_cases i <;>
    simp [replayScenario, keyEffect, recordKey, recordEffect_insertBlob, recordEffect_updateBlob,
      recordEffect_delete, raftOpInsertBlob, raftOpUpdateBlob, raftOpDeleteBlob, raftOpDeleteItem,
      hk1, hk2, hk3, hb1, hb3]

/-- The state of the key after the records of the scenario from `j + 1` on were
applied again to what the first `i` records left. -/
theorem replayScenario_replay (env : Env) (key d1 d2 d3 : Bytes) (b1 b2 b3 : Blob)
    (hk1 : env.kvKey d1 = key) (hk2 : env.kvKey d2 = key) (hk3 : env.kvKey d3 = key)
    (hb1 : env.unmarshalBlob (env.kvValue d1) = .ok b1)
    (hb2 : env.unmarshalBlob (env.kvValue d2) = .ok b2)
    (hb3 : env.unmarshalBlob (env.kvValue d3) = .ok b3) (i j : Nat) (hi : i ≤ 4) (hj : j ≤ i) :
    keyEffect env key ((replayScenario key d1 d2 d3).drop j)
        (if i = 0 then none else if i = 1 then some (env.kvValue d1)
          else if i = 2 then some (env.kvValue d2) else if i = 3 then none
          else some (env.kvValue d3)) =
      some (some (env.kvValue d3)) := by
  interval_cases i <;> interval_cases j <;>
    simp [replayScenario, keyEffect, recordKey, recordEffect_insertBlob, recordEffect_updateBlob,
      recordEffect_delete, raftOpInsertBlob, raftOpUpdateBlob, raftOpDeleteBlob, raftOpDeleteItem,
      hk1, hk2, hk3, hb1, hb2, hb3]

/-- C2. The apply-replay scenario: with `key` absent from the store and `d1`,
`d2`, `d3` carrying blob encodings for `key`, applying the first `i` records of
`[InsertBlob d1, UpdateBlob d2, DeleteBlob key, InsertBlob d3]` (the crash point)
and then the records from `j + 1` on again (the restart position, `j ≤ i ≤ 4`)
returns no error either time and ends in a store where `key` holds the value of
`d3` and every other key is unchanged. -/
theorem apply_replay_scenario (env : Env) (s : Shard) (key d1 d2 d3 : Bytes) (b1 b2 b3 : Blob)
    (i j index index' : Nat)
    (hk1 : env.kvKey d1 = key) (hk2 : env.kvKey d2 = key) (hk3 : env.kvKey d3 = key)
    (habs : s.kv.data key = none)
    (hb1 : env.unmarshalBlob (env.kvValue d1) = .ok b1)
    (hb2 : env.unmarshalBlob (env.kvValue d2) = .ok b2)
    (hb3 : env.unmarshalBlob (env.kvValue d3) = .ok b3) (hi : i ≤ 4) (hj : j ≤ i) :
    ∃ s1 rets1 s2 rets2,
      Apply env s ((replayScenario key d1 d2 d3).take i) index = (s1, Outcome.returned rets1 none) ∧
      Apply env s1 ((replayScenario key d1 d2 d3).drop j) index' =
        (s2, Outcome.returned rets2 none) ∧
      s2.kv.data key = some (env.kvValue d3) ∧
      ∀ k, k ≠ key → s2.kv.data k = s.kv.data k := by
  have hkeys := replayScenario_keys env key d1 d2 d3 hk1 hk2 hk3
  have hpre := replayScenario_prefix env key d1 d2 d3 b1 b3 hk1 hk2 hk3 hb1 hb3 i hi
  have hrep := replayScenario_replay env key d1 d2 d3 b1 b2 b3 hk1 hk2 hk3 hb1 hb2 hb3 i j hi hj
  have hother1 : ∀ κ, κ ≠ key → ∀ x,
      keyEffect env κ ((replayScenario key d1 d2 d3).take i) x = some x := fun κ hκ x =>
    keyEffect_other env κ _ x (fun p hp h => hκ (by rw [← h, hkeys p (List.mem_of_mem_take hp)]))
  have hother2 : ∀ κ, κ ≠ key → ∀ x,
      keyEffect env κ ((replayScenario key d1 d2 d3).drop j) x = some x := fun κ hκ x =>
    keyEffect_other env κ _ x (fun p hp h => hκ (by rw [← h, hkeys p (List.mem_of_mem_drop hp)]))
  obtain ⟨s1, rets1, hA1, hs1⟩ := Apply_of_keyEffect env s
    ((replayScenario key d1 d2 d3).take i) index (fun κ => by
      by_cases hκ : κ = key
      · subst hκ; rw [habs, hpre]; exact ⟨_, rfl⟩
      · exact ⟨_, hother1 κ hκ _⟩)
  have hs1key := hs1 key
  rw [habs, hpre, Option.some.injEq] at hs1key
  obtain ⟨s2, rets2, hA2, hs2⟩ := Apply_of_keyEffect env s1
    ((replayScenario key d1 d2 d3).drop j) index' (fun κ => by
      by_cases hκ : κ = key
      · subst hκ; rw [← hs1key, hrep]; exact ⟨_, rfl⟩
      · exact ⟨_, hother2 κ hκ _⟩)
  refine ⟨s1, rets1, s2, rets2, hA1, hA2, ?_, ?_⟩
  · have := hs2 key
    rw [← hs1key, hrep, Option.some.injEq] at this
    exact this.symm
  · intro k hk
    have h1 := hs1 k
    have h2 := hs2 k
    rw [hother1 k hk, Option.some.injEq] at h1
    rw [hother2 k hk, Option.some.injEq] at h2
    rw [← h2, ← h1]

/-- C2, in the sample environment: a crash after the second record and a restart
from the first. -/
theorem apply_replay_scenario_witness :
    (sampleShard emptyKV).kv.data sampleKey = none ∧
      ∃ s1 rets1 s2 rets2,
        Apply sampleEnv (sampleShard emptyKV)
          ((replayScenario sampleKey sampleData1 sampleData2 sampleData3).take 2) 2 =
            (s1, Outcome.returned rets1 none) ∧
        Apply sampleEnv s1
          ((replayScenario sampleKey sampleData1 sampleData2 sampleData3).drop 1) 4 =
            (s2, Outcome.returned rets2 none) ∧
        s2.kv.data sampleKey = some (sampleEnv.kvValue sampleData3) ∧
        ∀ k, k ≠ sampleKey → s2.kv.data k = (sampleShard emptyKV).kv.data k :=
  ⟨rfl, apply_replay_scenario sampleEnv (sampleShard emptyKV) sampleKey sampleData1 sampleData2
    sampleData3 ⟨[7], ⟨3, 0, 0, 0, [], 0⟩⟩ ⟨[8], ⟨3, 0, 0, 0, [], 0⟩⟩ ⟨[9], ⟨3, 0, 0, 0, [], 0⟩⟩
    2 1 2 4 (by rfl) (by rfl) (by rfl) (by rfl) (by rfl) (by rfl) (by rfl) (by decide) (by decide)⟩

/-! ## Replaying field merges -/

theorem assign_ID (c : Nat → Option Bytes) (f : Field) : (assign c f).ID = f.ID := by
  unfold assign; split <;> rfl

theorem fieldIDs_append (a b : List Field) : fieldIDs (a ++ b) = fieldIDs a ++ fieldIDs b := by
  simp [fieldIDs]

theorem assignLast_append (c : Nat → Option Bytes) (a b : List Field)
    (h : ∀ f ∈ a, f.ID ∉ fieldIDs b) :
    assignLast c (a ++ b) = assignLast c a ++ assignLast c b := by
  induction a with
  | nil => rfl
  | cons f a ih =>
    have hf := h f (List.mem_cons_self f a)
    simp only [List.cons_append, assignLast, List.cons.injEq, List.append_eq]
    refine ⟨?_, ih (fun g hg => h g (List.mem_cons_of_mem f hg))⟩
    have hiff : f.ID ∈ fieldIDs (a ++ b) ↔ f.ID ∈ fieldIDs a := by
      rw [fieldIDs_append, List.mem_append]
      exact ⟨fun h' => h'.resolve_right hf, Or.inl⟩
    by_cases hm : f.ID ∈ fieldIDs a
    · rw [if_pos (hiff.2 hm), if_pos hm]
    · rw [if_neg (fun h' => hm (hiff.1 h')), if_neg hm]

theorem assignLast_comp (c c' : Nat → Option Bytes) (y : List Field) :
    assignLast c (assignLast c' y) = assignLast (overrideBy c c') y := by
  induction y with
  | nil => rfl
  | cons f y ih =>
    simp only [assignLast, fieldIDs_assignLast, ih, List.cons.injEq, and_true]
    by_cases hm : f.ID ∈ fieldIDs y
    · simp [hm]
    · simp only [hm, if_false, assign_ID]
      unfold assign overrideBy
      cases hc' : c' f.ID <;> cases hc : c f.ID <;> simp [hc]

theorem lastValue_of_not_mem (us : List Field) (id : Nat) (h : id ∉ fieldIDs us) :
    lastValue us id = none := by
  induction us with
  | nil => rfl
  | cons u us ih =>
    simp only [fieldIDs, List.map_cons, List.mem_cons, not_or] at h
    rw [lastValue_cons, ih h.2]
    have hne : ¬ u.ID = id := fun h' => h.1 h'.symm
    simp [hne]

theorem lastValue_of_mem (us : List Field) (id : Nat) (h : id ∈ fieldIDs us) :
    ∃ v, lastValue us id = some v := by
  induction us with
  | nil => simp [fieldIDs] at h
  | cons u us ih =>
    rw [lastValue_cons]
    cases hl : lastValue us id with
    | some v => exact ⟨v, rfl⟩
    | none =>
      have hnot : id ∉ fieldIDs us := fun hm => by
        obtain ⟨v, hv⟩ := ih hm
        rw [hl] at hv
        exact Option.noConfusion hv
      simp only [fieldIDs, List.map_cons, List.mem_cons] at h
      rcases h with h | h
      · exact ⟨u.Value, by simp [h]⟩
      · exact absurd h hnot

/-- The update fields that are appended already carry the last value of their
ID in their last field. -/
theorem assignLast_lastValue_filter (q : Nat → Bool) (us : List Field) :
    assignLast (lastValue us) (us.filter fun u => q u.ID) = us.filter fun u => q u.ID := by
  induction us with
  | nil => rfl
  | cons u us ih =>
    have hcongr : assignLast (lastValue (u :: us)) (us.filter fun u => q u.ID) =
        assignLast (lastValue us) (us.filter fun u => q u.ID) := by
      apply assignLast_congr
      intro id hid
      have hmem : id ∈ fieldIDs us := by
        simp only [fieldIDs, List.mem_map, List.mem_filter] at hid ⊢
        obtain ⟨g, ⟨hg, _⟩, hgid⟩ := hid
        exact ⟨g, hg, hgid⟩
      obtain ⟨v, hv⟩ := lastValue_of_mem us id hmem
      rw [lastValue_cons, hv]
    by_cases hq : q u.ID = true
    · rw [List.filter_cons_of_pos (by simpa using hq)]
      simp only [assignLast, hcongr, ih, List.cons.injEq, and_true]
      by_cases hm : u.ID ∈ fieldIDs (us.filter fun u => q u.ID)
      · simp [hm]
      · have hnot : u.ID ∉ fieldIDs us := by
          intro hmem
          apply hm
          simp only [fieldIDs, List.mem_map, List.mem_filter] at hmem ⊢
          obtain ⟨g, hg, hgid⟩ := hmem
          exact ⟨g, ⟨hg, by rw [hgid]; exact hq⟩, hgid⟩
        simp only [hm, if_false]
        unfold assign
        rw [lastValue_cons, lastValue_of_not_mem us u.ID hnot]
        simp
    · rw [List.filter_cons_of_neg (by simpa using hq)]
      rw [hcongr, ih]

theorem fieldIDs_mergeItem (item pi : Item) :
    fieldIDs (mergeItem item pi).Fields =
      fieldIDs item.Fields ++
        fieldIDs (pi.Fields.filter fun u => u.ID ∉ fieldIDs item.Fields) := by
  rw [mergeItem_fields, fieldIDs_append, fieldIDs_assignLast]

theorem mem_fieldIDs_mergeItem (item pi : Item) (id : Nat) :
    id ∈ fieldIDs (mergeItem item pi).Fields ↔
      id ∈ fieldIDs item.Fields ∨ id ∈ fieldIDs pi.Fields := by
  rw [fieldIDs_mergeItem]
  simp only [List.mem_append, fieldIDs, List.mem_map, List.mem_filter, decide_eq_true_eq]
  constructor
  · rintro (h | ⟨g, ⟨hg, _⟩, hgid⟩)
    · exact Or.inl h
    · exact Or.inr ⟨g, hg, hgid⟩
  · rintro (h | ⟨g, hg, hgid⟩)
    · exact Or.inl h
    · by_cases hm : ∃ a ∈ item.Fields, a.ID = id
      · exact Or.inl hm
      · refine Or.inr ⟨g, ⟨hg, ?_⟩, hgid⟩
        rw [hgid]
        intro ⟨a, ha, haid⟩
        exact hm ⟨a, ha, haid⟩

/-- An update whose IDs the item already has only assigns values. -/
theorem mergeItem_of_subset (item pi : Item)
    (h : ∀ id ∈ fieldIDs pi.Fields, id ∈ fieldIDs item.Fields) :
    (mergeItem item pi).Fields = assignLast (lastValue pi.Fields) item.Fields := by
  rw [mergeItem_fields]
  have : (pi.Fields.filter fun u => u.ID ∉ fieldIDs item.Fields) = [] := by
    rw [List.filter_eq_nil_iff]
    intro u hu
    have := h u.ID (by simp only [fieldIDs, List.mem_map]; exact ⟨u, hu, rfl⟩)
    simp [this]
  rw [this, List.append_nil]

theorem mergeAll_append (item : Item) (us : List Item) (u : Item) :
    mergeAll item (us ++ [u]) = mergeItem (mergeAll item us) u := by
  simp [mergeAll, List.foldl_append]

theorem updatesAssign_append (us : List Item) (u : Item) :
    updatesAssign (us ++ [u]) = overrideBy (lastValue u.Fields) (updatesAssign us) := by
  simp [updatesAssign, List.foldl_append]

theorem mergeAll_ID (item : Item) (us : List Item) : (mergeAll item us).ID = item.ID := by
  induction us using List.reverseRecOn with
  | nil => rfl
  | append_singleton us u ih => rw [mergeAll_append]; exact ih

theorem mem_fieldIDs_mergeAll (item : Item) (us : List Item) (id : Nat) :
    id ∈ fieldIDs (mergeAll item us).Fields ↔
      id ∈ fieldIDs item.Fields ∨ ∃ u ∈ us, id ∈ fieldIDs u.Fields := by
  induction us using List.reverseRecOn with
  | nil => simp [mergeAll]
  | append_singleton us u ih =>
    rw [mergeAll_append, mem_fieldIDs_mergeItem, ih]
    simp only [List.mem_append, List.mem_singleton]
    constructor
    · rintro ((h | ⟨w, hw, hid⟩) | h)
      · exact Or.inl h
      · exact Or.inr ⟨w, Or.inl hw, hid⟩
      · exact Or.inr ⟨u, Or.inr rfl, h⟩
    · rintro (h | ⟨w, hw | hw, hid⟩)
      · exact Or.inl (Or.inl h)
      · exact Or.inl (Or.inr ⟨w, hw, hid⟩)
      · subst hw; exact Or.inr hid

theorem updatesAssign_mem (us : List Item) (id : Nat) (v : Bytes)
    (h : updatesAssign us id = some v) : ∃ u ∈ us, id ∈ fieldIDs u.Fields := by
  induction us using List.reverseRecOn with
  | nil => simp [updatesAssign] at h
  | append_singleton us u ih =>
    rw [updatesAssign_append] at h
    unfold overrideBy at h
    by_cases hm : id ∈ fieldIDs u.Fields
    · exact ⟨u, by simp, hm⟩
    · rw [lastValue_of_not_mem u.Fields id hm] at h
      obtain ⟨w, hw, hid⟩ := ih h
      exact ⟨w, by simp [hw], hid⟩

/-- Updates whose IDs the item already has only assign values. -/
theorem mergeAll_of_subset (y : Item) (us : List Item)
    (h : ∀ u ∈ us, ∀ id ∈ fieldIDs u.Fields, id ∈ fieldIDs y.Fields) :
    (mergeAll y us).Fields = assignLast (updatesAssign us) y.Fields := by
  induction us using List.reverseRecOn with
  | nil => simp [mergeAll, updatesAssign, assignLast_none]
  | append_singleton us u ih =>
    have ih' := ih (fun w hw => h w (by simp [hw]))
    rw [mergeAll_append, updatesAssign_append]
    rw [mergeItem_of_subset _ _ (fun id hid => by
      rw [mem_fieldIDs_mergeAll]; exact Or.inl (h u (by simp) id hid))]
    rw [ih', assignLast_comp]

/-- The item a sequence of updates leaves already carries what the sequence
assigns. -/
theorem assignLast_mergeAll (z : Item) (us : List Item) :
    assignLast (updatesAssign us) (mergeAll z us).Fields = (mergeAll z us).Fields := by
  induction us using List.reverseRecOn with
  | nil => simp [mergeAll, updatesAssign, assignLast_none]
  | append_singleton us u ih =>
    rw [mergeAll_append, updatesAssign_append, mergeItem_fields]
    have hdisj : ∀ f ∈ assignLast (lastValue u.Fields) (mergeAll z us).Fields,
        f.ID ∉ fieldIDs (u.Fields.filter fun w => w.ID ∉ fieldIDs (mergeAll z us).Fields) := by
      intro f hf hmem
      have h1 : f.ID ∈ fieldIDs (mergeAll z us).Fields := by
        rw [← fieldIDs_assignLast (lastValue u.Fields)]
        simp only [fieldIDs, List.mem_map]
        exact ⟨f, hf, rfl⟩
      simp only [fieldIDs, List.mem_map, List.mem_filter, decide_eq_true_eq] at hmem
      obtain ⟨g, ⟨_, hg⟩, hgid⟩ := hmem
      rw [hgid] at hg
      exact hg (by simpa [fieldIDs] using h1)
    rw [assignLast_append _ _ _ hdisj, assignLast_comp]
    congr 1
    · have : assignLast (overrideBy (overrideBy (lastValue u.Fields) (updatesAssign us))
          (lastValue u.Fields)) (mergeAll z us).Fields =
          assignLast (overrideBy (lastValue u.Fields) (updatesAssign us))
            (mergeAll z us).Fields := by
        apply assignLast_congr
        intro id _
        unfold overrideBy
        cases lastValue u.Fields id <;> cases updatesAssign us id <;> rfl
      rw [this, ← assignLast_comp, ih]
    · have : assignLast (overrideBy (lastValue u.Fields) (updatesAssign us))
          (u.Fields.filter fun w => w.ID ∉ fieldIDs (mergeAll z us).Fields) =
          assignLast (lastValue u.Fields)
            (u.Fields.filter fun w => w.ID ∉ fieldIDs (mergeAll z us).Fields) := by
        apply assignLast_congr
        intro id hid
        unfold overrideBy
        cases hl : lastValue u.Fields id with
        | some v => rfl
        | none =>
          simp only
          cases hu : updatesAssign us id with
          | none => rfl
          | some v =>
            exfalso
            obtain ⟨w, hw, hwid⟩ := updatesAssign_mem us id v hu
            have hin : id ∈ fieldIDs (mergeAll z us).Fields := by
              rw [mem_fieldIDs_mergeAll]; exact Or.inr ⟨w, hw, hwid⟩
            simp only [fieldIDs, List.mem_map, List.mem_filter, decide_eq_true_eq] at hid
            obtain ⟨g, ⟨_, hg⟩, hgid⟩ := hid
            rw [hgid] at hg
            exact hg (by simpa [fieldIDs] using hin)
      rw [this]
      exact assignLast_lastValue_filter (fun id => decide (id ∉ fieldIDs (mergeAll z us).Fields))
        u.Fields

/-- Replaying a sequence of updates on the item it left changes nothing. -/
theorem mergeAll_replay (z : Item) (us : List Item) :
    mergeAll (mergeAll z us) us = mergeAll z us := by
  have hf : (mergeAll (mergeAll z us) us).Fields = (mergeAll z us).Fields := by
    rw [mergeAll_of_subset (mergeAll z us) us (fun u hu id hid => by
      rw [mem_fieldIDs_mergeAll]; exact Or.inr ⟨u, hu, hid⟩)]
    exact assignLast_mergeAll z us
  have hid : (mergeAll (mergeAll z us) us).ID = (mergeAll z us).ID := mergeAll_ID _ _
  cases h1 : mergeAll (mergeAll z us) us
  cases h2 : mergeAll z us
  rw [h1, h2] at hf hid
  simp only at hf hid
  rw [hf, hid]

theorem mergeItem_idempotent (item pi : Item) :
    mergeItem (mergeItem item pi) pi = mergeItem item pi :=
  mergeAll_replay item [pi]

/-! ## Idempotence of the handlers -/

/-- What a record leaves under its key, it leaves again when handled again. -/
theorem recordEffect_idempotent (env : Env) (hrt : env.ItemRoundTrip) (p : ProposalData)
    (x y : Option Bytes) (h : recordEffect env p x = some y) : recordEffect env p y = some y := by
  by_cases h1 : p.Op = raftOpInsertItem
  · rw [recordEffect_insertItem env p _ h1] at h ⊢
    simp only [Option.some.injEq] at h
    subst h; rfl
  by_cases h2 : p.Op = raftOpUpdateItem
  · rw [recordEffect_updateItem env p _ h2] at h ⊢
    cases hpi : env.unmarshalItem (env.kvValue p.Data) with
    | error e => simp [hpi] at h
    | ok pi =>
      simp only [hpi] at h ⊢
      cases x with
      | none => simp only [Option.some.injEq] at h; subst h; rfl
      | some vg =>
        simp only at h
        cases hit : env.unmarshalItem vg with
        | error e => simp [hit] at h
        | ok item =>
          simp only [hit] at h
          cases hm : env.marshalItem (mergeItem item pi) with
          | error e => simp [hm] at h
          | ok d =>
            simp only [hm, Option.some.injEq] at h
            subst h
            simp only [hrt _ _ hm, mergeItem_idempotent, hm]
  by_cases h3 : p.Op = raftOpInsertBlob
  · rw [recordEffect_insertBlob env p _ h3] at h ⊢
    cases hb : env.unmarshalBlob (x.getD (env.kvValue p.Data)) with
    | error e => simp [hb] at h
    | ok b =>
      simp only [hb, Option.some.injEq] at h
      subst h
      simp [hb]
  by_cases h4 : p.Op = raftOpUpdateBlob
  · rw [recordEffect_updateBlob env p _ h4] at h ⊢
    simp only [Option.some.injEq] at h
    subst h
    cases x <;> rfl
  by_cases h5 : p.Op = raftOpDeleteBlob ∨ p.Op = raftOpDeleteItem
  · rw [recordEffect_delete env p _ h5] at h ⊢
    simp only [Option.some.injEq] at h
    subst h; rfl
  · simp [recordEffect, h1, h2, h3, h4, h5] at h

/-- A record other than an item update whose effect is to keep what its key
holds leaves the store as it is: it performs no write. -/
theorem applyRecord_noop (env : Env) (kv : KVStore) (p : ProposalData) (h : Handled applyRet)
    (hop : p.Op ≠ raftOpUpdateItem) (hrec : applyRecord env kv p = some h)
    (heff : recordEffect env p (kv.data (recordKey env p)) = some (kv.data (recordKey env p))) :
    h.kv = kv := by
  unfold applyRecord at hrec
  split_ifs at hrec with h1 h3 h4 h5
  · have hk : ¬ (p.Op = raftOpDeleteBlob ∨ p.Op = raftOpDeleteItem) := by rw [h1]; decide
    have hkey : recordKey env p = env.kvKey p.Data := by rw [recordKey, if_neg hk]
    simp only [Option.some.injEq] at hrec
    subst hrec
    rw [hkey, recordEffect_insertItem env p _ h1] at heff
    cases hx : kv.data (env.kvKey p.Data) with
    | none => simp [hx] at heff
    | some vg => rw [applyInsertItem_present env kv p.Data vg hx]
  · have hk : ¬ (p.Op = raftOpDeleteBlob ∨ p.Op = raftOpDeleteItem) := by rw [h3]; decide
    have hkey : recordKey env p = env.kvKey p.Data := by rw [recordKey, if_neg hk]
    simp only [Option.some.injEq] at hrec
    subst hrec
    rw [hkey, recordEffect_insertBlob env p _ h3] at heff
    cases hx : kv.data (env.kvKey p.Data) with
    | none =>
      rw [hx] at heff
      simp only [Option.getD_none] at heff
      cases hb : env.unmarshalBlob (env.kvValue p.Data) <;> simp [hb] at heff
    | some vg => rw [applyInsertBlob_present env kv p.Data vg hx]
  · have hk : ¬ (p.Op = raftOpDeleteBlob ∨ p.Op = raftOpDeleteItem) := by rw [h4]; decide
    have hkey : recordKey env p = env.kvKey p.Data := by rw [recordKey, if_neg hk]
    simp only [Option.some.injEq] at hrec
    subst hrec
    rw [hkey, recordEffect_updateBlob env p _ h4] at heff
    cases hx : kv.data (env.kvKey p.Data) with
    | none => rw [applyUpdateBlob_absent env kv p.Data hx]
    | some vg =>
      rw [hx] at heff
      simp only [Option.map_some', Option.some.injEq] at heff
      rw [applyUpdateBlob_same env kv p.Data (by rw [hx, heff])]
  · have hkey : recordKey env p = p.Data := by rw [recordKey, if_pos h5]
    simp only [Option.some.injEq] at hrec
    subst hrec
    rw [hkey, recordEffect_delete env p _ h5] at heff
    simp only [Option.some.injEq] at heff
    rw [applyDeleteRaw_absent env kv p.Data heff.symm]

/-- C3. Every operation is idempotent: when `Apply` of a record `p` returns no
error, `Apply` of `p` again on the shard it left returns no error and leaves the
contents of the store as they are; unless `p` is an item update the second call
performs no write at all (so a second `UpdateBlob(k, v)` writes nothing), and a
second item update writes back the item that is stored. -/
theorem Apply_idempotent (env : Env) (hrt : env.ItemRoundTrip) (s s1 : Shard) (p : ProposalData)
    (index index' : Nat) (rets1 : List (Option applyRet))
    (h : Apply env s [p] index = (s1, Outcome.returned rets1 none)) :
    ∃ s2 rets2, Apply env s1 [p] index' = (s2, Outcome.returned rets2 none) ∧
      s2.kv.data = s1.kv.data ∧ (p.Op ≠ raftOpUpdateItem → s2.kv = s1.kv) := by
  rw [Apply_ok_iff] at h
  obtain ⟨hloop, _⟩ := h
  rw [applyLoop_cons] at hloop
  cases hrec : applyRecord env s.kv p with
  | none => simp [hrec] at hloop
  | some h1 =>
    have heff1 := applyRecord_effect env s.kv p h1 hrec
    cases hret : h1.ret with
    | error e => simp [hrec, hret] at hloop
    | ok r1 =>
      simp only [hrec, hret, applyLoop_nil, Prod.mk.injEq, and_true] at hloop heff1
      obtain ⟨hkv, _⟩ := hloop
      have hidem := recordEffect_idempotent env hrt p _ _ heff1.2
      rw [hkv] at hidem
      have hknown : knownOp p := by
        by_contra hn
        rw [recordEffect_unknown env p _ hn] at hidem
        exact Option.noConfusion hidem
      obtain ⟨h2, hrec2⟩ := applyRecord_known env s1.kv p hknown
      have heff2 := applyRecord_effect env s1.kv p h2 hrec2
      cases hret2 : h2.ret with
      | error e =>
        simp only [hret2] at heff2
        rw [heff2.2] at hidem
        exact Option.noConfusion hidem
      | ok r2 =>
        simp only [hret2] at heff2
        refine ⟨setAppliedIndex { s1 with kv := h2.kv } index',
          (List.replicate [p].length none).set 0 (some r2), ?_, ?_, ?_⟩
        · rw [Apply_ok_iff]
          refine ⟨?_, rfl⟩
          rw [applyLoop_cons]
          simp only [hrec2, hret2, applyLoop_nil]
          rfl
        · funext k
          show h2.kv.data k = s1.kv.data k
          by_cases hk : k = recordKey env p
          · subst hk
            have := heff2.2
            rw [hidem, Option.some.injEq] at this
            exact this.symm
          · exact heff2.1 k hk
        · intro hop
          exact applyRecord_noop env s1.kv p h2 hop hrec2 hidem

/-- C3, for the item update of the sample environment. -/
theorem Apply_idempotent_witness :
    Apply sampleEnv (sampleShard sampleItemKV) [sampleUpdateRecord] 1 =
        ((Apply sampleEnv (sampleShard sampleItemKV) [sampleUpdateRecord] 1).1,
          Outcome.returned [some ⟨[], Blob.zero⟩] none) ∧
      ∃ s2 rets2,
        Apply sampleEnv (Apply sampleEnv (sampleShard sampleItemKV) [sampleUpdateRecord] 1).1
            [sampleUpdateRecord] 2 = (s2, Outcome.returned rets2 none) ∧
          s2.kv.data =
            (Apply sampleEnv (sampleShard sampleItemKV) [sampleUpdateRecord] 1).1.kv.data ∧
          (sampleUpdateRecord.Op ≠ raftOpUpdateItem →
            s2.kv = (Apply sampleEnv (sampleShard sampleItemKV) [sampleUpdateRecord] 1).1.kv) :=
  ⟨by rfl,
    Apply_idempotent sampleEnv sampleEnv_itemRoundTrip (sampleShard sampleItemKV)
      (Apply sampleEnv (sampleShard sampleItemKV) [sampleUpdateRecord] 1).1 sampleUpdateRecord 1 2
      [some ⟨[], Blob.zero⟩] (by rfl)⟩

/-- C5. Insert keeps the first value: on a store without the key, `InsertItem`
(resp. `InsertBlob` of a blob encoding) of a first value followed by the insert
of a second value under the same key both return no error, leave the key with
the first value and every other key as it was, the second insert writes nothing,
and the second `InsertBlob` returns the blob decoded from the first value. -/
theorem insert_keeps_first_value (env : Env) (kv : KVStore) (d1 d2 : Bytes)
    (hkey : env.kvKey d2 = env.kvKey d1) (habs : kv.data (env.kvKey d1) = none) :
    ((applyInsertItem env kv d1).ret = .ok () ∧
      (applyInsertItem env (applyInsertItem env kv d1).kv d2).ret = .ok () ∧
      (applyInsertItem env (applyInsertItem env kv d1).kv d2).kv = (applyInsertItem env kv d1).kv ∧
      (applyInsertItem env (applyInsertItem env kv d1).kv d2).kv.data (env.kvKey d1) =
        some (env.kvValue d1) ∧
      ∀ k, k ≠ env.kvKey d1 →
        (applyInsertItem env (applyInsertItem env kv d1).kv d2).kv.data k = kv.data k) ∧
    ∀ b1, env.unmarshalBlob (env.kvValue d1) = .ok b1 →
      (applyInsertBlob env kv d1).ret = .ok b1 ∧
      (applyInsertBlob env (applyInsertBlob env kv d1).kv d2).ret = .ok b1 ∧
      (applyInsertBlob env (applyInsertBlob env kv d1).kv d2).kv = (applyInsertBlob env kv d1).kv ∧
      (applyInsertBlob env (applyInsertBlob env kv d1).kv d2).kv.data (env.kvKey d1) =
        some (env.kvValue d1) ∧
      ∀ k, k ≠ env.kvKey d1 →
        (applyInsertBlob env (applyInsertBlob env kv d1).kv d2).kv.data k = kv.data k := by
  have hpres : (kv.SetRaw (env.kvKey d1) (env.kvValue d1)).1.data (env.kvKey d2) =
      some (env.kvValue d1) := by
    rw [hkey, SetRaw_data]; simp
  constructor
  · rw [applyInsertItem_absent env kv d1 habs]
    simp only []
    rw [applyInsertItem_present env _ d2 _ hpres]
    refine ⟨trivial, rfl, rfl, by simp [SetRaw_data], ?_⟩
    intro k hk
    simp [SetRaw_data, hk]
  · intro b1 hb1
    rw [applyInsertBlob_absent env kv d1 habs]
    simp only []
    rw [applyInsertBlob_present env _ d2 _ hpres]
    refine ⟨hb1, hb1, rfl, by simp [SetRaw_data], ?_⟩
    intro k hk
    simp [SetRaw_data, hk]

/-- C5, in the sample environment: two inserts of different values under
`sampleKey` into the empty store. -/
theorem insert_keeps_first_value_witness :
    (applyInsertItem sampleEnv (applyInsertItem sampleEnv emptyKV sampleData1).kv
        sampleData2).kv.data sampleKey = some [3, 7] ∧
      (applyInsertBlob sampleEnv (applyInsertBlob sampleEnv emptyKV sampleData1).kv
        sampleData2).ret = .ok ⟨[7], ⟨3, 0, 0, 0, [], 0⟩⟩ :=
  have h := insert_keeps_first_value sampleEnv emptyKV sampleData1 sampleData2 (by rfl) (by rfl)
  ⟨h.1.2.2.2.1, (h.2 ⟨[7], ⟨3, 0, 0, 0, [], 0⟩⟩ (by rfl)).2.1⟩

/-- C6. Update never resurrects a deleted key: on a store without the key,
`UpdateBlob` and `UpdateItem` (of a decodable field list) return no error and
leave the whole store as it is; hence after an insert, the delete and the update
of one key, the key is absent and every other key is as it was before. -/
theorem update_never_resurrects (env : Env) (kv : KVStore) (d : Bytes) :
    (kv.data (env.kvKey d) = none →
      applyUpdateBlob env kv d = ⟨kv, [getRaw], .ok ()⟩ ∧
      ∀ pi, env.unmarshalItem (env.kvValue d) = .ok pi →
        applyUpdateItem env kv d = ⟨kv, [], .ok ()⟩) ∧
    (∀ di pi, env.kvKey di = env.kvKey d → env.unmarshalItem (env.kvValue d) = .ok pi →
      (applyInsertItem env kv di).ret = .ok () ∧
      (applyDeleteRaw env (applyInsertItem env kv di).kv (env.kvKey d)).ret = .ok () ∧
      (applyUpdateItem env
        (applyDeleteRaw env (applyInsertItem env kv di).kv (env.kvKey d)).kv d).ret = .ok () ∧
      (applyUpdateItem env
        (applyDeleteRaw env (applyInsertItem env kv di).kv (env.kvKey d)).kv d).kv.data
          (env.kvKey d) = none ∧
      ∀ k, k ≠ env.kvKey d →
        (applyUpdateItem env
          (applyDeleteRaw env (applyInsertItem env kv di).kv (env.kvKey d)).kv d).kv.data k =
            kv.data k) ∧
    (∀ di b, env.kvKey di = env.kvKey d → (applyInsertBlob env kv di).ret = .ok b →
      (applyDeleteRaw env (applyInsertBlob env kv di).kv (env.kvKey d)).ret = .ok () ∧
      (applyUpdateBlob env
        (applyDeleteRaw env (applyInsertBlob env kv di).kv (env.kvKey d)).kv d).ret = .ok () ∧
      (applyUpdateBlob env
        (applyDeleteRaw env (applyInsertBlob env kv di).kv (env.kvKey d)).kv d).kv.data
          (env.kvKey d) = none ∧
      ∀ k, k ≠ env.kvKey d →
        (applyUpdateBlob env
          (applyDeleteRaw env (applyInsertBlob env kv di).kv (env.kvKey d)).kv d).kv.data k =
            kv.data k) := by
  have hdel : ∀ kv' : KVStore, (∀ k, k ≠ env.kvKey d → kv'.data k = kv.data k) →
      (applyDeleteRaw env kv' (env.kvKey d)).ret = .ok () ∧
      (applyDeleteRaw env kv' (env.kvKey d)).kv.data (env.kvKey d) = none ∧
      ∀ k, k ≠ env.kvKey d → (applyDeleteRaw env kv' (env.kvKey d)).kv.data k = kv.data k := by
    intro kv' hkv'
    cases hx : kv'.data (env.kvKey d) with
    | none =>
      rw [applyDeleteRaw_absent env kv' _ hx]
      exact ⟨rfl, hx, hkv'⟩
    | some vg =>
      rw [applyDeleteRaw_present env kv' _ vg hx]
      refine ⟨rfl, by simp [Delete_data], ?_⟩
      intro k hk
      simp [Delete_data, hk, hkv' k hk]
  refine ⟨?_, ?_, ?_⟩
  · intro habs
    exact ⟨applyUpdateBlob_absent env kv d habs,
      fun pi hpi => applyUpdateItem_absent env kv d pi hpi habs⟩
  · intro di pi hdi hpi
    have hins : (applyInsertItem env kv di).ret = .ok () ∧
        ∀ k, k ≠ env.kvKey d → (applyInsertItem env kv di).kv.data k = kv.data k := by
      cases hx : kv.data (env.kvKey di) with
      | none =>
        rw [applyInsertItem_absent env kv di hx]
        refine ⟨rfl, ?_⟩
        intro k hk
        simp [SetRaw_data, hdi, hk]
      | some vg =>
        rw [applyInsertItem_present env kv di vg hx]
        exact ⟨rfl, fun _ _ => rfl⟩
    obtain ⟨hd1, hd2, hd3⟩ := hdel _ hins.2
    refine ⟨hins.1, hd1, ?_⟩
    rw [applyUpdateItem_absent env _ d pi hpi hd2]
    exact ⟨rfl, hd2, hd3⟩
  · intro di b hdi hret
    have hins : ∀ k, k ≠ env.kvKey d → (applyInsertBlob env kv di).kv.data k = kv.data k := by
      cases hx : kv.data (env.kvKey di) with
      | none =>
        rw [applyInsertBlob_absent env kv di hx]
        intro k hk
        simp [SetRaw_data, hdi, hk]
      | some vg =>
        rw [applyInsertBlob_present env kv di vg hx]
        exact fun _ _ => rfl
    obtain ⟨hd1, hd2, hd3⟩ := hdel _ hins
    refine ⟨hd1, ?_⟩
    rw [applyUpdateBlob_absent env _ d hd2]
    exact ⟨rfl, hd2, hd3⟩

/-- C6, in the sample environment: the update of the sample item on the empty
store, and after an insert and the delete of its key. -/
theorem update_never_resurrects_witness :
    applyUpdateItem sampleEnv emptyKV sampleUpdateRecord.Data = ⟨emptyKV, [], .ok ()⟩ ∧
      (applyUpdateItem sampleEnv
        (applyDeleteRaw sampleEnv (applyInsertItem sampleEnv emptyKV sampleData1).kv
          (sampleEnv.kvKey sampleUpdateRecord.Data)).kv sampleUpdateRecord.Data).kv.data
          (sampleEnv.kvKey sampleUpdateRecord.Data) = none :=
  have h := update_never_resurrects sampleEnv emptyKV sampleUpdateRecord.Data
  ⟨(h.1 (by rfl)).2 sampleUpdate (by rfl),
    (h.2.1 sampleData1 sampleUpdate (by rfl) (by rfl)).2.2.2.1⟩

/-! ## Snapshot ingest -/

theorem applyBatchOp_congr (d d' : Bytes → Option Bytes) (op : BatchOp) (k : Bytes)
    (h : d k = d' k) : applyBatchOp d op k = applyBatchOp d' op k := by
  cases op <;> simp [applyBatchOp, h]

theorem applyBatchOp_untouched (d : Bytes → Option Bytes) (op : BatchOp) (k : Bytes)
    (h : op.touches k = false) : applyBatchOp d op k = d k := by
  cases op <;> simp_all [applyBatchOp, BatchOp.touches]

theorem foldl_applyBatchOp_congr (ops : List BatchOp) (k : Bytes) :
    ∀ d d' : Bytes → Option Bytes, d k = d' k →
      ops.foldl applyBatchOp d k = ops.foldl applyBatchOp d' k := by
  induction ops with
  | nil => intro d d' h; exact h
  | cons op ops ih =>
    intro d d' h
    exact ih _ _ (applyBatchOp_congr d d' op k h)

theorem foldl_applyBatchOp_untouched (ops : List BatchOp) (k : Bytes)
    (h : ∀ op ∈ ops, op.touches k = false) :
    ∀ d : Bytes → Option Bytes, ops.foldl applyBatchOp d k = d k := by
  induction ops with
  | nil => intro d; rfl
  | cons op ops ih =>
    intro d
    rw [List.foldl_cons, ih (fun o ho => h o (List.mem_cons_of_mem op ho))]
    exact applyBatchOp_untouched d op k (h op (List.mem_cons_self op ops))

theorem writeBatches_congr (batches : List (List BatchOp)) (k : Bytes) :
    ∀ d d' : Bytes → Option Bytes, d k = d' k →
      writeBatches d batches k = writeBatches d' batches k := by
  induction batches with
  | nil => intro d d' h; exact h
  | cons b bs ih =>
    intro d d' h
    exact ih _ _ (foldl_applyBatchOp_congr b k d d' h)

theorem writeBatches_untouched (batches : List (List BatchOp)) (k : Bytes)
    (h : ∀ b ∈ batches, ∀ op ∈ b, BatchOp.touches op k = false) :
    ∀ d : Bytes → Option Bytes, writeBatches d batches k = d k := by
  induction batches with
  | nil => intro d; rfl
  | cons b bs ih =>
    intro d
    unfold writeBatches at ih ⊢
    rw [List.foldl_cons, ih (fun b' hb' => h b' (List.mem_cons_of_mem b hb'))]
    exact foldl_applyBatchOp_untouched b k (h b (List.mem_cons_self b bs)) d

/-- The read loop, when it ends without error, has written the consumed batches
in order. -/
theorem readBatches_ok (reads : List (Option (List BatchOp) × Option Err)) :
    ∀ kv kv' : KVStore, readBatches reads kv = (kv', none) →
      kv'.data = writeBatches kv.data (consumedBatches reads) := by
  induction reads with
  | nil =>
    intro kv kv' h
    simp only [readBatches, Prod.mk.injEq, and_true] at h
    subst h; rfl
  | cons r reads ih =>
    intro kv kv' h
    obtain ⟨batch, err⟩ := r
    simp only [readBatches, consumedBatches] at h ⊢
    by_cases herr : err ≠ none ∧ err ≠ some Err.eof
    · rw [if_pos herr] at h
      simp only [Prod.mk.injEq] at h
      exact absurd h.2 herr.1
    · rw [if_neg herr] at h ⊢
      cases batch with
      | none =>
        simp only [Option.toList, List.nil_append] at h ⊢
        by_cases heof : err = some Err.eof
        · simp only [heof, if_true, Prod.mk.injEq, and_true] at h ⊢
          subst h; rfl
        · simp only [heof, if_false] at h ⊢
          exact ih kv kv' h
      | some b =>
        simp only [KVStore.Write, Option.toList, List.singleton_append] at h ⊢
        by_cases heof : err = some Err.eof
        · simp only [heof, if_true, Prod.mk.injEq, and_true] at h ⊢
          subst h; rfl
        · simp only [heof, if_false] at h ⊢
          have := ih _ kv' h
          rw [this]; rfl

/-- An ingest that passes the read-write check and returns no error has written
the range delete and the consumed batches, set the applied index and rebuilt the
units from the members. -/
theorem ApplySnapshot_ok_open (env : Env) (s : Shard) (header : RaftSnapshotHeader)
    (snap : Snapshot) (hgate : s.rwGate = none)
    (hok : (ApplySnapshot env s header snap).2 = none) :
    ∃ kv2 units,
      readBatches snap.reads
        (s.kv.Write [BatchOp.deleteRange env.shardDataPrefix env.shardDataMaxPrefix]).1 =
          (kv2, none) ∧
      unitsFromMembers env header.Members [] = .ok units ∧
      (ApplySnapshot env s header snap).1.kv = kv2 ∧
      (ApplySnapshot env s header snap).1.AppliedIndex = snap.index ∧
      (ApplySnapshot env s header snap).1.Units = units := by
  unfold ApplySnapshot at hok ⊢
  simp only [prepRWCheck, hgate, KVStore.Write] at hok ⊢
  rcases hr : readBatches snap.reads
      ⟨List.foldl applyBatchOp s.kv.data
        [BatchOp.deleteRange env.shardDataPrefix env.shardDataMaxPrefix],
        s.kv.writes ++ [KVWrite.write
          [BatchOp.deleteRange env.shardDataPrefix env.shardDataMaxPrefix]]⟩ with ⟨kv2, e⟩
  rw [hr] at hok
  cases e with
  | some e => simp at hok
  | none =>
    simp only at hok ⊢
    cases hu : unitsFromMembers env header.Members [] with
    | error e => simp [hu] at hok
    | ok units =>
      simp only [hu] at hok ⊢
      refine ⟨kv2, units, rfl, rfl, ?_⟩
      cases hsave : env.saveShardInfo units (setAppliedIndex
          { kv := kv2, AppliedIndex := s.AppliedIndex, Units := s.Units, rwGate := none,
            inflight := s.inflight + 1, savedInfo := s.savedInfo } snap.index).AppliedIndex with
      | none => simp [hsave, prepRWCheckDone, setAppliedIndex]
      | some e =>
        by_cases he : e = Err.shardStopWriting
        · simp [hsave, he, prepRWCheckDone, setAppliedIndex]
        · simp [hsave, he] at hok

theorem unitsFromMembers_ok (env : Env) (ms : List Member) :
    ∀ acc units, unitsFromMembers env ms acc = .ok units →
      ∃ new, units = acc ++ new ∧
        List.Forall₂ (fun (u : ShardUnit) (m : Member) =>
          env.unmarshalMemberCtx m.Context = .ok u.Suid ∧ u.DiskID = toDiskID env m.NodeID ∧
            u.Learner = m.Learner) new ms := by
  induction ms with
  | nil =>
    intro acc units h
    simp only [unitsFromMembers, Except.ok.injEq] at h
    exact ⟨[], by simp [h], List.Forall₂.nil⟩
  | cons m ms ih =>
    intro acc units h
    simp only [unitsFromMembers] at h
    cases hm : env.unmarshalMemberCtx m.Context with
    | error e => simp [hm] at h
    | ok suid =>
      simp only [hm] at h
      obtain ⟨new, hnew, hall⟩ := ih _ _ h
      refine ⟨⟨suid, toDiskID env m.NodeID, m.Learner⟩ :: new, by simp [hnew], ?_⟩
      exact List.Forall₂.cons ⟨hm, rfl, rfl⟩ hall

/-- C9 as stated fails: on a shard that is being deleted `ApplySnapshot` returns
no error without touching the store, so a key of the range that the snapshot
does not write is still there. -/
theorem ApplySnapshot_replaces_range_counterexample :
    (ApplySnapshot sampleEnv sampleStoppedShard sampleHeader sampleSnapshot).2 = none ∧
      consumedBatches sampleSnapshot.reads = [[BatchOp.put [1, 5] [7]]] ∧
      inRange sampleEnv.shardDataPrefix sampleEnv.shardDataMaxPrefix [1, 5] = true ∧
      inRange sampleEnv.shardDataPrefix sampleEnv.shardDataMaxPrefix [1, 9] = true ∧
      writeBatches (fun _ => none) (consumedBatches sampleSnapshot.reads) [1, 9] = none ∧
      (ApplySnapshot sampleEnv sampleStoppedShard sampleHeader sampleSnapshot).1.kv.data [1, 9] =
        some [0] := by
  decide

/-- C9, amended. Snapshot ingest replaces the shard's key range: after an
`ApplySnapshot` that passes the read-write check and returns no error, whose
consumed batches write only keys of `[shardPrefix, shardPrefix_max)`, every key
of that range holds what the batches, written in order to an empty store, leave
there, and every key outside the range holds what it held before. -/
theorem ApplySnapshot_replaces_range (env : Env) (s : Shard) (header : RaftSnapshotHeader)
    (snap : Snapshot) (hgate : s.rwGate = none)
    (hok : (ApplySnapshot env s header snap).2 = none)
    (hin : ∀ b ∈ consumedBatches snap.reads, ∀ op ∈ b, ∀ k, BatchOp.touches op k = true →
      inRange env.shardDataPrefix env.shardDataMaxPrefix k = true) (k : Bytes) :
    (ApplySnapshot env s header snap).1.kv.data k =
      if inRange env.shardDataPrefix env.shardDataMaxPrefix k = true then
        writeBatches (fun _ => none) (consumedBatches snap.reads) k
      else s.kv.data k := by
  obtain ⟨kv2, units, hread, _, hkv, _, _⟩ := ApplySnapshot_ok_open env s header snap hgate hok
  rw [hkv, readBatches_ok snap.reads _ kv2 hread]
  by_cases hk : inRange env.shardDataPrefix env.shardDataMaxPrefix k = true
  · rw [if_pos hk]
    apply writeBatches_congr
    simp [KVStore.Write, applyBatchOp, hk]
  · rw [if_neg hk, writeBatches_untouched]
    · simp [KVStore.Write, applyBatchOp, hk]
    · intro b hb op hop
      cases ht : BatchOp.touches op k with
      | false => rfl
      | true => exact absurd (hin b hb op hop k ht) hk

/-- C9, amended, in the sample environment: the key of the range that the
snapshot does not write is gone, the key it writes is there, the key outside
the range is kept. -/
theorem ApplySnapshot_replaces_range_witness :
    (ApplySnapshot sampleEnv sampleOpenShard sampleHeader sampleSnapshot).1.kv.data [1, 9] = none ∧
      (ApplySnapshot sampleEnv sampleOpenShard sampleHeader sampleSnapshot).1.kv.data [1, 5] =
        some [7] ∧
      (ApplySnapshot sampleEnv sampleOpenShard sampleHeader sampleSnapshot).1.kv.data [3] =
        some [1] :=
  have hin : ∀ b ∈ consumedBatches sampleSnapshot.reads, ∀ op ∈ b, ∀ k,
      BatchOp.touches op k = true →
        inRange sampleEnv.shardDataPrefix sampleEnv.shardDataMaxPrefix k = true := by
    intro b hb op hop k hk
    have hc : consumedBatches sampleSnapshot.reads = [[BatchOp.put [1, 5] [7]]] := by decide
    rw [hc, List.mem_singleton] at hb
    subst hb
    rw [List.mem_singleton] at hop
    subst hop
    simp only [BatchOp.touches, decide_eq_true_eq] at hk
    subst hk
    decide
  ⟨(ApplySnapshot_replaces_range sampleEnv sampleOpenShard sampleHeader sampleSnapshot rfl
      (by decide) hin [1, 9]).trans (by decide),
    (ApplySnapshot_replaces_range sampleEnv sampleOpenShard sampleHeader sampleSnapshot rfl
      (by decide) hin [1, 5]).trans (by decide),
    (ApplySnapshot_replaces_range sampleEnv sampleOpenShard sampleHeader sampleSnapshot rfl
      (by decide) hin [3]).trans (by decide)⟩

/-- C10 as stated fails: on a shard that is being deleted `ApplySnapshot`
returns no error and leaves the applied index and the units as they were. -/
theorem ApplySnapshot_rebuilds_units_counterexample :
    (ApplySnapshot sampleEnv sampleStoppedShard sampleHeader sampleSnapshot).2 = none ∧
      sampleSnapshot.index = 7 ∧
      getAppliedIndex
        (ApplySnapshot sampleEnv sampleStoppedShard sampleHeader sampleSnapshot).1 = 0 ∧
      sampleHeader.Members.length = 1 ∧
      (ApplySnapshot sampleEnv sampleStoppedShard sampleHeader sampleSnapshot).1.Units = [] := by
  decide

/-- C10, amended. After an `ApplySnapshot` that passes the read-write check and
returns no error, `AppliedIndex` is the index of the snapshot and `Units` has
one unit per member of the header, in the same order, with the `Suid` decoded
from the member's context, the member's node id converted to a disk id (the node
id itself when it fits the disk-id type) and the member's learner flag; nothing
of the former units is kept. -/
theorem ApplySnapshot_rebuilds_units (env : Env) (s : Shard) (header : RaftSnapshotHeader)
    (snap : Snapshot) (hgate : s.rwGate = none)
    (hok : (ApplySnapshot env s header snap).2 = none) :
    getAppliedIndex (ApplySnapshot env s header snap).1 = snap.index ∧
      List.Forall₂ (fun (u : ShardUnit) (m : Member) =>
        env.unmarshalMemberCtx m.Context = .ok u.Suid ∧ u.DiskID = toDiskID env m.NodeID ∧
          (m.NodeID < 2 ^ env.diskIDBits → u.DiskID = m.NodeID) ∧ u.Learner = m.Learner)
        (ApplySnapshot env s header snap).1.Units header.Members := by
  obtain ⟨kv2, units, _, hunits, _, hidx, hu⟩ := ApplySnapshot_ok_open env s header snap hgate hok
  refine ⟨hidx, ?_⟩
  obtain ⟨new, hnew, hall⟩ := unitsFromMembers_ok env header.Members [] units hunits
  rw [hu, hnew, List.nil_append]
  refine List.Forall₂.imp ?_ hall
  intro u m ⟨h1, h2, h3⟩
  refine ⟨h1, h2, ?_, h3⟩
  intro hlt
  rw [h2, toDiskID, Nat.mod_eq_of_lt hlt]

/-- C10, amended, in the sample environment. -/
theorem ApplySnapshot_rebuilds_units_witness :
    getAppliedIndex (ApplySnapshot sampleEnv sampleOpenShard sampleHeader sampleSnapshot).1 = 7 ∧
      (ApplySnapshot sampleEnv sampleOpenShard sampleHeader sampleSnapshot).1.Units =
        [⟨40, 12, false⟩] ∧
      List.Forall₂ (fun (u : ShardUnit) (m : Member) =>
        sampleEnv.unmarshalMemberCtx m.Context = .ok u.Suid ∧
          u.DiskID = toDiskID sampleEnv m.NodeID ∧
          (m.NodeID < 2 ^ sampleEnv.diskIDBits → u.DiskID = m.NodeID) ∧ u.Learner = m.Learner)
        (ApplySnapshot sampleEnv sampleOpenShard sampleHeader sampleSnapshot).1.Units
        sampleHeader.Members :=
  ⟨(ApplySnapshot_rebuilds_units sampleEnv sampleOpenShard sampleHeader sampleSnapshot rfl
      (by decide)).1, by decide,
    (ApplySnapshot_rebuilds_units sampleEnv sampleOpenShard sampleHeader sampleSnapshot rfl
      (by decide)).2⟩

/-! ## Replaying a log on the state it left -/

/-- C1 as stated fails: on the empty store the log
`[UpdateBlob(k, v2), InsertBlob(k, v1)]` leaves `k` with `v1` (the update finds
no key and does nothing), and applied again to that state it leaves `k` with
`v2` (now the update overwrites and the insert finds the key). It also fails on
logs in which no update comes before an insert, each of which is handled without
error the first time and returns an error when it is applied again: a blob
update that carries no blob encoding, an insert of such a value on a key that is
held and then deleted, an item that is deleted and inserted again with a value
that is no item encoding, and an item key that is deleted and inserted again as
a blob. -/
theorem replay_converges_counterexample :
    ((Apply sampleEnv (sampleShard emptyKV) updateBeforeInsert 2).2 =
        Outcome.returned [some ⟨[getRaw], Blob.zero⟩,
          some ⟨[getRaw, setRaw], ⟨[7], ⟨3, 0, 0, 0, [], 0⟩⟩⟩] none ∧
      (Apply sampleEnv (sampleShard emptyKV) updateBeforeInsert 2).1.kv.data sampleKey =
        some [3, 7] ∧
      (Apply sampleEnv (Apply sampleEnv (sampleShard emptyKV) updateBeforeInsert 2).1
        updateBeforeInsert 4).2 =
        Outcome.returned [some ⟨[getRaw, setRaw], Blob.zero⟩,
          some ⟨[getRaw], ⟨[8], ⟨3, 0, 0, 0, [], 0⟩⟩⟩] none ∧
      (Apply sampleEnv (Apply sampleEnv (sampleShard emptyKV) updateBeforeInsert 2).1
        updateBeforeInsert 4).1.kv.data sampleKey = some [3, 8]) ∧
    (updatesFollowInserts sampleEnv updateWithBadValue emptyKV ∧
      kindsSeparate sampleEnv updateWithBadValue ∧
      (Apply sampleEnv (sampleShard emptyKV) updateWithBadValue 2).2 =
        Outcome.returned [some ⟨[getRaw, setRaw], ⟨[7], ⟨3, 0, 0, 0, [], 0⟩⟩⟩,
          some ⟨[getRaw, setRaw], Blob.zero⟩] none ∧
      (Apply sampleEnv (Apply sampleEnv (sampleShard emptyKV) updateWithBadValue 2).1
        updateWithBadValue 4).2 = Outcome.returned [none, none] (some Err.unmarshal)) ∧
    (updatesFollowInserts sampleEnv insertBadThenDelete sampleBlobKV ∧
      kindsSeparate sampleEnv insertBadThenDelete ∧
      (Apply sampleEnv (sampleShard sampleBlobKV) insertBadThenDelete 2).2 =
        Outcome.returned [some ⟨[getRaw], ⟨[7], ⟨3, 0, 0, 0, [], 0⟩⟩⟩,
          some ⟨[getRaw, delRaw], Blob.zero⟩] none ∧
      (Apply sampleEnv (Apply sampleEnv (sampleShard sampleBlobKV) insertBadThenDelete 2).1
        insertBadThenDelete 4).2 = Outcome.returned [none, none] (some Err.unmarshal)) ∧
    (updatesFollowInserts sampleEnv reinsertBadItem sampleItemKV ∧
      kindsSeparate sampleEnv reinsertBadItem ∧
      (Apply sampleEnv (sampleShard sampleItemKV) reinsertBadItem 3).2 =
        Outcome.returned [some ⟨[], Blob.zero⟩, some ⟨[getRaw, delRaw], Blob.zero⟩,
          some ⟨[getRaw, setRaw], Blob.zero⟩] none ∧
      (Apply sampleEnv (Apply sampleEnv (sampleShard sampleItemKV) reinsertBadItem 3).1
        reinsertBadItem 6).2 = Outcome.returned [none, none, none] (some Err.unmarshal)) ∧
    (updatesFollowInserts sampleEnv reinsertAsBlob sampleItemKV ∧
      sampleEnv.unmarshalBlob (sampleEnv.kvValue sampleData1) = .ok ⟨[7], ⟨3, 0, 0, 0, [], 0⟩⟩ ∧
      (Apply sampleEnv (sampleShard sampleItemKV) reinsertAsBlob 3).2 =
        Outcome.returned [some ⟨[], Blob.zero⟩, some ⟨[getRaw, delRaw], Blob.zero⟩,
          some ⟨[getRaw, setRaw], ⟨[7], ⟨3, 0, 0, 0, [], 0⟩⟩⟩] none ∧
      (Apply sampleEnv (Apply sampleEnv (sampleShard sampleItemKV) reinsertAsBlob 3).1
        reinsertAsBlob 6).2 = Outcome.returned [none, none, none] (some Err.unmarshal)) := by
  refine ⟨by decide, ⟨by decide, by unfold kindsSeparate; decide, by decide, by decide⟩,
    ⟨by decide, by unfold kindsSeparate; decide, by decide, by decide⟩,
    ⟨by decide, by unfold kindsSeparate; decide, by decide, by decide⟩,
    ⟨by decide, rfl, by decide, by decide⟩⟩

theorem keyEffect_cons_on (env : Env) (p : ProposalData) (ps : List ProposalData)
    (x : Option Bytes) :
    keyEffect env (recordKey env p) (p :: ps) x =
      match recordEffect env p x with
      | some y => keyEffect env (recordKey env p) ps y
      | none => none := by
  simp [keyEffect]

theorem keyEffect_cons_on' (env : Env) (κ : Bytes) (p : ProposalData) (ps : List ProposalData)
    (x : Option Bytes) (hk : recordKey env p = κ) :
    keyEffect env κ (p :: ps) x =
      match recordEffect env p x with
      | some y => keyEffect env κ ps y
      | none => none := by
  subst hk; exact keyEffect_cons_on env p ps x

theorem keyEffect_cons_off (env : Env) (κ : Bytes) (p : ProposalData) (ps : List ProposalData)
    (x : Option Bytes) (hk : recordKey env p ≠ κ) :
    keyEffect env κ (p :: ps) x = keyEffect env κ ps x := by
  simp [keyEffect, hk]

theorem hasDelete_cons (env : Env) (κ : Bytes) (p : ProposalData) (ps : List ProposalData) :
    hasDelete env κ (p :: ps) ↔ (recordKey env p = κ ∧ isDelete p) ∨ hasDelete env κ ps := by
  simp [hasDelete]

/-- A record that is no delete leaves a value where it finds one. -/
theorem recordEffect_present (env : Env) (p : ProposalData) (z : Bytes) (y : Option Bytes)
    (hd : ¬ isDelete p) (h : recordEffect env p (some z) = some y) : ∃ z', y = some z' := by
  by_cases h1 : p.Op = raftOpInsertItem
  · rw [recordEffect_insertItem env p _ h1] at h
    exact ⟨_, (Option.some.inj h).symm⟩
  by_cases h2 : p.Op = raftOpUpdateItem
  · rw [recordEffect_updateItem env p _ h2] at h
    cases hpi : env.unmarshalItem (env.kvValue p.Data) with
    | error e => simp [hpi] at h
    | ok pi =>
      simp only [hpi] at h
      cases hit : env.unmarshalItem z with
      | error e => simp [hit] at h
      | ok item =>
        simp only [hit] at h
        cases hm : env.marshalItem (mergeItem item pi) with
        | error e => simp [hm] at h
        | ok d =>
          simp only [hm] at h
          exact ⟨_, (Option.some.inj h).symm⟩
  by_cases h3 : p.Op = raftOpInsertBlob
  · rw [recordEffect_insertBlob env p _ h3] at h
    simp only [Option.getD_some] at h
    cases hb : env.unmarshalBlob z with
    | error e => simp [hb] at h
    | ok b =>
      simp only [hb] at h
      exact ⟨_, (Option.some.inj h).symm⟩
  by_cases h4 : p.Op = raftOpUpdateBlob
  · rw [recordEffect_updateBlob env p _ h4] at h
    exact ⟨_, (Option.some.inj h).symm⟩
  · have : recordEffect env p (some z) = none := by
      have hd' : ¬ (p.Op = raftOpDeleteBlob ∨ p.Op = raftOpDeleteItem) := hd
      simp [recordEffect, h1, h2, h3, h4, hd']
    rw [this] at h
    exact Option.noConfusion h

/-- Without a delete of the key, a value under the key stays a value. -/
theorem keyEffect_present (env : Env) (κ : Bytes) (ps : List ProposalData) :
    ∀ (z : Bytes) (y : Option Bytes), ¬ hasDelete env κ ps →
      keyEffect env κ ps (some z) = some y → ∃ z', y = some z' := by
  induction ps with
  | nil =>
    intro z y _ h
    exact ⟨z, (Option.some.inj h).symm⟩
  | cons p ps ih =>
    intro z y hnd h
    rw [hasDelete_cons, not_or] at hnd
    by_cases hk : recordKey env p = κ
    · rw [keyEffect_cons_on' env κ p ps _ hk] at h
      cases hr : recordEffect env p (some z) with
      | none => simp [hr] at h
      | some x1 =>
        simp only [hr] at h
        obtain ⟨z1, hz1⟩ := recordEffect_present env p z x1 (fun hd => hnd.1 ⟨hk, hd⟩) hr
        subst hz1
        exact ih z1 y hnd.2 h
    · rw [keyEffect_cons_off env κ p ps _ hk] at h
      exact ih z y hnd.2 h

/-- After a delete of the key, what the log leaves under the key does not depend
on what the store held there at first. -/
theorem keyEffect_hasDelete (env : Env) (κ : Bytes) (ps : List ProposalData) :
    ∀ (x z y w : Option Bytes), hasDelete env κ ps →
      keyEffect env κ ps x = some y → keyEffect env κ ps z = some w → y = w := by
  induction ps with
  | nil =>
    intro x z y w hd
    obtain ⟨p, hp, _⟩ := hd
    simp at hp
  | cons p ps ih =>
    intro x z y w hd hx hz
    by_cases hk : recordKey env p = κ
    · rw [keyEffect_cons_on' env κ p ps _ hk] at hx hz
      cases hrx : recordEffect env p x with
      | none => simp [hrx] at hx
      | some x1 =>
        cases hrz : recordEffect env p z with
        | none => simp [hrz] at hz
        | some z1 =>
          simp only [hrx] at hx
          simp only [hrz] at hz
          by_cases hdel : isDelete p
          · rw [recordEffect_delete env p _ hdel] at hrx hrz
            rw [← Option.some.inj hrx] at hx
            rw [← Option.some.inj hrz] at hz
            rw [hx] at hz
            exact Option.some.inj hz
          · have hd' : hasDelete env κ ps := by
              rw [hasDelete_cons] at hd
              rcases hd with ⟨_, h⟩ | h
              · exact absurd h hdel
              · exact h
            exact ih x1 z1 y w hd' hx hz
    · rw [keyEffect_cons_off env κ p ps _ hk] at hx hz
      have hd' : hasDelete env κ ps := by
        rw [hasDelete_cons] at hd
        rcases hd with ⟨h, _⟩ | h
        · exact absurd h hk
        · exact h
      exact ih x z y w hd' hx hz

/-! ### Folding the records of one key -/

/-- Records that are handled without error on good states, and keep states
good, are handled without error one after the other. -/
theorem keyEffect_total (env : Env) (κ : Bytes) (G : Option Bytes → Prop)
    (ps : List ProposalData)
    (hrec : ∀ p ∈ ps, recordKey env p = κ → ∀ t, G t →
      ∃ t', recordEffect env p t = some t' ∧ G t') :
    ∀ t, G t → ∃ t', keyEffect env κ ps t = some t' ∧ G t' := by
  induction ps with
  | nil => intro t ht; exact ⟨t, rfl, ht⟩
  | cons p ps ih =>
    intro t ht
    have ih' := ih (fun q hq => hrec q (List.mem_cons_of_mem p hq))
    by_cases hk : recordKey env p = κ
    · obtain ⟨t1, h1, hg1⟩ := hrec p (List.mem_cons_self p ps) hk t ht
      rw [keyEffect_cons_on' env κ p ps _ hk, h1]
      exact ih' t1 hg1
    · rw [keyEffect_cons_off env κ p ps _ hk]
      exact ih' t ht

/-- What a log leaves under a key is what the key held at first, or is good. -/
theorem keyEffect_final (env : Env) (κ : Bytes) (G : Option Bytes → Prop)
    (ps : List ProposalData)
    (hrec : ∀ p ∈ ps, recordKey env p = κ → ∀ t, G t →
      ∃ t', recordEffect env p t = some t' ∧ G t')
    (hfin : ∀ p ∈ ps, recordKey env p = κ → ∀ x x1, recordEffect env p x = some x1 →
      x1 = x ∨ G x1) :
    ∀ x F, keyEffect env κ ps x = some F → F = x ∨ G F := by
  induction ps with
  | nil => intro x F h; exact Or.inl (Option.some.inj h).symm
  | cons p ps ih =>
    intro x F h
    have hrec' : ∀ q ∈ ps, recordKey env q = κ → ∀ t, G t →
        ∃ t', recordEffect env q t = some t' ∧ G t' :=
      fun q hq => hrec q (List.mem_cons_of_mem p hq)
    have ih' := ih hrec' (fun q hq => hfin q (List.mem_cons_of_mem p hq))
    by_cases hk : recordKey env p = κ
    · rw [keyEffect_cons_on' env κ p ps _ hk] at h
      cases hr : recordEffect env p x with
      | none => simp [hr] at h
      | some x1 =>
        simp only [hr] at h
        rcases hfin p (List.mem_cons_self p ps) hk x x1 hr with h1 | h1
        · subst h1; exact ih' _ F h
        · obtain ⟨t', ht', hg'⟩ := keyEffect_total env κ G ps hrec' x1 h1
          rw [h] at ht'
          rw [Option.some.inj ht']
          exact Or.inr hg'
    · rw [keyEffect_cons_off env κ p ps _ hk] at h
      exact ih' x F h

theorem blobKey_tail (env : Env) (κ : Bytes) (p : ProposalData) (ps : List ProposalData)
    (h : blobKey env κ (p :: ps)) : blobKey env κ ps :=
  fun q hq => h q (List.mem_cons_of_mem p hq)

theorem itemKey_tail (env : Env) (κ : Bytes) (p : ProposalData) (ps : List ProposalData)
    (h : itemKey env κ (p :: ps)) : itemKey env κ ps :=
  fun q hq => h q (List.mem_cons_of_mem p hq)

/-! ### Keys that hold blobs -/

theorem recordEffect_blob_total (env : Env) (p : ProposalData)
    (hkind : isBlobWrite p ∨ isDelete p)
    (hval : isBlobWrite p → ∃ b, env.unmarshalBlob (env.kvValue p.Data) = .ok b)
    (t : Option Bytes) (ht : goodBlob env t) :
    ∃ t', recordEffect env p t = some t' ∧ goodBlob env t' := by
  rcases hkind with (h3 | h4) | h5
  · obtain ⟨b, hb⟩ := hval (Or.inl h3)
    rw [recordEffect_insertBlob env p _ h3]
    cases t with
    | none =>
      simp only [Option.getD_none, hb]
      refine ⟨_, rfl, ?_⟩
      intro v hv
      rw [← Option.some.inj hv]
      exact ⟨b, hb⟩
    | some vg =>
      obtain ⟨b', hb'⟩ := ht vg rfl
      simp only [Option.getD_some, hb']
      exact ⟨_, rfl, ht⟩
  · obtain ⟨b, hb⟩ := hval (Or.inr h4)
    rw [recordEffect_updateBlob env p _ h4]
    refine ⟨_, rfl, ?_⟩
    intro v hv
    cases t with
    | none => simp at hv
    | some vg =>
      simp only [Option.map_some', Option.some.injEq] at hv
      rw [← hv]
      exact ⟨b, hb⟩
  · rw [recordEffect_delete env p _ h5]
    exact ⟨_, rfl, fun v hv => Option.noConfusion hv⟩

theorem recordEffect_blob_final (env : Env) (p : ProposalData)
    (hkind : isBlobWrite p ∨ isDelete p)
    (hval : isBlobWrite p → ∃ b, env.unmarshalBlob (env.kvValue p.Data) = .ok b)
    (x x1 : Option Bytes) (h : recordEffect env p x = some x1) :
    x1 = x ∨ goodBlob env x1 := by
  rcases hkind with (h3 | h4) | h5
  · obtain ⟨b, hb⟩ := hval (Or.inl h3)
    rw [recordEffect_insertBlob env p _ h3] at h
    cases x with
    | none =>
      simp only [Option.getD_none, hb, Option.some.injEq] at h
      right
      intro v hv
      rw [← h] at hv
      rw [← Option.some.inj hv]
      exact ⟨b, hb⟩
    | some vg =>
      simp only [Option.getD_some] at h
      cases hb' : env.unmarshalBlob vg with
      | error e => simp [hb'] at h
      | ok b' =>
        simp only [hb', Option.some.injEq] at h
        exact Or.inl h.symm
  · obtain ⟨b, hb⟩ := hval (Or.inr h4)
    rw [recordEffect_updateBlob env p _ h4, Option.some.injEq] at h
    right
    intro v hv
    rw [← h] at hv
    cases x with
    | none => simp at hv
    | some vg =>
      simp only [Option.map_some', Option.some.injEq] at hv
      rw [← hv]
      exact ⟨b, hb⟩
  · rw [recordEffect_delete env p _ h5, Option.some.injEq] at h
    right
    intro v hv
    rw [← h] at hv
    exact Option.noConfusion hv

/-- On a key that holds blobs and is not deleted, replaying the log on the value
it left leaves that value. -/
theorem keyEffect_blob_idem (env : Env) (κ : Bytes) (f : Bytes) (b : Blob)
    (hf : env.unmarshalBlob f = .ok b) (ps : List ProposalData) :
    blobKey env κ ps → ¬ hasDelete env κ ps → ∀ z,
      keyEffect env κ ps (some z) = some (some f) →
      keyEffect env κ ps (some f) = some (some f) := by
  induction ps with
  | nil => intro _ _ z _; rfl
  | cons p ps ih =>
    intro hb hnd z h
    rw [hasDelete_cons, not_or] at hnd
    have ih' := ih (blobKey_tail env κ p ps hb) hnd.2
    by_cases hk : recordKey env p = κ
    · rw [keyEffect_cons_on' env κ p ps _ hk] at h ⊢
      obtain ⟨hkind, _⟩ := hb p (List.mem_cons_self p ps) hk
      rcases hkind with (h3 | h4) | h5
      · rw [recordEffect_insertBlob env p _ h3] at h ⊢
        simp only [Option.getD_some] at h ⊢
        cases hz : env.unmarshalBlob z with
        | error e => simp [hz] at h
        | ok bz =>
          simp only [hz] at h
          simp only [hf]
          exact ih' z h
      · rw [recordEffect_updateBlob env p _ h4] at h ⊢
        exact h
      · exact absurd ⟨hk, h5⟩ hnd.1
    · rw [keyEffect_cons_off env κ p ps _ hk] at h ⊢
      exact ih' z h

theorem recordEffect_absent (env : Env) (p : ProposalData) (y : Option Bytes)
    (hi : ¬ isInsert p) (h : recordEffect env p none = some y) : y = none := by
  unfold isInsert at hi
  rw [not_or] at hi
  by_cases h2 : p.Op = raftOpUpdateItem
  · rw [recordEffect_updateItem env p _ h2] at h
    cases hpi : env.unmarshalItem (env.kvValue p.Data) with
    | error e => simp [hpi] at h
    | ok pi =>
      simp only [hpi] at h
      exact (Option.some.inj h).symm
  by_cases h4 : p.Op = raftOpUpdateBlob
  · rw [recordEffect_updateBlob env p _ h4] at h
    exact (Option.some.inj h).symm
  by_cases h5 : isDelete p
  · rw [recordEffect_delete env p _ h5] at h
    exact (Option.some.inj h).symm
  · have hd' : ¬ (p.Op = raftOpDeleteBlob ∨ p.Op = raftOpDeleteItem) := h5
    have : recordEffect env p none = none := by
      simp [recordEffect, hi.1, hi.2, h2, h4, hd']
    rw [this] at h
    exact Option.noConfusion h

/-- A key that the store does not hold and the log does not insert is absent
after the log. -/
theorem keyEffect_absent (env : Env) (κ : Bytes) (ps : List ProposalData) :
    (∀ q ∈ ps, recordKey env q = κ → ¬ isInsert q) →
      ∀ F, keyEffect env κ ps none = some F → F = none := by
  induction ps with
  | nil => intro _ F h; exact (Option.some.inj h).symm
  | cons p ps ih =>
    intro hni F h
    have ih' := ih (fun q hq => hni q (List.mem_cons_of_mem p hq))
    by_cases hk : recordKey env p = κ
    · rw [keyEffect_cons_on' env κ p ps _ hk] at h
      cases hr : recordEffect env p none with
      | none => simp [hr] at h
      | some y =>
        simp only [hr] at h
        have hy := recordEffect_absent env p y (hni p (List.mem_cons_self p ps) hk) hr
        subst hy
        exact ih' F h
    · rw [keyEffect_cons_off env κ p ps _ hk] at h
      exact ih' F h

theorem mem_earlyUpdateKeys_cons (env : Env) (κ : Bytes) (p : ProposalData)
    (ps : List ProposalData) :
    κ ∈ earlyUpdateKeys env (p :: ps) ↔
      (recordKey env p = κ ∧ isUpdate p ∧ ∃ q ∈ ps, recordKey env q = κ ∧ isInsert q) ∨
        κ ∈ earlyUpdateKeys env ps := by
  simp only [earlyUpdateKeys]
  split_ifs with h
  · rw [List.mem_cons]
    constructor
    · rintro (hk | hk)
      · subst hk
        exact Or.inl ⟨rfl, h.1, h.2⟩
      · exact Or.inr hk
    · rintro (⟨hk, _, _⟩ | hk)
      · exact Or.inl hk.symm
      · exact Or.inr hk
  · constructor
    · exact Or.inr
    · rintro (⟨hk, hu, q, hq, hqk, hqi⟩ | hk)
      · exact absurd ⟨hu, q, hq, by rw [hqk, hk], hqi⟩ h
      · exact hk

/-- On a key that holds blobs, is absent at first and is not deleted, replaying
a log in which no update of the key comes before an insert of the key leaves
what the log left. -/
theorem keyEffect_blob_absent (env : Env) (κ : Bytes) (ps : List ProposalData) :
    blobKey env κ ps → ¬ hasDelete env κ ps → κ ∉ earlyUpdateKeys env ps →
      ∀ F, keyEffect env κ ps none = some F → keyEffect env κ ps F = some F := by
  induction ps with
  | nil =>
    intro _ _ _ F h
    rw [← Option.some.inj h]; rfl
  | cons p ps ih =>
    intro hb hnd hv F h
    rw [hasDelete_cons, not_or] at hnd
    rw [mem_earlyUpdateKeys_cons, not_or] at hv
    have hb' := blobKey_tail env κ p ps hb
    by_cases hk : recordKey env p = κ
    · rw [keyEffect_cons_on' env κ p ps _ hk] at h
      obtain ⟨hkind, hval⟩ := hb p (List.mem_cons_self p ps) hk
      rcases hkind with (h3 | h4) | h5
      · obtain ⟨b, hbv⟩ := hval (Or.inl h3)
        rw [recordEffect_insertBlob env p _ h3] at h
        simp only [Option.getD_none, hbv] at h
        obtain ⟨f, hf⟩ := keyEffect_present env κ ps _ F hnd.2 h
        subst hf
        have hgood : goodBlob env (some f) := by
          rcases keyEffect_final env κ (goodBlob env) ps
              (fun q hq hqk => recordEffect_blob_total env q (hb' q hq hqk).1 (hb' q hq hqk).2)
              (fun q hq hqk => recordEffect_blob_final env q (hb' q hq hqk).1 (hb' q hq hqk).2)
              _ _ h with h1 | h1
          · intro v hv'
            rw [h1] at hv'
            rw [← Option.some.inj hv']
            exact ⟨b, hbv⟩
          · exact h1
        obtain ⟨bf, hbf⟩ := hgood f rfl
        rw [keyEffect_cons_on' env κ p ps _ hk, recordEffect_insertBlob env p _ h3]
        simp only [Option.getD_some, hbf]
        exact keyEffect_blob_idem env κ f bf hbf ps hb' hnd.2 _ h
      · rw [recordEffect_updateBlob env p _ h4] at h
        simp only [Option.map_none'] at h
        have hni : ∀ q ∈ ps, recordKey env q = κ → ¬ isInsert q :=
          fun q hq hqk hqi => hv.1 ⟨hk, Or.inr h4, q, hq, hqk, hqi⟩
        have hF := keyEffect_absent env κ ps hni F h
        subst hF
        rw [keyEffect_cons_on' env κ p ps _ hk, recordEffect_updateBlob env p _ h4]
        simp only [Option.map_none']
        exact h
      · exact absurd ⟨hk, h5⟩ hnd.1
    · rw [keyEffect_cons_off env κ p ps _ hk] at h
      have := ih hb' hnd.2 hv.2 F h
      rw [keyEffect_cons_off env κ p ps _ hk]
      exact this

/-- On a key that holds blobs, replaying a log in which no update of the key
comes before an insert of the key, unless the key is held at first or deleted,
leaves what the log left. -/
theorem keyEffect_blob_replay (env : Env) (κ : Bytes) (ps : List ProposalData)
    (hb : blobKey env κ ps) (x F : Option Bytes)
    (hv : x = none → ¬ hasDelete env κ ps → κ ∉ earlyUpdateKeys env ps)
    (h : keyEffect env κ ps x = some F) : keyEffect env κ ps F = some F := by
  have htot := fun q hq hqk => recordEffect_blob_total env q (hb q hq hqk).1 (hb q hq hqk).2
  have hfin := fun q hq hqk => recordEffect_blob_final env q (hb q hq hqk).1 (hb q hq hqk).2
  rcases keyEffect_final env κ (goodBlob env) ps htot hfin x F h with h1 | hgood
  · subst h1; exact h
  · by_cases hd : hasDelete env κ ps
    · obtain ⟨w, hw, _⟩ := keyEffect_total env κ (goodBlob env) ps htot F hgood
      rw [hw, keyEffect_hasDelete env κ ps x F F w hd h hw]
    · cases x with
      | none => exact keyEffect_blob_absent env κ ps hb hd (hv rfl hd) F h
      | some z =>
        obtain ⟨f, hf⟩ := keyEffect_present env κ ps z F hd h
        subst hf
        obtain ⟨bf, hbf⟩ := hgood f rfl
        exact keyEffect_blob_idem env κ f bf hbf ps hb hd z h

/-! ### Keys that hold items -/

theorem recordEffect_item_total (env : Env) (hlaw : env.ItemCodecLawful) (p : ProposalData)
    (hkind : isItemWrite p ∨ isDelete p)
    (hval : isItemWrite p → ∃ it, env.unmarshalItem (env.kvValue p.Data) = .ok it)
    (t : Option Bytes) (ht : goodItem env t) :
    ∃ t', recordEffect env p t = some t' ∧ goodItem env t' := by
  rcases hkind with (h1 | h2) | h5
  · obtain ⟨it, hit⟩ := hval (Or.inl h1)
    rw [recordEffect_insertItem env p _ h1]
    refine ⟨_, rfl, ?_⟩
    cases t with
    | none =>
      intro v hv
      simp only [Option.getD_none, Option.some.injEq] at hv
      rw [← hv]
      exact ⟨it, hit⟩
    | some vg => exact ht
  · obtain ⟨pi, hpi⟩ := hval (Or.inr h2)
    rw [recordEffect_updateItem env p _ h2]
    simp only [hpi]
    cases t with
    | none => exact ⟨_, rfl, ht⟩
    | some vg =>
      obtain ⟨item, hitem⟩ := ht vg rfl
      obtain ⟨d, hd⟩ := hlaw.1 (mergeItem item pi)
      simp only [hitem, hd]
      refine ⟨_, rfl, ?_⟩
      intro v hv
      rw [← Option.some.inj hv]
      exact ⟨_, hlaw.2 _ _ hd⟩
  · rw [recordEffect_delete env p _ h5]
    exact ⟨_, rfl, fun v hv => Option.noConfusion hv⟩

theorem recordEffect_item_final (env : Env) (hlaw : env.ItemCodecLawful) (p : ProposalData)
    (hkind : isItemWrite p ∨ isDelete p)
    (hval : isItemWrite p → ∃ it, env.unmarshalItem (env.kvValue p.Data) = .ok it)
    (x x1 : Option Bytes) (h : recordEffect env p x = some x1) :
    x1 = x ∨ goodItem env x1 := by
  cases x with
  | none =>
    right
    obtain ⟨t', ht', hg⟩ := recordEffect_item_total env hlaw p hkind hval none
      (fun v hv => Option.noConfusion hv)
    rw [h] at ht'
    rw [Option.some.inj ht']
    exact hg
  | some vg =>
    rcases hkind with (h1 | h2) | h5
    · rw [recordEffect_insertItem env p _ h1] at h
      exact Or.inl (Option.some.inj h).symm
    · rw [recordEffect_updateItem env p _ h2] at h
      cases hpi : env.unmarshalItem (env.kvValue p.Data) with
      | error e => simp [hpi] at h
      | ok pi =>
        simp only [hpi] at h
        cases hit : env.unmarshalItem vg with
        | error e => simp [hit] at h
        | ok item =>
          simp only [hit] at h
          cases hm : env.marshalItem (mergeItem item pi) with
          | error e => simp [hm] at h
          | ok d =>
            simp only [hm, Option.some.injEq] at h
            right
            intro v hv
            rw [← h] at hv
            rw [← Option.some.inj hv]
            exact ⟨_, hlaw.2 _ _ hm⟩
    · rw [recordEffect_delete env p _ h5, Option.some.injEq] at h
      right
      intro v hv
      rw [← h] at hv
      exact Option.noConfusion hv

theorem keyUpdates_cons_off (env : Env) (κ : Bytes) (p : ProposalData) (ps : List ProposalData)
    (h : ¬ (recordKey env p = κ ∧ p.Op = raftOpUpdateItem)) :
    keyUpdates env κ (p :: ps) = keyUpdates env κ ps := by
  simp only [keyUpdates, if_neg h]

theorem keyUpdates_cons_on (env : Env) (κ : Bytes) (p : ProposalData) (ps : List ProposalData)
    (pi : Item) (hk : recordKey env p = κ) (hop : p.Op = raftOpUpdateItem)
    (hpi : env.unmarshalItem (env.kvValue p.Data) = .ok pi) :
    keyUpdates env κ (p :: ps) = pi :: keyUpdates env κ ps := by
  simp only [keyUpdates, hk, hop, and_self, if_true, hpi]

theorem mergeAll_cons (item pi : Item) (us : List Item) :
    mergeAll item (pi :: us) = mergeAll (mergeItem item pi) us := by
  simp [mergeAll]

/-- On a key that holds items and is not deleted, the log leaves the value it
finds when it has no update for the key, and else the encoding of the item it
finds after the updates went in. -/
theorem keyEffect_item_fold (env : Env) (hlaw : env.ItemCodecLawful) (κ : Bytes)
    (ps : List ProposalData) :
    itemKey env κ ps → ¬ hasDelete env κ ps → ∀ z,
      (keyUpdates env κ ps = [] → keyEffect env κ ps (some z) = some (some z)) ∧
      (keyUpdates env κ ps ≠ [] → ∀ it, env.unmarshalItem z = .ok it →
        ∃ b, env.marshalItem (mergeAll it (keyUpdates env κ ps)) = .ok b ∧
          keyEffect env κ ps (some z) = some (some b)) := by
  induction ps with
  | nil =>
    intro _ _ z
    exact ⟨fun _ => rfl, fun h => absurd rfl h⟩
  | cons p ps ih =>
    intro hi hnd z
    rw [hasDelete_cons, not_or] at hnd
    have ih' := ih (itemKey_tail env κ p ps hi) hnd.2
    by_cases hk : recordKey env p = κ
    · obtain ⟨hkind, hval⟩ := hi p (List.mem_cons_self p ps) hk
      rcases hkind with (h1 | h2) | h5
      · have hne : ¬ (recordKey env p = κ ∧ p.Op = raftOpUpdateItem) := by
          rintro ⟨_, h'⟩
          rw [h1] at h'
          exact absurd h' (by decide)
        rw [keyUpdates_cons_off env κ p ps hne, keyEffect_cons_on' env κ p ps _ hk,
          recordEffect_insertItem env p _ h1]
        exact ih' z
      · obtain ⟨pi, hpi⟩ := hval (Or.inr h2)
        rw [keyUpdates_cons_on env κ p ps pi hk h2 hpi, keyEffect_cons_on' env κ p ps _ hk,
          recordEffect_updateItem env p _ h2]
        refine ⟨fun h => absurd h (List.cons_ne_nil _ _), ?_⟩
        intro _ it hit
        obtain ⟨d, hd⟩ := hlaw.1 (mergeItem it pi)
        simp only [hpi, hit, hd]
        rw [mergeAll_cons]
        by_cases hus : keyUpdates env κ ps = []
        · rw [hus]
          exact ⟨d, hd, (ih' d).1 hus⟩
        · exact (ih' d).2 hus (mergeItem it pi) (hlaw.2 _ _ hd)
      · exact absurd ⟨hk, h5⟩ hnd.1
    · have hne : ¬ (recordKey env p = κ ∧ p.Op = raftOpUpdateItem) := fun h' => hk h'.1
      rw [keyUpdates_cons_off env κ p ps hne, keyEffect_cons_off env κ p ps _ hk]
      exact ih' z

/-- A log that updates an item under a key that is not deleted has decoded the
value it found there. -/
theorem keyEffect_item_decoded (env : Env) (κ : Bytes) (ps : List ProposalData) :
    itemKey env κ ps → ¬ hasDelete env κ ps → keyUpdates env κ ps ≠ [] → ∀ z y,
      keyEffect env κ ps (some z) = some y → ∃ it, env.unmarshalItem z = .ok it := by
  induction ps with
  | nil => intro _ _ h; exact absurd rfl h
  | cons p ps ih =>
    intro hi hnd hus z y h
    rw [hasDelete_cons, not_or] at hnd
    have ih' := ih (itemKey_tail env κ p ps hi) hnd.2
    by_cases hk : recordKey env p = κ
    · obtain ⟨hkind, hval⟩ := hi p (List.mem_cons_self p ps) hk
      rw [keyEffect_cons_on' env κ p ps _ hk] at h
      rcases hkind with (h1 | h2) | h5
      · have hne : ¬ (recordKey env p = κ ∧ p.Op = raftOpUpdateItem) := by
          rintro ⟨_, h'⟩
          rw [h1] at h'
          exact absurd h' (by decide)
        rw [keyUpdates_cons_off env κ p ps hne] at hus
        rw [recordEffect_insertItem env p _ h1] at h
        exact ih' hus z y h
      · rw [recordEffect_updateItem env p _ h2] at h
        cases hpi : env.unmarshalItem (env.kvValue p.Data) with
        | error e => simp [hpi] at h
        | ok pi =>
          simp only [hpi] at h
          cases hit : env.unmarshalItem z with
          | error e => simp [hit] at h
          | ok item => exact ⟨item, rfl⟩
      · exact absurd ⟨hk, h5⟩ hnd.1
    · have hne : ¬ (recordKey env p = κ ∧ p.Op = raftOpUpdateItem) := fun h' => hk h'.1
      rw [keyUpdates_cons_off env κ p ps hne] at hus
      rw [keyEffect_cons_off env κ p ps _ hk] at h
      exact ih' hus z y h

/-- On a key that holds items and is not deleted, replaying the log on the value
it left leaves that value. -/
theorem keyEffect_item_idem (env : Env) (hlaw : env.ItemCodecLawful) (κ : Bytes)
    (ps : List ProposalData) (hi : itemKey env κ ps) (hnd : ¬ hasDelete env κ ps)
    (z f : Bytes) (h : keyEffect env κ ps (some z) = some (some f)) :
    keyEffect env κ ps (some f) = some (some f) := by
  by_cases hus : keyUpdates env κ ps = []
  · have hz := (keyEffect_item_fold env hlaw κ ps hi hnd z).1 hus
    rw [h] at hz
    have hfz : f = z := Option.some.inj (Option.some.inj hz)
    rw [hfz]
    exact (keyEffect_item_fold env hlaw κ ps hi hnd z).1 hus
  · obtain ⟨it, hit⟩ := keyEffect_item_decoded env κ ps hi hnd hus z _ h
    obtain ⟨b, hb, hzb⟩ := (keyEffect_item_fold env hlaw κ ps hi hnd z).2 hus it hit
    rw [h] at hzb
    have hfb : f = b := Option.some.inj (Option.some.inj hzb)
    subst hfb
    obtain ⟨b', hb', hfb'⟩ := (keyEffect_item_fold env hlaw κ ps hi hnd f).2 hus _
      (hlaw.2 _ _ hb)
    rw [mergeAll_replay, hb] at hb'
    rw [hfb', ← Except.ok.inj hb']

/-- On a key that holds items, is absent at first and is not deleted, replaying
a log in which no update of the key comes before an insert of the key leaves
what the log left. -/
theorem keyEffect_item_absent (env : Env) (hlaw : env.ItemCodecLawful) (κ : Bytes)
    (ps : List ProposalData) :
    itemKey env κ ps → ¬ hasDelete env κ ps → κ ∉ earlyUpdateKeys env ps →
      ∀ F, keyEffect env κ ps none = some F → keyEffect env κ ps F = some F := by
  induction ps with
  | nil =>
    intro _ _ _ F h
    rw [← Option.some.inj h]; rfl
  | cons p ps ih =>
    intro hi hnd hv F h
    rw [hasDelete_cons, not_or] at hnd
    rw [mem_earlyUpdateKeys_cons, not_or] at hv
    have hi' := itemKey_tail env κ p ps hi
    by_cases hk : recordKey env p = κ
    · have h0 := h
      rw [keyEffect_cons_on' env κ p ps _ hk] at h
      obtain ⟨hkind, _⟩ := hi p (List.mem_cons_self p ps) hk
      rcases hkind with (h1 | h2) | h5
      · rw [recordEffect_insertItem env p _ h1] at h
        simp only [Option.getD_none] at h
        obtain ⟨f, hf⟩ := keyEffect_present env κ ps _ F hnd.2 h
        subst hf
        rw [keyEffect_cons_on' env κ p ps _ hk, recordEffect_insertItem env p _ h1]
        simp only [Option.getD_some]
        exact keyEffect_item_idem env hlaw κ ps hi' hnd.2 _ f h
      · have hni : ∀ q ∈ p :: ps, recordKey env q = κ → ¬ isInsert q := by
          intro q hq hqk hqi
          rcases List.mem_cons.1 hq with hqp | hqps
          · subst hqp
            unfold isInsert at hqi
            rw [h2] at hqi
            exact absurd hqi (by decide)
          · exact hv.1 ⟨hk, Or.inl h2, q, hqps, hqk, hqi⟩
        have hF := keyEffect_absent env κ (p :: ps) hni F h0
        subst hF
        exact h0
      · exact absurd ⟨hk, h5⟩ hnd.1
    · rw [keyEffect_cons_off env κ p ps _ hk] at h
      have := ih hi' hnd.2 hv.2 F h
      rw [keyEffect_cons_off env κ p ps _ hk]
      exact this


/-- On a key that holds items, replaying a log in which no update of the key
comes before an insert of the key, unless the key is held at first or deleted,
leaves what the log left. -/
theorem keyEffect_item_replay (env : Env) (hlaw : env.ItemCodecLawful) (κ : Bytes)
    (ps : List ProposalData) (hi : itemKey env κ ps) (x F : Option Bytes)
    (hv : x = none → ¬ hasDelete env κ ps → κ ∉ earlyUpdateKeys env ps)
    (h : keyEffect env κ ps x = some F) :
    keyEffect env κ ps F = some F := by
  have htot := fun q hq hqk =>
    recordEffect_item_total env hlaw q (hi q hq hqk).1 (hi q hq hqk).2
  have hfin := fun q hq hqk =>
    recordEffect_item_final env hlaw q (hi q hq hqk).1 (hi q hq hqk).2
  rcases keyEffect_final env κ (goodItem env) ps htot hfin x F h with h1 | hgood
  · subst h1; exact h
  · by_cases hd : hasDelete env κ ps
    · obtain ⟨w, hw, _⟩ := keyEffect_total env κ (goodItem env) ps htot F hgood
      rw [hw, keyEffect_hasDelete env κ ps x F F w hd h hw]
    · cases x with
      | none => exact keyEffect_item_absent env hlaw κ ps hi hd (hv rfl hd) F h
      | some z =>
        obtain ⟨f, hf⟩ := keyEffect_present env κ ps z F hd h
        subst hf
        exact keyEffect_item_idem env hlaw κ ps hi hd z f h

/-! ### The whole store -/

theorem knownOp_cases (p : ProposalData) (h : knownOp p) :
    isItemWrite p ∨ isBlobWrite p ∨ isDelete p := by
  unfold knownOp at h
  unfold isItemWrite isBlobWrite isDelete raftOpInsertItem raftOpUpdateItem raftOpInsertBlob
    raftOpUpdateBlob raftOpDeleteBlob raftOpDeleteItem
  omega

theorem recordKey_of_write (env : Env) (p : ProposalData) (h : isItemWrite p ∨ isBlobWrite p) :
    recordKey env p = env.kvKey p.Data := by
  have : ¬ (p.Op = raftOpDeleteBlob ∨ p.Op = raftOpDeleteItem) := by
    unfold isItemWrite isBlobWrite at h
    rcases h with (h | h) | (h | h) <;> rw [h] <;> decide
  rw [recordKey, if_neg this]

/-- Every record of a batch that is handled without error has a known operation
code, and carries a decodable item if it is an item update. -/
theorem applyLoop_done_records (env : Env) (ps : List ProposalData) :
    ∀ (i : Nat) (kv kv' : KVStore) (rets rets' : List (Option applyRet)),
      applyLoop env ps i kv rets = (kv', rets', Exit.done) →
      ∀ q ∈ ps, knownOp q ∧
        (q.Op = raftOpUpdateItem → ∃ pi, env.unmarshalItem (env.kvValue q.Data) = .ok pi) := by
  induction ps with
  | nil => intro i kv kv' rets rets' _ q hq; simp at hq
  | cons p ps ih =>
    intro i kv kv' rets rets' h q hq
    rw [applyLoop_cons] at h
    cases hrec : applyRecord env kv p with
    | none => simp [hrec] at h
    | some hd =>
      have heff := applyRecord_effect env kv p hd hrec
      cases hret : hd.ret with
      | error e => simp [hrec, hret] at h
      | ok r =>
        simp only [hrec, hret] at h heff
        rcases List.mem_cons.1 hq with hqp | hqps
        · subst hqp
          refine ⟨?_, ?_⟩
          · by_contra hn
            rw [recordEffect_unknown env q _ hn] at heff
            exact Option.noConfusion heff.2
          · intro hop
            have h2 := heff.2
            rw [recordEffect_updateItem env q _ hop] at h2
            cases hpi : env.unmarshalItem (env.kvValue q.Data) with
            | error e => simp [hpi] at h2
            | ok pi => exact ⟨pi, rfl⟩
        · exact ih _ _ _ _ _ h q hqps

/-- C1, amended. Replaying an already-applied log converges when no update
comes before the insert that creates its key: for every store and every log
whose application returns no error, in which no `UpdateItem`/`UpdateBlob` comes
before an insert of the same key unless the store holds the key or the log
deletes it, whose records carry encodings of their kind and write no key both as
a blob and as an item, applying the log again to the state it left returns no
error and leaves exactly that state. -/
theorem replay_converges (env : Env) (hlaw : env.ItemCodecLawful) (s s1 : Shard)
    (ps : List ProposalData) (index index' : Nat) (rets1 : List (Option applyRet))
    (hfirst : Apply env s ps index = (s1, Outcome.returned rets1 none))
    (hvalid : updatesFollowInserts env ps s.kv) (hwf : valuesWellFormed env ps)
    (hsep : kindsSeparate env ps) :
    ∃ s2 rets2, Apply env s1 ps index' = (s2, Outcome.returned rets2 none) ∧
      s2.kv.data = s1.kv.data := by
  rw [Apply_ok_iff] at hfirst
  obtain ⟨hloop, _⟩ := hfirst
  have hkeys := applyLoop_done_keyEffect env ps _ _ _ _ _ hloop
  have hrecs := applyLoop_done_records env ps _ _ _ _ _ hloop
  have hconv : ∀ κ, keyEffect env κ ps (s1.kv.data κ) = some (s1.kv.data κ) := by
    intro κ
    by_cases hblob : ∃ p ∈ ps, recordKey env p = κ ∧ isBlobWrite p
    · obtain ⟨p, hp, hpk, hpb⟩ := hblob
      have hb : blobKey env κ ps := by
        intro q hq hqk
        refine ⟨?_, fun hqb => hwf.1 q hq hqb⟩
        rcases knownOp_cases q (hrecs q hq).1 with hqi | hqb | hqd
        · exfalso
          apply hsep p hp q hq hpb hqi
          rw [← recordKey_of_write env p (Or.inr hpb), ← recordKey_of_write env q (Or.inl hqi),
            hpk, hqk]
        · exact Or.inl hqb
        · exact Or.inr hqd
      exact keyEffect_blob_replay env κ ps hb _ _
        (fun hx hd hm => (hvalid κ hm).elim (fun h => h hx) hd) (hkeys κ)
    · have hi : itemKey env κ ps := by
        intro q hq hqk
        rcases knownOp_cases q (hrecs q hq).1 with hqi | hqb | hqd
        · refine ⟨Or.inl hqi, fun _ => ?_⟩
          rcases hqi with h1 | h2
          · exact hwf.2 q hq h1
          · exact (hrecs q hq).2 h2
        · exact absurd ⟨q, hq, hqk, hqb⟩ hblob
        · refine ⟨Or.inr hqd, fun hqi => ?_⟩
          rcases hqi with h1 | h2
          · exact hwf.2 q hq h1
          · exact (hrecs q hq).2 h2
      exact keyEffect_item_replay env hlaw κ ps hi _ _
        (fun hx hd hm => (hvalid κ hm).elim (fun h => h hx) hd) (hkeys κ)
  obtain ⟨s2, rets2, hA, hs2⟩ := Apply_of_keyEffect env s1 ps index'
    (fun κ => ⟨_, hconv κ⟩)
  refine ⟨s2, rets2, hA, ?_⟩
  funext κ
  have := hs2 κ
  rw [hconv κ] at this
  exact (Option.some.inj this).symm

theorem sampleEnv_itemCodecLawful : sampleEnv.ItemCodecLawful :=
  ⟨fun _ => ⟨_, rfl⟩, sampleEnv_itemRoundTrip⟩

/-- C1, amended, for the sample log on the store that holds the sample item:
the log updates the item, inserts and updates a blob, and updates a third key
after it inserted and deleted it. -/
theorem replay_converges_witness :
    Apply sampleEnv (sampleShard sampleItemKV) sampleLog 3 =
        ((Apply sampleEnv (sampleShard sampleItemKV) sampleLog 3).1,
          Outcome.returned [some ⟨[], Blob.zero⟩,
            some ⟨[getRaw, setRaw], ⟨[7], ⟨3, 0, 0, 0, [], 0⟩⟩⟩,
            some ⟨[getRaw, setRaw], Blob.zero⟩,
            some ⟨[getRaw, setRaw], ⟨[9], ⟨3, 0, 0, 0, [], 0⟩⟩⟩,
            some ⟨[getRaw, delRaw], Blob.zero⟩,
            some ⟨[getRaw], Blob.zero⟩] none) ∧
      (Apply sampleEnv (sampleShard sampleItemKV) sampleLog 3).1.kv.data [1, 7] = none ∧
      ∃ s2 rets2,
        Apply sampleEnv (Apply sampleEnv (sampleShard sampleItemKV) sampleLog 3).1 sampleLog 9 =
            (s2, Outcome.returned rets2 none) ∧
          s2.kv.data = (Apply sampleEnv (sampleShard sampleItemKV) sampleLog 3).1.kv.data :=
  ⟨by rfl, by decide,
    replay_converges sampleEnv sampleEnv_itemCodecLawful (sampleShard sampleItemKV)
      (Apply sampleEnv (sampleShard sampleItemKV) sampleLog 3).1 sampleLog 3 9 _ (by rfl)
      (by decide)
      ⟨fun p hp hb => by
          simp only [sampleLog, List.mem_cons, List.mem_singleton, List.not_mem_nil,
            or_false] at hp
          rcases hp with h | h | h | h | h | h
          · subst h; exact absurd hb (by decide)
          · subst h; exact ⟨_, rfl⟩
          · subst h; exact ⟨_, rfl⟩
          · subst h; exact ⟨_, rfl⟩
          · subst h; exact absurd hb (by decide)
          · subst h; exact ⟨_, rfl⟩,
        fun p hp hi => by
          simp only [sampleLog, List.mem_cons, List.mem_singleton, List.not_mem_nil,
            or_false] at hp
          rcases hp with h | h | h | h | h | h <;> subst h <;> exact absurd hi (by decide)⟩
      (by unfold kindsSeparate; decide)⟩


/-! ## Snapshot ingest that fails, and the applied index -/

/-- The read loop has written the batches it consumed, however it ends. -/
theorem readBatches_data (reads : List (Option (List BatchOp) × Option Err)) :
    ∀ kv : KVStore, (readBatches reads kv).1.data = writeBatches kv.data (consumedBatches reads) := by
  induction reads with
  | nil => intro kv; rfl
  | cons r reads ih =>
    intro kv
    obtain ⟨batch, err⟩ := r
    simp only [readBatches, consumedBatches]
    by_cases herr : err ≠ none ∧ err ≠ some Err.eof
    · rw [if_pos herr, if_pos herr]; rfl
    · rw [if_neg herr, if_neg herr]
      cases batch with
      | none =>
        simp only [Option.toList, List.nil_append]
        by_cases heof : err = some Err.eof
        · simp only [heof, if_true]; rfl
        · simp only [heof, if_false]
          exact ih kv
      | some b =>
        simp only [KVStore.Write, Option.toList, List.singleton_append]
        by_cases heof : err = some Err.eof
        · simp only [heof, if_true]; rfl
        · simp only [heof, if_false]
          rw [ih]; rfl

/-- The ways `ApplySnapshot` ends, with the shard it leaves in each. -/
theorem ApplySnapshot_stages (env : Env) (s : Shard) (header : RaftSnapshotHeader)
    (snap : Snapshot) :
    (∃ g, s.rwGate = some g ∧
      ApplySnapshot env s header snap =
        (s, if g = Err.shardStopWriting then none else some g)) ∨
    (s.rwGate = none ∧
      ((∃ e, (readBatches snap.reads
            (s.kv.Write [BatchOp.deleteRange env.shardDataPrefix env.shardDataMaxPrefix]).1).2 =
              some e ∧
          ApplySnapshot env s header snap =
            ({ s with kv := (readBatches snap.reads (s.kv.Write
                [BatchOp.deleteRange env.shardDataPrefix env.shardDataMaxPrefix]).1).1 },
              some e)) ∨
        ((readBatches snap.reads
            (s.kv.Write [BatchOp.deleteRange env.shardDataPrefix env.shardDataMaxPrefix]).1).2 =
              none ∧
          ((∃ e, unitsFromMembers env header.Members [] = .error e ∧
              ApplySnapshot env s header snap =
                ({ s with
                    kv := (readBatches snap.reads (s.kv.Write
                      [BatchOp.deleteRange env.shardDataPrefix env.shardDataMaxPrefix]).1).1,
                    AppliedIndex := snap.index }, some e)) ∨
            (∃ units, unitsFromMembers env header.Members [] = .ok units ∧
              (ApplySnapshot env s header snap).1.kv =
                (readBatches snap.reads (s.kv.Write
                  [BatchOp.deleteRange env.shardDataPrefix env.shardDataMaxPrefix]).1).1 ∧
              (ApplySnapshot env s header snap).1.AppliedIndex = snap.index ∧
              (ApplySnapshot env s header snap).1.Units = units ∧
              (ApplySnapshot env s header snap).2 =
                match env.saveShardInfo units snap.index with
                | some e => if e = Err.shardStopWriting then none else some e
                | none => none))))) := by
  cases hg : s.rwGate with
  | some g =>
    left
    refine ⟨g, rfl, ?_⟩
    unfold ApplySnapshot
    simp only [prepRWCheck, hg]
    split_ifs <;> rfl
  | none =>
    right
    refine ⟨rfl, ?_⟩
    have hinfl : s.inflight + 1 - 1 = s.inflight := by omega
    unfold ApplySnapshot
    simp only [prepRWCheck, hg]
    rcases hr : readBatches snap.reads
        (s.kv.Write [BatchOp.deleteRange env.shardDataPrefix env.shardDataMaxPrefix]).1
      with ⟨kv2, r⟩
    cases r with
    | some e =>
      left
      refine ⟨e, rfl, ?_⟩
      simp only [KVStore.Write] at hr ⊢
      rw [hr]
      simp only [prepRWCheckDone, hinfl, ← hg]
    | none =>
      right
      refine ⟨rfl, ?_⟩
      simp only [KVStore.Write] at hr ⊢
      rw [hr]
      cases hu : unitsFromMembers env header.Members [] with
      | error e =>
        left
        refine ⟨e, rfl, ?_⟩
        simp only [prepRWCheckDone, setAppliedIndex, hinfl, ← hg]
      | ok units =>
        right
        refine ⟨units, rfl, ?_⟩
        simp only [setAppliedIndex]
        cases hsave : env.saveShardInfo units snap.index with
        | none => exact ⟨rfl, rfl, rfl, rfl⟩
        | some e =>
          simp only []
          split_ifs <;> exact ⟨rfl, rfl, rfl, rfl⟩

/-- C11 as stated fails: an ingest whose second read fails returns the error
after the range was deleted and the first batch written (a key of the range is
gone, another is new), and an ingest whose member context does not decode
returns the error with the applied index already set to that of the snapshot. -/
theorem ApplySnapshot_atomic_counterexample :
    (ApplySnapshot sampleEnv sampleOpenShard sampleHeader sampleBrokenSnapshot).2 =
        some (Err.other 1) ∧
      sampleOpenShard.kv.data [1, 9] = some [0] ∧
      (ApplySnapshot sampleEnv sampleOpenShard sampleHeader sampleBrokenSnapshot).1.kv.data
        [1, 9] = none ∧
      sampleOpenShard.kv.data [1, 5] = none ∧
      (ApplySnapshot sampleEnv sampleOpenShard sampleHeader sampleBrokenSnapshot).1.kv.data
        [1, 5] = some [7] ∧
      (ApplySnapshot sampleEnv sampleOpenShard sampleBadHeader sampleSnapshot).2 =
        some Err.unmarshal ∧
      getAppliedIndex sampleOpenShard = 0 ∧
      getAppliedIndex
        (ApplySnapshot sampleEnv sampleOpenShard sampleBadHeader sampleSnapshot).1 = 7 := by
  decide

/-- C12 as stated fails: `Apply` and `ApplySnapshot` store the index they are
given, so a call with a smaller index lowers `AppliedIndex`. -/
theorem AppliedIndex_monotone_counterexample :
    getAppliedIndex sampleAppliedShard = 5 ∧
      (Apply sampleEnv sampleAppliedShard [] 2).2 = Outcome.returned [] none ∧
      getAppliedIndex (Apply sampleEnv sampleAppliedShard [] 2).1 = 2 ∧
      (ApplySnapshot sampleEnv sampleAppliedShard sampleHeader ⟨3, []⟩).2 = none ∧
      getAppliedIndex (ApplySnapshot sampleEnv sampleAppliedShard sampleHeader ⟨3, []⟩).1 = 3 := by
  decide

/-- C12, amended. `AppliedIndex` never decreases when the indices do not: after
`Apply(batch, index)` with `index` not below `AppliedIndex`, and after
`ApplySnapshot(header, snap)` with the snapshot's index not below
`AppliedIndex`, `AppliedIndex` is not below its value before the call. -/
theorem AppliedIndex_monotone (env : Env) (s : Shard) (pd : List ProposalData) (index : Nat)
    (header : RaftSnapshotHeader) (snap : Snapshot)
    (hindex : getAppliedIndex s ≤ index) (hsnap : getAppliedIndex s ≤ snap.index) :
    getAppliedIndex s ≤ getAppliedIndex (Apply env s pd index).1 ∧
      getAppliedIndex s ≤ getAppliedIndex (ApplySnapshot env s header snap).1 := by
  constructor
  · unfold Apply
    rcases applyLoop env pd 0 s.kv (List.replicate pd.length none) with ⟨kv, rets, ex⟩
    cases ex with
    | done => exact hindex
    | failed e => exact Nat.le_refl _
    | panicked op => exact Nat.le_refl _
  · rcases ApplySnapshot_stages env s header snap with
      ⟨g, _, hres⟩ | ⟨_, ⟨e', _, hres⟩ | ⟨_, ⟨e', _, hres⟩ | ⟨units, _, _, hidx, _⟩⟩⟩
    · rw [hres]
    · rw [hres]; exact Nat.le_refl _
    · rw [hres]; exact hsnap
    · unfold getAppliedIndex at hsnap ⊢
      rw [hidx]; exact hsnap

/-- C12, amended, in the sample environment. -/
theorem AppliedIndex_monotone_witness :
    getAppliedIndex sampleAppliedShard ≤
        getAppliedIndex (Apply sampleEnv sampleAppliedShard [] 6).1 ∧
      getAppliedIndex sampleAppliedShard ≤
        getAppliedIndex (ApplySnapshot sampleEnv sampleAppliedShard sampleHeader sampleSnapshot).1 :=
  AppliedIndex_monotone sampleEnv sampleAppliedShard [] 6 sampleHeader sampleSnapshot
    (by decide) (by decide)

end Storage

namespace Raft

/-! ## The snapshot recorder -/

theorem mapGet_some {m : List (String × Nat)} {k : String} {v : Nat}
    (h : mapGet m k = some v) : (k, v) ∈ m := by
  unfold mapGet at h
  cases hf : m.find? (fun p => p.1 = k) with
  | none => simp [hf] at h
  | some p =>
    simp only [hf, Option.map_some', Option.some.injEq] at h
    have hp := List.find?_some hf
    have hm := List.mem_of_find?_eq_some hf
    simp only [decide_eq_true_eq] at hp
    rcases p with ⟨a, b⟩
    simp only at hp h
    subst hp; subst h
    exact hm

theorem mapGet_none {m : List (String × Nat)} {k : String}
    (h : mapGet m k = none) : ∀ p ∈ m, p.1 ≠ k := by
  unfold mapGet at h
  simp only [Option.map_eq_none', List.find?_eq_none, decide_eq_true_eq] at h
  exact h

theorem mapDelete_of_not_mem {m : List (String × Nat)} {k : String}
    (h : ∀ p ∈ m, p.1 ≠ k) : mapDelete m k = m := by
  unfold mapDelete
  rw [List.filter_eq_self]
  intro p hp
  simpa using h p hp

theorem mapDelete_perm (m : List (String × Nat)) (k : String) (v : Nat)
    (hnd : (m.map Prod.fst).Nodup) (hm : (k, v) ∈ m) : m.Perm ((k, v) :: mapDelete m k) := by
  induction m with
  | nil => cases hm
  | cons q m ih =>
    simp only [List.map_cons, List.nodup_cons] at hnd
    by_cases hq : q = (k, v)
    · subst hq
      have hk : ∀ p ∈ m, p.1 ≠ k := fun p hp e =>
        hnd.1 (List.mem_map.2 ⟨p, hp, e⟩)
      have : mapDelete ((k, v) :: m) k = m := by
        have h1 := mapDelete_of_not_mem hk
        unfold mapDelete at h1 ⊢
        rw [List.filter_cons_of_neg (by simp), h1]
      rw [this]
    · have hm' : (k, v) ∈ m := by
        rcases List.mem_cons.1 hm with e | h
        · exact absurd e.symm hq
        · exact h
      have hk : q.1 ≠ k := fun e =>
        hnd.1 (List.mem_map.2 ⟨(k, v), hm', e.symm⟩)
      have : mapDelete (q :: m) k = q :: mapDelete m k := by
        unfold mapDelete
        simp [List.filter_cons, hk]
      rw [this]
      exact (List.Perm.cons q (ih hnd.2 hm')).trans (List.Perm.swap _ _ _)

theorem Tracked_new (maxSnapshot timeout : Int) :
    Tracked (newSnapshotRecorder maxSnapshot timeout) :=
  ⟨List.Perm.refl _, List.nodup_nil, List.nodup_nil, fun p hp => by cases hp⟩

theorem Tracked.length_eq {s : snapshotRecorder} (h : Tracked s) :
    s.snaps.length = s.evictList.length := by
  have := h.cells.length_eq
  simpa using this.symm

/-- In a tracked recorder an entry is determined by its id and by its cell. -/
theorem Tracked.entry_iff {s : snapshotRecorder} (h : Tracked s) {p q : String × Nat}
    (hp : p ∈ s.snaps) (hq : q ∈ s.snaps) : q.1 = p.1 ↔ q.2 = p.2 := by
  constructor
  · intro e
    have := List.inj_on_of_nodup_map h.ids hq hp e
    rw [this]
  · intro e
    have := List.inj_on_of_nodup_map h.handles hq hp e
    rw [this]

/-- Deleting a tracked entry from the map and removing its cell from the list
keeps the recorder tracked. -/
theorem Tracked.remove {s : snapshotRecorder} (h : Tracked s) {p : String × Nat}
    (hp : p ∈ s.snaps) :
    Tracked { s with
      evictList := listRemove s.evictList p.2
      snaps := mapDelete s.snaps p.1 } := by
  refine ⟨?_, ?_, ?_, ?_⟩
  · show ((listRemove s.evictList p.2).map Element.entry).Perm (mapDelete s.snaps p.1)
    have h1 : (listRemove s.evictList p.2).map Element.entry =
        (s.evictList.map Element.entry).filter (fun q => q.1 ≠ p.1) := by
      unfold listRemove
      rw [List.filter_map]
      congr 1
      apply List.filter_congr
      intro e he
      have hq : e.entry ∈ s.snaps := h.cells.subset (List.mem_map_of_mem _ he)
      have := h.entry_iff hp hq
      simp only [Function.comp, Element.entry] at this ⊢
      by_cases hc : e.handle = p.2
      · simp [hc, this.2 hc]
      · have hc' : ¬ e.Value.id = p.1 := fun e1 => hc (this.1 e1)
        simp [hc, hc']
    rw [h1]
    exact h.cells.filter _
  · exact h.ids.sublist ((List.filter_sublist _).map _)
  · exact h.handles.sublist ((List.filter_sublist _).map _)
  · intro q hq
    exact h.fresh q (List.mem_of_mem_filter hq)

theorem Tracked.remove_length {s : snapshotRecorder} (h : Tracked s) {p : String × Nat}
    (hp : p ∈ s.snaps) :
    (listRemove s.evictList p.2).length + 1 ≤ s.evictList.length := by
  have hex : ∃ e ∈ s.evictList, e.entry = p := by
    have := h.cells.symm.subset hp
    simpa using this
  rcases hex with ⟨e, he, hep⟩
  have : (listRemove s.evictList p.2).length < s.evictList.length := by
    unfold listRemove
    rw [List.length_filter_lt_length_iff_exists]
    refine ⟨e, he, ?_⟩
    have : e.handle = p.2 := by rw [← hep]; rfl
    simp [this]
  omega

/-- The head of the list is a tracked entry. -/
theorem Tracked.head_mem {s : snapshotRecorder} (h : Tracked s) {e : Element}
    (he : s.evictList.head? = some e) : e.entry ∈ s.snaps :=
  h.cells.subset (List.mem_map_of_mem _ (List.mem_of_mem_head? he))

theorem Tracked.SetInsert {s : snapshotRecorder} (h : Tracked s) (st : outgoingSnapshot)
    (now : Int) : Tracked (SetInsert s st now).1 := by
  unfold Raft.SetInsert
  cases hg : mapGet s.snaps st.id with
  | some v => exact h
  | none =>
    have hn := mapGet_none hg
    simp only [mapSet, mapDelete_of_not_mem hn]
    refine ⟨?_, ?_, ?_, ?_⟩
    · show ((s.evictList ++ [_]).map Element.entry).Perm ((st.id, s.nextHandle) :: s.snaps)
      rw [List.map_append]
      refine (List.perm_append_comm).trans ?_
      simp only [List.map_cons, List.map_nil, List.singleton_append, Element.entry]
      exact List.Perm.cons _ h.cells
    · show ((st.id, s.nextHandle) :: s.snaps |>.map Prod.fst).Nodup
      simp only [List.map_cons, List.nodup_cons]
      refine ⟨?_, h.ids⟩
      intro hm
      rcases List.mem_map.1 hm with ⟨p, hp, e⟩
      exact hn p hp e
    · show ((st.id, s.nextHandle) :: s.snaps |>.map Prod.snd).Nodup
      simp only [List.map_cons, List.nodup_cons]
      refine ⟨?_, h.handles⟩
      intro hm
      rcases List.mem_map.1 hm with ⟨p, hp, e⟩
      have := h.fresh p hp
      omega
    · intro p hp
      show p.2 < s.nextHandle + 1
      rcases List.mem_cons.1 hp with e | hp
      · rw [e]; exact Nat.lt_succ_self _
      · exact Nat.lt_succ_of_lt (h.fresh p hp)

theorem SetInsert_length (s : snapshotRecorder) (st : outgoingSnapshot) (now : Int) :
    (SetInsert s st now).1.evictList.length ≤ s.evictList.length + 1 ∧
      (SetInsert s st now).1.maxSnapshot = s.maxSnapshot := by
  unfold SetInsert
  cases hg : mapGet s.snaps st.id with
  | some v => exact ⟨Nat.le_succ _, rfl⟩
  | none => simp

theorem Tracked.Set {s : snapshotRecorder} (h : Tracked s) (st : outgoingSnapshot)
    (since now : Int) {r : snapshotRecorder × Option RecorderError}
    (hr : s.Set st since now = some r) : Tracked r.1 := by
  unfold snapshotRecorder.Set at hr
  split_ifs at hr with hfull
  · cases hh : s.evictList.head? with
    | none => simp [hh] at hr
    | some elem =>
      simp only [hh] at hr
      split_ifs at hr with hexp
      · rw [← Option.some.inj hr]; exact h
      · rw [← Option.some.inj hr]
        exact (h.remove (h.head_mem hh)).SetInsert st now
  · rw [← Option.some.inj hr]; exact h.SetInsert st now

theorem Tracked.Get {s : snapshotRecorder} (h : Tracked s) (key : String) (now : Int) :
    Tracked (s.Get key now).1 ∧
      (s.Get key now).1.evictList.length = s.evictList.length ∧
      (s.Get key now).1.maxSnapshot = s.maxSnapshot := by
  unfold snapshotRecorder.Get
  cases hg : mapGet s.snaps key with
  | none => exact ⟨h, rfl, rfl⟩
  | some v =>
    cases hf : listFind s.evictList v with
    | none => simp only [hf]; exact ⟨h, trivial, trivial⟩
    | some e =>
      simp only [hf]
      have hp := mapGet_some hg
      have he : e ∈ s.evictList := List.mem_of_find?_eq_some hf
      have hev : e.handle = v := by
        have := List.find?_some hf
        simpa using this
      have hentry : e.entry = (key, v) := by
        have hq : e.entry ∈ s.snaps := h.cells.subset (List.mem_map_of_mem _ he)
        have := (h.entry_iff hp hq).2 hev
        simp only [Element.entry] at this ⊢
        rw [this, hev]
      have hrem := h.remove hp
      have hperm : (s.evictList.map Element.entry).Perm
          ((key, v) :: (listRemove s.evictList v).map Element.entry) := by
        refine h.cells.trans ?_
        have h1 : s.snaps.Perm ((key, v) :: mapDelete s.snaps key) :=
          mapDelete_perm s.snaps key v h.ids hp
        exact h1.trans (List.Perm.cons _ hrem.cells.symm)
      refine ⟨⟨?_, h.ids, h.handles, h.fresh⟩, ?_, trivial⟩
      · show ((listRemove s.evictList v ++ [_]).map Element.entry).Perm s.snaps
        rw [List.map_append]
        refine (List.perm_append_comm).trans ?_
        simp only [List.map_cons, List.map_nil, List.singleton_append, Element.entry]
        have hid : e.Value.id = key := congrArg Prod.fst hentry
        rw [hid]
        exact hperm.symm.trans h.cells
      · show (listRemove s.evictList v ++ [_]).length = s.evictList.length
        have := hperm.length_eq
        simp only [List.length_map, List.length_cons] at this
        simp [this]

theorem Tracked.Delete {s : snapshotRecorder} (h : Tracked s) (key : String) :
    Tracked (s.Delete key) ∧ (s.Delete key).evictList.length ≤ s.evictList.length ∧
      (s.Delete key).maxSnapshot = s.maxSnapshot := by
  unfold snapshotRecorder.Delete
  cases hg : mapGet s.snaps key with
  | none => exact ⟨h, Nat.le_refl _, rfl⟩
  | some v =>
    exact ⟨h.remove (mapGet_some hg), List.length_filter_le _ _, rfl⟩

theorem Tracked.closeFold (l : List (String × Nat)) :
    ∀ s : snapshotRecorder, Tracked s → (∀ p ∈ l, p ∈ s.snaps) → (l.map Prod.fst).Nodup →
      Tracked (l.foldl (fun r p =>
        { r with snaps := mapDelete r.snaps p.1, evictList := listRemove r.evictList p.2 }) s) ∧
      (l.foldl (fun r p =>
        { r with snaps := mapDelete r.snaps p.1, evictList := listRemove r.evictList p.2 })
          s).evictList.length ≤ s.evictList.length ∧
      (l.foldl (fun r p =>
        { r with snaps := mapDelete r.snaps p.1, evictList := listRemove r.evictList p.2 })
          s).maxSnapshot = s.maxSnapshot := by
  induction l with
  | nil => intro s h _ _; exact ⟨h, Nat.le_refl _, rfl⟩
  | cons p l ih =>
    intro s h hsub hnd
    simp only [List.foldl_cons]
    have hp : p ∈ s.snaps := hsub p (List.mem_cons_self _ _)
    simp only [List.map_cons, List.nodup_cons] at hnd
    have hstep := h.remove hp
    have hsub' : ∀ q ∈ l, q ∈ mapDelete s.snaps p.1 := by
      intro q hq
      unfold mapDelete
      refine List.mem_filter.2 ⟨hsub q (List.mem_cons_of_mem _ hq), ?_⟩
      have : q.1 ≠ p.1 := fun e => hnd.1 (e ▸ List.mem_map_of_mem _ hq)
      simpa using this
    have := ih _ hstep hsub' hnd.2
    refine ⟨this.1, le_trans this.2.1 (List.length_filter_le _ _), this.2.2⟩

theorem Tracked.Close {s : snapshotRecorder} (h : Tracked s) :
    Tracked s.Close ∧ s.Close.evictList.length ≤ s.evictList.length ∧
      s.Close.maxSnapshot = s.maxSnapshot :=
  Tracked.closeFold s.snaps s h (fun _ hp => hp) h.ids

/-- One call on a tracked recorder within its capacity, of capacity at least
one, does not panic and leaves such a recorder. -/
theorem recorderStep_capacity {s : snapshotRecorder} (h : Tracked s)
    (hcap : (s.evictList.length : Int) ≤ s.maxSnapshot) (hmax : 1 ≤ s.maxSnapshot)
    (c : RecorderCall) :
    ∃ r, recorderStep s c = some r ∧ Tracked r ∧
      (r.evictList.length : Int) ≤ r.maxSnapshot ∧ r.maxSnapshot = s.maxSnapshot := by
  cases c with
  | Pop => exact ⟨s, rfl, h, hcap, rfl⟩
  | Get key now =>
    have hg := h.Get key now
    refine ⟨_, rfl, hg.1, ?_, hg.2.2⟩
    rw [hg.2.1, hg.2.2]; exact hcap
  | Delete key =>
    have hd := h.Delete key
    refine ⟨_, rfl, hd.1, ?_, hd.2.2⟩
    rw [hd.2.2]
    have := hd.2.1
    omega
  | Close =>
    have hc := h.Close
    refine ⟨_, rfl, hc.1, ?_, hc.2.2⟩
    rw [hc.2.2]
    have := hc.2.1
    omega
  | Set st since now =>
    have key : ∃ r, s.Set st since now = some r ∧
        (r.1.evictList.length : Int) ≤ r.1.maxSnapshot ∧ r.1.maxSnapshot = s.maxSnapshot := by
      unfold snapshotRecorder.Set
      split_ifs with hfull
      · cases hh : s.evictList.head? with
        | none =>
          have : s.evictList = [] := by simpa using hh
          rw [this] at hfull
          simp only [List.length_nil, Nat.cast_zero] at hfull
          omega
        | some elem =>
          simp only []
          split_ifs with hexp
          · exact ⟨_, rfl, hcap, rfl⟩
          · refine ⟨_, rfl, ?_⟩
            have hlen := SetInsert_length
              { s with
                evictList := listRemove s.evictList elem.handle
                snaps := mapDelete s.snaps elem.Value.id } st now
            have hrem := h.remove_length (h.head_mem hh)
            simp only [Element.entry] at hrem
            simp only at hlen
            rw [hlen.2]
            refine ⟨?_, rfl⟩
            have := hlen.1
            omega
      · refine ⟨_, rfl, ?_⟩
        have hlen := SetInsert_length s st now
        rw [hlen.2]
        refine ⟨?_, rfl⟩
        have := hlen.1
        omega
    rcases key with ⟨r, hr, hc, hm⟩
    refine ⟨r.1, ?_, h.Set st since now hr, hc, hm⟩
    simp [recorderStep, hr]

/-- A sequence of calls on a tracked recorder within its capacity, of capacity
at least one, does not panic and leaves such a recorder. -/
theorem recorderRun_capacity (calls : List RecorderCall) :
    ∀ s : snapshotRecorder, Tracked s → (s.evictList.length : Int) ≤ s.maxSnapshot →
      1 ≤ s.maxSnapshot →
      ∃ r, recorderRun s calls = some r ∧ Tracked r ∧
        (r.evictList.length : Int) ≤ r.maxSnapshot ∧ r.maxSnapshot = s.maxSnapshot := by
  induction calls with
  | nil => intro s h hcap _; exact ⟨s, rfl, h, hcap, rfl⟩
  | cons c cs ih =>
    intro s h hcap hmax
    rcases recorderStep_capacity h hcap hmax c with ⟨r, hr, ht, hc, hm⟩
    rcases ih r ht hc (by rw [hm]; exact hmax) with ⟨r', hr', ht', hc', hm'⟩
    refine ⟨r', ?_, ht', hc', hm'.trans hm⟩
    simp [recorderRun, hr, hr']

/-- C20. For every `maxSnapshot >= 1` and every sequence of `Set`, `Get`, `Pop`,
`Delete` and `Close` calls (with any clock readings) on the recorder made by
`newSnapshotRecorder(maxSnapshot, timeout)`, no call panics, and afterwards the
id map and the eviction list each hold at most `maxSnapshot` entries (and hold
the same number of entries). -/
theorem snapshotRecorder_capacity (maxSnapshot timeout : Int) (hmax : 1 ≤ maxSnapshot)
    (calls : List RecorderCall) :
    ∃ s, recorderRun (newSnapshotRecorder maxSnapshot timeout) calls = some s ∧
      (s.snaps.length : Int) ≤ maxSnapshot ∧
      (s.evictList.length : Int) ≤ maxSnapshot ∧
      s.snaps.length = s.evictList.length := by
  rcases recorderRun_capacity calls (newSnapshotRecorder maxSnapshot timeout)
    (Tracked_new maxSnapshot timeout) (by simpa [newSnapshotRecorder] using le_trans (by decide) hmax)
    hmax with ⟨r, hr, ht, hc, hm⟩
  have hm' : r.maxSnapshot = maxSnapshot := hm
  refine ⟨r, hr, ?_, ?_, ht.length_eq⟩
  · rw [ht.length_eq, ← hm']; exact hc
  · rw [← hm']; exact hc

/-- C20 on a recorder of capacity two: three sets (the third finds the recorder
full and the oldest snapshot expired), a get, a pop, a delete and a close. -/
theorem snapshotRecorder_capacity_witness :
    (1 : Int) ≤ 2 ∧
      ∃ s, recorderRun (newSnapshotRecorder 2 10) sampleCalls = some s ∧
        (s.snaps.length : Int) ≤ 2 ∧ (s.evictList.length : Int) ≤ 2 ∧
        s.snaps.length = s.evictList.length :=
  ⟨by decide, snapshotRecorder_capacity 2 10 (by decide) sampleCalls⟩

end Raft

namespace Stream

/-! ## The blob dispatcher: recovery after a failed shardnode call -/

theorem Run.bind_eq {α β : Type} (m : Run α) (f : α → Run β) :
    (m >>= f) = Run.andThen m f := rfl

theorem Run.pure_eq {α : Type} (a : α) : (pure a : Run α) = Run.ret a := rfl

theorem Run.andThen_fst {α β : Type} (m : Run α) (f : α → Run β) (past : List Call) :
    (Run.andThen m f past).1 = (m past).1 ++ (f (m past).2 (past ++ (m past).1)).1 := rfl

theorem Run.andThen_snd {α β : Type} (m : Run α) (f : α → Run β) (past : List Call) :
    (Run.andThen m f past).2 = (f (m past).2 (past ++ (m past).1)).2 := rfl

theorem Run.ret_apply {α : Type} (a : α) (past : List Call) :
    Run.ret a past = ([], a) := rfl

theorem Run.call_apply {α : Type} (c : Call) (answer : List Call → α) (past : List Call) :
    Run.call c answer past = ([c], answer past) := rfl

theorem actions_append (a b : List Call) : actions (a ++ b) = actions a ++ actions b := by
  simp [actions]

theorem statsCalls_append (a b : List Call) : statsCalls (a ++ b) = statsCalls a + statsCalls b := by
  simp [statsCalls]

theorem getLeaderShardInfoLoop_zero (env : Env) (h : Handler) (host : String)
    (diskID suid badDisk : Nat) (past : List Call) :
    getLeaderShardInfoLoop env h host diskID suid badDisk 0 past =
      ([], .error Error.ErrShardNoLeader) := rfl

/-- One round of the loop of `getLeaderShardInfo`: an answer that asks for
another poll is followed by a sleep and the rest of the loop, any other answer
is the result. -/
theorem getLeaderShardInfoLoop_succ (env : Env) (h : Handler) (host : String)
    (diskID suid badDisk n : Nat) (past : List Call) :
    getLeaderShardInfoLoop env h host diskID suid badDisk (n + 1) past =
      if pollAgain env badDisk (env.GetShardStats past host diskID suid) = true then
        (Call.GetShardStats host diskID suid :: Call.Sleep h.ShardnodeRetryIntervalMS ::
          (getLeaderShardInfoLoop env h host diskID suid badDisk n
            (past ++ [Call.GetShardStats host diskID suid,
              Call.Sleep h.ShardnodeRetryIntervalMS])).1,
          (getLeaderShardInfoLoop env h host diskID suid badDisk n
            (past ++ [Call.GetShardStats host diskID suid,
              Call.Sleep h.ShardnodeRetryIntervalMS])).2)
      else ([Call.GetShardStats host diskID suid], env.GetShardStats past host diskID suid) := by
  simp only [getLeaderShardInfoLoop, Run.bind_eq, Run.pure_eq]
  cases hr : env.GetShardStats past host diskID suid with
  | error err =>
    by_cases hc : env.DetectStatusCode err = StatusCode.CodeShardNoLeader
    · simp [Run.andThen, Run.call, Run.ret, hr, hc, pollAgain]
    · simp [Run.andThen, Run.call, Run.ret, hr, hc, pollAgain]
  | ok leader =>
    by_cases hc : leader.LeaderDiskID = 0 ∨ leader.LeaderDiskID = badDisk
    · simp [Run.andThen, Run.call, Run.ret, hr, hc, pollAgain]
    · simp [Run.andThen, Run.call, Run.ret, hr, hc, pollAgain]

theorem statsCalls_poll (host : String) (diskID suid : Nat) (ms : Int) (rest : List Call) :
    statsCalls (Call.GetShardStats host diskID suid :: Call.Sleep ms :: rest) =
      statsCalls rest + 1 := by
  simp [statsCalls, List.filter_cons, Call.isStats]

theorem actions_poll (host : String) (diskID suid : Nat) (ms : Int) (rest : List Call) :
    actions (Call.GetShardStats host diskID suid :: Call.Sleep ms :: rest) = actions rest := by
  simp [actions, List.filter_cons, Call.isAction]

/-- The loop of `getLeaderShardInfo` issues at most `n` polls and no call of the
decision table. -/
theorem getLeaderShardInfoLoop_calls (env : Env) (h : Handler) (host : String)
    (diskID suid badDisk : Nat) (n : Nat) :
    ∀ past, statsCalls (getLeaderShardInfoLoop env h host diskID suid badDisk n past).1 ≤ n ∧
      actions (getLeaderShardInfoLoop env h host diskID suid badDisk n past).1 = [] := by
  induction n with
  | zero => intro past; exact ⟨Nat.le_refl _, rfl⟩
  | succ n ih =>
    intro past
    rw [getLeaderShardInfoLoop_succ]
    split_ifs with hc
    · have := ih (past ++ [Call.GetShardStats host diskID suid,
        Call.Sleep h.ShardnodeRetryIntervalMS])
      simp only [statsCalls_poll, actions_poll]
      exact ⟨Nat.succ_le_succ this.1, this.2⟩
    · exact ⟨by simp [statsCalls, Call.isStats], rfl⟩

/-- The loop of `getLeaderShardInfo` returns the first answer that does not ask
for another poll, after one poll per answer up to it. -/
theorem getLeaderShardInfoLoop_first (env : Env) (h : Handler) (host : String)
    (diskID suid badDisk : Nat) (n : Nat) :
    ∀ past i, i < n →
      (∀ j < i, pollAgain env badDisk (pollAnswer env h past host diskID suid j) = true) →
      pollAgain env badDisk (pollAnswer env h past host diskID suid i) = false →
      (getLeaderShardInfoLoop env h host diskID suid badDisk n past).2 =
          pollAnswer env h past host diskID suid i ∧
        statsCalls (getLeaderShardInfoLoop env h host diskID suid badDisk n past).1 = i + 1 := by
  induction n with
  | zero => intro past i hi; exact absurd hi (Nat.not_lt_zero _)
  | succ n ih =>
    intro past i hi hbefore hat
    rw [getLeaderShardInfoLoop_succ]
    have h0 : pollAnswer env h past host diskID suid 0 =
        env.GetShardStats past host diskID suid := rfl
    split_ifs with hc
    · cases i with
      | zero => rw [h0, hc] at hat; cases hat
      | succ i =>
        have := ih (past ++ [Call.GetShardStats host diskID suid,
          Call.Sleep h.ShardnodeRetryIntervalMS]) i (Nat.lt_of_succ_lt_succ hi)
          (fun j hj => hbefore (j + 1) (Nat.succ_lt_succ hj)) hat
        simp only [statsCalls_poll]
        exact ⟨this.1, by rw [this.2]⟩
    · cases i with
      | zero => exact ⟨h0.symm, by simp [statsCalls, Call.isStats]⟩
      | succ i =>
        have := hbefore 0 (Nat.succ_pos _)
        rw [h0] at this
        exact absurd this hc

/-- The loop of `getLeaderShardInfo` returns `ErrShardNoLeader` after `n` polls
when every answer asks for another poll. -/
theorem getLeaderShardInfoLoop_exhausted (env : Env) (h : Handler) (host : String)
    (diskID suid badDisk : Nat) (n : Nat) :
    ∀ past,
      (∀ i < n, pollAgain env badDisk (pollAnswer env h past host diskID suid i) = true) →
      (getLeaderShardInfoLoop env h host diskID suid badDisk n past).2 =
          .error Error.ErrShardNoLeader ∧
        statsCalls (getLeaderShardInfoLoop env h host diskID suid badDisk n past).1 = n := by
  induction n with
  | zero => intro past _; exact ⟨rfl, rfl⟩
  | succ n ih =>
    intro past hall
    rw [getLeaderShardInfoLoop_succ]
    have h0 : pollAgain env badDisk (env.GetShardStats past host diskID suid) = true :=
      hall 0 (Nat.succ_pos _)
    rw [if_pos h0]
    have := ih (past ++ [Call.GetShardStats host diskID suid,
      Call.Sleep h.ShardnodeRetryIntervalMS]) (fun i hi => hall (i + 1) (Nat.succ_lt_succ hi))
    simp only [statsCalls_poll]
    exact ⟨this.1, by rw [this.2]⟩

/-- C15. `getLeaderShardInfo` issues at most `ShardnodeRetryTimes` stats calls
(none when that is not positive); it returns the answer of the first call that
neither fails with code `ShardNoLeader` nor reports a leader disk in
`{0, badDisk}`, be it the stats of a success or the error of a failure, and
issues no call after it; and, `ErrShardNoLeader` being of code `ShardNoLeader`,
it returns `ErrShardNoLeader` exactly when every one of the `ShardnodeRetryTimes`
calls fails with `ShardNoLeader` or reports a leader disk in `{0, badDisk}`. -/
theorem getLeaderShardInfo_polls (env : Env) (h : Handler) (past : List Call) (host : String)
    (diskID suid badDisk : Nat)
    (hcode : env.DetectStatusCode Error.ErrShardNoLeader = StatusCode.CodeShardNoLeader) :
    statsCalls (getLeaderShardInfo env h host diskID suid badDisk past).1 ≤
        h.ShardnodeRetryTimes.toNat ∧
      (h.ShardnodeRetryTimes ≤ 0 →
        getLeaderShardInfo env h host diskID suid badDisk past =
          ([], .error Error.ErrShardNoLeader)) ∧
      (∀ i : Nat, (i : Int) < h.ShardnodeRetryTimes →
        (∀ j < i, pollAgain env badDisk (pollAnswer env h past host diskID suid j) = true) →
        pollAgain env badDisk (pollAnswer env h past host diskID suid i) = false →
        (getLeaderShardInfo env h host diskID suid badDisk past).2 =
            pollAnswer env h past host diskID suid i ∧
          statsCalls (getLeaderShardInfo env h host diskID suid badDisk past).1 = i + 1) ∧
      ((getLeaderShardInfo env h host diskID suid badDisk past).2 =
          .error Error.ErrShardNoLeader ↔
        ∀ i : Nat, (i : Int) < h.ShardnodeRetryTimes →
          pollAgain env badDisk (pollAnswer env h past host diskID suid i) = true) := by
  unfold getLeaderShardInfo
  have hlt : ∀ i : Nat, (i : Int) < h.ShardnodeRetryTimes ↔ i < h.ShardnodeRetryTimes.toNat := by
    intro i; omega
  refine ⟨(getLeaderShardInfoLoop_calls env h host diskID suid badDisk _ past).1, ?_, ?_, ?_⟩
  · intro hle
    have : h.ShardnodeRetryTimes.toNat = 0 := by omega
    rw [this]; rfl
  · intro i hi
    exact getLeaderShardInfoLoop_first env h host diskID suid badDisk _ past i ((hlt i).1 hi)
  · constructor
    · intro hret
      by_contra hne
      have hex : ∃ i, i < h.ShardnodeRetryTimes.toNat ∧
          pollAgain env badDisk (pollAnswer env h past host diskID suid i) = false := by
        by_contra hno
        apply hne
        intro i hi
        by_contra hi'
        exact hno ⟨i, (hlt i).1 hi, by simpa using hi'⟩
      classical
      have hmin := Nat.find_spec hex
      have hbefore : ∀ j < Nat.find hex,
          pollAgain env badDisk (pollAnswer env h past host diskID suid j) = true := by
        intro j hj
        have := Nat.find_min hex hj
        by_contra hj'
        exact this ⟨lt_trans hj hmin.1, by simpa using hj'⟩
      have := getLeaderShardInfoLoop_first env h host diskID suid badDisk _ past
        (Nat.find hex) hmin.1 hbefore hmin.2
      rw [hret] at this
      have hbad := hmin.2
      rw [← this.1] at hbad
      simp [pollAgain, hcode] at hbad
    · intro hall
      exact (getLeaderShardInfoLoop_exhausted env h host diskID suid badDisk _ past
        (fun i hi => hall i ((hlt i).2 hi))).1

/-- C15 in the sample world with three polls allowed: the first poll fails with
`ShardNoLeader`, the second reports leader disk 0, the third reports disk 2 and
is returned. -/
theorem getLeaderShardInfo_polls_witness :
    (sampleEnv 3 12 10).DetectStatusCode Error.ErrShardNoLeader =
        StatusCode.CodeShardNoLeader ∧
      statsCalls (getLeaderShardInfo (sampleEnv 3 12 10) sampleHandler "1" 1 256 1 []).1 ≤ 3 ∧
      (getLeaderShardInfo (sampleEnv 3 12 10) sampleHandler "1" 1 256 1 []).2 =
        .ok ⟨256, 0, 2, 1⟩ :=
  ⟨rfl,
    (getLeaderShardInfo_polls (sampleEnv 3 12 10) sampleHandler [] "1" 1 256 1 rfl).1,
    ((getLeaderShardInfo_polls (sampleEnv 3 12 10) sampleHandler [] "1" 1 256 1 rfl).2.2.1 2
      (by decide) (by decide) (by decide)).1.trans rfl⟩

theorem getLeaderShardInfo_actions (env : Env) (h : Handler) (host : String)
    (diskID suid badDisk : Nat) (past : List Call) :
    actions (getLeaderShardInfo env h host diskID suid badDisk past).1 = [] :=
  (getLeaderShardInfoLoop_calls env h host diskID suid badDisk _ past).2

theorem getShardHost_actions (env : Env) (clusterID diskID : Nat) (past : List Call) :
    actions (getShardHost env clusterID diskID past).1 = [] := by
  simp only [getShardHost, Run.bind_eq, Run.pure_eq, Run.andThen_fst, Run.call_apply]
  cases env.GetServiceController past clusterID <;>
    simp [actions, Call.isAction, Run.call, Run.ret]

/-- Of the calls of the decision table `updateShardRoute` records its own entry
only. -/
theorem updateShardRoute_actions (env : Env) (clusterID : Nat) (past : List Call) :
    actions (updateShardRoute env clusterID past).1 = [Call.updateShardRoute clusterID] := by
  simp only [updateShardRoute, Run.bind_eq, Run.pure_eq, Run.andThen_fst, Run.andThen_snd,
    Run.call_apply]
  cases env.GetShardController (past ++ [Call.updateShardRoute clusterID]) clusterID <;>
    simp [actions, Call.isAction, Run.call, Run.ret]

/-- Of the calls of the decision table `updateShard` records its own entry only. -/
theorem updateShard_actions (env : Env) (h : Handler) (args : punishArgs) (past : List Call) :
    actions (updateShard env h args past).1 =
      [Call.updateShard args.clusterID args.host args.header.DiskID args.header.Suid] := by
  simp only [updateShard, Run.bind_eq, Run.pure_eq, Run.andThen_fst, Run.andThen_snd,
    Run.call_apply, actions_append]
  cases env.GetShardController
      (past ++ [Call.updateShard args.clusterID args.host args.header.DiskID args.header.Suid])
      args.clusterID with
  | some err => simp [actions, Call.isAction, Run.ret]
  | none =>
    simp only [Run.andThen_fst, actions_append, getLeaderShardInfo_actions]
    cases (getLeaderShardInfo env h args.host args.header.DiskID args.header.Suid 0 _).2 <;>
      simp [actions, Call.isAction, Run.call, Run.ret]

/-- Of the calls of the decision table `waitShardnodeNextLeader` records its own
entry only. -/
theorem waitShardnodeNextLeader_actions (env : Env) (h : Handler)
    (clusterID suid badDisk : Nat) (past : List Call) :
    actions (waitShardnodeNextLeader env h clusterID suid badDisk past).1 =
      [Call.waitShardnodeNextLeader clusterID suid badDisk] := by
  simp only [waitShardnodeNextLeader, Run.bind_eq, Run.pure_eq, Run.andThen_fst,
    Run.andThen_snd, Run.call_apply, actions_append]
  cases env.GetShardController
      (past ++ [Call.waitShardnodeNextLeader clusterID suid badDisk]) clusterID with
  | some err => simp [actions, Call.isAction, Run.ret]
  | none =>
    simp only [Run.andThen_fst, Run.andThen_snd, Run.call_apply, actions_append]
    cases env.GetShardByID _ clusterID (env.ShardID suid) with
    | error err => simp [actions, Call.isAction, Run.ret]
    | ok shard =>
      simp only [Run.andThen_fst, Run.andThen_snd, Run.call_apply, actions_append]
      cases env.GetMember _ shard GetShardMode.GetShardModeRandom badDisk with
      | error err => simp [actions, Call.isAction, Run.ret]
      | ok newDisk =>
        simp only [Run.andThen_fst, Run.andThen_snd, Run.call_apply, actions_append,
          getShardHost_actions]
        cases (getShardHost env clusterID newDisk.DiskID _).2 with
        | error err => simp [actions, Call.isAction, Run.ret]
        | ok newHost =>
          simp only [Run.andThen_fst, Run.andThen_snd, Run.call_apply, actions_append,
            getLeaderShardInfo_actions]
          cases (getLeaderShardInfo env h newHost newDisk.DiskID newDisk.Suid badDisk _).2 <;>
            simp [actions, Call.isAction, Run.call, Run.ret]

/-- The connection-refused branch and the default of `punishAndUpdate`, taken
for a code that is none of the five of the switch. -/
theorem punishAndUpdate_default (env : Env) (h : Handler) (args : punishArgs)
    (hb : env.DetectStatusCode args.err ≠ StatusCode.CodeDiskBroken)
    (hf : env.DetectStatusCode args.err ≠ StatusCode.CodeShardNodeDiskNotFound)
    (he : env.DetectStatusCode args.err ≠ StatusCode.CodeShardDoesNotExist)
    (hv : env.DetectStatusCode args.err ≠ StatusCode.CodeShardRouteVersionNeedUpdate)
    (hl : env.DetectStatusCode args.err ≠ StatusCode.CodeShardNodeNotLeader) :
    punishAndUpdate env h args =
      if env.errorConnectionRefused args.err then do
        let _ ← groupRunDo (groupKey args.header.DiskID) (do
          punishShardnodeDisk args.clusterID args.header.DiskID args.host "Refused"
          waitShardnodeNextLeader env h args.clusterID args.header.Suid args.header.DiskID)
        return (false, Error.ErrConnectionRefused)
      else return (false, args.err) := by
  unfold punishAndUpdate
  cases hc : env.DetectStatusCode args.err with
  | CodeDiskBroken => exact absurd hc hb
  | CodeShardNodeDiskNotFound => exact absurd hc hf
  | CodeShardDoesNotExist => exact absurd hc he
  | CodeShardRouteVersionNeedUpdate => exact absurd hc hv
  | CodeShardNodeNotLeader => exact absurd hc hl
  | CodeShardNoLeader => rfl
  | other n => rfl

/-- C13. The decision table of `punishAndUpdate`, read off the calls it records.
Code `DiskBroken`: it punishes the disk (reason Broken) and enters
`waitShardnodeNextLeader` exactly when the mode is Leader.  Code
`ShardNodeDiskNotFound`: it punishes the disk (reason NotFound) and enters
`updateShardRoute`.  Codes `ShardDoesNotExist` and `ShardRouteVersionNeedUpdate`:
it enters `updateShardRoute` and punishes nothing.  Code `ShardNodeNotLeader`: it
enters `updateShard` only.  Any other code on an error that is not
connection-refused: it makes no call at all.  In each case it returns
`(false, args.err)`, whatever the recovery method returned. -/
theorem punishAndUpdate_table (env : Env) (h : Handler) (args : punishArgs)
    (past : List Call) :
    (env.DetectStatusCode args.err = StatusCode.CodeDiskBroken →
      (punishAndUpdate env h args past).2 = (false, args.err) ∧
      actions (punishAndUpdate env h args past).1 =
        Call.punishShardnodeDisk args.clusterID args.header.DiskID args.host "Broken" ::
          (if args.mode = GetShardMode.GetShardModeLeader then
            [Call.waitShardnodeNextLeader args.clusterID args.header.Suid args.header.DiskID]
          else [])) ∧
    (env.DetectStatusCode args.err = StatusCode.CodeShardNodeDiskNotFound →
      (punishAndUpdate env h args past).2 = (false, args.err) ∧
      actions (punishAndUpdate env h args past).1 =
        [Call.punishShardnodeDisk args.clusterID args.header.DiskID args.host "NotFound",
          Call.updateShardRoute args.clusterID]) ∧
    (env.DetectStatusCode args.err = StatusCode.CodeShardDoesNotExist ∨
        env.DetectStatusCode args.err = StatusCode.CodeShardRouteVersionNeedUpdate →
      (punishAndUpdate env h args past).2 = (false, args.err) ∧
      actions (punishAndUpdate env h args past).1 = [Call.updateShardRoute args.clusterID]) ∧
    (env.DetectStatusCode args.err = StatusCode.CodeShardNodeNotLeader →
      (punishAndUpdate env h args past).2 = (false, args.err) ∧
      actions (punishAndUpdate env h args past).1 =
        [Call.updateShard args.clusterID args.host args.header.DiskID args.header.Suid]) ∧
    (env.DetectStatusCode args.err ≠ StatusCode.CodeDiskBroken →
      env.DetectStatusCode args.err ≠ StatusCode.CodeShardNodeDiskNotFound →
      env.DetectStatusCode args.err ≠ StatusCode.CodeShardDoesNotExist →
      env.DetectStatusCode args.err ≠ StatusCode.CodeShardRouteVersionNeedUpdate →
      env.DetectStatusCode args.err ≠ StatusCode.CodeShardNodeNotLeader →
      env.errorConnectionRefused args.err = false →
      punishAndUpdate env h args past = ([], (false, args.err))) := by
  refine ⟨fun hc => ?_, fun hc => ?_, fun hc => ?_, fun hc => ?_, ?_⟩
  · unfold punishAndUpdate
    rw [hc]
    by_cases hm : args.mode = GetShardMode.GetShardModeLeader
    · simp only [hm, if_true, Run.bind_eq, Run.pure_eq, Run.andThen_fst, Run.andThen_snd,
        actions_append, waitShardnodeNextLeader_actions]
      exact ⟨rfl, by simp [punishShardnodeDisk, Run.call, Run.ret, actions, Call.isAction]⟩
    · simp only [hm, if_false, Run.bind_eq, Run.pure_eq, Run.andThen_fst, Run.andThen_snd,
        actions_append]
      exact ⟨rfl, by simp [punishShardnodeDisk, Run.call, Run.ret, actions, Call.isAction]⟩
  · unfold punishAndUpdate
    rw [hc]
    simp only [Run.bind_eq, Run.pure_eq, Run.andThen_fst, Run.andThen_snd, actions_append,
      updateShardRoute_actions]
    exact ⟨rfl, by simp [punishShardnodeDisk, Run.call, Run.ret, actions, Call.isAction]⟩
  · unfold punishAndUpdate
    rcases hc with hc | hc <;> rw [hc] <;>
      simp only [Run.bind_eq, Run.pure_eq, Run.andThen_fst, Run.andThen_snd, actions_append,
        updateShardRoute_actions] <;>
      exact ⟨rfl, by simp [Run.ret, actions]⟩
  · unfold punishAndUpdate
    rw [hc]
    simp only [Run.bind_eq, Run.pure_eq, Run.andThen_fst, Run.andThen_snd, actions_append,
      updateShard_actions]
    exact ⟨rfl, by simp [Run.ret, actions]⟩
  · intro hb hf he hv hl hr
    rw [punishAndUpdate_default env h args hb hf he hv hl, hr]
    rfl

/-- C13 in the sample world, for a failed call on a shard of cluster 0, which the
cluster controller does not know: the error carries code `ShardDoesNotExist`,
`updateShardRoute` fails, and `punishAndUpdate` returns `(false, args.err)` after
entering `updateShardRoute` only. -/
theorem punishAndUpdate_table_witness :
    (sampleEnv 3 12 10).DetectStatusCode (Error.other 3) = StatusCode.CodeShardDoesNotExist ∧
      (updateShardRoute (sampleEnv 3 12 10) 0 []).2 = some (Error.other 20) ∧
      (punishAndUpdate (sampleEnv 3 12 10) sampleHandler
        { samplePunishArgs GetShardMode.GetShardModeRandom (Error.other 3) with clusterID := 0 }
        []).2 = (false, Error.other 3) ∧
      actions (punishAndUpdate (sampleEnv 3 12 10) sampleHandler
        { samplePunishArgs GetShardMode.GetShardModeRandom (Error.other 3) with clusterID := 0 }
        []).1 = [Call.updateShardRoute 0] :=
  ⟨rfl, rfl,
    (punishAndUpdate_table (sampleEnv 3 12 10) sampleHandler
      { samplePunishArgs GetShardMode.GetShardModeRandom (Error.other 3) with clusterID := 0 }
      []).2.2.1 (Or.inl rfl)⟩

/-- C14 as stated fails: in the sample world error 7 is a refused connection on
which code `DiskBroken` is detected; `punishAndUpdate` takes the `DiskBroken`
case of the switch, punishes with reason Broken, does not enter the
single-flight group, and returns the error itself, not `ErrConnectionRefused`. -/
theorem punishAndUpdate_refused_counterexample :
    (sampleEnv 3 12 10).errorConnectionRefused (Error.other 7) = true ∧
      (sampleEnv 3 12 10).DetectStatusCode (Error.other 7) = StatusCode.CodeDiskBroken ∧
      (punishAndUpdate (sampleEnv 3 12 10) sampleHandler
        (samplePunishArgs GetShardMode.GetShardModeRandom (Error.other 7)) []).2 =
          (false, Error.other 7) ∧
      actions (punishAndUpdate (sampleEnv 3 12 10) sampleHandler
        (samplePunishArgs GetShardMode.GetShardModeRandom (Error.other 7)) []).1 =
          [Call.punishShardnodeDisk 1 1 "1" "Broken"] := by
  decide

/-- C14, amended. For every connection-refused error on which none of the five
codes of the switch is detected, `punishAndUpdate` enters the single-flight
group keyed by the disk id, punishes the disk with reason Refused and enters
`waitShardnodeNextLeader` inside the group, leaves the group, and returns
`(false, ErrConnectionRefused)`, whatever the leader wait returned. -/
theorem punishAndUpdate_refused (env : Env) (h : Handler) (args : punishArgs)
    (past : List Call) (hcode : switchCode (env.DetectStatusCode args.err) = false)
    (hrefused : env.errorConnectionRefused args.err = true) :
    (punishAndUpdate env h args past).2 = (false, Error.ErrConnectionRefused) ∧
      actions (punishAndUpdate env h args past).1 =
        [Call.groupDo (groupKey args.header.DiskID),
          Call.punishShardnodeDisk args.clusterID args.header.DiskID args.host "Refused",
          Call.waitShardnodeNextLeader args.clusterID args.header.Suid args.header.DiskID,
          Call.groupDone (groupKey args.header.DiskID)] := by
  have hne : ∀ c, switchCode c = true → env.DetectStatusCode args.err ≠ c := by
    intro c hc e
    rw [e, hc] at hcode
    cases hcode
  rw [punishAndUpdate_default env h args (hne _ rfl) (hne _ rfl) (hne _ rfl) (hne _ rfl)
    (hne _ rfl), hrefused]
  simp only [if_true, groupRunDo, Run.bind_eq, Run.pure_eq, Run.andThen_fst, Run.andThen_snd,
    actions_append, waitShardnodeNextLeader_actions]
  exact ⟨rfl, by simp [punishShardnodeDisk, Run.call, Run.ret, actions, Call.isAction]⟩

/-- C14, amended, in the sample world: error 8 is a refused connection of a code
outside the switch, and the leader wait fails (cluster 0 is unknown). -/
theorem punishAndUpdate_refused_witness :
    switchCode ((sampleEnv 3 12 10).DetectStatusCode (Error.other 8)) = false ∧
      (sampleEnv 3 12 10).errorConnectionRefused (Error.other 8) = true ∧
      (waitShardnodeNextLeader (sampleEnv 3 12 10) sampleHandler 0 256 1
        [Call.groupDo (groupKey 1), Call.punishShardnodeDisk 0 1 "1" "Refused"]).2 =
          some (Error.other 20) ∧
      (punishAndUpdate (sampleEnv 3 12 10) sampleHandler
        { samplePunishArgs GetShardMode.GetShardModeLeader (Error.other 8) with clusterID := 0 }
        []).2 = (false, Error.ErrConnectionRefused) ∧
      actions (punishAndUpdate (sampleEnv 3 12 10) sampleHandler
        { samplePunishArgs GetShardMode.GetShardModeLeader (Error.other 8) with clusterID := 0 }
        []).1 =
        [Call.groupDo "shardnode-leader-1", Call.punishShardnodeDisk 0 1 "1" "Refused",
          Call.waitShardnodeNextLeader 0 256 1, Call.groupDone "shardnode-leader-1"] :=
  ⟨rfl, rfl, rfl,
    punishAndUpdate_refused (sampleEnv 3 12 10) sampleHandler
      { samplePunishArgs GetShardMode.GetShardModeLeader (Error.other 8) with clusterID := 0 }
      [] rfl rfl⟩

/-! ## The blob dispatcher: `fixCreateBlobArgs` -/

theorem int64_of_lt {x : Nat} (hx : x < 2 ^ 63) : int64 x = (x : Int) := by
  unfold int64
  have h1 : x % 2 ^ 64 = x := Nat.mod_eq_of_lt (by omega)
  rw [h1, if_pos hx]

/-- A size below 2^63 that exceeds `maxObjectSize` is rejected, the arguments
untouched and no call made. -/
theorem fixCreateBlobArgs_rejects (env : Env) (h : Handler) (args : CreateBlobArgs)
    (past : List Call) (hx : args.Size < 2 ^ 63) (hsize : h.maxObjectSize < (args.Size : Int)) :
    fixCreateBlobArgs env h args past = ([], (args, some Error.ErrAccessExceedSize)) := by
  unfold fixCreateBlobArgs
  rw [int64_of_lt hx, if_pos (by simpa using hsize)]
  rfl

/-- C16 fails on the code: a size of 2^63 bytes, far above the 5 GiB limit of
the sample handler, converts to a negative `int64`, passes the size check, and
`fixCreateBlobArgs` returns nil. -/
theorem fixCreateBlobArgs_oversized_wraps :
    sampleHandler.maxObjectSize < (sampleHugeArgs.Size : Int) ∧
      sampleHugeArgs.Size < 2 ^ 64 ∧
      int64 sampleHugeArgs.Size = -9223372036854775808 ∧
      fixCreateBlobArgs (sampleEnv 3 12 10) sampleHandler sampleHugeArgs [] =
        ([], (sampleHugeArgs, none)) := by
  decide

/-- C17. For arguments with `Size <= maxObjectSize` (a `uint64` against an
`int64`): on success `SliceSize`, `CodeMode` and `ClusterID` keep a non-zero
input value and are `MaxBlobSize`, `SelectCodeMode(Size)` and the id of the
cluster `ChooseOne` chose otherwise, and `Size`, `BlobName` and `ShardKeys` are
unchanged; an invalid resulting code mode gives `ErrIllegalArguments`; and when
`ChooseOne` does not itself fail with `ErrIllegalArguments`, that error is
returned exactly when the resulting code mode is not valid. -/
theorem fixCreateBlobArgs_completes (env : Env) (h : Handler) (args : CreateBlobArgs)
    (past : List Call) (hmax : h.maxObjectSize < 2 ^ 63)
    (hsize : (args.Size : Int) ≤ h.maxObjectSize) :
    ((fixCreateBlobArgs env h args past).2.2 = none →
      (fixCreateBlobArgs env h args past).2.1.SliceSize =
          (if args.SliceSize ≠ 0 then args.SliceSize else h.MaxBlobSize) ∧
        (fixCreateBlobArgs env h args past).2.1.CodeMode =
          (if args.CodeMode ≠ 0 then args.CodeMode else env.SelectCodeMode args.Size) ∧
        (if args.ClusterID ≠ 0 then
          (fixCreateBlobArgs env h args past).2.1.ClusterID = args.ClusterID
        else env.ChooseOne past = .ok (fixCreateBlobArgs env h args past).2.1.ClusterID) ∧
        (fixCreateBlobArgs env h args past).2.1.Size = args.Size ∧
        (fixCreateBlobArgs env h args past).2.1.BlobName = args.BlobName ∧
        (fixCreateBlobArgs env h args past).2.1.ShardKeys = args.ShardKeys) ∧
    (env.IsValid (if args.CodeMode ≠ 0 then args.CodeMode else env.SelectCodeMode args.Size) =
        false →
      (fixCreateBlobArgs env h args past).2.2 = some Error.ErrIllegalArguments) ∧
    (env.ChooseOne past ≠ .error Error.ErrIllegalArguments →
      ((fixCreateBlobArgs env h args past).2.2 = some Error.ErrIllegalArguments ↔
        env.IsValid
          (if args.CodeMode ≠ 0 then args.CodeMode else env.SelectCodeMode args.Size) =
            false)) := by
  have hx : args.Size < 2 ^ 63 := by
    have : (args.Size : Int) < 2 ^ 63 := lt_of_le_of_lt hsize hmax
    exact_mod_cast this
  have hno : ¬ int64 args.Size > h.maxObjectSize := by
    rw [int64_of_lt hx]; exact not_lt.2 hsize
  unfold fixCreateBlobArgs
  simp only [if_neg hno]
  by_cases hm : args.CodeMode = 0
  · cases hv : env.IsValid (env.SelectCodeMode (args.Size : Int)) <;>
      by_cases hs : args.SliceSize = 0 <;> by_cases hc : args.ClusterID = 0 <;>
      simp only [hs, hm, hc, hv, if_true, if_false, ne_eq, not_true_eq_false,
        not_false_eq_true, int64_of_lt hx, Bool.false_eq_true, Bool.true_eq_false,
        Run.bind_eq, Run.pure_eq, Run.andThen_snd, Run.andThen_fst, Run.call_apply,
        Run.ret_apply] <;>
      (try cases hch : env.ChooseOne past) <;>
      simp_all [Run.ret]
  · cases hv : env.IsValid args.CodeMode <;>
      by_cases hs : args.SliceSize = 0 <;> by_cases hc : args.ClusterID = 0 <;>
      simp only [hs, hm, hc, hv, if_true, if_false, ne_eq, not_true_eq_false,
        not_false_eq_true, int64_of_lt hx, Bool.false_eq_true, Bool.true_eq_false,
        Run.bind_eq, Run.pure_eq, Run.andThen_snd, Run.andThen_fst, Run.call_apply,
        Run.ret_apply] <;>
      (try cases hch : env.ChooseOne past) <;>
      simp_all [Run.ret]

/-- C17 in the sample world, for arguments that give a name and a size of 2048
bytes only: the slice size becomes `MaxBlobSize`, the code mode the one
selected for the size. -/
theorem fixCreateBlobArgs_completes_witness :
    sampleHandler.maxObjectSize < 2 ^ 63 ∧
      (sampleBareArgs.Size : Int) ≤ sampleHandler.maxObjectSize ∧
      (fixCreateBlobArgs (sampleEnv 3 12 10) sampleHandler sampleBareArgs []).2.2 = none ∧
      (fixCreateBlobArgs (sampleEnv 3 12 10) sampleHandler sampleBareArgs []).2.1.SliceSize =
        4194304 ∧
      (fixCreateBlobArgs (sampleEnv 3 12 10) sampleHandler sampleBareArgs []).2.1.CodeMode = 2 :=
  ⟨by decide, by decide, rfl,
    ((fixCreateBlobArgs_completes (sampleEnv 3 12 10) sampleHandler sampleBareArgs []
      (by decide) (by decide)).1 rfl).1.trans rfl,
    ((fixCreateBlobArgs_completes (sampleEnv 3 12 10) sampleHandler sampleBareArgs []
      (by decide) (by decide)).1 rfl).2.1.trans rfl⟩

/-! ## The blob dispatcher: listing across shards -/

/-- A `RuptOn` that ends without error ends with a call of the function that
returned no error, and leaves the state of that call. -/
theorem RuptOn_ok {σ : Type} (fn : σ → Run (σ × Bool × Option Error)) (n : Nat) :
    ∀ (delay : Int) (st : σ) (past : List Call), 0 < n →
      (RuptOn fn n delay st past).2.2 = none →
      ∃ st0 past0, (fn st0 past0).2.2.2 = none ∧
        (fn st0 past0).2.1 = (RuptOn fn n delay st past).2.1 := by
  induction n with
  | zero => intro _ _ _ h; exact absurd h (Nat.lt_irrefl _)
  | succ n ih =>
    intro delay st past _ hok
    simp only [RuptOn, Run.bind_eq, Run.pure_eq, Run.andThen_snd] at hok ⊢
    cases hr : (fn st past).2.2.2 with
    | none =>
      simp only [hr] at hok ⊢
      exact ⟨st, past, hr, rfl⟩
    | some err =>
      simp only [hr] at hok ⊢
      by_cases hstop : (fn st past).2.2.1 = true ∨ n = 0
      · simp only [if_pos hstop, Run.ret_apply] at hok
        cases hok
      · simp only [if_neg hstop, Run.andThen_snd] at hok ⊢
        have hn : 0 < n := Nat.pos_of_ne_zero (fun e => hstop (Or.inr e))
        exact ih _ _ _ hn hok

theorem listSingleShardEnough_ok (env : Env) (h : Handler) (args : ListBlobArgs)
    (header : ShardOpHeader) (past : List Call)
    (hok : (listSingleShardEnough env h args header past).2.2.2 = none) :
    ∃ past' host, env.ListBlob past' host ⟨header, args.Prefix, args.Marker, args.Count⟩ =
      .ok (listSingleShardEnough env h args header past).2.1 := by
  simp only [listSingleShardEnough, Run.bind_eq, Run.pure_eq, Run.andThen_snd] at hok ⊢
  generalize getShardHost env args.ClusterID header.DiskID past = g at hok ⊢
  rcases g with ⟨t1, err | host⟩
  · simp [Run.ret] at hok
  · simp only [Run.andThen_snd, Run.call_apply] at hok ⊢
    cases hl : env.ListBlob (past ++ t1) host ⟨header, args.Prefix, args.Marker, args.Count⟩ with
    | error err => simp [hl, Run.ret, Run.andThen] at hok
    | ok ret =>
      simp only [hl, Run.ret_apply]
      exact ⟨_, _, hl⟩

/-- What an attempt of a round returns: the error of `GetMember`, else what
`listSingleShardEnough` returns, with the interrupt flag set on success. -/
theorem listAttempt_snd (env : Env) (h : Handler) (args : ListBlobArgs) (shard : Shard)
    (marker : Option Storage.Bytes) (count : Int) (st : ListBlobRet × Bool) (past : List Call) :
    (listAttempt env h args shard marker count st past).2 =
      match env.GetMember past shard args.Mode 0 with
      | .error err => (st, st.2, some err)
      | .ok info =>
        match (listSingleShardEnough env h { args with Marker := marker, Count := uint64 count }
          ⟨env.GetSpaceID args.ClusterID, info.DiskID, info.Suid, info.RouteVersion, none⟩
          (past ++ [Call.GetMember shard.ShardID args.Mode 0])).2 with
        | (ret, interrupt, some err) => ((ret, interrupt), interrupt, some err)
        | (ret, interrupt, none) => ((ret, interrupt), true, none) := by
  simp only [listAttempt, getOpHeaderByShard, Run.bind_eq, Run.pure_eq,
    Run.andThen_snd, Run.andThen_fst, Run.call_apply]
  cases hmem : env.GetMember past shard args.Mode 0 with
  | error err => rfl
  | ok info =>
    simp only [Run.ret_apply, List.append_nil, Run.andThen_snd]
    generalize listSingleShardEnough env h
      { args with Marker := marker, Count := uint64 count }
      ⟨env.GetSpaceID args.ClusterID, info.DiskID, info.Suid, info.RouteVersion, none⟩
      (past ++ [Call.GetMember shard.ShardID args.Mode 0]) = g
    rcases g with ⟨t, ret, intr, _ | err⟩ <;> rfl

theorem listAttempt_ok (env : Env) (h : Handler) (args : ListBlobArgs) (shard : Shard)
    (marker : Option Storage.Bytes) (count : Int) (st : ListBlobRet × Bool) (past : List Call)
    (hok : (listAttempt env h args shard marker count st past).2.2.2 = none) :
    Round.answered env args
      ⟨shard, marker, count, (listAttempt env h args shard marker count st past).2.1.1⟩ := by
  rw [listAttempt_snd] at hok ⊢
  cases hmem : env.GetMember past shard args.Mode 0 with
  | error err => simp [hmem] at hok
  | ok info =>
    simp only [hmem] at hok ⊢
    have hs := listSingleShardEnough_ok env h { args with Marker := marker, Count := uint64 count }
      ⟨env.GetSpaceID args.ClusterID, info.DiskID, info.Suid, info.RouteVersion, none⟩
      (past ++ [Call.GetMember shard.ShardID args.Mode 0])
    generalize listSingleShardEnough env h
      { args with Marker := marker, Count := uint64 count }
      ⟨env.GetSpaceID args.ClusterID, info.DiskID, info.Suid, info.RouteVersion, none⟩
      (past ++ [Call.GetMember shard.ShardID args.Mode 0]) = g at hok hs ⊢
    rcases g with ⟨t, ret, intr, _ | err⟩
    · rcases hs rfl with ⟨past', host, hl⟩
      exact ⟨past, past', info, host, hmem, hl⟩
    · simp at hok

/-- A round of `listManyShards` that ends without error leaves in `ret` an answer
of the shardnode client for the shard, the marker and the count of the round. -/
theorem listRound_ok (env : Env) (h : Handler) (args : ListBlobArgs) (shard : Shard)
    (marker : Option Storage.Bytes) (count : Int) (past : List Call)
    (hok : (RuptOn (listAttempt env h args shard marker count) 3 200 (default, false) past).2.2 =
      none) :
    Round.answered env args ⟨shard, marker, count,
      (RuptOn (listAttempt env h args shard marker count) 3 200 (default, false) past).2.1.1⟩ := by
  rcases RuptOn_ok (listAttempt env h args shard marker count) 3 200 (default, false) past
    (by decide) hok with ⟨st0, past0, h1, h2⟩
  rw [← h2]
  exact listAttempt_ok env h args shard marker count st0 past0 h1

theorem roundBlobs_cons (r : Round) (rs : List Round) :
    roundBlobs (r :: rs) = r.ret.Blobs ++ roundBlobs rs := by
  simp [roundBlobs]

/-- The loop of `listManyShards`, when it ends without error, has made a listing
in the sense of `Listing`, and has appended the blobs of its rounds in order. -/
theorem listManyShardsLoop_listing (env : Env) (h : Handler) (args : ListBlobArgs)
    (fuel : Nat) :
    ∀ (shard : Shard) (count : Int) (allBlob : ListBlobRet) (past : List Call)
      (final : ListBlobRet × Range),
      (listManyShardsLoop env h args fuel shard shard.Range count allBlob past).2 =
        some (.ok final) →
      ∃ rounds, Listing env args shard allBlob.NextMarker count rounds final.1.NextMarker final.2 ∧
        final.1.Blobs = allBlob.Blobs ++ roundBlobs rounds := by
  induction fuel with
  | zero =>
    intro shard count allBlob past final hret
    simp only [listManyShardsLoop] at hret
    split_ifs at hret with hc
    · cases hret
    · simp only [Run.pure_eq, Run.ret_apply, Option.some.injEq, Except.ok.injEq] at hret
      subst hret
      exact ⟨[], Listing.done (not_lt.1 hc), by simp [roundBlobs]⟩
  | succ fuel ih =>
    intro shard count allBlob past final hret
    simp only [listManyShardsLoop] at hret
    split_ifs at hret with hc
    · simp only [Run.bind_eq, Run.pure_eq, Run.andThen_snd] at hret
      have hround := listRound_ok env h args shard allBlob.NextMarker count past
      generalize RuptOn (listAttempt env h args shard allBlob.NextMarker count) 3 200
        (default, false) past = r at hret hround
      rcases r with ⟨t, ⟨ret, intr⟩, _ | rerr⟩
      · have ha := hround rfl
        simp only at hret ha
        by_cases hm : ret.NextMarker = none
        · simp only [hm, if_true, Run.andThen_snd, Run.call_apply] at hret
          cases hn : env.GetNextShard (past ++ t) args.ClusterID shard.Range with
          | error err => simp [hn, Run.ret] at hret
          | ok o =>
            cases o with
            | none =>
              simp only [hn, Run.ret_apply, Option.some.injEq, Except.ok.injEq] at hret
              subst hret
              exact ⟨[⟨shard, allBlob.NextMarker, count, ret⟩],
                Listing.last hc ha hm _ hn, by simp [roundBlobs]⟩
            | some next =>
              simp only [hn] at hret
              rcases ih next _ _ _ final hret with ⟨rounds, hl, hb⟩
              refine ⟨⟨shard, allBlob.NextMarker, count, ret⟩ :: rounds,
                Listing.advance hc ha hm _ hn ?_, ?_⟩
              · simpa [hm] using hl
              · rw [hb, roundBlobs_cons, List.append_assoc]
        · simp only [hm, if_false] at hret
          rcases ih shard _ _ _ final hret with ⟨rounds, hl, hb⟩
          refine ⟨⟨shard, allBlob.NextMarker, count, ret⟩ :: rounds,
            Listing.stay hc ha hm hl, ?_⟩
          rw [hb, roundBlobs_cons, List.append_assoc]
      · simp [Run.ret] at hret
    · simp only [Run.pure_eq, Run.ret_apply, Option.some.injEq, Except.ok.injEq] at hret
      subst hret
      exact ⟨[], Listing.done (not_lt.1 hc), by simp [roundBlobs]⟩

theorem int64_le (x : Nat) : int64 x ≤ (x : Int) := by
  unfold int64
  have := Nat.mod_le x (2 ^ 64)
  split_ifs <;> omega

theorem int64_lt (x : Nat) : int64 x < 2 ^ 63 := by
  unfold int64
  have := Nat.mod_lt x (show 0 < 2 ^ 64 by decide)
  split_ifs <;> omega

theorem uint64_of_pos {c : Int} (h0 : 0 ≤ c) (h1 : c < 2 ^ 64) : uint64 c = c.toNat := by
  unfold uint64
  rw [Int.emod_eq_of_lt h0 h1]

/-- When no answer of the shardnode client holds more blobs than the count it
was asked for, the rounds of a listing hold no more blobs than the count the
listing starts from. -/
theorem Listing.length_le {env : Env} {args : ListBlobArgs}
    (hresp : ∀ past host req ret, env.ListBlob past host req = .ok ret →
      ret.Blobs.length ≤ req.Count)
    {s : Shard} {m : Option Storage.Bytes} {c : Int} {rounds : List Round}
    {m' : Option Storage.Bytes} {g' : Range}
    (hl : Listing env args s m c rounds m' g') (hc : c < 2 ^ 64) :
    (roundBlobs rounds).length ≤ c.toNat := by
  induction hl with
  | done _ => simp [roundBlobs]
  | stay hpos ha _ _ ih =>
    rcases ha with ⟨_, _, _, _, _, hlist⟩
    have hlen := hresp _ _ _ _ hlist
    simp only at hlen
    rw [uint64_of_pos (le_of_lt hpos) hc] at hlen
    have := ih (by omega)
    rw [roundBlobs_cons, List.length_append]
    simp only
    omega
  | advance hpos ha _ _ _ _ ih =>
    rcases ha with ⟨_, _, _, _, _, hlist⟩
    have hlen := hresp _ _ _ _ hlist
    simp only at hlen
    rw [uint64_of_pos (le_of_lt hpos) hc] at hlen
    have := ih (by omega)
    rw [roundBlobs_cons, List.length_append]
    simp only
    omega
  | last hpos ha _ _ _ =>
    rcases ha with ⟨_, _, _, _, _, hlist⟩
    have hlen := hresp _ _ _ _ hlist
    simp only at hlen
    rw [uint64_of_pos (le_of_lt hpos) hc] at hlen
    simpa [roundBlobs] using hlen

/-- Where a listing ends.  Without a round the marker and the range are those it
started from.  Otherwise the marker is the next marker of the last answer; the
range is that of the last shard when that marker is not nil, and when it is nil
the range of the shard that `GetNextShard` gave after the last shard, or the
empty range when it gave none. -/
theorem Listing.resume {env : Env} {args : ListBlobArgs}
    {s : Shard} {m : Option Storage.Bytes} {c : Int} {rounds : List Round}
    {m' : Option Storage.Bytes} {g' : Range}
    (hl : Listing env args s m c rounds m' g') :
    (rounds = [] → m' = m ∧ g' = s.Range) ∧
    ∀ r, rounds.getLast? = some r →
      m' = r.ret.NextMarker ∧
      (r.ret.NextMarker ≠ none → g' = r.shard.Range) ∧
      (r.ret.NextMarker = none →
        (g' = default ∧ ∃ past, env.GetNextShard past args.ClusterID r.shard.Range = .ok none) ∨
        ∃ past next, env.GetNextShard past args.ClusterID r.shard.Range = .ok (some next) ∧
          g' = next.Range) := by
  induction hl with
  | done _ => exact ⟨fun _ => ⟨rfl, rfl⟩, fun r hr => by simp at hr⟩
  | @stay s m c ret rs m' g' hpos ha hm rest ih =>
    refine ⟨fun e => (by cases e), fun r hr => ?_⟩
    cases rs with
    | nil =>
      simp only [List.getLast?_singleton, Option.some.injEq] at hr
      subst hr
      have := ih.1 rfl
      exact ⟨this.1, fun _ => this.2, fun e => absurd e hm⟩
    | cons r' rs' =>
      rw [List.getLast?_cons_cons] at hr
      exact ih.2 r hr
  | @advance s m c ret next rs m' g' hpos ha hm past hn rest ih =>
    refine ⟨fun e => (by cases e), fun r hr => ?_⟩
    cases rs with
    | nil =>
      simp only [List.getLast?_singleton, Option.some.injEq] at hr
      subst hr
      have := ih.1 rfl
      exact ⟨by rw [this.1, hm], fun e => absurd hm e,
        fun _ => Or.inr ⟨past, next, hn, this.2⟩⟩
    | cons r' rs' =>
      rw [List.getLast?_cons_cons] at hr
      exact ih.2 r hr
  | @last s m c ret hpos ha hm past hn =>
    refine ⟨fun e => (by cases e), fun r hr => ?_⟩
    simp only [List.getLast?_singleton, Option.some.injEq] at hr
    subst hr
    exact ⟨hm.symm, fun e => absurd hm e, fun _ => Or.inl ⟨rfl, past, hn⟩⟩

theorem listFinish_Blobs (env : Env) (allBlob : ListBlobRet) (lastRange : Range) :
    (listFinish env allBlob lastRange).1.Blobs = allBlob.Blobs := by
  unfold listFinish
  split_ifs <;> rfl

/-- A `listManyShards` that returns without error has found its start, run its
loop to the end without error, and returns what `listFinish` makes of the
result of the loop. -/
theorem listManyShards_ok (env : Env) (h : Handler) (fuel : Nat) (args : ListBlobArgs)
    (past : List Call) (ret : ListBlobRet)
    (hret : (listManyShards env h fuel args past).2 = some (ret, none)) :
    ∃ shard marker past' final,
      (listStart env args (past ++ [Call.GetShardController args.ClusterID])).2 =
        .ok (shard, marker) ∧
      (listManyShardsLoop env h args fuel shard shard.Range (int64 args.Count) ⟨[], marker⟩
        past').2 = some (.ok final) ∧
      listFinish env final.1 final.2 = (ret, none) := by
  simp only [listManyShards, Run.bind_eq, Run.pure_eq, Run.andThen_snd, Run.andThen_fst,
    Run.call_apply] at hret
  cases hc : env.GetShardController past args.ClusterID with
  | some err => simp [hc, Run.ret] at hret
  | none =>
    simp only [hc, Run.andThen_snd, Run.andThen_fst] at hret
    generalize hs : listStart env args (past ++ [Call.GetShardController args.ClusterID]) = st
      at hret
    rcases st with ⟨t1, err | ⟨shard, marker⟩⟩
    · simp [Run.ret] at hret
    · simp only [Run.andThen_snd] at hret
      generalize hl : listManyShardsLoop env h args fuel shard shard.Range (int64 args.Count)
        ⟨[], marker⟩ (past ++ [Call.GetShardController args.ClusterID] ++ t1) = lp at hret
      rcases lp with ⟨t2, _ | (err | ⟨allBlob, lastRange⟩)⟩
      · simp [Run.ret] at hret
      · simp [Run.ret] at hret
      · simp only [Run.ret_apply, Option.some.injEq] at hret
        exact ⟨shard, marker, _, (allBlob, lastRange), rfl, by rw [hl], hret⟩

/-- C18. When no answer of the shardnode client holds more blobs than the count
it was asked for, a `listManyShards` that returns without error returns at most
`args.Count` blobs, and they are the blobs of the rounds of a listing across
the shards, in order: the listing starts at the shard and marker that
`listStart` found and with the count `int64(args.Count)`, stays on a shard while
its answers carry a next marker, and moves on to `GetNextShard` of the shard's
range when they do not. -/
theorem listManyShards_count (env : Env) (h : Handler) (fuel : Nat) (args : ListBlobArgs)
    (past : List Call) (ret : ListBlobRet)
    (hresp : ∀ past host req r, env.ListBlob past host req = .ok r →
      r.Blobs.length ≤ req.Count)
    (hret : (listManyShards env h fuel args past).2 = some (ret, none)) :
    ret.Blobs.length ≤ args.Count ∧
      ∃ shard marker rounds m g,
        (listStart env args (past ++ [Call.GetShardController args.ClusterID])).2 =
          .ok (shard, marker) ∧
        Listing env args shard marker (int64 args.Count) rounds m g ∧
        ret.Blobs = roundBlobs rounds := by
  rcases listManyShards_ok env h fuel args past ret hret with
    ⟨shard, marker, past', final, hstart, hloop, hfin⟩
  rcases listManyShardsLoop_listing env h args fuel shard _ _ past' final hloop with
    ⟨rounds, hl, hb⟩
  have hblobs : ret.Blobs = roundBlobs rounds := by
    have := listFinish_Blobs env final.1 final.2
    rw [hfin] at this
    simpa [hb] using this
  refine ⟨?_, shard, marker, rounds, _, _, hstart, hl, hblobs⟩
  have hlen := hl.length_le hresp (lt_trans (int64_lt args.Count) (by norm_num))
  have := int64_le args.Count
  rw [hblobs]
  omega

/-- C19. A `listManyShards` that returns without error has made a listing that
ends with a marker `m` and a range `g`: after at least one round, `m` is the
next marker of the last answer, and `g` is the range of the last shard when `m`
is not nil, the range of the next shard when `m` is nil and there is one, and
the empty range when there is none.  The marker returned is `m` itself, which is
empty, when `m` is empty and `g` is of type 0, and in every other case the
encoding of `g` and `m`.  When the encoding of a marker that is not empty or of
a range that is not of type 0 is never empty, the marker returned is empty
exactly when `m` is empty and `g` is of type 0. -/
theorem listManyShards_marker (env : Env) (h : Handler) (fuel : Nat) (args : ListBlobArgs)
    (past : List Call) (ret : ListBlobRet)
    (hret : (listManyShards env h fuel args past).2 = some (ret, none)) :
    ∃ shard marker rounds m g,
      (listStart env args (past ++ [Call.GetShardController args.ClusterID])).2 =
        .ok (shard, marker) ∧
      Listing env args shard marker (int64 args.Count) rounds m g ∧
      (∀ r, rounds.getLast? = some r →
        m = r.ret.NextMarker ∧
        (r.ret.NextMarker ≠ none → g = r.shard.Range) ∧
        (r.ret.NextMarker = none →
          (g = default ∧
            ∃ past, env.GetNextShard past args.ClusterID r.shard.Range = .ok none) ∨
          ∃ past next, env.GetNextShard past args.ClusterID r.shard.Range = .ok (some next) ∧
            g = next.Range)) ∧
      (markerLen m = 0 ∧ g.Type_ = 0 → ret.NextMarker = m) ∧
      (¬ (markerLen m = 0 ∧ g.Type_ = 0) →
        env.marshalMarker ⟨g, m⟩ = (ret.NextMarker, none)) ∧
      ((∀ x b, env.marshalMarker x = (b, none) →
          ¬ (markerLen x.Marker = 0 ∧ x.Range.Type_ = 0) → markerLen b ≠ 0) →
        (markerLen ret.NextMarker = 0 ↔ markerLen m = 0 ∧ g.Type_ = 0)) := by
  rcases listManyShards_ok env h fuel args past ret hret with
    ⟨shard, marker, past', final, hstart, hloop, hfin⟩
  rcases listManyShardsLoop_listing env h args fuel shard _ _ past' final hloop with
    ⟨rounds, hl, _⟩
  refine ⟨shard, marker, rounds, _, _, hstart, hl, hl.resume.2, ?_, ?_, ?_⟩
  · intro hend
    unfold listFinish at hfin
    rw [if_pos hend] at hfin
    rw [← (Prod.mk.inj hfin).1]
  · intro hend
    unfold listFinish at hfin
    rw [if_neg hend] at hfin
    have h1 := (Prod.mk.inj hfin).1
    have h2 := (Prod.mk.inj hfin).2
    rw [← h1]
    exact Prod.ext rfl h2
  · intro hcodec
    unfold listFinish at hfin
    by_cases hend : markerLen final.1.NextMarker = 0 ∧ final.2.Type_ = 0
    · rw [if_pos hend] at hfin
      rw [← (Prod.mk.inj hfin).1]
      exact ⟨fun _ => hend, fun _ => hend.1⟩
    · rw [if_neg hend] at hfin
      have h1 := (Prod.mk.inj hfin).1
      have h2 := (Prod.mk.inj hfin).2
      have hne := hcodec ⟨final.2, final.1.NextMarker⟩ ret.NextMarker
        (by rw [← h1]; exact Prod.ext rfl h2) (fun e => hend ⟨e.1, e.2⟩)
      exact ⟨fun e => absurd e hne, fun e => absurd e hend⟩

/-- The sample shardnode answers with no more blobs than the count asked. -/
theorem sampleEnv_ListBlob_le (shards held page : Nat) (past : List Call) (host : String)
    (req : ShardListBlobArgs) (r : ListBlobRet)
    (hr : (sampleEnv shards held page).ListBlob past host req = .ok r) :
    r.Blobs.length ≤ req.Count := by
  simp only [sampleEnv, Except.ok.injEq] at hr
  rw [← hr]
  simp only [sampleListShard, List.length_map, List.length_range]
  omega

/-- C18 in the sample world of three shards of 12 blobs each that list in pages
of 10: a listing of 25 returns the 12 blobs of the first shard, the 12 of the
second and the first of the third, 25 in all. -/
theorem listManyShards_count_witness :
    (∀ past host req r, (sampleEnv 3 12 10).ListBlob past host req = .ok r →
        r.Blobs.length ≤ req.Count) ∧
      (listManyShards (sampleEnv 3 12 10) sampleHandler 10 (sampleListArgs 25) []).2 =
        some (⟨sampleBlobs 1 0 12 ++ sampleBlobs 2 0 12 ++ sampleBlobs 3 0 1,
          some (sampleMarshalMarker ⟨sampleRange 3, some [3, 1]⟩)⟩, none) ∧
      (sampleBlobs 1 0 12 ++ sampleBlobs 2 0 12 ++ sampleBlobs 3 0 1).length ≤ 25 :=
  ⟨sampleEnv_ListBlob_le 3 12 10, by decide,
    (listManyShards_count (sampleEnv 3 12 10) sampleHandler 10 (sampleListArgs 25) []
      ⟨sampleBlobs 1 0 12 ++ sampleBlobs 2 0 12 ++ sampleBlobs 3 0 1,
        some (sampleMarshalMarker ⟨sampleRange 3, some [3, 1]⟩)⟩
      (sampleEnv_ListBlob_le 3 12 10) (by decide)).1⟩

/-- C19 in the sample world of two shards of 7 blobs each.  A listing of 14
returns the last blob of the last shard and an empty marker.  A listing of 10
returns 7 blobs of the first shard and 3 of the second, and its marker is the
encoding of the second shard's range with that shard's next marker. -/
theorem listManyShards_marker_witness :
    (listManyShards (sampleEnv 2 7 10) sampleHandler 10 (sampleListArgs 14) []).2 =
        some (⟨sampleBlobs 1 0 7 ++ sampleBlobs 2 0 7, none⟩, none) ∧
      (listManyShards (sampleEnv 2 7 10) sampleHandler 10 (sampleListArgs 10) []).2 =
        some (⟨sampleBlobs 1 0 7 ++ sampleBlobs 2 0 3,
          some (sampleMarshalMarker ⟨sampleRange 2, some [2, 3]⟩)⟩, none) ∧
      (sampleListShard 2 7 10 none 3).NextMarker = some [2, 3] ∧
      ∃ shard marker rounds m g,
        Listing (sampleEnv 2 7 10) (sampleListArgs 10) shard marker 10 rounds m g ∧
        (markerLen m = 0 ∧ g.Type_ = 0 →
          some (sampleMarshalMarker ⟨sampleRange 2, some [2, 3]⟩) = m) ∧
        (¬ (markerLen m = 0 ∧ g.Type_ = 0) →
          (sampleEnv 2 7 10).marshalMarker ⟨g, m⟩ =
            (some (sampleMarshalMarker ⟨sampleRange 2, some [2, 3]⟩), none)) :=
  ⟨by decide, by decide, by decide,
    match listManyShards_marker (sampleEnv 2 7 10) sampleHandler 10 (sampleListArgs 10) []
      ⟨sampleBlobs 1 0 7 ++ sampleBlobs 2 0 3,
        some (sampleMarshalMarker ⟨sampleRange 2, some [2, 3]⟩)⟩ (by decide) with
    | ⟨shard, marker, rounds, m, g, _, hl, _, h1, h2, _⟩ =>
      ⟨shard, marker, rounds, m, g, hl, h1, h2⟩⟩

/-- The loop of `listManyShards` ends when every answer that carries a next
marker holds a blob and the chain of next shards is finite (`rank` decreases
along `GetNextShard`): fuel of the count plus the rank of the range suffices. -/
theorem listManyShardsLoop_returns (env : Env) (h : Handler) (args : ListBlobArgs)
    (rank : Range → Nat)
    (hprogress : ∀ past host req r, env.ListBlob past host req = .ok r →
      r.NextMarker ≠ none → 0 < r.Blobs.length)
    (hrank : ∀ past g next, env.GetNextShard past args.ClusterID g = .ok (some next) →
      rank next.Range < rank g)
    (fuel : Nat) :
    ∀ (shard : Shard) (lastRange : Range) (count : Int) (allBlob : ListBlobRet)
      (past : List Call), count.toNat + rank lastRange ≤ fuel →
      (listManyShardsLoop env h args fuel shard lastRange count allBlob past).2 ≠ none := by
  induction fuel with
  | zero =>
    intro shard lastRange count allBlob past hfuel
    simp only [listManyShardsLoop]
    have : ¬ 0 < count := by omega
    rw [if_neg this]
    simp [Run.pure_eq, Run.ret]
  | succ fuel ih =>
    intro shard lastRange count allBlob past hfuel
    simp only [listManyShardsLoop]
    split_ifs with hc
    · simp only [Run.bind_eq, Run.pure_eq, Run.andThen_snd]
      have hround := listRound_ok env h args shard allBlob.NextMarker count past
      generalize RuptOn (listAttempt env h args shard allBlob.NextMarker count) 3 200
        (default, false) past = r at hround
      rcases r with ⟨t, ⟨ret, intr⟩, _ | rerr⟩
      · rcases hround rfl with ⟨_, _, _, _, _, hlist⟩
        simp only at hlist ⊢
        by_cases hm : ret.NextMarker = none
        · simp only [hm, if_true, Run.andThen_snd, Run.call_apply]
          cases hn : env.GetNextShard (past ++ t) args.ClusterID lastRange with
          | error err => simp [Run.ret]
          | ok o =>
            cases o with
            | none => simp [Run.ret]
            | some next =>
              simp only
              apply ih
              have := hrank _ _ _ hn
              omega
        · simp only [hm, if_false]
          apply ih
          have := hprogress _ _ _ _ hlist hm
          omega
      · simp [Run.ret]
    · simp [Run.pure_eq, Run.ret]

/-- Method `listManyShards` returns when every answer that carries a next marker
holds a blob and the chain of next shards is finite, of length at most `bound`:
fuel of the count plus `bound` suffices. -/
theorem listManyShards_returns (env : Env) (h : Handler) (args : ListBlobArgs)
    (rank : Range → Nat) (bound : Nat) (hbound : ∀ g, rank g ≤ bound)
    (hprogress : ∀ past host req r, env.ListBlob past host req = .ok r →
      r.NextMarker ≠ none → 0 < r.Blobs.length)
    (hrank : ∀ past g next, env.GetNextShard past args.ClusterID g = .ok (some next) →
      rank next.Range < rank g)
    (fuel : Nat) (hfuel : (int64 args.Count).toNat + bound ≤ fuel) (past : List Call) :
    (listManyShards env h fuel args past).2 ≠ none := by
  simp only [listManyShards, Run.bind_eq, Run.pure_eq, Run.andThen_snd, Run.andThen_fst,
    Run.call_apply]
  cases hc : env.GetShardController past args.ClusterID with
  | some err => simp [Run.ret]
  | none =>
    simp only [Run.andThen_snd, Run.andThen_fst]
    generalize listStart env args (past ++ [Call.GetShardController args.ClusterID]) = st
    rcases st with ⟨t1, err | ⟨shard, marker⟩⟩
    · simp [Run.ret]
    · simp only [Run.andThen_snd]
      have hl := listManyShardsLoop_returns env h args rank hprogress hrank fuel shard
        shard.Range (int64 args.Count) ⟨[], marker⟩
        (past ++ [Call.GetShardController args.ClusterID] ++ t1)
        (le_trans (Nat.add_le_add_left (hbound _) _) hfuel)
      generalize listManyShardsLoop env h args fuel shard shard.Range (int64 args.Count)
        ⟨[], marker⟩ (past ++ [Call.GetShardController args.ClusterID] ++ t1) = lp at hl
      rcases lp with ⟨t2, _ | (err | ⟨allBlob, lastRange⟩)⟩
      · exact absurd rfl hl
      · simp [Run.ret]
      · simp [Run.ret]

end Stream

namespace Raft

/-! ## The snapshot recorder: `Set` and `Get` -/

theorem sampleFull_run :
    recorderRun (newSnapshotRecorder 2 10)
      [.Set (sampleSnap "a") 0 0, .Set (sampleSnap "b") 1 1] = some sampleFull := by
  decide

theorem sampleFull_tracked : Tracked sampleFull :=
  ⟨by decide, by decide, by decide, by decide⟩

theorem mapGet_cons (m : List (String × Nat)) (k k' : String) (v : Nat) :
    mapGet ((k, v) :: m) k' = if k' = k then some v else mapGet m k' := by
  unfold mapGet
  by_cases h : k' = k
  · subst h; simp
  · have : ¬ k = k' := fun e => h e.symm
    simp [List.find?_cons, h, this]

theorem mapGet_mapDelete (m : List (String × Nat)) (k k' : String) :
    mapGet (mapDelete m k) k' = if k' = k then none else mapGet m k' := by
  unfold mapGet mapDelete
  by_cases h : k' = k
  · subst h
    simp [List.find?_filter]
  · simp only [if_neg h, List.find?_filter]
    congr 2
    funext a
    by_cases h1 : a.1 = k'
    · have : ¬ a.1 = k := fun e => h (h1 ▸ e)
      simp [h1, this, h]
    · simp [h1]

/-- The cells of a tracked recorder are distinct. -/
theorem Tracked.list_handles {s : snapshotRecorder} (h : Tracked s) :
    (s.evictList.map (fun e => e.handle)).Nodup := by
  have h1 : (s.evictList.map Element.entry).map Prod.snd = s.evictList.map (fun e => e.handle) := by
    simp [Element.entry, Function.comp_def]
  rw [← h1]
  exact (h.cells.map Prod.snd).nodup_iff.2 h.handles

/-- Removing the front cell of a tracked recorder leaves the rest of the list. -/
theorem Tracked.remove_head {s : snapshotRecorder} (h : Tracked s) {e : Element}
    {rest : List Element} (hl : s.evictList = e :: rest) :
    listRemove s.evictList e.handle = rest ∧ e ∉ rest := by
  have hnd := h.list_handles
  rw [hl] at hnd ⊢
  simp only [List.map_cons, List.nodup_cons] at hnd
  have hrest : ∀ x ∈ rest, x.handle ≠ e.handle := fun x hx e1 =>
    hnd.1 (List.mem_map.2 ⟨x, hx, e1⟩)
  refine ⟨?_, fun he => hrest e he rfl⟩
  unfold listRemove
  rw [List.filter_cons_of_neg (by simp), List.filter_eq_self]
  intro x hx
  simpa using hrest x hx

/-- C21. A tracked recorder that holds at least `maxSnapshot` entries, the oldest
being `e` at the front of the eviction list.  When `e` has not expired (the
clock reads less than its expiry time), `Set` returns
`ErrSnapshotTemporarilyUnavailable` and the recorder is as before.  When `e` has
expired and the id set is not tracked, `Set` succeeds: the eviction list is the
rest of the list (without `e`) followed by the new snapshot with expiry time
`now + timeout`, and the map binds the new id, no longer binds the id of `e`,
and binds every other id as before. -/
theorem Set_at_capacity (s : snapshotRecorder) (st : outgoingSnapshot) (since now : Int)
    (e : Element) (rest : List Element) (ht : Tracked s) (hlist : s.evictList = e :: rest)
    (hfull : s.maxSnapshot ≤ (s.evictList.length : Int)) :
    (since < e.Value.expire →
      s.Set st since now = some (s, some RecorderError.ErrSnapshotTemporarilyUnavailable)) ∧
    (e.Value.expire ≤ since → mapGet s.snaps st.id = none →
      ∃ r, s.Set st since now = some (r, none) ∧
        r.evictList = rest ++ [⟨s.nextHandle, { st with expire := now + s.timeout }⟩] ∧
        e ∉ rest ∧
        (∀ k, mapGet r.snaps k =
          if k = st.id then some s.nextHandle
          else if k = e.Value.id then none else mapGet s.snaps k) ∧
        r.maxSnapshot = s.maxSnapshot ∧ r.timeout = s.timeout) := by
  have hhead : s.evictList.head? = some e := by rw [hlist]; rfl
  constructor
  · intro hexp
    unfold snapshotRecorder.Set
    rw [if_pos hfull]
    simp only [hhead]
    rw [if_pos (by omega)]
  · intro hexp hnew
    have hrem := ht.remove_head hlist
    have hnew' : mapGet (mapDelete s.snaps e.Value.id) st.id = none := by
      rw [mapGet_mapDelete, hnew]; simp
    refine ⟨{ s with
        evictList := rest ++ [⟨s.nextHandle, { st with expire := now + s.timeout }⟩]
        snaps := (st.id, s.nextHandle) :: mapDelete s.snaps e.Value.id
        nextHandle := s.nextHandle + 1 }, ?_, rfl, hrem.2, ?_, rfl, rfl⟩
    · unfold snapshotRecorder.Set
      rw [if_pos hfull]
      simp only [hhead]
      rw [if_neg (by omega)]
      unfold SetInsert
      simp only [hnew', hrem.1, mapSet, mapDelete_of_not_mem (mapGet_none hnew')]
    · intro k
      simp only [mapGet_cons, mapGet_mapDelete]

/-- C21 on the sample recorder of capacity two that tracks `a` (expiry 10) and
`b`: a `Set` of `c` at time 5 is refused, a `Set` of `c` at time 20 evicts `a`. -/
theorem Set_at_capacity_witness :
    Tracked sampleFull ∧
      sampleFull.Set (sampleSnap "c") 5 5 =
        some (sampleFull, some RecorderError.ErrSnapshotTemporarilyUnavailable) ∧
      ∃ r, sampleFull.Set (sampleSnap "c") 20 20 = some (r, none) ∧
        r.evictList = [⟨1, ⟨"b", 0, [], 11⟩⟩, ⟨2, ⟨"c", 0, [], 30⟩⟩] :=
  ⟨sampleFull_tracked,
    (Set_at_capacity sampleFull (sampleSnap "c") 5 5 ⟨0, ⟨"a", 0, [], 10⟩⟩
      [⟨1, ⟨"b", 0, [], 11⟩⟩] sampleFull_tracked rfl (by decide)).1 (by decide),
    match (Set_at_capacity sampleFull (sampleSnap "c") 20 20 ⟨0, ⟨"a", 0, [], 10⟩⟩
      [⟨1, ⟨"b", 0, [], 11⟩⟩] sampleFull_tracked rfl (by decide)).2 (by decide) rfl with
    | ⟨r, hr, hl, _⟩ => ⟨r, hr, hl⟩⟩

/-- C22 as stated fails on the sample recorder of capacity two that tracks `a`
(expired at time 20) and `b`.  A `Set` of another snapshot with id `b` at time
20 returns the error, but `a` has been evicted first: the ids tracked are no
longer those from before.  A `Set` of another snapshot with id `a` at time 20
returns no error and binds `a` to the new snapshot. -/
theorem Set_duplicate_counterexample :
    sampleFull.ids = ["b", "a"] ∧
      sampleFull.Set (sampleSnap "b") 20 20 =
        some (⟨2, 10, [⟨1, ⟨"b", 0, [], 11⟩⟩], [("b", 1)], 2⟩,
          some (RecorderError.exist "b")) ∧
      snapshotRecorder.ids ⟨2, 10, [⟨1, ⟨"b", 0, [], 11⟩⟩], [("b", 1)], 2⟩ = ["b"] ∧
      sampleFull.bound "a" = some ⟨"a", 0, [], 10⟩ ∧
      sampleFull.Set ⟨"a", 7, [], 0⟩ 20 20 =
        some (⟨2, 10, [⟨1, ⟨"b", 0, [], 11⟩⟩, ⟨2, ⟨"a", 7, [], 30⟩⟩],
          [("a", 2), ("b", 1)], 3⟩, none) ∧
      snapshotRecorder.bound
        ⟨2, 10, [⟨1, ⟨"b", 0, [], 11⟩⟩, ⟨2, ⟨"a", 7, [], 30⟩⟩], [("a", 2), ("b", 1)], 3⟩ "a" =
        some ⟨"a", 7, [], 30⟩ := by
  decide

theorem listFind_cons_ne (e : Element) (l : List Element) (v : Nat) (h : e.handle ≠ v) :
    listFind (e :: l) v = listFind l v := by
  unfold listFind
  rw [List.find?_cons_of_neg]
  simpa using h

theorem listFind_append_fresh (l : List Element) (e : Element)
    (h : ∀ x ∈ l, x.handle ≠ e.handle) : listFind (l ++ [e]) e.handle = some e := by
  unfold listFind
  rw [List.find?_append]
  have : l.find? (fun x => decide (x.handle = e.handle)) = none := by
    rw [List.find?_eq_none]
    intro x hx
    simpa using h x hx
  rw [this]
  simp

/-- The cells of a tracked recorder carry numbers below `nextHandle`. -/
theorem Tracked.list_fresh {s : snapshotRecorder} (h : Tracked s) :
    ∀ x ∈ s.evictList, x.handle < s.nextHandle := by
  intro x hx
  exact h.fresh x.entry (h.cells.subset (List.mem_map_of_mem _ hx))

/-- C22, amended. A `Set` of a snapshot whose id a tracked recorder tracks.  Below
capacity it returns the `exist` error and the recorder is as before.  At
capacity with an oldest entry that has not expired it returns
`ErrSnapshotTemporarilyUnavailable` and the recorder is as before.  At capacity
with an expired oldest entry `e` of another id it returns the `exist` error
after evicting `e`: the list is its tail, the map has lost the id of `e` only,
and the id set is bound to the same snapshot as before.  At capacity with an
expired oldest entry of the very id it returns no error and binds the id to the
snapshot set. -/
theorem Set_duplicate (s : snapshotRecorder) (st : outgoingSnapshot) (since now : Int)
    (v : Nat) (ht : Tracked s) (hdup : mapGet s.snaps st.id = some v) :
    ((s.evictList.length : Int) < s.maxSnapshot →
      s.Set st since now = some (s, some (RecorderError.exist st.id))) ∧
    (∀ e, s.maxSnapshot ≤ (s.evictList.length : Int) → s.evictList.head? = some e →
      (since < e.Value.expire →
        s.Set st since now =
          some (s, some RecorderError.ErrSnapshotTemporarilyUnavailable)) ∧
      (e.Value.expire ≤ since → st.id ≠ e.Value.id →
        ∃ r, s.Set st since now = some (r, some (RecorderError.exist st.id)) ∧
          r.evictList = s.evictList.tail ∧
          (∀ k, mapGet r.snaps k = if k = e.Value.id then none else mapGet s.snaps k) ∧
          r.bound st.id = s.bound st.id) ∧
      (e.Value.expire ≤ since → st.id = e.Value.id →
        ∃ r, s.Set st since now = some (r, none) ∧
          r.bound st.id = some { st with expire := now + s.timeout })) := by
  constructor
  · intro hlt
    unfold snapshotRecorder.Set
    rw [if_neg (by omega)]
    unfold SetInsert
    simp only [hdup]
  · intro e hfull hhead
    obtain ⟨rest, hlist⟩ : ∃ rest, s.evictList = e :: rest := by
      cases hl : s.evictList with
      | nil => rw [hl] at hhead; cases hhead
      | cons x rest =>
        rw [hl] at hhead
        simp only [List.head?_cons, Option.some.injEq] at hhead
        exact ⟨rest, by rw [hhead]⟩
    have hrem := ht.remove_head hlist
    refine ⟨fun hexp => ?_, fun hexp hne => ?_, fun hexp heq => ?_⟩
    · unfold snapshotRecorder.Set
      rw [if_pos hfull]
      simp only [hhead]
      rw [if_pos (by omega)]
    · have hget : mapGet (mapDelete s.snaps e.Value.id) st.id = some v := by
        rw [mapGet_mapDelete, if_neg hne, hdup]
      refine ⟨{ s with evictList := rest, snaps := mapDelete s.snaps e.Value.id },
        ?_, by rw [hlist]; rfl, fun k => mapGet_mapDelete _ _ _, ?_⟩
      · unfold snapshotRecorder.Set
        rw [if_pos hfull]
        simp only [hhead]
        rw [if_neg (by omega)]
        unfold SetInsert
        simp only [hget, hrem.1]
      · unfold snapshotRecorder.bound
        simp only [hget, hdup, Option.some_bind, hlist]
        have hev : e.handle ≠ v := by
          intro e1
          have he : e.entry ∈ s.snaps := ht.head_mem hhead
          have := (ht.entry_iff he (mapGet_some hdup)).2 (by simp [Element.entry, e1])
          exact hne this
        rw [listFind_cons_ne e rest v hev]
    · have hget : mapGet (mapDelete s.snaps e.Value.id) st.id = none := by
        rw [mapGet_mapDelete, if_pos heq]
      refine ⟨{ s with
          evictList := rest ++ [⟨s.nextHandle, { st with expire := now + s.timeout }⟩]
          snaps := (st.id, s.nextHandle) :: mapDelete s.snaps e.Value.id
          nextHandle := s.nextHandle + 1 }, ?_, ?_⟩
      · unfold snapshotRecorder.Set
        rw [if_pos hfull]
        simp only [hhead]
        rw [if_neg (by omega)]
        unfold SetInsert
        simp only [hget, hrem.1, mapSet, mapDelete_of_not_mem (mapGet_none hget)]
      · unfold snapshotRecorder.bound
        simp only [mapGet_cons, if_true, Option.some_bind]
        have hfresh : ∀ x ∈ rest, x.handle ≠
            (⟨s.nextHandle, { st with expire := now + s.timeout }⟩ : Element).handle := by
          intro x hx
          have := ht.list_fresh x (by rw [hlist]; exact List.mem_cons_of_mem _ hx)
          simp only
          omega
        have := listFind_append_fresh rest
          ⟨s.nextHandle, { st with expire := now + s.timeout }⟩ hfresh
        simp only at this
        rw [this]
        rfl

/-- C22, amended, on the sample recorder: below capacity is not its case; at
time 5 a `Set` of `b` is refused untouched, at time 20 it is refused after the
eviction of `a`, with `b` bound as before. -/
theorem Set_duplicate_witness :
    Tracked sampleFull ∧ mapGet sampleFull.snaps (sampleSnap "b").id = some 1 ∧
      sampleFull.Set (sampleSnap "b") 5 5 =
        some (sampleFull, some RecorderError.ErrSnapshotTemporarilyUnavailable) ∧
      ∃ r, sampleFull.Set (sampleSnap "b") 20 20 = some (r, some (RecorderError.exist "b")) ∧
        r.bound "b" = sampleFull.bound "b" :=
  ⟨sampleFull_tracked, rfl,
    ((Set_duplicate sampleFull (sampleSnap "b") 5 5 1 sampleFull_tracked rfl).2
      ⟨0, ⟨"a", 0, [], 10⟩⟩ (by decide) rfl).1 (by decide),
    match ((Set_duplicate sampleFull (sampleSnap "b") 20 20 1 sampleFull_tracked rfl).2
      ⟨0, ⟨"a", 0, [], 10⟩⟩ (by decide) rfl).2.1 (by decide) (by decide) with
    | ⟨r, hr, _, _, hb⟩ => ⟨r, hr, hb⟩⟩

/-- A cell of a list of distinct cells splits the list; it is the cell found
under its number, and removing it leaves the two parts. -/
theorem listFind_split {l : List Element} (hnd : (l.map (fun e => e.handle)).Nodup)
    {e : Element} (he : e ∈ l) :
    ∃ l1 l2, l = l1 ++ e :: l2 ∧ listFind l e.handle = some e ∧
      listRemove l e.handle = l1 ++ l2 := by
  rcases List.append_of_mem he with ⟨l1, l2, hl⟩
  subst hl
  simp only [List.map_append, List.map_cons] at hnd
  have hnd' := List.nodup_append.1 hnd
  have h1 : ∀ x ∈ l1, x.handle ≠ e.handle := by
    intro x hx e1
    exact hnd'.2.2 (List.mem_map_of_mem _ hx) (by rw [e1]; exact List.mem_cons_self _ _)
  have h2 : ∀ x ∈ l2, x.handle ≠ e.handle := by
    intro x hx e1
    exact (List.nodup_cons.1 hnd'.2.1).1 (List.mem_map.2 ⟨x, hx, e1⟩)
  refine ⟨l1, l2, rfl, ?_, ?_⟩
  · unfold listFind
    rw [List.find?_append]
    have : l1.find? (fun x => decide (x.handle = e.handle)) = none := by
      rw [List.find?_eq_none]
      intro x hx
      simpa using h1 x hx
    rw [this]
    simp
  · unfold listRemove
    rw [List.filter_append, List.filter_cons_of_neg (by simp)]
    rw [List.filter_eq_self.2 (fun x hx => by simpa using h1 x hx),
      List.filter_eq_self.2 (fun x hx => by simpa using h2 x hx)]

/-- C24. On a tracked recorder `Get` of a tracked id finds the cell of the id in
the eviction list, returns its snapshot with the expiry time set to
`now + timeout`, and moves the cell with the refreshed snapshot to the back of
the list; the cells before and after it keep their order, and the map, so the
set of tracked ids, is as before.  `Get` of an id that is not tracked returns
nil and leaves the recorder as it is. -/
theorem Get_refreshes (s : snapshotRecorder) (key : String) (now : Int) (ht : Tracked s) :
    (∀ v, mapGet s.snaps key = some v →
      ∃ l1 l2 snap, s.evictList = l1 ++ ⟨v, snap⟩ :: l2 ∧ snap.id = key ∧
        s.bound key = some snap ∧
        s.Get key now =
          ({ s with evictList := l1 ++ l2 ++ [⟨v, { snap with expire := now + s.timeout }⟩] },
            some { snap with expire := now + s.timeout })) ∧
    (mapGet s.snaps key = none → s.Get key now = (s, none)) := by
  constructor
  · intro v hv
    have hp := mapGet_some hv
    obtain ⟨e, he, hentry⟩ : ∃ e ∈ s.evictList, e.entry = (key, v) := by
      have := ht.cells.symm.subset hp
      simpa using this
    have hid : e.Value.id = key := congrArg Prod.fst hentry
    have hh : e.handle = v := congrArg Prod.snd hentry
    rcases listFind_split ht.list_handles he with ⟨l1, l2, hl, hfind, hrem⟩
    rw [hh] at hfind hrem
    refine ⟨l1, l2, e.Value, ?_, hid, ?_, ?_⟩
    · rw [hl, ← hh]
    · unfold snapshotRecorder.bound
      simp only [hv, Option.some_bind, hfind, Option.map_some']
    · unfold snapshotRecorder.Get
      simp only [hv, hfind, hrem]
  · intro hnone
    unfold snapshotRecorder.Get
    simp only [hnone]

/-- C24 on the sample recorder that tracks `a` then `b`: `Get` of `a` at time 5
returns `a` with expiry time 15 and leaves `b` before `a`; `Get` of `c` returns
nil. -/
theorem Get_refreshes_witness :
    Tracked sampleFull ∧
      sampleFull.Get "a" 5 =
        ({ sampleFull with evictList := [⟨1, ⟨"b", 0, [], 11⟩⟩, ⟨0, ⟨"a", 0, [], 15⟩⟩] },
          some ⟨"a", 0, [], 15⟩) ∧
      sampleFull.Get "c" 5 = (sampleFull, none) :=
  ⟨sampleFull_tracked, by decide,
    (Get_refreshes sampleFull "c" 5 sampleFull_tracked).2 rfl⟩

/-- What a call can make of the eviction list: a sublist of it, or a sublist of
it followed by one snapshot with expiry time `now + timeout`. -/
theorem ordered_step {s r : snapshotRecorder} {t now : Int} (ho : s.ordered t) (ht : t ≤ now)
    (htime : r.timeout = s.timeout)
    (hshape : r.evictList.Sublist s.evictList ∨
      ∃ l0 x, l0.Sublist s.evictList ∧ x.Value.expire = now + s.timeout ∧
        r.evictList = l0 ++ [x]) :
    r.ordered now := by
  unfold snapshotRecorder.ordered at ho ⊢
  rw [htime]
  rcases hshape with hsub | ⟨l0, x, hsub, hx, hl⟩
  · refine ⟨ho.1.sublist hsub, fun e he => ?_⟩
    have := ho.2 e (hsub.subset he)
    omega
  · rw [hl]
    have hb : ∀ e ∈ l0, e.Value.expire ≤ now + s.timeout := by
      intro e he
      have := ho.2 e (hsub.subset he)
      omega
    refine ⟨?_, ?_⟩
    · rw [List.pairwise_append]
      refine ⟨ho.1.sublist hsub, List.pairwise_singleton _ _, ?_⟩
      intro a ha b hb'
      rw [List.mem_singleton.1 hb', hx]
      exact hb a ha
    · intro e he
      rcases List.mem_append.1 he with h1 | h1
      · exact hb e h1
      · rw [List.mem_singleton.1 h1, hx]

theorem SetInsert_shape (s : snapshotRecorder) (st : outgoingSnapshot) (now : Int) :
    (SetInsert s st now).1.timeout = s.timeout ∧
      ((SetInsert s st now).1.evictList = s.evictList ∨
        ∃ x, x.Value.expire = now + s.timeout ∧
          (SetInsert s st now).1.evictList = s.evictList ++ [x]) := by
  unfold SetInsert
  cases mapGet s.snaps st.id with
  | some v => exact ⟨rfl, Or.inl rfl⟩
  | none => exact ⟨rfl, Or.inr ⟨_, rfl, rfl⟩⟩

theorem Set_shape {s : snapshotRecorder} {st : outgoingSnapshot} {since now : Int}
    {r : snapshotRecorder × Option RecorderError} (hr : s.Set st since now = some r) :
    r.1.timeout = s.timeout ∧
      (r.1.evictList.Sublist s.evictList ∨
        ∃ l0 x, l0.Sublist s.evictList ∧ x.Value.expire = now + s.timeout ∧
          r.1.evictList = l0 ++ [x]) := by
  unfold snapshotRecorder.Set at hr
  split_ifs at hr with hfull
  · cases hh : s.evictList.head? with
    | none => simp [hh] at hr
    | some elem =>
      simp only [hh] at hr
      split_ifs at hr with hexp
      · rw [← Option.some.inj hr]
        exact ⟨rfl, Or.inl (List.Sublist.refl _)⟩
      · rw [← Option.some.inj hr]
        have h := SetInsert_shape
          { s with
            evictList := listRemove s.evictList elem.handle
            snaps := mapDelete s.snaps elem.Value.id } st now
        refine ⟨h.1, ?_⟩
        rcases h.2 with h2 | ⟨x, hx, h2⟩
        · left; rw [h2]; exact List.filter_sublist _
        · right; exact ⟨_, x, List.filter_sublist _, hx, h2⟩
  · rw [← Option.some.inj hr]
    have h := SetInsert_shape s st now
    refine ⟨h.1, ?_⟩
    rcases h.2 with h2 | ⟨x, hx, h2⟩
    · left; rw [h2]
    · right; exact ⟨_, x, List.Sublist.refl _, hx, h2⟩

theorem Get_shape (s : snapshotRecorder) (key : String) (now : Int) :
    (s.Get key now).1.timeout = s.timeout ∧
      ((s.Get key now).1.evictList.Sublist s.evictList ∨
        ∃ l0 x, l0.Sublist s.evictList ∧ x.Value.expire = now + s.timeout ∧
          (s.Get key now).1.evictList = l0 ++ [x]) := by
  unfold snapshotRecorder.Get
  cases mapGet s.snaps key with
  | none => exact ⟨rfl, Or.inl (List.Sublist.refl _)⟩
  | some v =>
    cases hf : listFind s.evictList v with
    | none => simp only [hf]; exact ⟨trivial, Or.inl (List.Sublist.refl _)⟩
    | some e =>
      simp only [hf]
      exact ⟨trivial, Or.inr ⟨_, _, List.filter_sublist _, rfl, rfl⟩⟩

theorem Delete_shape (s : snapshotRecorder) (key : String) :
    (s.Delete key).timeout = s.timeout ∧ (s.Delete key).evictList.Sublist s.evictList := by
  unfold snapshotRecorder.Delete
  cases mapGet s.snaps key with
  | none => exact ⟨rfl, List.Sublist.refl _⟩
  | some v => exact ⟨rfl, List.filter_sublist _⟩

theorem Close_shape (s : snapshotRecorder) :
    s.Close.timeout = s.timeout ∧ s.Close.evictList.Sublist s.evictList := by
  unfold snapshotRecorder.Close
  generalize s.snaps = l
  induction l generalizing s with
  | nil => exact ⟨rfl, List.Sublist.refl _⟩
  | cons p l ih =>
    simp only [List.foldl_cons]
    have := ih { s with snaps := mapDelete s.snaps p.1, evictList := listRemove s.evictList p.2 }
    exact ⟨this.1, this.2.trans (List.filter_sublist _)⟩

/-- A sequence of calls keeps a tracked recorder tracked. -/
theorem recorderRun_tracked (calls : List RecorderCall) :
    ∀ s r : snapshotRecorder, Tracked s → recorderRun s calls = some r → Tracked r := by
  induction calls with
  | nil =>
    intro s r h hr
    simp only [recorderRun, Option.some.injEq] at hr
    rw [← hr]; exact h
  | cons c cs ih =>
    intro s r h hr
    simp only [recorderRun] at hr
    cases hs : recorderStep s c with
    | none => simp [hs] at hr
    | some s1 =>
      simp only [hs, Option.some_bind] at hr
      refine ih s1 r ?_ hr
      cases c with
      | Pop => simp only [recorderStep, Option.some.injEq] at hs; rw [← hs]; exact h
      | Get key now =>
        simp only [recorderStep, Option.some.injEq] at hs; rw [← hs]; exact (h.Get key now).1
      | Delete key =>
        simp only [recorderStep, Option.some.injEq] at hs; rw [← hs]; exact (h.Delete key).1
      | Close => simp only [recorderStep, Option.some.injEq] at hs; rw [← hs]; exact h.Close.1
      | Set st since now =>
        simp only [recorderStep] at hs
        cases hset : s.Set st since now with
        | none => simp [hset] at hs
        | some p =>
          simp only [hset, Option.map_some', Option.some.injEq] at hs
          rw [← hs]
          exact h.Set st since now hset

/-- With clock readings that never decrease, a sequence of calls keeps the
eviction list in order of expiry time. -/
theorem recorderRun_ordered (calls : List RecorderCall) :
    ∀ (s r : snapshotRecorder) (t : Int), s.ordered t →
      (t :: clockReadings calls).Pairwise (· ≤ ·) → recorderRun s calls = some r →
      ∃ t', r.ordered t' := by
  induction calls with
  | nil =>
    intro s r t ho _ hr
    simp only [recorderRun, Option.some.injEq] at hr
    exact ⟨t, hr ▸ ho⟩
  | cons c cs ih =>
    intro s r t ho hclock hr
    simp only [recorderRun] at hr
    cases hs : recorderStep s c with
    | none => simp [hs] at hr
    | some s1 =>
      simp only [hs, Option.some_bind] at hr
      have hcl : clockReadings (c :: cs) = c.readings ++ clockReadings cs := by
        simp [clockReadings]
      rw [hcl] at hclock
      cases c with
      | Pop =>
        simp only [recorderStep, Option.some.injEq] at hs
        exact ih s1 r t (hs ▸ ho) (by simpa [RecorderCall.readings] using hclock) hr
      | Delete key =>
        simp only [recorderStep, Option.some.injEq] at hs
        have hd := Delete_shape s key
        rw [hs] at hd
        exact ih s1 r t (ordered_step ho (le_refl _) hd.1 (Or.inl hd.2))
          (by simpa [RecorderCall.readings] using hclock) hr
      | Close =>
        simp only [recorderStep, Option.some.injEq] at hs
        have hd := Close_shape s
        rw [hs] at hd
        exact ih s1 r t (ordered_step ho (le_refl _) hd.1 (Or.inl hd.2))
          (by simpa [RecorderCall.readings] using hclock) hr
      | Get key now =>
        simp only [recorderStep, Option.some.injEq] at hs
        have hd := Get_shape s key now
        rw [hs] at hd
        simp only [RecorderCall.readings, List.singleton_append, List.pairwise_cons] at hclock
        have htn : t ≤ now := hclock.1 now (List.mem_cons_self _ _)
        exact ih s1 r now (ordered_step ho htn hd.1 hd.2)
          (List.pairwise_cons.2 ⟨hclock.2.1, hclock.2.2⟩) hr
      | Set st since now =>
        simp only [recorderStep] at hs
        cases hset : s.Set st since now with
        | none => simp [hset] at hs
        | some p =>
          simp only [hset, Option.map_some', Option.some.injEq] at hs
          have hd := Set_shape hset
          rw [hs] at hd
          simp only [RecorderCall.readings, List.cons_append, List.nil_append,
            List.pairwise_cons] at hclock
          have htn : t ≤ now := hclock.1 now (by simp)
          exact ih s1 r now (ordered_step ho htn hd.1 hd.2)
            (List.pairwise_cons.2 ⟨hclock.2.2.1, hclock.2.2.2⟩) hr

/-- A `Set` of an id that is not tracked on a full tracked recorder whose oldest
entry has expired succeeds and evicts that entry. -/
theorem Tracked.Set_evicts {s : snapshotRecorder} (ht : Tracked s) (st : outgoingSnapshot)
    (since now : Int) {e : Element} (hhead : s.evictList.head? = some e)
    (hfull : s.maxSnapshot ≤ (s.evictList.length : Int)) (hexp : e.Value.expire ≤ since)
    (hnew : mapGet s.snaps st.id = none) :
    ∃ r, s.Set st since now = some (r, none) ∧ e ∉ r.evictList ∧
      r.evictList = s.evictList.tail ++
        [⟨s.nextHandle, { st with expire := now + s.timeout }⟩] := by
  obtain ⟨rest, hlist⟩ : ∃ rest, s.evictList = e :: rest := by
    cases hl : s.evictList with
    | nil => rw [hl] at hhead; cases hhead
    | cons x rest =>
      rw [hl] at hhead
      simp only [List.head?_cons, Option.some.injEq] at hhead
      exact ⟨rest, by rw [hhead]⟩
  have hrem := ht.remove_head hlist
  have hnew' : mapGet (mapDelete s.snaps e.Value.id) st.id = none := by
    rw [mapGet_mapDelete, hnew]; simp
  refine ⟨{ s with
      evictList := rest ++ [⟨s.nextHandle, { st with expire := now + s.timeout }⟩]
      snaps := (st.id, s.nextHandle) :: mapDelete s.snaps e.Value.id
      nextHandle := s.nextHandle + 1 }, ?_, ?_, by rw [hlist]; rfl⟩
  · unfold snapshotRecorder.Set
    rw [if_pos hfull]
    simp only [hhead]
    rw [if_neg (by omega)]
    unfold Raft.SetInsert
    simp only [hnew', hrem.1, mapSet, mapDelete_of_not_mem (mapGet_none hnew')]
  · intro hmem
    rcases List.mem_append.1 hmem with h1 | h1
    · exact hrem.2 h1
    · have hlt := ht.list_fresh e (by rw [hlist]; exact List.mem_cons_self _ _)
      have := congrArg Element.handle (List.mem_singleton.1 h1)
      simp only at this
      omega

/-- C23. After any sequence of calls with clock readings that never decrease on
a recorder made by `newSnapshotRecorder`, the eviction list is in order of
non-decreasing expiry time.  So when the recorder is at capacity and some
tracked entry has expired at the time the clock reads, the oldest entry has
expired too, and a `Set` of an id that is not tracked succeeds (it does not fail
with `ErrSnapshotTemporarilyUnavailable`) and evicts that expired oldest
entry. -/
theorem recorder_ttl (maxSnapshot timeout : Int) (calls : List RecorderCall)
    (s : snapshotRecorder) (hclock : (clockReadings calls).Pairwise (· ≤ ·))
    (hrun : recorderRun (newSnapshotRecorder maxSnapshot timeout) calls = some s) :
    s.evictList.Pairwise (fun a b => a.Value.expire ≤ b.Value.expire) ∧
      ∀ (st : outgoingSnapshot) (since now : Int),
        s.maxSnapshot ≤ (s.evictList.length : Int) →
        (∃ x ∈ s.evictList, x.Value.expire ≤ since) →
        mapGet s.snaps st.id = none →
        ∃ e r, s.evictList.head? = some e ∧ e.Value.expire ≤ since ∧
          s.Set st since now = some (r, none) ∧ e ∉ r.evictList ∧
          r.evictList = s.evictList.tail ++
            [⟨s.nextHandle, { st with expire := now + s.timeout }⟩] := by
  have ht : Tracked s :=
    recorderRun_tracked calls _ s (Tracked_new maxSnapshot timeout) hrun
  have hord : s.evictList.Pairwise (fun a b => a.Value.expire ≤ b.Value.expire) := by
    cases hc : clockReadings calls with
    | nil =>
      have := recorderRun_ordered calls (newSnapshotRecorder maxSnapshot timeout) s 0
        ⟨List.Pairwise.nil, fun e he => by cases he⟩ (by rw [hc]; simp) hrun
      exact this.choose_spec.1
    | cons t0 ts =>
      have := recorderRun_ordered calls (newSnapshotRecorder maxSnapshot timeout) s t0
        ⟨List.Pairwise.nil, fun e he => by cases he⟩
        (by
          rw [hc] at hclock ⊢
          exact List.pairwise_cons.2
            ⟨fun a ha => by
              rcases List.mem_cons.1 ha with h | h
              · rw [h]
              · exact (List.pairwise_cons.1 hclock).1 a h, hclock⟩) hrun
      exact this.choose_spec.1
  refine ⟨hord, ?_⟩
  intro st since now hfull hex hnew
  rcases hex with ⟨x, hx, hxe⟩
  cases hl : s.evictList with
  | nil => rw [hl] at hx; cases hx
  | cons e rest =>
    have hhead : s.evictList.head? = some e := by rw [hl]; rfl
    have hle : e.Value.expire ≤ since := by
      rw [hl] at hx hord
      rcases List.mem_cons.1 hx with h | h
      · rw [← h]; exact hxe
      · exact le_trans ((List.pairwise_cons.1 hord).1 x h) hxe
    rcases ht.Set_evicts st since now hhead hfull hle hnew with ⟨r, hr, hne, hrl⟩
    refine ⟨e, r, rfl, hle, hr, hne, ?_⟩
    rw [hrl, hl]

/-- C23 on the new recorder of capacity two: after `Set a` at time 0 and `Set b`
at time 1 the list is in order of expiry time and `a` has expired at time 20,
so a `Set` of `c` at time 20 evicts `a`. -/
theorem recorder_ttl_witness :
    (clockReadings [.Set (sampleSnap "a") 0 0, .Set (sampleSnap "b") 1 1]).Pairwise (· ≤ ·) ∧
      recorderRun (newSnapshotRecorder 2 10)
        [.Set (sampleSnap "a") 0 0, .Set (sampleSnap "b") 1 1] = some sampleFull ∧
      sampleFull.evictList.Pairwise (fun a b => a.Value.expire ≤ b.Value.expire) ∧
      ∃ e r, sampleFull.evictList.head? = some e ∧ e.Value.expire ≤ 20 ∧
        sampleFull.Set (sampleSnap "c") 20 20 = some (r, none) ∧ e ∉ r.evictList :=
  ⟨by decide, sampleFull_run,
    (recorder_ttl 2 10 [.Set (sampleSnap "a") 0 0, .Set (sampleSnap "b") 1 1] sampleFull
      (by decide) sampleFull_run).1,
    match (recorder_ttl 2 10 [.Set (sampleSnap "a") 0 0, .Set (sampleSnap "b") 1 1]
      sampleFull (by decide) sampleFull_run).2 (sampleSnap "c") 20 20 (by decide)
      ⟨⟨0, ⟨"a", 0, [], 10⟩⟩, by decide, by decide⟩ rfl with
    | ⟨e, r, h1, h2, h3, h4, _⟩ => ⟨e, r, h1, h2, h3, h4⟩⟩

end Raft

namespace Transport

/-! ## The frame allocator -/

/-- One smearing step doubles the window of bits gathered in each bit. -/
theorem testBit_smear_step (v x w : Nat)
    (h : ∀ j, x.testBit j = true ↔ ∃ i, j ≤ i ∧ i < j + w ∧ v.testBit i = true) :
    ∀ j, (x ||| (x >>> w)).testBit j = true ↔
      ∃ i, j ≤ i ∧ i < j + 2 * w ∧ v.testBit i = true := by
  intro j
  rw [Nat.testBit_or, Nat.testBit_shiftRight, Bool.or_eq_true, h, h]
  constructor
  · rintro (⟨i, h1, h2, h3⟩ | ⟨i, h1, h2, h3⟩)
    · exact ⟨i, h1, by omega, h3⟩
    · exact ⟨i, by omega, by omega, h3⟩
  · rintro ⟨i, h1, h2, h3⟩
    by_cases hi : i < j + w
    · exact Or.inl ⟨i, h1, hi, h3⟩
    · exact Or.inr ⟨i, by omega, by omega, h3⟩

/-- The top bit of a number between two powers of two. -/
theorem testBit_top {k v : Nat} (h1 : 2 ^ k ≤ v) (h2 : v < 2 ^ (k + 1)) :
    v.testBit k = true ∧ ∀ i, k < i → v.testBit i = false := by
  have hhigh : ∀ i, k < i → v.testBit i = false := by
    intro i hi
    apply Nat.testBit_lt_two_pow
    exact lt_of_lt_of_le h2 (Nat.pow_le_pow_right (by decide) hi)
  refine ⟨?_, hhigh⟩
  rcases Nat.ge_two_pow_implies_high_bit_true h1 with ⟨i, hi, ht⟩
  rcases Nat.eq_or_lt_of_le hi with e | hlt
  · rw [e]; exact ht
  · rw [hhigh i hlt] at ht; cases ht

/-- Smearing a 32-bit number with top bit `k` sets the bits 0 to `k`. -/
theorem smear_eq {k v : Nat} (hk : k < 32) (h1 : 2 ^ k ≤ v) (h2 : v < 2 ^ (k + 1))
    (v1 v2 v3 v4 v5 : Nat) (e1 : v1 = v ||| (v >>> 1)) (e2 : v2 = v1 ||| (v1 >>> 2))
    (e3 : v3 = v2 ||| (v2 >>> 4)) (e4 : v4 = v3 ||| (v3 >>> 8))
    (e5 : v5 = v4 ||| (v4 >>> 16)) : v5 = 2 ^ (k + 1) - 1 := by
  subst e1 e2 e3 e4 e5
  have h0 : ∀ j, v.testBit j = true ↔ ∃ i, j ≤ i ∧ i < j + 1 ∧ v.testBit i = true := by
    intro j
    constructor
    · intro h; exact ⟨j, le_refl _, by omega, h⟩
    · rintro ⟨i, h1, h2, h3⟩
      have : i = j := by omega
      rw [← this]; exact h3
  have s1 := testBit_smear_step v v 1 h0
  have s2 := testBit_smear_step v _ 2 s1
  have s3 := testBit_smear_step v _ 4 s2
  have s4 := testBit_smear_step v _ 8 s3
  have s5 := testBit_smear_step v _ 16 s4
  have htop := testBit_top h1 h2
  apply Nat.eq_of_testBit_eq
  intro j
  rw [Nat.testBit_two_pow_sub_one]
  by_cases hj : j < k + 1
  · rw [decide_eq_true hj]
    exact (s5 j).2 ⟨k, by omega, by omega, htop.1⟩
  · rw [decide_eq_false hj]
    rw [Bool.eq_false_iff]
    intro hb
    rcases (s5 j).1 hb with ⟨i, hi1, _, hi3⟩
    rw [htop.2 i (by omega)] at hi3
    cases hi3

theorem debruijin_table :
    ∀ k < 32, debruijinPos.getD ((((2 ^ (k + 1) - 1) * 0x07C4ACDD) % 2 ^ 32) >>> 27) 0 = k := by
  decide

/-- Function `msb` gives the position of the top bit: on a number from `2 ^ k` up
to below `2 ^ (k + 1)`, with `k < 32`, it returns `k`. -/
theorem msb_eq {k : Nat} {n : Nat} (hk : k < 32) (h1 : 2 ^ k ≤ n) (h2 : n < 2 ^ (k + 1)) :
    msb (n : Int) = k := by
  have hn : n < 2 ^ 32 := lt_of_lt_of_le h2 (Nat.pow_le_pow_right (by decide) hk)
  have hu : uint32 (n : Int) = n := by
    unfold uint32
    have : ((n : Int) % 2 ^ 32) = (n : Int) := Int.emod_eq_of_lt (by omega) (by exact_mod_cast hn)
    rw [this]; simp
  unfold msb
  simp only [hu]
  rw [smear_eq hk h1 h2 _ _ _ _ _ rfl rfl rfl rfl rfl]
  exact debruijin_table k hk

/-- On a size from 1 to `2 ^ 24`, `msb` is the floor of the binary logarithm. -/
theorem msb_log {n : Nat} (h1 : 1 ≤ n) (h2 : n ≤ 2 ^ 24) :
    msb (n : Int) = Nat.log 2 n ∧ Nat.log 2 n ≤ 24 ∧ 2 ^ Nat.log 2 n ≤ n ∧
      n < 2 ^ (Nat.log 2 n + 1) := by
  have hlo : 2 ^ Nat.log 2 n ≤ n := Nat.pow_log_le_self 2 (by omega)
  have hhi : n < 2 ^ (Nat.log 2 n + 1) := Nat.lt_pow_succ_log_self (by decide) n
  have hk : Nat.log 2 n ≤ 24 := by
    by_contra hc
    have : 2 ^ 25 ≤ 2 ^ Nat.log 2 n := Nat.pow_le_pow_right (by decide) (by omega)
    have h25 : (2 : Nat) ^ 24 < 2 ^ 25 := by decide
    omega
  exact ⟨msb_eq (by omega) hlo hhi, hk, hlo, hhi⟩

/-- The pool index of `Alloc` on a size from 1 to `2 ^ 24` is the ceiling of the
binary logarithm: the least `k` with `size <= 2 ^ k`; it is at most 24, and
`2 ^ k` is less than twice the size. -/
theorem allocIndex_clog {n : Nat} (h1 : 1 ≤ n) (h2 : n ≤ 2 ^ 24) :
    allocIndex (n : Int) = Nat.clog 2 n ∧ Nat.clog 2 n ≤ 24 ∧ n ≤ 2 ^ Nat.clog 2 n ∧
      (∀ j, n ≤ 2 ^ j → Nat.clog 2 n ≤ j) ∧ 2 ^ Nat.clog 2 n < 2 * n := by
  rcases msb_log h1 h2 with ⟨hm, hk, hlo, hhi⟩
  have key : ∀ i, n ≤ 2 ^ i → (∀ j, n ≤ 2 ^ j → i ≤ j) → i = Nat.clog 2 n := by
    intro i hi hmin
    apply le_antisymm
    · exact hmin _ (Nat.le_pow_clog (by decide) n)
    · exact (Nat.le_pow_iff_clog_le (by decide)).1 hi
  have hpow : (2 : Nat) ^ (Nat.log 2 n + 1) = 2 * 2 ^ Nat.log 2 n := by
    rw [pow_succ]; ring
  unfold allocIndex
  rw [hm]
  by_cases he : n = 2 ^ Nat.log 2 n
  · have hc : Nat.log 2 n = Nat.clog 2 n := by
      apply key
      · exact le_of_eq he
      · intro j hj
        rw [he] at hj
        exact (Nat.pow_le_pow_iff_right (by decide)).1 hj
    have hcast : ((n : Int) = 2 ^ Nat.log 2 n) := by exact_mod_cast he
    rw [if_pos hcast, ← hc]
    refine ⟨rfl, hk, le_of_eq he, ?_, by omega⟩
    intro j hj
    rw [he] at hj
    exact (Nat.pow_le_pow_iff_right (by decide)).1 hj
  · have hlt : 2 ^ Nat.log 2 n < n := lt_of_le_of_ne hlo (Ne.symm he)
    have hmin : ∀ j, n ≤ 2 ^ j → Nat.log 2 n + 1 ≤ j := by
      intro j hj
      have : 2 ^ Nat.log 2 n < 2 ^ j := lt_of_lt_of_le hlt hj
      exact (Nat.pow_lt_pow_iff_right (by decide)).1 this
    have hc : Nat.log 2 n + 1 = Nat.clog 2 n := key _ (le_of_lt hhi) hmin
    have hcast : ¬ ((n : Int) = 2 ^ Nat.log 2 n) := by
      intro e; exact he (by exact_mod_cast e)
    rw [if_neg hcast, ← hc]
    refine ⟨rfl, hmin 24 h2, le_of_lt hhi, hmin, by omega⟩

/-- Pool method `Get` on a pool that makes and holds slices of one capacity
gives a slice of that capacity and leaves such a pool. -/
theorem Pool.Get_cap {p : Pool} {c : Nat} (hnew : p.New.cap = c)
    (hitems : ∀ b ∈ p.items, b.cap = c) (pick : Option Nat) :
    (p.Get pick).1.cap = c ∧ (p.Get pick).2.New.cap = c ∧
      ∀ b ∈ (p.Get pick).2.items, b.cap = c := by
  unfold Pool.Get
  cases pick with
  | none => exact ⟨hnew, hnew, hitems⟩
  | some i =>
    cases hi : p.items[i]? with
    | none => simp only [hi]; exact ⟨hnew, hnew, hitems⟩
    | some b =>
      simp only [hi]
      refine ⟨hitems b (List.getElem?_mem hi), hnew, fun x hx => ?_⟩
      exact hitems x ((List.eraseIdx_sublist _ _).subset hx)

theorem wellFormed_get {alloc : allocator} (hw : alloc.wellFormed) {k : Nat} (hk : k ≤ 24) :
    ∃ pool, alloc.buffers[k]? = some pool ∧ pool.New.cap = 2 ^ k ∧
      ∀ b ∈ pool.items, b.cap = 2 ^ k := by
  have hlt : k < alloc.buffers.length := by rw [hw.1]; omega
  refine ⟨alloc.buffers[k], List.getElem?_eq_getElem hlt, ?_⟩
  exact hw.2 k _ (List.getElem?_eq_getElem hlt)

/-- Replacing pool `k` by a pool that makes and holds slices of capacity `2 ^ k`
keeps the allocator well formed. -/
theorem wellFormed_set {alloc : allocator} (hw : alloc.wellFormed) (k : Nat) (pool : Pool)
    (hnew : pool.New.cap = 2 ^ k) (hitems : ∀ b ∈ pool.items, b.cap = 2 ^ k) :
    allocator.wellFormed ⟨alloc.buffers.set k pool⟩ := by
  refine ⟨by simp [hw.1], ?_⟩
  intro j p hj
  simp only [List.getElem?_set] at hj
  by_cases hjk : k = j
  · subst hjk
    simp only [if_true] at hj
    split_ifs at hj with hlen
    · simp only [Option.some.injEq] at hj
      subst hj
      exact ⟨hnew, hitems⟩
  · rw [if_neg hjk] at hj
    exact hw.2 j p hj

theorem NewAllocator_wellFormed : NewAllocator.wellFormed := by
  refine ⟨by simp [NewAllocator], ?_⟩
  intro k pool hk
  simp only [NewAllocator, List.getElem?_map, Option.map_eq_some'] at hk
  rcases hk with ⟨a, ha, rfl⟩
  have hka : a = k := by
    rcases List.getElem?_eq_some_iff.1 ha with ⟨_, h⟩
    simpa using h.symm
  subst hka
  exact ⟨rfl, fun b hb => by cases hb⟩

/-- What `Alloc` does on a size from 1 to `2 ^ 24`: it takes a slice from the
pool of index the ceiling of the binary logarithm and returns it cut to the
size. -/
theorem Alloc_ok {alloc : allocator} (hw : alloc.wellFormed) (pick : Option Nat)
    {size : Int} (h1 : 1 ≤ size) (h2 : size ≤ 2 ^ 24) :
    ∃ pool, alloc.buffers[Nat.clog 2 size.toNat]? = some pool ∧
      (pool.Get pick).1.cap = 2 ^ Nat.clog 2 size.toNat ∧
      alloc.Alloc pick size =
        .returned (⟨alloc.buffers.set (Nat.clog 2 size.toNat) (pool.Get pick).2⟩,
          some ⟨0, some ⟨size.toNat, 2 ^ Nat.clog 2 size.toNat⟩, true⟩, none) ∧
      allocator.wellFormed ⟨alloc.buffers.set (Nat.clog 2 size.toNat) (pool.Get pick).2⟩ := by
  obtain ⟨n, rfl⟩ : ∃ n : Nat, size = n := ⟨size.toNat, by omega⟩
  have hn1 : 1 ≤ n := by omega
  have hn2 : n ≤ 2 ^ 24 := by exact_mod_cast h2
  rcases allocIndex_clog hn1 hn2 with ⟨hidx, hk, hle, _, _⟩
  rcases wellFormed_get hw hk with ⟨pool, hp, hnew, hitems⟩
  have hget := Pool.Get_cap hnew hitems pick
  simp only [Int.toNat_ofNat]
  refine ⟨pool, hp, hget.1, ?_, wellFormed_set hw _ _ hget.2.1 hget.2.2⟩
  unfold allocator.Alloc
  have hno : ¬ ((n : Int) ≤ 0 ∨ (n : Int) > maxsize) := by
    have : maxsize = 2 ^ 24 := rfl
    rw [this]
    push_cast
    omega
  rw [if_neg hno, hidx]
  simp only [hp, hget.1]
  have hfit : (n : Int) ≤ ((2 ^ Nat.clog 2 n : Nat) : Int) := by exact_mod_cast hle
  rw [if_pos hfit]
  simp

/-- C25. On a well-formed allocator (pool `k` makes and holds slices of capacity
`2 ^ k`; the allocator of `NewAllocator` is one, and `Alloc` and `Free` keep it
so) and a size from 1 to `2 ^ 24`, `Alloc` returns without error a slice of
length `size` taken from the pool of index `k = ceil(log2 size)`, of capacity
`2 ^ k`, which is the least power of two not below the size and is less than
twice the size. -/
theorem Alloc_size_class (alloc : allocator) (pick : Option Nat) (size : Int)
    (hw : alloc.wellFormed) (h1 : 1 ≤ size) (h2 : size ≤ 2 ^ 24) :
    ∃ pool, alloc.buffers[Nat.clog 2 size.toNat]? = some pool ∧
      (pool.Get pick).1.cap = 2 ^ Nat.clog 2 size.toNat ∧
      alloc.Alloc pick size =
        .returned (⟨alloc.buffers.set (Nat.clog 2 size.toNat) (pool.Get pick).2⟩,
          some ⟨0, some ⟨size.toNat, 2 ^ Nat.clog 2 size.toNat⟩, true⟩, none) ∧
      (size.toNat : Int) = size ∧
      size.toNat ≤ 2 ^ Nat.clog 2 size.toNat ∧
      (∀ j, size.toNat ≤ 2 ^ j → Nat.clog 2 size.toNat ≤ j) ∧
      2 ^ Nat.clog 2 size.toNat < 2 * size.toNat := by
  rcases Alloc_ok hw pick h1 h2 with ⟨pool, hp, hcap, hret, _⟩
  have hn1 : 1 ≤ size.toNat := by omega
  have hn2 : size.toNat ≤ 2 ^ 24 := by
    have : ((size.toNat : Nat) : Int) ≤ 2 ^ 24 := by rw [Int.toNat_of_nonneg (by omega)]; exact h2
    exact_mod_cast this
  rcases allocIndex_clog hn1 hn2 with ⟨_, _, hle, hmin, hlt⟩
  exact ⟨pool, hp, hcap, hret, Int.toNat_of_nonneg (by omega), hle, hmin, hlt⟩

/-- C25 on the new allocator: a size of 5 gives a slice of length 5 and capacity
8 from pool 3, a size of `2 ^ 24` one of capacity `2 ^ 24` from pool 24. -/
theorem Alloc_size_class_witness :
    NewAllocator.wellFormed ∧ (1 : Int) ≤ 5 ∧ (5 : Int) ≤ 2 ^ 24 ∧
      Nat.clog 2 5 = 3 ∧
      (∃ pool, NewAllocator.buffers[Nat.clog 2 (5 : Int).toNat]? = some pool ∧
        NewAllocator.Alloc none 5 =
          .returned (⟨NewAllocator.buffers.set (Nat.clog 2 (5 : Int).toNat) (pool.Get none).2⟩,
            some ⟨0, some ⟨(5 : Int).toNat, 2 ^ Nat.clog 2 (5 : Int).toNat⟩, true⟩, none)) ∧
      NewAllocator.Alloc none 5 =
        .returned (NewAllocator, some ⟨0, some ⟨5, 8⟩, true⟩, none) :=
  ⟨NewAllocator_wellFormed, by decide, by decide,
    le_antisymm ((Nat.le_pow_iff_clog_le (by decide)).1 (by decide))
      ((Nat.pow_lt_iff_lt_clog (by decide)).1 (by decide)),
    match Alloc_size_class NewAllocator none 5 NewAllocator_wellFormed (by decide)
      (by decide) with
    | ⟨pool, hp, _, hret, _⟩ => ⟨pool, hp, hret⟩,
    by decide⟩

/-- C26. On a well-formed allocator `Alloc` returns nil and `ErrAllocOversize`
exactly when the size is not positive or exceeds `2 ^ 24`; for every other size
it returns a buffer and no error, its pool index is below 25, and the allocator
stays well formed; it never panics (no index out of range, no slice bound out of
range). -/
theorem Alloc_bounds (alloc : allocator) (pick : Option Nat) (size : Int)
    (hw : alloc.wellFormed) :
    ((∃ a, alloc.Alloc pick size = .returned (a, none, some AllocError.ErrAllocOversize)) ↔
      size ≤ 0 ∨ size > 2 ^ 24) ∧
    (¬ (size ≤ 0 ∨ size > 2 ^ 24) →
      ∃ a ab, alloc.Alloc pick size = .returned (a, some ab, none) ∧
        allocIndex size < 25 ∧ a.wellFormed) ∧
    alloc.Alloc pick size ≠ .panicked := by
  have hmax : (maxsize : Int) = 2 ^ 24 := by decide
  by_cases hbad : size ≤ 0 ∨ size > 2 ^ 24
  · have hret : alloc.Alloc pick size =
        .returned (alloc, none, some AllocError.ErrAllocOversize) := by
      unfold allocator.Alloc
      rw [hmax, if_pos hbad]
    refine ⟨⟨fun _ => hbad, fun _ => ⟨alloc, hret⟩⟩, fun h => absurd hbad h, ?_⟩
    rw [hret]
    intro h; cases h
  · have h1 : 1 ≤ size := by omega
    have h2 : size ≤ 2 ^ 24 := by omega
    rcases Alloc_ok hw pick h1 h2 with ⟨pool, _, _, hret, hwf⟩
    have hn1 : 1 ≤ size.toNat := by omega
    have hn2 : size.toNat ≤ 2 ^ 24 := by
      have : ((size.toNat : Nat) : Int) ≤ 2 ^ 24 := by
        rw [Int.toNat_of_nonneg (by omega)]; exact h2
      exact_mod_cast this
    have hidx := allocIndex_clog hn1 hn2
    rw [Int.toNat_of_nonneg (by omega)] at hidx
    refine ⟨⟨fun h => ?_, fun h => absurd h hbad⟩, fun _ => ⟨_, _, hret, ?_, hwf⟩, ?_⟩
    · rcases h with ⟨a, ha⟩
      rw [hret] at ha
      cases ha
    · rw [hidx.1]; exact Nat.lt_succ_of_le hidx.2.1
    · rw [hret]
      intro h; cases h

/-- C26 on the new allocator: sizes 0 and `2 ^ 24 + 1` are refused, size
`2 ^ 24` is served from pool 24. -/
theorem Alloc_bounds_witness :
    NewAllocator.wellFormed ∧
      NewAllocator.Alloc none 0 =
        .returned (NewAllocator, none, some AllocError.ErrAllocOversize) ∧
      NewAllocator.Alloc none 16777217 =
        .returned (NewAllocator, none, some AllocError.ErrAllocOversize) ∧
      NewAllocator.Alloc none 16777216 =
        .returned (NewAllocator, some ⟨0, some ⟨16777216, 16777216⟩, true⟩, none) ∧
      NewAllocator.Alloc none 16777216 ≠ .panicked :=
  ⟨NewAllocator_wellFormed, by decide, by decide, by decide,
    (Alloc_bounds NewAllocator none 16777216 NewAllocator_wellFormed).2.2⟩

/-- What `Free` does with a slice of capacity `2 ^ n` at most `2 ^ 24`: it puts
it into pool `n`. -/
theorem Free_ok {alloc : allocator} (hw : alloc.wellFormed) (buf : Buffer) {n : Nat}
    (hcap : buf.cap = 2 ^ n) (hle : buf.cap ≤ 2 ^ 24) :
    ∃ pool, alloc.buffers[n]? = some pool ∧
      alloc.Free buf = .returned (⟨alloc.buffers.set n (pool.Put buf)⟩, none) ∧
      allocator.wellFormed ⟨alloc.buffers.set n (pool.Put buf)⟩ := by
  have hpos : 1 ≤ buf.cap := by rw [hcap]; exact Nat.one_le_two_pow
  have hm : msb (buf.cap : Int) = n := by
    apply msb_eq _ (le_of_eq hcap.symm)
    · rw [hcap]; exact Nat.pow_lt_pow_right (by decide) (Nat.lt_succ_self n)
    · have : 2 ^ n ≤ 2 ^ 24 := hcap ▸ hle
      have := (Nat.pow_le_pow_iff_right (by decide)).1 this
      omega
  have hn : n ≤ 24 := by
    have : 2 ^ n ≤ 2 ^ 24 := hcap ▸ hle
    exact (Nat.pow_le_pow_iff_right (by decide)).1 this
  rcases wellFormed_get hw hn with ⟨pool, hp, hnew, hitems⟩
  refine ⟨pool, hp, ?_, wellFormed_set hw n _ hnew ?_⟩
  · unfold allocator.Free
    have hno : ¬ (buf.cap = 0 ∨ buf.cap > maxsize ∨ buf.cap ≠ 2 ^ msb (buf.cap : Int)) := by
      rw [hm]
      have : maxsize = 2 ^ 24 := rfl
      rw [this]
      omega
    rw [if_neg hno, hm]
    simp only [hp]
  · intro b hb
    simp only [Pool.Put, List.mem_cons] at hb
    rcases hb with e | hb
    · rw [e]; exact hcap
    · exact hitems b hb

/-- C27. On a well-formed allocator `Free` returns `ErrAllocOversize` exactly when
the capacity of the slice is 0, exceeds `2 ^ 24`, or is not a power of two;
otherwise, the capacity being `2 ^ n`, it puts the slice into pool `n`.  So the
buffer that `Alloc` returned for a size from 1 to `2 ^ 24` is freed without
error, into the pool of index `ceil(log2 size)` that it was taken from. -/
theorem Free_bucket (alloc : allocator) (buf : Buffer) (hw : alloc.wellFormed) :
    ((∃ a, alloc.Free buf = .returned (a, some AllocError.ErrAllocOversize)) ↔
      buf.cap = 0 ∨ buf.cap > 2 ^ 24 ∨ ¬ ∃ n, buf.cap = 2 ^ n) ∧
    (∀ n, buf.cap = 2 ^ n → buf.cap ≤ 2 ^ 24 →
      ∃ pool, alloc.buffers[n]? = some pool ∧
        alloc.Free buf = .returned (⟨alloc.buffers.set n (pool.Put buf)⟩, none)) ∧
    (∀ (pick : Option Nat) (size : Int) (a : allocator) (ab : assignedBuffer),
      1 ≤ size → size ≤ 2 ^ 24 → alloc.Alloc pick size = .returned (a, some ab, none) →
      ∃ pool b, a.buffers[Nat.clog 2 size.toNat]? = some pool ∧ ab.buffer = some b ∧
        ab.Free a =
          .returned ({ ab with alloc := false, buffer := none },
            ⟨a.buffers.set (Nat.clog 2 size.toNat) (pool.Put b)⟩, none)) := by
  refine ⟨?_, fun n hcap hle => ?_, ?_⟩
  · by_cases hbad : buf.cap = 0 ∨ buf.cap > 2 ^ 24 ∨ ¬ ∃ n, buf.cap = 2 ^ n
    · refine ⟨fun _ => hbad, fun _ => ⟨alloc, ?_⟩⟩
      unfold allocator.Free
      have hyes : buf.cap = 0 ∨ buf.cap > maxsize ∨ buf.cap ≠ 2 ^ msb (buf.cap : Int) := by
        rcases hbad with h | h | h
        · exact Or.inl h
        · exact Or.inr (Or.inl h)
        · exact Or.inr (Or.inr (fun e => h ⟨_, e⟩))
      rw [if_pos hyes]
    · refine ⟨fun h => ?_, fun h => absurd h hbad⟩
      have hpow : ∃ n, buf.cap = 2 ^ n := by
        by_contra hc; exact hbad (Or.inr (Or.inr hc))
      rcases hpow with ⟨n, hn⟩
      have hle : buf.cap ≤ 2 ^ 24 := by
        by_contra hc; exact hbad (Or.inr (Or.inl (by omega)))
      rcases Free_ok hw buf hn hle with ⟨pool, _, hret, _⟩
      rcases h with ⟨a, ha⟩
      rw [hret] at ha
      cases ha
  · rcases Free_ok hw buf hcap hle with ⟨pool, hp, hret, _⟩
    exact ⟨pool, hp, hret⟩
  · intro pick size a ab h1 h2 hret
    rcases Alloc_ok hw pick h1 h2 with ⟨pool, _, _, hret', hwf⟩
    rw [hret'] at hret
    simp only [Outcome.returned.injEq, Prod.mk.injEq, Option.some.injEq, and_true] at hret
    rcases hret with ⟨ha, hab⟩
    subst ha
    subst hab
    have hcl : (2 : Nat) ^ Nat.clog 2 size.toNat ≤ 2 ^ 24 := by
      have hn1 : 1 ≤ size.toNat := by omega
      have hn2 : size.toNat ≤ 2 ^ 24 := by
        have : ((size.toNat : Nat) : Int) ≤ 2 ^ 24 := by
          rw [Int.toNat_of_nonneg (by omega)]; exact h2
        exact_mod_cast this
      exact Nat.pow_le_pow_right (by decide) (allocIndex_clog hn1 hn2).2.1
    rcases Free_ok hwf ⟨size.toNat, 2 ^ Nat.clog 2 size.toNat⟩ rfl hcl with
      ⟨pool', hp', hfree, _⟩
    refine ⟨pool', _, hp', rfl, ?_⟩
    unfold assignedBuffer.Free
    simp only [Bool.true_eq_false, if_false, Option.getD_some, hfree]

/-- C27 on the new allocator: the buffer allocated for size 5 (capacity 8, from
pool 3) is freed into pool 3; a slice of capacity 6 and the nil slice are
refused. -/
theorem Free_bucket_witness :
    NewAllocator.wellFormed ∧
      NewAllocator.Free ⟨0, 6⟩ = .returned (NewAllocator, some AllocError.ErrAllocOversize) ∧
      NewAllocator.Free ⟨0, 0⟩ = .returned (NewAllocator, some AllocError.ErrAllocOversize) ∧
      (∃ pool, NewAllocator.buffers[3]? = some pool ∧
        NewAllocator.Free ⟨5, 8⟩ =
          .returned (⟨NewAllocator.buffers.set 3 (pool.Put ⟨5, 8⟩)⟩, none)) ∧
      assignedBuffer.Free ⟨0, some ⟨5, 8⟩, true⟩ NewAllocator =
        .returned (⟨0, none, false⟩,
          ⟨NewAllocator.buffers.set 3 ⟨⟨8, 8⟩, [⟨5, 8⟩]⟩⟩, none) :=
  ⟨NewAllocator_wellFormed, by decide, by decide,
    (Free_bucket NewAllocator ⟨5, 8⟩ NewAllocator_wellFormed).2.1 3 rfl (by decide),
    by decide⟩

end Transport

namespace Iterator

/-! ## The paging helpers -/

variable {σ τ I O E : Type}

/-- The events of a run of `Merged`: one full round per merged page, then the
failing call of iterate if it failed. -/
theorem Merged_paging (iterate : Iterate I O E) (inp : IterIn σ I O) (out : IterOut τ O)
    (fuel : Nat) :
    ∀ (s : σ) (t : τ) (page : O) (s' : σ) (t' : τ) (r : Option E) (log : List Event),
      Merged iterate inp out fuel s t page = some (s', t', r, log) →
      ∃ pages, Paging iterate inp out s t page pages s' t' r ∧
        log = (pages.flatMap (fun _ => roundEvents)) ++
          (if r.isSome = true then [Event.iterate] else []) := by
  induction fuel with
  | zero => intro s t page s' t' r log h; cases h
  | succ fuel ih =>
    intro s t page s' t' r log h
    simp only [Merged] at h
    cases herr : (iterate (inp.Input s) page).2 with
    | some err =>
      simp only [herr, Option.some.injEq, Prod.mk.injEq] at h
      rcases h with ⟨rfl, rfl, rfl, rfl⟩
      exact ⟨[], Paging.fail herr, by simp⟩
    | none =>
      simp only [herr] at h
      by_cases hd : out.Done (out.Merge t (iterate (inp.Input s) page).1) = true
      · simp only [hd, if_true, Option.some.injEq, Prod.mk.injEq] at h
        rcases h with ⟨rfl, rfl, rfl, rfl⟩
        exact ⟨[_], Paging.last herr hd, by simp⟩
      · simp only [hd, if_false] at h
        cases hrec : Merged iterate inp out fuel (inp.Update s (iterate (inp.Input s) page).1)
            (out.Merge t (iterate (inp.Input s) page).1) (iterate (inp.Input s) page).1 with
        | none => simp [hrec] at h
        | some q =>
          rcases q with ⟨s1, t1, r1, log1⟩
          simp only [hrec, Option.map_some', Option.some.injEq, Prod.mk.injEq] at h
          rcases h with ⟨rfl, rfl, rfl, rfl⟩
          rcases ih _ _ _ _ _ _ _ hrec with ⟨pages, hp, hlog⟩
          refine ⟨_ :: pages, Paging.more herr (by simpa using hd) hp, ?_⟩
          rw [hlog]
          simp

/-- What a run of `Merged` leaves: the input updated by every page and the
output merged with every page, in order; the output is done at the end of a run
without error and after no page before; an error is that of iterate on the
input at the end and the last page. -/
theorem Paging.facts {iterate : Iterate I O E} {inp : IterIn σ I O} {out : IterOut τ O}
    {s : σ} {t : τ} {page : O} {pages : List O} {s' : σ} {t' : τ} {r : Option E}
    (h : Paging iterate inp out s t page pages s' t' r) :
    s' = pages.foldl inp.Update s ∧ t' = pages.foldl out.Merge t ∧
      (r = none → out.Done t' = true ∧ pages ≠ []) ∧
      (∀ k, 0 < k → (k < pages.length ∨ (k = pages.length ∧ r ≠ none)) →
        out.Done ((pages.take k).foldl out.Merge t) = false) ∧
      (∀ err, r = some err →
        (iterate (inp.Input s') ((page :: pages).getLast (List.cons_ne_nil _ _))).2 =
          some err) := by
  induction h with
  | fail herr =>
    refine ⟨rfl, rfl, fun e => (by cases e), fun k hk hlt => ?_, fun err e => ?_⟩
    · simp only [List.length_nil] at hlt
      omega
    · simp only [Option.some.injEq] at e
      rw [← e]; exact herr
  | last hok hdone =>
    refine ⟨rfl, rfl, fun _ => ⟨hdone, by simp⟩, fun k hk hlt => ?_, fun err e => (by cases e)⟩
    simp only [List.length_singleton] at hlt
    rcases hlt with h1 | ⟨_, h2⟩
    · omega
    · exact absurd rfl h2
  | @more s t page pages s' t' r hok hdone rest ih =>
    rcases ih with ⟨h1, h2, h3, h4, h5⟩
    refine ⟨by rw [h1]; rfl, by rw [h2]; rfl, fun e => ⟨(h3 e).1, by simp⟩,
      fun k hk hlt => ?_, fun err e => ?_⟩
    · cases k with
      | zero => omega
      | succ k =>
        simp only [List.take_succ_cons, List.foldl_cons]
        cases k with
        | zero => simpa using hdone
        | succ k =>
          apply h4 (k + 1) (Nat.succ_pos _)
          simp only [List.length_cons] at hlt
          rcases hlt with h | ⟨h, hr⟩
          · exact Or.inl (by omega)
          · exact Or.inr ⟨by omega, hr⟩
    · have := h5 err e
      rw [List.getLast_cons (List.cons_ne_nil _ _)]
      exact this

/-- Function `Merged` returns what a finite run gives, when the fuel covers its
rounds. -/
theorem Merged_of_paging {iterate : Iterate I O E} {inp : IterIn σ I O} {out : IterOut τ O}
    {s : σ} {t : τ} {page : O} {pages : List O} {s' : σ} {t' : τ} {r : Option E}
    (h : Paging iterate inp out s t page pages s' t' r) :
    ∀ fuel, pages.length + 1 ≤ fuel →
      ∃ log, Merged iterate inp out fuel s t page = some (s', t', r, log) := by
  induction h with
  | fail herr =>
    intro fuel hf
    obtain ⟨n, rfl⟩ : ∃ n, fuel = n + 1 := ⟨fuel - 1, by omega⟩
    exact ⟨_, by simp only [Merged, herr]; rfl⟩
  | last hok hdone =>
    intro fuel hf
    obtain ⟨n, rfl⟩ : ∃ n, fuel = n + 1 := ⟨fuel - 1, by omega⟩
    exact ⟨_, by simp only [Merged, hok, hdone, if_true]; rfl⟩
  | more hok hdone rest ih =>
    intro fuel hf
    obtain ⟨n, rfl⟩ : ∃ n, fuel = n + 1 := ⟨fuel - 1, by omega⟩
    simp only [List.length_cons] at hf
    rcases ih n (by omega) with ⟨log, hlog⟩
    exact ⟨_, by
      simp only [Merged, hok, hdone, hlog, Bool.false_eq_true, if_false, Option.map_some']
      rfl⟩

/-- C28. A run of `Merged` that returns is a run in the sense of `Paging`: it
calls iterate on the current input and, after each page produced without
error, first updates the input from the page and then merges the page into the
output.  The states it leaves are the input updated by, and the output merged
with, every page in order; the output was done after no page but the last; a
return without error leaves the output done; a return with an error gives the
error of iterate on the input left and the last page, which is neither used to
update nor merged; and the events are one round of iterate, Update, Merge, Done
per page, then the failing iterate. -/
theorem Merged_runs_until_done (iterate : Iterate I O E) (inp : IterIn σ I O)
    (out : IterOut τ O) (fuel : Nat) (s : σ) (t : τ) (page : O) (s' : σ) (t' : τ)
    (r : Option E) (log : List Event)
    (hret : Merged iterate inp out fuel s t page = some (s', t', r, log)) :
    ∃ pages, Paging iterate inp out s t page pages s' t' r ∧
      s' = pages.foldl inp.Update s ∧ t' = pages.foldl out.Merge t ∧
      (r = none → out.Done t' = true ∧ pages ≠ []) ∧
      (∀ k, 0 < k → (k < pages.length ∨ (k = pages.length ∧ r ≠ none)) →
        out.Done ((pages.take k).foldl out.Merge t) = false) ∧
      (∀ err, r = some err →
        (iterate (inp.Input s') ((page :: pages).getLast (List.cons_ne_nil _ _))).2 =
          some err) ∧
      log = (pages.flatMap (fun _ => roundEvents)) ++
        (if r.isSome = true then [Event.iterate] else []) := by
  rcases Merged_paging iterate inp out fuel s t page s' t' r log hret with ⟨pages, hp, hlog⟩
  rcases hp.facts with ⟨h1, h2, h3, h4, h5⟩
  exact ⟨pages, hp, h1, h2, h3, h4, h5, hlog⟩

/-- C28 on the paginator of the test: over 1 to 101 in pages of 10, `Merged`
returns nil after 11 rounds and the output holds the numbers 1 to 101, 101 in
all; with the failing function it returns the error at once and leaves the
states as they were. -/
theorem Merged_runs_until_done_witness :
    Merged testNext testIterIn testIterOut 11 ⟨0⟩ ⟨[], 0⟩ ⟨[], 0⟩ =
        some (⟨-1⟩, ⟨oneTo101, -1⟩, none, (List.replicate 11 roundEvents).flatten) ∧
      oneTo101.length = 101 ∧
      Merged testNextErr testIterIn testIterOut 11 ⟨-1⟩ ⟨oneTo101, -1⟩ ⟨[], 0⟩ =
        some (⟨-1⟩, ⟨oneTo101, -1⟩, some "next error", [Event.iterate]) ∧
      ∃ pages : List testOut, (⟨oneTo101, -1⟩ : testOut) = pages.foldl testIterOut.Merge ⟨[], 0⟩ ∧
        (⟨-1⟩ : testIn) = pages.foldl testIterIn.Update ⟨0⟩ ∧
        testIterOut.Done ⟨oneTo101, -1⟩ = true :=
  ⟨by decide, by decide, by decide,
    match Merged_runs_until_done testNext testIterIn testIterOut 11 ⟨0⟩ ⟨[], 0⟩ ⟨[], 0⟩
      ⟨-1⟩ ⟨oneTo101, -1⟩ none (List.replicate 11 roundEvents).flatten (by decide) with
    | ⟨pages, _, h1, h2, h3, _⟩ => ⟨pages, h2, h1, (h3 rfl).1⟩⟩

/-- An iterator that keeps an error returns it at once and makes no call. -/
theorem Next_of_err (iterate : Iterate I O E) (inp : IterIn σ I O) (out : IterOut τ O)
    (i : iterator σ τ E) (err : E) (h : i.err = some err) :
    Next iterate inp out i = (i, (some err, true), []) := by
  unfold Next
  simp only [h]

/-- C29. Once `Next` has returned an error, the iterator keeps it: the flag
returned with it is true, and every later call of `Next`, however many, returns
the same error with the flag true, leaves the iterator as it is, and makes no
call at all, so none of iterate and none of Update. -/
theorem Next_sticky (iterate : Iterate I O E) (inp : IterIn σ I O) (out : IterOut τ O)
    (i : iterator σ τ E) (err : E) (h : (Next iterate inp out i).2.1.1 = some err) :
    (Next iterate inp out i).2.1 = (some err, true) ∧
      (Next iterate inp out i).1.err = some err ∧
      ∀ n, Next iterate inp out
          ((fun x => (Next iterate inp out x).1)^[n] (Next iterate inp out i).1) =
        ((Next iterate inp out i).1, (some err, true), []) := by
  have hkeep : (Next iterate inp out i).2.1 = (some err, true) ∧
      (Next iterate inp out i).1.err = some err := by
    unfold Next at h ⊢
    cases he : i.err with
    | some e0 =>
      simp only [he] at h ⊢
      simp only [Option.some.injEq] at h
      subst h
      exact ⟨rfl, rfl⟩
    | none =>
      simp only [he] at h ⊢
      by_cases hd : out.Done i.out = true
      · simp [hd] at h
      · have hd' : out.Done i.out = false := by simpa using hd
        simp only [hd', Bool.false_eq_true, if_false] at h ⊢
        cases hr : (iterate (inp.Input i.inp) (out.Output i.out)).2 with
        | none => simp [hr] at h
        | some e1 =>
          simp only [hr, Option.some.injEq] at h
          subst h
          simp only [hr]
          exact ⟨trivial, trivial⟩
  refine ⟨hkeep.1, hkeep.2, fun n => ?_⟩
  have hfix : ∀ n, (fun x => (Next iterate inp out x).1)^[n] (Next iterate inp out i).1 =
      (Next iterate inp out i).1 := by
    intro n
    induction n with
    | zero => rfl
    | succ n ih =>
      rw [Function.iterate_succ_apply', ih, Next_of_err iterate inp out _ err hkeep.2]
  rw [hfix n]
  exact Next_of_err iterate inp out _ err hkeep.2

/-- C29 on the test's failing function: the first `Next` returns the error after
asking Done and calling iterate, the second and the third return it with no
call. -/
theorem Next_sticky_witness :
    (Next testNextErr testIterIn testIterOut (New ⟨0⟩ ⟨[], 0⟩)).2 =
        ((some "next error", true), [Event.Done, Event.iterate]) ∧
      (Next testNextErr testIterIn testIterOut
        (Next testNextErr testIterIn testIterOut (New ⟨0⟩ ⟨[], 0⟩)).1).2 =
        ((some "next error", true), []) ∧
      (Next testNextErr testIterIn testIterOut
        ((fun x => (Next testNextErr testIterIn testIterOut x).1)^[2]
          (Next testNextErr testIterIn testIterOut (New ⟨0⟩ ⟨[], 0⟩)).1)).2 =
        ((some "next error", true), []) :=
  ⟨rfl, rfl,
    congrArg Prod.snd ((Next_sticky testNextErr testIterIn testIterOut (New ⟨0⟩ ⟨[], 0⟩)
      "next error" rfl).2.2 2)⟩

end Iterator

namespace ShardNode

/-- Without the disk `executeShardTask` returns the error of `getDisk`. -/
theorem executeShardTask_no_disk (env : Env) (s : service) (task : ShardTask) (syncRun : Bool)
    (hdisk : s.disks task.DiskID = none) :
    executeShardTask env s task syncRun = ⟨s, some Error.diskNotFound, [], false⟩ := by
  simp only [executeShardTask, hdisk]

/-- Without the shard `executeShardTask` returns the error of `GetShardNoRWCheck`. -/
theorem executeShardTask_no_shard (env : Env) (s : service) (task : ShardTask) (syncRun : Bool)
    (disk : Disk) (hdisk : s.disks task.DiskID = some disk) (hshard : disk task.Suid = none) :
    executeShardTask env s task syncRun = ⟨s, some Error.shardNotFound, [], false⟩ := by
  simp only [executeShardTask, hdisk, hshard]

/-- With the disk and the shard, synchronous execution runs the function of the
task. -/
theorem executeShardTask_sync (env : Env) (s : service) (task : ShardTask)
    (disk : Disk) (cur : Nat) (hdisk : s.disks task.DiskID = some disk)
    (hshard : disk task.Suid = some cur) :
    executeShardTask env s task true =
      match taskFunc env s task disk cur with
      | none => ⟨s, none, [], false⟩
      | some r => r := by
  simp only [executeShardTask, hdisk, hshard, if_true]

/-- The sample storage layer does what its methods are named for. -/
theorem sampleEnv_lawful : sampleEnv.Lawful := by
  refine ⟨fun d suid v k => ?_, fun d suid v k => ?_, fun d suid k => Or.inl rfl⟩
  · by_cases h : k = suid
    · exact Or.inr ⟨h, by simp [sampleEnv, h]⟩
    · exact Or.inl (by simp [sampleEnv, h])
  · by_cases h : k = suid
    · exact Or.inr ⟨h, by simp [sampleEnv, h]⟩
    · exact Or.inl (by simp [sampleEnv, h])

/-- Replacing a disk by one whose every shard was a shard of the old disk, of a
route version not above, leaves every shard of the service one it had before, of
a route version not above. -/
theorem setDisk_from (s : service) (diskID : Nat) (disk d' : Disk)
    (hdisk : s.disks diskID = some disk)
    (hle : ∀ k v', d' k = some v' → ∃ v, disk k = some v ∧ v ≤ v') :
    ∀ d dk' k v', (s.setDisk diskID d').disks d = some dk' → dk' k = some v' →
      ∃ dk v, s.disks d = some dk ∧ dk k = some v ∧ v ≤ v' := by
  intro d dk' k v' hd' hk'
  simp only [service.setDisk] at hd'
  by_cases hdd : d = diskID
  · subst hdd
    simp only [if_true, Option.some.injEq] at hd'
    subst hd'
    obtain ⟨v, hv, hvv⟩ := hle k v' hk'
    exact ⟨disk, v, hdisk, hv, hvv⟩
  · rw [if_neg hdd] at hd'
    exact ⟨dk', v', hd', hk', le_refl _⟩

/-- A service left as it was has the shards it had. -/
theorem same_from (s : service) :
    ∀ d dk' k v', s.disks d = some dk' → dk' k = some v' →
      ∃ dk v, s.disks d = some dk ∧ dk k = some v ∧ v ≤ v' :=
  fun _ dk' _ v' hd' hk' => ⟨dk', v', hd', hk', le_refl _⟩

/-- One task: with a storage layer that does what its methods are named for,
every shard of the service afterwards is a shard it had before, of a route
version not above. -/
theorem executeShardTask_from (env : Env) (hlaw : env.Lawful) (s : service) (task : ShardTask)
    (syncRun : Bool) :
    ∀ d dk' k v', (executeShardTask env s task syncRun).svc.disks d = some dk' →
      dk' k = some v' → ∃ dk v, s.disks d = some dk ∧ dk k = some v ∧ v ≤ v' := by
  cases hdisk : s.disks task.DiskID with
  | none =>
    rw [executeShardTask_no_disk env s task syncRun hdisk]
    exact same_from s
  | some disk =>
    cases hshard : disk task.Suid with
    | none =>
      rw [executeShardTask_no_shard env s task syncRun disk hdisk hshard]
      exact same_from s
    | some cur =>
      cases syncRun with
      | false =>
        have h : (executeShardTask env s task false).svc = s := by
          simp only [executeShardTask, hdisk, hshard]
          cases taskFunc env s task disk cur <;> simp
        rw [h]
        exact same_from s
      | true =>
        rw [executeShardTask_sync env s task disk cur hdisk hshard]
        unfold taskFunc
        cases ht : task.TaskType <;> simp only [ht]
        · by_cases he : cur = task.RouteVersion
          · simp only [he, if_true]
            apply setDisk_from s task.DiskID disk _ hdisk
            intro k v' hk'
            rcases hlaw.delete disk task.Suid task.RouteVersion k with h | ⟨_, h⟩
            · rw [h] at hk'
              exact ⟨v', hk', le_refl _⟩
            · rw [h] at hk'; cases hk'
          · simp only [he, if_false]
            exact same_from s
        · by_cases he : cur < task.RouteVersion
          · simp only [he, if_true]
            apply setDisk_from s task.DiskID disk _ hdisk
            intro k v' hk'
            rcases hlaw.update disk task.Suid task.RouteVersion k with h | ⟨hks, h⟩
            · rw [h] at hk'
              exact ⟨v', hk', le_refl _⟩
            · rw [h] at hk'
              simp only [Option.some.injEq] at hk'
              exact ⟨cur, by rw [hks, hshard], by omega⟩
          · simp only [he, if_false]
            exact same_from s
        · apply setDisk_from s task.DiskID disk _ hdisk
          intro k v' hk'
          rcases hlaw.clear disk task.Suid k with h | ⟨_, h⟩
          · rw [h] at hk'
            exact ⟨v', hk', le_refl _⟩
          · rw [h] at hk'; cases hk'
        · exact same_from s
        · exact same_from s

/-- A run of tasks: with a storage layer that does what its methods are named
for, every shard of the service afterwards is a shard it had before, of a route
version not above. -/
theorem shardReportsLoop_from (env : Env) (hlaw : env.Lawful) (syncRun : Bool)
    (tasks : List ShardTask) :
    ∀ (s : service) d dk' k v', (shardReportsLoop env s syncRun tasks).svc.disks d = some dk' →
      dk' k = some v' → ∃ dk v, s.disks d = some dk ∧ dk k = some v ∧ v ≤ v' := by
  induction tasks with
  | nil => exact fun s => same_from s
  | cons task rest ih =>
    intro s d dk' k v' hd' hk'
    simp only [shardReportsLoop] at hd'
    cases hr : (executeShardTask env s task syncRun).ret with
    | some e =>
      simp only [hr] at hd'
      exact executeShardTask_from env hlaw s task syncRun d dk' k v' hd' hk'
    | none =>
      simp only [hr] at hd'
      obtain ⟨dk1, v1, h1, h2, h3⟩ := ih _ d dk' k v' hd' hk'
      obtain ⟨dk0, v0, h4, h5, h6⟩ :=
        executeShardTask_from env hlaw s task syncRun d dk1 k v1 h1 h2
      exact ⟨dk0, v0, h4, h5, le_trans h6 h3⟩

/-- C30. A shard task executed synchronously on a shard that is there, of
current route version `cur`.  A `ClearShard` task calls `DeleteShard` when `cur`
equals the route version of the task, and otherwise returns the version error
with no call made and the service as it was.  A `SyncRouteVersion` task calls
`UpdateShardRouteVersion` with the route version of the task when `cur` is
strictly below it, and otherwise returns the version error with no call made
and the service as it was.  Whatever the task, `DeleteShard` is called only on
equal versions and `UpdateShardRouteVersion` only with a version strictly above
the current one.  And when the storage layer does what its methods are named
for, after any run of tasks every shard of the service is one it had before,
and its route version is not below the one it had. -/
theorem executeShardTask_stale (env : Env) (s : service) (task : ShardTask)
    (disk : Disk) (cur : Nat) (hdisk : s.disks task.DiskID = some disk)
    (hshard : disk task.Suid = some cur) :
    (task.TaskType = ShardTaskType.ClearShard →
      (cur = task.RouteVersion →
        (executeShardTask env s task true).calls =
            [DiskCall.DeleteShard task.Suid task.RouteVersion] ∧
          (executeShardTask env s task true).ret =
            (env.DeleteShard disk task.Suid task.RouteVersion).2) ∧
      (cur ≠ task.RouteVersion →
        (executeShardTask env s task true).ret =
            some (Error.routeVersionNotMatch cur task.OldRouteVersion task.RouteVersion) ∧
          (executeShardTask env s task true).calls = [] ∧
          (executeShardTask env s task true).svc = s)) ∧
    (task.TaskType = ShardTaskType.SyncRouteVersion →
      (cur < task.RouteVersion →
        (executeShardTask env s task true).calls =
            [DiskCall.UpdateShardRouteVersion task.Suid task.RouteVersion] ∧
          (executeShardTask env s task true).ret =
            (env.UpdateShardRouteVersion disk task.Suid task.RouteVersion).2) ∧
      (¬ cur < task.RouteVersion →
        (executeShardTask env s task true).ret =
            some (Error.routeVersionNotMatch cur task.OldRouteVersion task.RouteVersion) ∧
          (executeShardTask env s task true).calls = [] ∧
          (executeShardTask env s task true).svc = s)) ∧
    (∀ suid v, DiskCall.DeleteShard suid v ∈ (executeShardTask env s task true).calls →
      task.TaskType = ShardTaskType.ClearShard ∧ suid = task.Suid ∧ v = task.RouteVersion ∧
        cur = task.RouteVersion) ∧
    (∀ suid v, DiskCall.UpdateShardRouteVersion suid v ∈
        (executeShardTask env s task true).calls →
      task.TaskType = ShardTaskType.SyncRouteVersion ∧ suid = task.Suid ∧
        v = task.RouteVersion ∧ cur < v) ∧
    (env.Lawful → ∀ (syncRun : Bool) (tasks : List ShardTask) d dk' k v',
      (shardReportsLoop env s syncRun tasks).svc.disks d = some dk' → dk' k = some v' →
        ∃ dk v, s.disks d = some dk ∧ dk k = some v ∧ v ≤ v') := by
  rw [executeShardTask_sync env s task disk cur hdisk hshard]
  unfold taskFunc
  refine ⟨?_, ?_, ?_, ?_, ?_⟩
  · intro ht
    rw [ht]
    exact ⟨fun he => by simp [he], fun he => by simp [he]⟩
  · intro ht
    rw [ht]
    exact ⟨fun he => by simp [he], fun he => by simp [he]⟩
  · intro suid v hmem
    cases ht : task.TaskType <;> simp only [ht] at hmem
    · by_cases he : cur = task.RouteVersion
      · simp only [he, if_true, List.mem_singleton, DiskCall.DeleteShard.injEq] at hmem
        exact ⟨rfl, hmem.1, hmem.2, he⟩
      · simp [he] at hmem
    · by_cases he : cur < task.RouteVersion
      · simp [he] at hmem
      · simp [he] at hmem
    · simp at hmem
    · simp at hmem
    · simp at hmem
  · intro suid v hmem
    cases ht : task.TaskType <;> simp only [ht] at hmem
    · by_cases he : cur = task.RouteVersion
      · simp [he] at hmem
      · simp [he] at hmem
    · by_cases he : cur < task.RouteVersion
      · simp only [he, if_true, List.mem_singleton,
          DiskCall.UpdateShardRouteVersion.injEq] at hmem
        exact ⟨rfl, hmem.1, hmem.2, by rw [hmem.2]; exact he⟩
      · simp [he] at hmem
    · simp at hmem
    · simp at hmem
    · simp at hmem
  · exact fun hlaw syncRun tasks => shardReportsLoop_from env hlaw syncRun tasks s

/-- The stale tasks of C30 on the sample service, whose disk 1 holds shard 7 at
route version 5: a `ClearShard` task for version 4 and a `SyncRouteVersion` task
for version 5 are refused with the version error, no call made; a
`SyncRouteVersion` task for version 9 calls `UpdateShardRouteVersion`. -/
theorem executeShardTask_stale_witness :
    sampleService.disks 1 = some (fun suid => if suid = 7 then some 5 else none) ∧
    ((executeShardTask sampleEnv sampleService ⟨ShardTaskType.ClearShard, 1, 7, 4, 3⟩ true).ret =
        some (Error.routeVersionNotMatch 5 3 4) ∧
      (executeShardTask sampleEnv sampleService ⟨ShardTaskType.ClearShard, 1, 7, 4, 3⟩ true).calls
        = [] ∧
      (executeShardTask sampleEnv sampleService ⟨ShardTaskType.ClearShard, 1, 7, 4, 3⟩ true).svc
        = sampleService) ∧
    ((executeShardTask sampleEnv sampleService
          ⟨ShardTaskType.SyncRouteVersion, 1, 7, 5, 4⟩ true).ret =
        some (Error.routeVersionNotMatch 5 4 5) ∧
      (executeShardTask sampleEnv sampleService
          ⟨ShardTaskType.SyncRouteVersion, 1, 7, 5, 4⟩ true).calls = [] ∧
      (executeShardTask sampleEnv sampleService
          ⟨ShardTaskType.SyncRouteVersion, 1, 7, 5, 4⟩ true).svc = sampleService) ∧
    ((executeShardTask sampleEnv sampleService
          ⟨ShardTaskType.SyncRouteVersion, 1, 7, 9, 5⟩ true).calls =
        [DiskCall.UpdateShardRouteVersion 7 9] ∧
      (executeShardTask sampleEnv sampleService
          ⟨ShardTaskType.SyncRouteVersion, 1, 7, 9, 5⟩ true).ret = none) :=
  ⟨rfl,
    ((executeShardTask_stale sampleEnv sampleService ⟨ShardTaskType.ClearShard, 1, 7, 4, 3⟩
      (fun suid => if suid = 7 then some 5 else none) 5 rfl rfl).1 rfl).2 (by decide),
    ((executeShardTask_stale sampleEnv sampleService ⟨ShardTaskType.SyncRouteVersion, 1, 7, 5, 4⟩
      (fun suid => if suid = 7 then some 5 else none) 5 rfl rfl).2.1 rfl).2 (by decide),
    ((executeShardTask_stale sampleEnv sampleService ⟨ShardTaskType.SyncRouteVersion, 1, 7, 9, 5⟩
      (fun suid => if suid = 7 then some 5 else none) 5 rfl rfl).2.1 rfl).1 (by decide)⟩

/-- C31. `insertItem` returns `ErrItemIDEmpty` for an empty item id and
`ErrKeySizeTooLarge` for one longer than `MaxKeySize`, in both cases with no
call on the catalog or on a space; an id of a length from 1 to `MaxKeySize`,
`MaxKeySize` included, passes: the catalog is asked for the space, and the
result is the error of `GetSpace` or what `InsertItem` of the space returns. -/
theorem insertItem_validates (env : ItemEnv) (req : InsertItemArgs) :
    (req.ItemID.length = 0 → insertItem env req = (some ItemError.ErrItemIDEmpty, [])) ∧
    (env.MaxKeySize < req.ItemID.length →
      insertItem env req = (some ItemError.ErrKeySizeTooLarge, [])) ∧
    (1 ≤ req.ItemID.length → req.ItemID.length ≤ env.MaxKeySize →
      (insertItem env req).2.head? = some (ItemCall.GetSpace req.SpaceID) ∧
      (∀ err, env.GetSpace req.SpaceID = .error err →
        insertItem env req = (some err, [ItemCall.GetSpace req.SpaceID])) ∧
      (∀ space, env.GetSpace req.SpaceID = .ok space →
        insertItem env req =
          (env.InsertItem space req.Header req.ItemID req.ItemFields,
            [ItemCall.GetSpace req.SpaceID,
              ItemCall.InsertItem space req.Header req.ItemID req.ItemFields]))) := by
  refine ⟨fun h0 => ?_, fun hbig => ?_, fun h1 hle => ?_⟩
  · simp [insertItem, h0]
  · have h1 : ¬ req.ItemID.length < 1 := by omega
    simp only [insertItem, h1, if_false, gt_iff_lt, hbig, if_true]
  · have h1' : ¬ req.ItemID.length < 1 := by omega
    have h2 : ¬ req.ItemID.length > env.MaxKeySize := by omega
    unfold insertItem
    simp only [h1', h2, if_false]
    cases hg : env.GetSpace req.SpaceID with
    | error err =>
      refine ⟨rfl, fun e he => ?_, fun sp hs => (by cases hs)⟩
      cases he
      rfl
    | ok space =>
      refine ⟨rfl, fun e he => (by cases he), fun sp hs => ?_⟩
      cases hs
      rfl

/-- C31 in the sample environment, where `MaxKeySize` is 4: the empty id and an
id of 5 bytes are refused with no call, an id of 4 bytes and an id of 1 byte go
to the catalog and to the space. -/
theorem insertItem_validates_witness :
    insertItem sampleItemEnv ⟨3, 0, [], []⟩ = (some ItemError.ErrItemIDEmpty, []) ∧
      insertItem sampleItemEnv ⟨3, 0, [1, 2, 3, 4, 5], []⟩ =
        (some ItemError.ErrKeySizeTooLarge, []) ∧
      insertItem sampleItemEnv ⟨3, 0, [1, 2, 3, 4], []⟩ =
        (none, [ItemCall.GetSpace 3, ItemCall.InsertItem 30 0 [1, 2, 3, 4] []]) ∧
      insertItem sampleItemEnv ⟨3, 0, [1], []⟩ =
        (none, [ItemCall.GetSpace 3, ItemCall.InsertItem 30 0 [1] []]) :=
  ⟨(insertItem_validates sampleItemEnv ⟨3, 0, [], []⟩).1 rfl,
    (insertItem_validates sampleItemEnv ⟨3, 0, [1, 2, 3, 4, 5], []⟩).2.1 (by decide),
    ((insertItem_validates sampleItemEnv ⟨3, 0, [1, 2, 3, 4], []⟩).2.2 (by decide)
      (by decide)).2.2 30 rfl,
    ((insertItem_validates sampleItemEnv ⟨3, 0, [1], []⟩).2.2 (by decide)
      (by decide)).2.2 30 rfl⟩

end ShardNode

namespace Rpc

/-- C34 fails on the code. A config with `HostTryTimes = 3` and
`RequestTryTimes = 3` leaves `NewLbClient` with both equal to 3, and a config of
two hosts with `RequestTryTimes = 4` and `HostTryTimes` left at zero leaves it
with both equal to 4: the test before the lowering is `>`, so equal try counts
pass it. -/
theorem NewLbClient_equal_try_times :
    (NewLbClient ⟨["a"], [], 3, 3, 0, 0, false⟩ false).cfg.HostTryTimes = 3 ∧
      (NewLbClient ⟨["a"], [], 3, 3, 0, 0, false⟩ false).cfg.RequestTryTimes = 3 ∧
      (NewLbClient ⟨["a", "b"], [], 4, 0, 0, 0, false⟩ false).cfg.HostTryTimes = 4 ∧
      (NewLbClient ⟨["a", "b"], [], 4, 0, 0, 0, false⟩ false).cfg.RequestTryTimes = 4 ∧
      ¬ ((NewLbClient ⟨["a"], [], 3, 3, 0, 0, false⟩ false).cfg.HostTryTimes <
        (NewLbClient ⟨["a"], [], 3, 3, 0, 0, false⟩ false).cfg.RequestTryTimes) := by
  decide

end Rpc

namespace Storage

/-- C36 as stated fails: with peer id 0 on a shard of disk 12 whose gate is set
(1, where `noNeedReadIndex` is 0), the peer is not the shard's own disk and the
gate is left set. -/
theorem LeaderChange_counterexample :
    (0 : Nat) ≠ (⟨12, 1, 12⟩ : LeaderState).diskID ∧
      (LeaderChange sampleEnv 0 ⟨12, 1, 12⟩ 0).leader = 0 ∧
      (LeaderChange sampleEnv 0 ⟨12, 1, 12⟩ 0).restartLeaderReadIndex = 1 := by
  decide

/-- C36, amended. After `LeaderChange(p)` the recorded leader is `p` converted to
a disk id, so `p` itself when it fits the disk-id type; the gate is set to
`noNeedReadIndex` when `p` is positive and not the disk id of the shard, and is
left as it was when `p` is zero or the disk id of the shard; the disk id is never
changed. -/
theorem LeaderChange_gate (env : Env) (noNeedReadIndex : Nat) (s : LeaderState) (p : Nat) :
    (LeaderChange env noNeedReadIndex s p).leader = toDiskID env p ∧
      (p < 2 ^ env.diskIDBits → (LeaderChange env noNeedReadIndex s p).leader = p) ∧
      (0 < p → p ≠ s.diskID →
        (LeaderChange env noNeedReadIndex s p).restartLeaderReadIndex = noNeedReadIndex) ∧
      (p = 0 ∨ p = s.diskID →
        (LeaderChange env noNeedReadIndex s p).restartLeaderReadIndex =
          s.restartLeaderReadIndex) ∧
      (LeaderChange env noNeedReadIndex s p).diskID = s.diskID := by
  have hleader : (LeaderChange env noNeedReadIndex s p).leader = toDiskID env p := by
    unfold LeaderChange
    by_cases h : p > 0 ∧ p ≠ s.diskID <;> simp [h]
  refine ⟨hleader, fun hlt => ?_, fun hpos hne => ?_, fun h => ?_, ?_⟩
  · rw [hleader, toDiskID, Nat.mod_eq_of_lt hlt]
  · unfold LeaderChange
    simp [hpos, hne]
  · unfold LeaderChange
    have hn : ¬ (p > 0 ∧ p ≠ s.diskID) := by
      rcases h with h | h
      · omega
      · exact fun hh => hh.2 h
    simp only [hn, if_false]
  · unfold LeaderChange
    by_cases h : p > 0 ∧ p ≠ s.diskID <;> simp [h]

/-- C36, amended, on a shard of disk 12 whose gate is set: peer 7 becomes the
leader and clears the gate, peer 12 becomes the leader and leaves the gate. -/
theorem LeaderChange_gate_witness :
    (7 : Nat) < 2 ^ sampleEnv.diskIDBits ∧
      (LeaderChange sampleEnv 0 ⟨3, 1, 12⟩ 7).leader = 7 ∧
      (LeaderChange sampleEnv 0 ⟨3, 1, 12⟩ 7).restartLeaderReadIndex = 0 ∧
      (LeaderChange sampleEnv 0 ⟨3, 1, 12⟩ 12).restartLeaderReadIndex = 1 :=
  ⟨by decide, (LeaderChange_gate sampleEnv 0 ⟨3, 1, 12⟩ 7).2.1 (by decide),
    (LeaderChange_gate sampleEnv 0 ⟨3, 1, 12⟩ 7).2.2.1 (by decide) (by decide),
    (LeaderChange_gate sampleEnv 0 ⟨3, 1, 12⟩ 12).2.2.2.1 (Or.inr rfl)⟩

/-- C37 as stated fails: on a shard that is being deleted, `AddMember` for a
disk that is not listed, with a context that decodes, returns no error and
appends nothing; and `RemoveMember` for a listed disk removes nothing. -/
theorem ApplyMemberChange_counterexample :
    sampleEnv.unmarshalMemberCtx [4] = .ok 4 ∧
      (ApplyMemberChange sampleEnv 11 sampleStoppedUnitsShard
        ⟨MemberChangeType.AddMember, 14, false, [4]⟩).ret = none ∧
      (ApplyMemberChange sampleEnv 11 sampleStoppedUnitsShard
        ⟨MemberChangeType.AddMember, 14, false, [4]⟩).shard.Units =
        [⟨1, 11, false⟩, ⟨2, 12, false⟩, ⟨3, 13, true⟩] ∧
      (ApplyMemberChange sampleEnv 11 sampleStoppedUnitsShard
        ⟨MemberChangeType.RemoveMember, 12, false, []⟩).shard.Units =
        [⟨1, 11, false⟩, ⟨2, 12, false⟩, ⟨3, 13, true⟩] :=
  ⟨rfl, by decide, by decide, by decide⟩

/-- The loop of `AddMember` finds a unit exactly when the disk is listed. -/
theorem markLearner_found (d : Nat) (l : Bool) (units : List ShardUnit) :
    (markLearner d l units).2 = true ↔ ∃ u ∈ units, u.DiskID = d := by
  induction units with
  | nil => simp [markLearner]
  | cons u us ih =>
    unfold markLearner
    by_cases h : u.DiskID = d
    · simp [h]
    · simp only [h, if_false, ih, List.mem_cons, exists_eq_or_imp, false_or]

/-- The loop of `AddMember` on a listed disk: the first unit of the disk gets
the flag, everything else stays. -/
theorem markLearner_listed (d : Nat) (l : Bool) (units : List ShardUnit)
    (h : ∃ u ∈ units, u.DiskID = d) :
    ∃ pre u post, units = pre ++ u :: post ∧ (∀ x ∈ pre, x.DiskID ≠ d) ∧ u.DiskID = d ∧
      (markLearner d l units).1 = pre ++ { u with Learner := l } :: post := by
  induction units with
  | nil => simp at h
  | cons u us ih =>
    unfold markLearner
    by_cases hu : u.DiskID = d
    · exact ⟨[], u, us, rfl, fun x hx => (by cases hx), hu, by simp [hu]⟩
    · have h' : ∃ v ∈ us, v.DiskID = d := by
        obtain ⟨v, hv, hvd⟩ := h
        rcases List.mem_cons.1 hv with rfl | hv
        · exact absurd hvd hu
        · exact ⟨v, hv, hvd⟩
      obtain ⟨pre, v, post, h1, h2, h3, h4⟩ := ih h'
      refine ⟨u :: pre, v, post, by rw [h1]; rfl, ?_, h3, ?_⟩
      · intro x hx
        rcases List.mem_cons.1 hx with rfl | hx
        · exact hu
        · exact h2 x hx
      · simp only [hu, if_false, h4, List.cons_append]

/-- The loop of `RemoveMember` on a listed disk: the first unit of the disk
goes, the others stay in order. -/
theorem spliceUnit_listed (d : Nat) (units : List ShardUnit)
    (h : ∃ u ∈ units, u.DiskID = d) :
    ∃ pre u post, units = pre ++ u :: post ∧ (∀ x ∈ pre, x.DiskID ≠ d) ∧ u.DiskID = d ∧
      spliceUnit d units = pre ++ post := by
  induction units with
  | nil => simp at h
  | cons u us ih =>
    unfold spliceUnit
    by_cases hu : u.DiskID = d
    · exact ⟨[], u, us, rfl, fun x hx => (by cases hx), hu, by simp [hu]⟩
    · have h' : ∃ v ∈ us, v.DiskID = d := by
        obtain ⟨v, hv, hvd⟩ := h
        rcases List.mem_cons.1 hv with rfl | hv
        · exact absurd hvd hu
        · exact ⟨v, hv, hvd⟩
      obtain ⟨pre, v, post, h1, h2, h3, h4⟩ := ih h'
      refine ⟨u :: pre, v, post, by rw [h1]; rfl, ?_, h3, ?_⟩
      · intro x hx
        rcases List.mem_cons.1 hx with rfl | hx
        · exact hu
        · exact h2 x hx
      · simp only [hu, if_false, h4, List.cons_append]

/-- The loop of `RemoveMember` on a disk that is not listed changes nothing. -/
theorem spliceUnit_unlisted (d : Nat) (units : List ShardUnit)
    (h : ∀ u ∈ units, u.DiskID ≠ d) : spliceUnit d units = units := by
  induction units with
  | nil => rfl
  | cons u us ih =>
    unfold spliceUnit
    rw [if_neg (h u (List.mem_cons_self _ _)), ih (fun v hv => h v (List.mem_cons_of_mem _ hv))]

/-- The last step of `ApplyMemberChange` keeps the units it is given. -/
theorem saveMemberChange_Units (env : Env) (s : Shard) (removed : Bool) :
    (saveMemberChange env s removed).shard.Units = s.Units ∧
      (saveMemberChange env s removed).removedRaftGroup = removed := by
  unfold saveMemberChange
  cases env.saveShardInfo s.Units s.AppliedIndex with
  | none => exact ⟨rfl, rfl⟩
  | some e => by_cases he : e = Err.shardStopWriting <;> simp [he]

/-- C37, amended. On a shard whose read-write check passes, with `d` the node id
of the member converted to a disk id (the node id itself when it fits the
disk-id type): `AddMember` for a listed disk changes the learner flag of the
first unit of the disk and nothing else of `Units`; `AddMember` for a disk that
is not listed appends one unit with the `Suid` decoded from the context, disk
`d` and the learner flag given, and leaves `Units` alone and returns the error
when the context does not decode; `RemoveMember` takes out the first unit of the
disk and keeps the others in order, and leaves `Units` alone when the disk is not
listed.  On a shard whose check fails nothing is changed and nil is returned. -/
theorem ApplyMemberChange_units (env : Env) (diskID : Nat) (s : Shard) (cc : MemberChange) :
    (s.rwGate = none →
      (cc.Type_ = MemberChangeType.AddMember →
        ((∃ u ∈ s.Units, u.DiskID = toDiskID env cc.NodeID) →
          ∃ pre u post, s.Units = pre ++ u :: post ∧
            (∀ x ∈ pre, x.DiskID ≠ toDiskID env cc.NodeID) ∧
            u.DiskID = toDiskID env cc.NodeID ∧
            (ApplyMemberChange env diskID s cc).shard.Units =
              pre ++ { u with Learner := cc.Learner } :: post) ∧
        ((∀ u ∈ s.Units, u.DiskID ≠ toDiskID env cc.NodeID) →
          (∀ suid, env.unmarshalMemberCtx cc.Context = .ok suid →
            (ApplyMemberChange env diskID s cc).shard.Units =
              s.Units ++ [⟨suid, toDiskID env cc.NodeID, cc.Learner⟩]) ∧
          (∀ e, env.unmarshalMemberCtx cc.Context = .error e →
            (ApplyMemberChange env diskID s cc).shard.Units = s.Units ∧
              (ApplyMemberChange env diskID s cc).ret = some e))) ∧
      (cc.Type_ = MemberChangeType.RemoveMember →
        ((∃ u ∈ s.Units, u.DiskID = toDiskID env cc.NodeID) →
          ∃ pre u post, s.Units = pre ++ u :: post ∧
            (∀ x ∈ pre, x.DiskID ≠ toDiskID env cc.NodeID) ∧
            u.DiskID = toDiskID env cc.NodeID ∧
            (ApplyMemberChange env diskID s cc).shard.Units = pre ++ post) ∧
        ((∀ u ∈ s.Units, u.DiskID ≠ toDiskID env cc.NodeID) →
          (ApplyMemberChange env diskID s cc).shard.Units = s.Units) ∧
        (ApplyMemberChange env diskID s cc).removedRaftGroup =
          decide (toDiskID env cc.NodeID = diskID))) ∧
    (s.rwGate ≠ none →
      (ApplyMemberChange env diskID s cc).shard = s ∧
        (ApplyMemberChange env diskID s cc).ret = none ∧
        (ApplyMemberChange env diskID s cc).removedRaftGroup = false) ∧
    (cc.NodeID < 2 ^ env.diskIDBits → toDiskID env cc.NodeID = cc.NodeID) := by
  refine ⟨fun hgate => ⟨fun ht => ⟨fun hl => ?_, fun hn => ⟨fun suid hs => ?_, fun e he => ?_⟩⟩,
    fun ht => ⟨fun hl => ?_, fun hn => ?_, ?_⟩⟩, fun hgate => ?_, fun hlt => ?_⟩
  · obtain ⟨pre, u, post, h1, h2, h3, h4⟩ :=
      markLearner_listed (toDiskID env cc.NodeID) cc.Learner s.Units hl
    refine ⟨pre, u, post, h1, h2, h3, ?_⟩
    have hf := (markLearner_found (toDiskID env cc.NodeID) cc.Learner s.Units).2 hl
    simp only [ApplyMemberChange, prepRWCheck, hgate, ht, hf, if_true, prepRWCheckDone]
    rw [(saveMemberChange_Units env _ false).1]
    exact h4
  · have hf : ¬ (markLearner (toDiskID env cc.NodeID) cc.Learner s.Units).2 = true := by
      rw [markLearner_found]
      rintro ⟨u, hu, hd⟩
      exact hn u hu hd
    simp only [ApplyMemberChange, prepRWCheck, hgate, ht, hf, Bool.false_eq_true, if_false, hs,
      prepRWCheckDone]
    rw [(saveMemberChange_Units env _ false).1]
  · have hf : ¬ (markLearner (toDiskID env cc.NodeID) cc.Learner s.Units).2 = true := by
      rw [markLearner_found]
      rintro ⟨u, hu, hd⟩
      exact hn u hu hd
    simp only [ApplyMemberChange, prepRWCheck, hgate, ht, hf, Bool.false_eq_true, if_false, he,
      prepRWCheckDone]
    exact ⟨trivial, trivial⟩
  · obtain ⟨pre, u, post, h1, h2, h3, h4⟩ :=
      spliceUnit_listed (toDiskID env cc.NodeID) s.Units hl
    refine ⟨pre, u, post, h1, h2, h3, ?_⟩
    simp only [ApplyMemberChange, prepRWCheck, hgate, ht, prepRWCheckDone]
    rw [(saveMemberChange_Units env _ _).1]
    exact h4
  · simp only [ApplyMemberChange, prepRWCheck, hgate, ht, prepRWCheckDone]
    rw [(saveMemberChange_Units env _ _).1]
    exact spliceUnit_unlisted _ _ hn
  · simp only [ApplyMemberChange, prepRWCheck, hgate, ht, prepRWCheckDone]
    rw [(saveMemberChange_Units env _ _).2]
  · cases hg : s.rwGate with
    | none => exact absurd hg hgate
    | some e =>
      simp only [ApplyMemberChange, prepRWCheck, hg]
      exact ⟨trivial, trivial, trivial⟩
  · rw [toDiskID, Nat.mod_eq_of_lt hlt]

/-- C37, amended, on a shard with units on the disks 11, 12 and 13: `AddMember`
for disk 14 appends the unit of suid 4, `AddMember` for disk 12 sets its learner
flag, `RemoveMember` for disk 12 takes its unit out, `RemoveMember` for disk 15
changes nothing, and on the shard that is being deleted nothing changes. -/
theorem ApplyMemberChange_units_witness :
    sampleUnitsShard.rwGate = none ∧
      (ApplyMemberChange sampleEnv 11 sampleUnitsShard
        ⟨MemberChangeType.AddMember, 14, false, [4]⟩).shard.Units =
        sampleUnitsShard.Units ++ [⟨4, toDiskID sampleEnv 14, false⟩] ∧
      (ApplyMemberChange sampleEnv 11 sampleUnitsShard
        ⟨MemberChangeType.AddMember, 12, true, []⟩).shard.Units =
        [⟨1, 11, false⟩, ⟨2, 12, true⟩, ⟨3, 13, true⟩] ∧
      (ApplyMemberChange sampleEnv 11 sampleUnitsShard
        ⟨MemberChangeType.RemoveMember, 12, false, []⟩).shard.Units =
        [⟨1, 11, false⟩, ⟨3, 13, true⟩] ∧
      (ApplyMemberChange sampleEnv 11 sampleUnitsShard
        ⟨MemberChangeType.RemoveMember, 15, false, []⟩).shard.Units = sampleUnitsShard.Units ∧
      (ApplyMemberChange sampleEnv 11 sampleStoppedUnitsShard
        ⟨MemberChangeType.AddMember, 14, false, [4]⟩).shard = sampleStoppedUnitsShard :=
  ⟨rfl,
    ((((ApplyMemberChange_units sampleEnv 11 sampleUnitsShard
      ⟨MemberChangeType.AddMember, 14, false, [4]⟩).1 rfl).1 rfl).2 (by decide)).1 4 rfl,
    by decide, by decide,
    (((ApplyMemberChange_units sampleEnv 11 sampleUnitsShard
      ⟨MemberChangeType.RemoveMember, 15, false, []⟩).1 rfl).2 rfl).2.1 (by decide),
    ((ApplyMemberChange_units sampleEnv 11 sampleStoppedUnitsShard
      ⟨MemberChangeType.AddMember, 14, false, [4]⟩).2.1 (by decide)).1⟩

/-- C39 fails on the code. The stored item has the fields 1 and 2, and the
update writes the new field 3 twice: the map of field IDs is built from the
stored fields only, so the second field 3 is appended like the first, and the
item written back has the field IDs 1, 2, 3, 3. -/
theorem applyUpdateItem_repeats_id :
    (fieldIDs sampleStored.Fields).Nodup ∧
      mergeItem sampleStored sampleTwiceNew =
        ⟨[5], [⟨1, [10]⟩, ⟨2, [20]⟩, ⟨3, [30]⟩, ⟨3, [31]⟩]⟩ ∧
      (applyUpdateItem sampleEnv sampleItemKV
          (sampleKV [1, 5] (sampleItemBytes sampleTwiceNew))).kv.data [1, 5] =
        some (sampleItemBytes ⟨[5], [⟨1, [10]⟩, ⟨2, [20]⟩, ⟨3, [30]⟩, ⟨3, [31]⟩]⟩) ∧
      fieldIDs (mergeItem sampleStored sampleTwiceNew).Fields = [1, 2, 3, 3] ∧
      ¬ (fieldIDs (mergeItem sampleStored sampleTwiceNew).Fields).Nodup := by
  refine ⟨by decide, by decide, ?_, by decide, by decide⟩
  rfl

end Storage

namespace Normaldb

theorem decimalLoop_acc (fuel : Nat) : ∀ (n : Nat) (acc : List Nat),
    decimalLoop fuel n acc = decimalLoop fuel n [] ++ acc := by
  induction fuel with
  | zero => intro n acc; rfl
  | succ fuel ih =>
    intro n acc
    simp only [decimalLoop]
    split_ifs with h
    · rfl
    · rw [ih (n / 10) ((48 + n % 10) :: acc), ih (n / 10) [48 + n % 10]]
      simp

/-- The digits of `n` are its last digit behind the digits of `n / 10`. -/
theorem decimalLoop_step (fuel n : Nat) (h : ¬ n < 10) :
    decimalLoop (fuel + 1) n [] = decimalLoop fuel (n / 10) [] ++ [48 + n % 10] := by
  simp only [decimalLoop, if_neg h]
  exact decimalLoop_acc fuel (n / 10) [48 + n % 10]

theorem decimalLoop_spec (fuel : Nat) : ∀ n, n < fuel →
    (∀ c ∈ decimalLoop fuel n [], isDigit c = true) ∧
      (decimalLoop fuel n []).foldl (fun a d => 10 * a + (d - 48)) 0 = n ∧
      ∃ d ds, decimalLoop fuel n [] = (48 + d) :: ds ∧ (d = 0 → n = 0 ∧ ds = []) := by
  induction fuel with
  | zero => intro n h; omega
  | succ fuel ih =>
    intro n hn
    by_cases h : n < 10
    · have hd : decimalLoop (fuel + 1) n [] = [48 + n] := by simp only [decimalLoop, if_pos h]
      rw [hd]
      refine ⟨?_, ?_, n, [], rfl, fun h0 => ⟨h0, rfl⟩⟩
      · intro c hc
        rw [List.mem_singleton] at hc
        subst hc
        simp only [isDigit, Bool.and_eq_true, decide_eq_true_eq]
        omega
      · simp only [List.foldl_cons, List.foldl_nil]
        omega
    · rw [decimalLoop_step fuel n h]
      obtain ⟨hall, hval, d, ds, hds, hzero⟩ := ih (n / 10) (by omega)
      refine ⟨?_, ?_, d, ds ++ [48 + n % 10], by rw [hds]; rfl, fun h0 => ?_⟩
      · intro c hc
        rw [List.mem_append, List.mem_singleton] at hc
        rcases hc with hc | hc
        · exact hall c hc
        · subst hc
          simp only [isDigit, Bool.and_eq_true, decide_eq_true_eq]
          omega
      · rw [List.foldl_append, hval]
        simp only [List.foldl_cons, List.foldl_nil]
        omega
      · have := (hzero h0).1
        omega

theorem takeWhile_append_stop {α : Type} (p : α → Bool) (l : List α) (c : α) (r : List α)
    (hl : ∀ x ∈ l, p x = true) (hc : p c = false) :
    (l ++ c :: r).takeWhile p = l ∧ (l ++ c :: r).dropWhile p = c :: r := by
  induction l with
  | nil => simp [List.takeWhile, List.dropWhile, hc]
  | cons a l ih =>
    have ha := hl a (List.mem_cons_self a l)
    have := ih (fun x hx => hl x (List.mem_cons_of_mem a hx))
    simp [List.takeWhile, List.dropWhile, ha, this.1, this.2]

/-- The decoder reads back the digits that the encoder writes for an integer,
up to the byte behind them. -/
theorem readNumber_decimal (n c : Nat) (rest : List Nat) (hc : isDigit c = false) :
    readNumber (decimal n ++ c :: rest) = some (n, c :: rest) := by
  obtain ⟨hall, hval, d, ds, hds, hzero⟩ := decimalLoop_spec (n + 1) n (by omega)
  obtain ⟨ht, hd⟩ := takeWhile_append_stop isDigit (decimal n) c rest hall hc
  unfold readNumber
  rw [ht, hd]
  have hne : decimal n ≠ [] := by
    unfold decimal; rw [hds]; exact List.cons_ne_nil _ _
  rw [if_neg hne]
  have hlead : ¬ (1 < (decimal n).length ∧ (decimal n).head? = some 48) := by
    rintro ⟨hlen, hhead⟩
    unfold decimal at hlen hhead
    rw [hds] at hlen hhead
    simp only [List.head?_cons, Option.some.injEq] at hhead
    have h0 : d = 0 := by omega
    rw [(hzero h0).2] at hlen
    simp at hlen
  rw [if_neg hlead]
  unfold decimal
  rw [hval]

/-- A UTF-8 sequence is read from its own bytes, whatever follows them. -/
theorem runeSize_take (s Y : List Nat) (n : Nat) (h : runeSize s = some n) :
    1 ≤ n ∧ n ≤ s.length ∧ runeSize (s.take n ++ Y) = some n := by
  rcases s with _ | ⟨b0, rest⟩
  · simp [runeSize] at h
  · simp only [runeSize] at h
    split_ifs at h with h1 h2 h3 h4
    · cases h
      simp [runeSize, h1]
    · rcases rest with _ | ⟨b1, rest⟩
      · simp at h
      · simp only at h
        split_ifs at h with hc
        cases h
        simp [runeSize, h1, h2, hc]
    · rcases rest with _ | ⟨b1, _ | ⟨b2, rest⟩⟩
      · simp at h
      · simp at h
      · simp only at h
        split_ifs at h with hc
        cases h
        simp [runeSize, h1, h2, h3, hc]
    · rcases rest with _ | ⟨b1, _ | ⟨b2, _ | ⟨b3, rest⟩⟩⟩
      · simp at h
      · simp at h
      · simp at h
      · simp only at h
        split_ifs at h with hc
        cases h
        simp [runeSize, h1, h2, h3, h4, hc]

theorem readString_escapeByte (b : Nat) (hb : b < 128) (hs : htmlSafe b = false) (g : Nat)
    (X : List Nat) :
    readString (g + 1) (escapeByte b ++ X) = (readString g X).map fun p => (b :: p.1, p.2) := by
  interval_cases b <;> first | exact absurd hs (by decide) | rfl


theorem escapeByte_length (b : Nat) : 1 ≤ (escapeByte b).length := by
  unfold escapeByte
  split_ifs <;> simp

theorem readString_quote (g : Nat) (rest : List Nat) :
    readString (g + 1) (34 :: rest) = some ([], rest) := by
  simp [readString]

theorem readString_safe (b : Nat) (hs : htmlSafe b = true) (g : Nat) (X : List Nat) :
    readString (g + 1) (b :: X) = (readString g X).map fun p => (b :: p.1, p.2) := by
  simp only [htmlSafe, Bool.and_eq_true, decide_eq_true_eq, bne_iff_ne, ne_eq] at hs
  obtain ⟨⟨⟨⟨⟨⟨h32, h128⟩, h34⟩, h92⟩, _⟩, _⟩, _⟩ := hs
  simp only [readString, if_neg h34, if_neg h92, if_neg (show ¬ b < 32 by omega), if_pos h128]

theorem readString_sequence (b : Nat) (t Y : List Nat) (n : Nat) (hb : ¬ b < 128)
    (hrs : runeSize (b :: t) = some n) (g : Nat) :
    readString (g + 1) ((b :: t).take n ++ Y) =
      (readString g Y).map fun p => ((b :: t).take n ++ p.1, p.2) := by
  obtain ⟨h1, hlen, hpre⟩ := runeSize_take (b :: t) Y n hrs
  obtain ⟨m, rfl⟩ : ∃ m, n = m + 1 := ⟨n - 1, by omega⟩
  have hcons : (b :: t).take (m + 1) ++ Y = b :: (t.take m ++ Y) := by simp
  have htl : ((b :: t).take (m + 1)).length = m + 1 := by
    rw [List.length_take]; omega
  rw [hcons] at hpre ⊢
  simp only [readString, if_neg (show ¬ b = 34 by omega), if_neg (show ¬ b = 92 by omega),
    if_neg (show ¬ b < 32 by omega), if_neg hb, hpre]
  rw [← hcons, List.drop_left' htl, List.take_left' htl]


theorem readString_u2028 (g : Nat) (X : List Nat) :
    readString (g + 1) ([92, 117, 50, 48, 50, 56] ++ X) =
      (readString g X).map fun p => ([226, 128, 168] ++ p.1, p.2) := by
  rfl

theorem readString_u2029 (g : Nat) (X : List Nat) :
    readString (g + 1) ([92, 117, 50, 48, 50, 57] ++ X) =
      (readString g X).map fun p => ([226, 128, 169] ++ p.1, p.2) := by
  rfl

/-- The decoder reads back a string of valid UTF-8 from what the encoder writes
for it, up to the closing quote. -/
theorem readString_escapeLoop (f : Nat) : ∀ (s : List Nat), s.length ≤ f → validLoop f s = true →
    ∀ (g : Nat) (rest : List Nat), (escapeLoop f s).length < g →
      readString g (escapeLoop f s ++ 34 :: rest) = some (s, rest) := by
  induction f with
  | zero =>
    intro s hlen _ g rest hg
    have hs : s = [] := List.length_eq_zero.1 (by omega)
    subst hs
    obtain ⟨g, rfl⟩ : ∃ g', g = g' + 1 := ⟨g - 1, by omega⟩
    simp only [escapeLoop, List.nil_append]
    exact readString_quote g rest
  | succ f ih =>
    intro s hlen hv g rest hg
    obtain ⟨g, rfl⟩ : ∃ g', g = g' + 1 := ⟨g - 1, by omega⟩
    rcases s with _ | ⟨b, t⟩
    · simp only [escapeLoop, List.nil_append]
      exact readString_quote g rest
    · simp only [validLoop] at hv
      cases hrs : runeSize (b :: t) with
      | none => simp [hrs] at hv
      | some n =>
        simp only [hrs] at hv
        obtain ⟨h1, hn, _⟩ := runeSize_take (b :: t) [] n hrs
        have hdl : ((b :: t).drop n).length ≤ f := by
          rw [List.length_drop]
          simp only [List.length_cons] at hlen hn ⊢
          omega
        by_cases hb : b < 128
        · have hn1 : n = 1 := by
            simp only [runeSize, if_pos hb, Option.some.injEq] at hrs
            exact hrs.symm
          subst hn1
          simp only [List.drop_succ_cons, List.drop_zero] at hv hdl
          simp only [escapeLoop, if_pos hb] at hg ⊢
          cases hs : htmlSafe b with
          | true =>
            simp only [hs, if_true, List.singleton_append, List.cons_append, List.length_cons,
              List.nil_append] at hg ⊢
            rw [readString_safe b hs, ih t hdl hv g rest (by omega)]
            rfl
          | false =>
            simp only [hs, Bool.false_eq_true, if_false, List.append_assoc, List.length_append]
              at hg ⊢
            have := escapeByte_length b
            rw [readString_escapeByte b hb hs, ih t hdl hv g rest (by omega)]
            rfl
        · simp only [escapeLoop, if_neg hb, hrs] at hg ⊢
          by_cases h28 : (b :: t).take 3 = [226, 128, 168]
          · simp only [if_pos h28, List.append_assoc, List.length_append] at hg ⊢
            obtain ⟨hb', t', ht⟩ : b = 226 ∧ ∃ t', t = 128 :: 168 :: t' := by
              rcases t with _ | ⟨b1, _ | ⟨b2, t'⟩⟩ <;> simp at h28
              exact ⟨h28.1, t', by rw [h28.2.1, h28.2.2]⟩
            subst hb' ht
            have hn3 : n = 3 := by
              have : runeSize (226 :: 128 :: 168 :: t') = some 3 := by rfl
              rw [this] at hrs
              exact (Option.some.inj hrs).symm
            subst hn3
            simp only [List.drop_succ_cons, List.drop_zero] at hv hdl hg ⊢
            rw [readString_u2028, ih t' hdl hv g rest (by simp at hg; omega)]
            rfl
          · by_cases h29 : (b :: t).take 3 = [226, 128, 169]
            · simp only [if_neg h28, if_pos h29, List.append_assoc, List.length_append] at hg ⊢
              obtain ⟨hb', t', ht⟩ : b = 226 ∧ ∃ t', t = 128 :: 169 :: t' := by
                rcases t with _ | ⟨b1, _ | ⟨b2, t'⟩⟩ <;> simp at h29
                exact ⟨h29.1, t', by rw [h29.2.1, h29.2.2]⟩
              subst hb' ht
              have hn3 : n = 3 := by
                have : runeSize (226 :: 128 :: 169 :: t') = some 3 := by rfl
                rw [this] at hrs
                exact (Option.some.inj hrs).symm
              subst hn3
              simp only [List.drop_succ_cons, List.drop_zero] at hv hdl hg ⊢
              rw [readString_u2029, ih t' hdl hv g rest (by simp at hg; omega)]
              rfl
            · simp only [if_neg h28, if_neg h29, List.append_assoc, List.length_append] at hg ⊢
              rw [List.length_take] at hg
              rw [readString_sequence b t _ n hb hrs g,
                ih _ hdl hv g rest (by omega)]
              simp only [Option.map_some', List.take_append_drop]

/-- The decoder reads back a string of valid UTF-8 from the JSON string that the
encoder writes for it. -/
theorem readString_appendString (s rest : List Nat) (hs : validUTF8 s = true) :
    readString (escapeLoop s.length s ++ 34 :: rest).length
        (escapeLoop s.length s ++ 34 :: rest) = some (s, rest) :=
  readString_escapeLoop s.length s (le_refl _) hs _ rest (by simp)

theorem readString_name (name X : List Nat) (h : plainName name) :
    readString (name ++ 34 :: X).length (name ++ 34 :: X) = some (name, X) := by
  have := readString_appendString name X h.2
  rw [h.1] at this
  exact this

theorem decimal_head (n : Nat) : ∃ d ds, decimal n = (48 + d) :: ds := by
  obtain ⟨_, _, d, ds, hds, _⟩ := decimalLoop_spec (n + 1) n (by omega)
  exact ⟨d, ds, hds⟩

theorem readValue_decimal (n c : Nat) (X : List Nat) (hc : isDigit c = false) :
    readValue (decimal n ++ c :: X) = some (Value.num n, c :: X) := by
  obtain ⟨d, ds, hds⟩ := decimal_head n
  have h := readNumber_decimal n c X hc
  rw [hds] at h ⊢
  simp only [List.cons_append] at h ⊢
  simp only [readValue, if_neg (show ¬ 48 + d = 34 by omega), h, Option.map_some']

theorem readValue_appendString (s X : List Nat) (hs : validUTF8 s = true) :
    readValue (appendString s ++ X) = some (Value.str s, X) := by
  have h := readString_appendString s X hs
  simp only [appendString, List.singleton_append, List.cons_append, List.append_assoc,
    List.nil_append, readValue, if_true, h, Option.map_some']

theorem readMembers_number_more (name : List Nat) (h : plainName name) (n f : Nat)
    (X : List Nat) :
    readMembers (f + 1) (member name (decimal n) ++ 44 :: X) =
      (readMembers f X).map fun ms => (name, Value.num n) :: ms := by
  have hn := readString_name name (58 :: (decimal n ++ 44 :: X)) h
  have hv := readValue_decimal n 44 X (by decide)
  simp only [member, List.singleton_append, List.cons_append, List.append_assoc,
    List.nil_append] at hn ⊢
  simp only [readMembers, if_true, hn, hv]
  simp

theorem readMembers_string_more (name : List Nat) (h : plainName name) (s : List Nat)
    (hs : validUTF8 s = true) (f : Nat) (X : List Nat) :
    readMembers (f + 1) (member name (appendString s) ++ 44 :: X) =
      (readMembers f X).map fun ms => (name, Value.str s) :: ms := by
  have hn := readString_name name (58 :: (appendString s ++ 44 :: X)) h
  have hv := readValue_appendString s (44 :: X) hs
  simp only [member, List.singleton_append, List.cons_append, List.append_assoc,
    List.nil_append] at hn ⊢
  simp only [readMembers, if_true, hn, hv]
  simp

theorem readMembers_number_last (name : List Nat) (h : plainName name) (n f : Nat) :
    readMembers (f + 1) (member name (decimal n) ++ [125]) = some [(name, Value.num n)] := by
  have hn := readString_name name (58 :: (decimal n ++ [125])) h
  have hv := readValue_decimal n 125 [] (by decide)
  simp only [member, List.singleton_append, List.cons_append, List.append_assoc,
    List.nil_append] at hn ⊢
  simp only [readMembers, if_true, hn, hv]
  simp


theorem readObject_marshalRecord (r : NodeInfoRecord) (hidc : validUTF8 r.Idc = true)
    (hrack : validUTF8 r.Rack = true) (hhost : validUTF8 r.Host = true) :
    readObject (marshalRecord r) = some (recordMembers r) := by
  have hm : marshalRecord r = 123 :: (member nameNodeID (decimal r.NodeID) ++ 44 ::
      (member nameNodeSetID (decimal r.NodeSetID) ++ 44 ::
      (member nameClusterID (decimal r.ClusterID) ++ 44 ::
      (member nameDiskType (decimal r.DiskType) ++ 44 ::
      (member nameIdc (appendString r.Idc) ++ 44 ::
      (member nameRack (appendString r.Rack) ++ 44 ::
      (member nameHost (appendString r.Host) ++ 44 ::
      (member nameRole (decimal r.Role) ++ 44 ::
      (member nameStatus (decimal r.Status) ++ [125]))))))))) := by
    simp only [marshalRecord, List.append_assoc, List.singleton_append, List.cons_append,
      List.nil_append]
  rw [hm]
  simp only [readObject, if_true]
  rw [if_neg (by simp [member])]
  generalize hL : List.length (member nameNodeID (decimal r.NodeID) ++ _) = L
  obtain ⟨k, rfl⟩ : ∃ k, L = k + 1 + 1 + 1 + 1 + 1 + 1 + 1 + 1 + 1 := by
    refine ⟨L - 9, ?_⟩
    rw [← hL]
    simp only [member, List.length_append, List.length_cons, List.length_nil]
    omega
  rw [readMembers_number_more nameNodeID ⟨rfl, rfl⟩,
    readMembers_number_more nameNodeSetID ⟨rfl, rfl⟩,
    readMembers_number_more nameClusterID ⟨rfl, rfl⟩,
    readMembers_number_more nameDiskType ⟨rfl, rfl⟩,
    readMembers_string_more nameIdc ⟨rfl, rfl⟩ _ hidc,
    readMembers_string_more nameRack ⟨rfl, rfl⟩ _ hrack,
    readMembers_string_more nameHost ⟨rfl, rfl⟩ _ hhost,
    readMembers_number_more nameRole ⟨rfl, rfl⟩,
    readMembers_number_last nameStatus ⟨rfl, rfl⟩]
  rfl

theorem storeMembers_recordMembers (bits : ProtoBits) (r : NodeInfoRecord)
    (hfit : r.fits bits) :
    storeMembers bits (recordMembers r) (NodeInfoRecord.zero, none) =
      some ({ r with Version := 0 }, none) := by
  obtain ⟨h1, h2, h3, h4, h5, h6⟩ := hfit
  simp [recordMembers, storeMembers, storeMember, storeUint, storeString, nameNodeID,
    nameNodeSetID, nameClusterID, nameDiskType, nameIdc, nameRack, nameHost, nameRole,
    nameStatus, h1, h2, h3, h4, h5, h6, NodeInfoRecord.zero]

/-- C32 as stated fails: the record `sampleBadHost` has the normal version and a
host that is the single byte `0xff`.  The encoder writes the escape of U+FFFD
for that byte, so the record that `decodeNodeInfoRecord` returns for the
encoding has the three bytes of U+FFFD as host: it is not the record that was
encoded. -/
theorem nodeInfoRecord_round_trip_counterexample :
    sampleBadHost.Version = NodeInfoVersionNormal ∧
      encodeNodeInfoRecord (goJson sampleBits) sampleBadHost =
        .ok (1 :: marshalRecord sampleBadHost) ∧
      member nameHost (appendString sampleBadHost.Host) =
        [34, 104, 111, 115, 116, 34, 58, 34, 92, 117, 102, 102, 102, 100, 34] ∧
      decodeNodeInfoRecord (goJson sampleBits) (1 :: marshalRecord sampleBadHost) =
        some (some { sampleBadHost with Host := [239, 191, 189] }, none) ∧
      { sampleBadHost with Host := [239, 191, 189] } ≠ sampleBadHost :=
  ⟨rfl, rfl, rfl, rfl, by decide⟩

/-- C32, amended. For a record of the normal version whose strings are valid
UTF-8 (its integers fit their types), `encodeNodeInfoRecord` gives the version
byte followed by the JSON document of the record, and `decodeNodeInfoRecord` of
that gives the record back with no error; and `decodeNodeInfoRecord` returns the
version error, with no record, for every input whose first byte is another
version, whatever the JSON codec. -/
theorem nodeInfoRecord_round_trip (bits : ProtoBits) (r : NodeInfoRecord)
    (hv : r.Version = NodeInfoVersionNormal) (hfit : r.fits bits)
    (hidc : validUTF8 r.Idc = true) (hrack : validUTF8 r.Rack = true)
    (hhost : validUTF8 r.Host = true) :
    encodeNodeInfoRecord (goJson bits) r = .ok (NodeInfoVersionNormal :: marshalRecord r) ∧
      decodeNodeInfoRecord (goJson bits) (NodeInfoVersionNormal :: marshalRecord r) =
        some (some r, none) ∧
      ∀ (json : Json) (version : Nat) (rest : List Nat), version ≠ NodeInfoVersionNormal →
        decodeNodeInfoRecord json (version :: rest) =
          some (none, some CodecError.invalidVersion) := by
  refine ⟨?_, ?_, fun json version rest hne => ?_⟩
  · simp only [encodeNodeInfoRecord, goJson, hv, List.singleton_append]
  · have hu : (goJson bits).Unmarshal (marshalRecord r) NodeInfoRecord.zero =
        ({ r with Version := 0 }, none) := by
      simp only [goJson, readObject_marshalRecord r hidc hrack hhost,
        storeMembers_recordMembers bits r hfit]
    simp only [decodeNodeInfoRecord, if_true, hu]
    rw [← hv]
  · simp only [decodeNodeInfoRecord, hne, if_false]


/-- C32, amended, on the sample record: the encoding is the version byte 1 and
the document `marshalRecord sampleNode`, in which the `<` of the rack is
escaped; it decodes to the record, and the same bytes under version 2 are
refused. -/
theorem nodeInfoRecord_round_trip_witness :
    encodeNodeInfoRecord (goJson sampleBits) sampleNode = .ok (1 :: marshalRecord sampleNode) ∧
      member nameRack (appendString sampleNode.Rack) =
        [34, 114, 97, 99, 107, 34, 58, 34, 114, 92, 117, 48, 48, 51, 99, 49, 34] ∧
      decodeNodeInfoRecord (goJson sampleBits) (1 :: marshalRecord sampleNode) =
        some (some sampleNode, none) ∧
      decodeNodeInfoRecord (goJson sampleBits) (2 :: marshalRecord sampleNode) =
        some (none, some CodecError.invalidVersion) :=
  have h := nodeInfoRecord_round_trip sampleBits sampleNode rfl (by decide) rfl rfl rfl
  ⟨h.1, rfl, h.2.1, h.2.2 (goJson sampleBits) 2 _ (by decide)⟩

end Normaldb

namespace Catalog

/-- C33. `Apply` returns an error for every batch with an entry whose opcode is
outside the taxonomy or whose payload does not decode for its opcode, and no
error for every batch whose entries all have an opcode of the taxonomy and a
payload that decodes for it. -/
theorem Apply_rejects_bad_entries (env : Env) (batch : List Entry) :
    ((∃ e ∈ batch, operTypeOf env e.opType = none ∨
        ∃ t, operTypeOf env e.opType = some t ∧ env.decodes t e.payload = false) →
      (Apply env batch).isSome = true) ∧
    ((∀ e ∈ batch, ∃ t, operTypeOf env e.opType = some t ∧ env.decodes t e.payload = true) →
      Apply env batch = none) := by
  induction batch with
  | nil =>
    refine ⟨?_, fun _ => rfl⟩
    rintro ⟨e, he, _⟩
    cases he
  | cons e rest ih =>
    constructor
    · rintro ⟨b, hb, hbad⟩
      unfold Apply
      cases ht : operTypeOf env e.opType with
      | none => rfl
      | some t =>
        simp only
        by_cases hd : env.decodes t e.payload = true
        · rw [if_pos hd]
          rcases List.mem_cons.1 hb with rfl | hb
          · rcases hbad with h | ⟨t', h1, h2⟩
            · rw [ht] at h
              cases h
            · rw [ht] at h1
              cases h1
              rw [hd] at h2
              cases h2
          · exact ih.1 ⟨b, hb, hbad⟩
        · rw [if_neg hd]
          rfl
    · intro hall
      obtain ⟨t, h1, h2⟩ := hall e (List.mem_cons_self _ _)
      unfold Apply
      simp only [h1, h2, if_true]
      exact ih.2 (fun b hb => hall b (List.mem_cons_of_mem _ hb))

/-- C33 in the sample environment, after the test: the batch of one well-formed
entry of each of the ten operation types returns no error; with one byte
appended to the payload of entry 3 it returns an error; and the batch of the one
entry of opcode 0 returns an error. -/
theorem Apply_rejects_bad_entries_witness :
    sampleBatch.map (fun e => operTypeOf sampleEnv e.opType) = OperType.all.map some ∧
      Apply sampleEnv sampleBatch = none ∧
      (Apply sampleEnv (sampleBatchExtra 3)).isSome = true ∧
      (Apply sampleEnv [⟨0, [0], 0⟩]).isSome = true :=
  ⟨by decide, (Apply_rejects_bad_entries sampleEnv sampleBatch).2 (by decide),
    (Apply_rejects_bad_entries sampleEnv (sampleBatchExtra 3)).1
      ⟨⟨4, [3, 1], 0⟩, by decide, Or.inr ⟨OperType.CreateShard, by decide, by decide⟩⟩,
    (Apply_rejects_bad_entries sampleEnv [⟨0, [0], 0⟩]).1
      ⟨⟨0, [0], 0⟩, by decide, Or.inl (by decide)⟩⟩

end Catalog

namespace Wrapper

/-- An index in range has an element. -/
theorem getAt_of_lt (l : List DataPartition) (i : Int) (h0 : 0 ≤ i) (h1 : i < l.length) :
    getAt l i = some (l.get ⟨i.toNat, by omega⟩) := by
  unfold getAt
  rw [if_neg (by omega)]
  exact List.getElem?_eq_getElem (by omega)

/-- An index with an element is in range. -/
theorem getAt_range (l : List DataPartition) (i : Int) (p : DataPartition)
    (h : getAt l i = some p) : 0 ≤ i ∧ i < l.length := by
  unfold getAt at h
  by_cases h0 : i < 0
  · rw [if_pos h0] at h
    cases h
  · rw [if_neg h0] at h
    have := (List.getElem?_eq_some_iff.1 h).1
    omega

/-- The latency at an index that has an element. -/
theorem keyAt_of_getAt (l : List DataPartition) (i : Int) (p : DataPartition)
    (h : getAt l i = some p) : keyAt l i = p.AvgWrite := by
  unfold keyAt
  rw [h]

/-- Lists with the same elements at an index have the same latency there. -/
theorem keyAt_congr (l l' : List DataPartition) (i i' : Int) (h : getAt l i = getAt l' i') :
    keyAt l i = keyAt l' i' := by
  unfold keyAt
  rw [h]

/-- Setting one index of a list to an element: the counts. -/
theorem count_set_add (l : List DataPartition) (i : Nat) (h : i < l.length)
    (a b : DataPartition) :
    (l.set i a).count b + (if l[i] = b then 1 else 0) =
      l.count b + (if a = b then 1 else 0) := by
  rw [List.count_set a b l i h]
  have hle : (if l[i] = b then 1 else 0) ≤ l.count b := by
    by_cases hb : l[i] = b
    · rw [if_pos hb]
      exact List.count_pos_iff.2 (hb ▸ List.getElem_mem h)
    · rw [if_neg hb]
      exact Nat.zero_le _
  simp only [beq_iff_eq]
  split_ifs at hle ⊢ <;> omega

/-- Function `swap` on two indices in range: it does not panic, keeps the
length, gives a permutation, and exchanges the two elements. -/
theorem swap_spec (s : List DataPartition) (i j : Int) (hi0 : 0 ≤ i) (hi : i < s.length)
    (hj0 : 0 ≤ j) (hj : j < s.length) :
    ∃ s', swap s i j = some s' ∧ s'.length = s.length ∧ s'.Perm s ∧
      ∀ t, getAt s' t = if t = j then getAt s i else if t = i then getAt s j else getAt s t := by
  have hgi := getAt_of_lt s i hi0 hi
  have hgj := getAt_of_lt s j hj0 hj
  refine ⟨(s.set i.toNat (s.get ⟨j.toNat, by omega⟩)).set j.toNat (s.get ⟨i.toNat, by omega⟩),
    ?_, ?_, ?_, ?_⟩
  · unfold swap
    rw [hgi, hgj]
  · simp only [List.length_set]
  · rw [List.perm_iff_count]
    intro b
    have hni : i.toNat < s.length := by omega
    have hnj : j.toNat < s.length := by omega
    have h1 := count_set_add s i.toNat hni (s.get ⟨j.toNat, hnj⟩) b
    have hnj' : j.toNat < (s.set i.toNat (s.get ⟨j.toNat, hnj⟩)).length := by
      rw [List.length_set]; exact hnj
    have h2 := count_set_add (s.set i.toNat (s.get ⟨j.toNat, hnj⟩)) j.toNat hnj'
      (s.get ⟨i.toNat, hni⟩) b
    rw [List.getElem_set] at h2
    simp only [List.get_eq_getElem] at h1 h2 ⊢
    by_cases hij : i.toNat = j.toNat
    · simp only [hij, if_true] at h1 h2 ⊢
      omega
    · simp only [hij, if_false] at h2
      omega
  · intro t
    have hni : i.toNat < s.length := by omega
    have hnj : j.toNat < s.length := by omega
    unfold getAt
    by_cases ht0 : t < 0
    · have h1 : ¬ t = j := by omega
      have h2 : ¬ t = i := by omega
      simp only [ht0, if_true, h1, h2, if_false]
    · have hi' : ¬ i < 0 := by omega
      have hj' : ¬ j < 0 := by omega
      simp only [ht0, if_false, hi', hj', List.getElem?_set, List.length_set]
      by_cases h1 : t = j
      · subst h1
        simp only [if_true, hnj]
        rw [List.getElem?_eq_getElem hni]
        rfl
      · have h1' : ¬ j.toNat = t.toNat := by omega
        simp only [h1, h1', if_false]
        by_cases h2 : t = i
        · subst h2
          simp only [if_true, hni]
          rw [List.getElem?_eq_getElem hnj]
          rfl
        · have h2' : ¬ i.toNat = t.toNat := by omega
          simp only [h2, h2', if_false]

/-- The first inner loop of `partByPrivot`, from an index above `low` and with
enough fuel: it ends without panic at the first index below `high` whose latency
is above that of `low`, or at `high` (or where it started, beyond `high`). -/
theorem scanUp_spec (l : List DataPartition) (low high : Int) (hlow0 : 0 ≤ low)
    (hhigh : high < l.length) :
    ∀ (fuel : Nat) (i : Int), low < i → 1 ≤ fuel → high - i + 1 ≤ fuel →
      ∃ r, scanUp l low high fuel i = Result.done r ∧ i ≤ r ∧ (r ≤ high ∨ r = i) ∧
        (∀ t, i ≤ t → t < r → keyAt l t ≤ keyAt l low) ∧
        (r < high → keyAt l r > keyAt l low) := by
  intro fuel
  induction fuel with
  | zero => intro i _ h1; omega
  | succ fuel ih =>
    intro i hi _ hf
    unfold scanUp
    by_cases hlt : i < high
    · rw [if_pos hlt]
      have hgi := getAt_of_lt l i (by omega) (by omega)
      have hgl := getAt_of_lt l low hlow0 (by omega)
      rw [hgi, hgl]
      simp only
      have hki := keyAt_of_getAt l i _ hgi
      have hkl := keyAt_of_getAt l low _ hgl
      rw [← hki, ← hkl]
      by_cases hgt : keyAt l i > keyAt l low
      · rw [if_pos hgt]
        exact ⟨i, rfl, le_refl _, Or.inl (by omega), fun t h1 h2 => by omega, fun _ => hgt⟩
      · rw [if_neg hgt]
        obtain ⟨r, h1, h2, h3, h4, h5⟩ := ih (i + 1) (by omega) (by omega) (by omega)
        refine ⟨r, h1, by omega, Or.inl (by omega), fun t ht1 ht2 => ?_, h5⟩
        by_cases hti : t = i
        · subst hti
          omega
        · exact h4 t (by omega) ht2
    · rw [if_neg hlt]
      exact ⟨i, rfl, le_refl _, Or.inr rfl, fun t h1 h2 => by omega, fun h => by omega⟩

/-- The second inner loop of `partByPrivot`, from an index not below `low` and
with enough fuel: it ends without panic at the last index above `low` whose
latency is not above that of `low`, or at `low`. -/
theorem scanDown_spec (l : List DataPartition) (low : Int) (hlow0 : 0 ≤ low) :
    ∀ (fuel : Nat) (j : Int), low ≤ j → j < l.length → j - low + 1 ≤ fuel →
      ∃ r, scanDown l low fuel j = Result.done r ∧ low ≤ r ∧ r ≤ j ∧
        (∀ t, r < t → t ≤ j → keyAt l t > keyAt l low) ∧
        (low < r → keyAt l r ≤ keyAt l low) := by
  intro fuel
  induction fuel with
  | zero => intro j h1 _ h2; omega
  | succ fuel ih =>
    intro j hj hjn hf
    unfold scanDown
    by_cases hgt : j > low
    · rw [if_pos hgt]
      have hgj := getAt_of_lt l j (by omega) hjn
      have hgl := getAt_of_lt l low hlow0 (by omega)
      rw [hgj, hgl]
      simp only
      have hkj := keyAt_of_getAt l j _ hgj
      have hkl := keyAt_of_getAt l low _ hgl
      rw [← hkj, ← hkl]
      by_cases hle : keyAt l j ≤ keyAt l low
      · rw [if_pos hle]
        exact ⟨j, rfl, hj, le_refl _, fun t h1 h2 => by omega, fun _ => hle⟩
      · rw [if_neg hle]
        obtain ⟨r, h1, h2, h3, h4, h5⟩ := ih (j - 1) (by omega) (by omega) (by omega)
        refine ⟨r, h1, h2, by omega, fun t ht1 ht2 => ?_, h5⟩
        by_cases htj : t = j
        · subst htj
          omega
        · exact h4 t ht1 (by omega)
    · rw [if_neg hgt]
      exact ⟨j, rfl, hj, le_refl _, fun t h1 h2 => by omega, fun h => by omega⟩

/-- Nothing rearranged. -/
theorem Rearranged.refl (l : List DataPartition) (low high : Int) : Rearranged l l low high :=
  ⟨rfl, List.Perm.refl _, fun _ _ => rfl, fun t h1 h2 => ⟨t, h1, h2, rfl⟩⟩

/-- Rearranging twice within a range. -/
theorem Rearranged.trans {l l' l'' : List DataPartition} {low high : Int}
    (h1 : Rearranged l l' low high) (h2 : Rearranged l' l'' low high) :
    Rearranged l l'' low high := by
  refine ⟨h2.1.trans h1.1, h2.2.1.trans h1.2.1, fun t ht => ?_, fun t ht1 ht2 => ?_⟩
  · rw [h2.2.2.1 t ht, h1.2.2.1 t ht]
  · obtain ⟨t', a1, a2, a3⟩ := h2.2.2.2 t ht1 ht2
    obtain ⟨t'', b1, b2, b3⟩ := h1.2.2.2 t' a1 a2
    exact ⟨t'', b1, b2, a3.trans b3⟩

/-- Rearranging within a range is rearranging within a wider one. -/
theorem Rearranged.widen {l l' : List DataPartition} {low high low' high' : Int}
    (h : Rearranged l l' low high) (hl : low' ≤ low) (hh : high ≤ high') :
    Rearranged l l' low' high' := by
  refine ⟨h.1, h.2.1, fun t ht => h.2.2.1 t (by omega), fun t ht1 ht2 => ?_⟩
  by_cases hin : low ≤ t ∧ t ≤ high
  · obtain ⟨t', a1, a2, a3⟩ := h.2.2.2 t hin.1 hin.2
    exact ⟨t', by omega, by omega, a3⟩
  · exact ⟨t, ht1, ht2, h.2.2.1 t (by omega)⟩

/-- Function `swap` on two indices of a range rearranges within the range. -/
theorem swap_rearranged (s : List DataPartition) (i j low high : Int) (hi0 : 0 ≤ i)
    (hj0 : 0 ≤ j) (hi : i < s.length) (hj : j < s.length)
    (hil : low ≤ i) (hih : i ≤ high) (hjl : low ≤ j) (hjh : j ≤ high) :
    ∃ s', swap s i j = some s' ∧ Rearranged s s' low high ∧
      ∀ t, keyAt s' t = if t = j then keyAt s i else if t = i then keyAt s j else keyAt s t := by
  obtain ⟨s', h1, h2, h3, h4⟩ := swap_spec s i j hi0 hi hj0 hj
  refine ⟨s', h1, ⟨h2, h3, fun t ht => ?_, fun t ht1 ht2 => ?_⟩, fun t => ?_⟩
  · rw [h4 t, if_neg (by omega), if_neg (by omega)]
  · rw [h4 t]
    by_cases e1 : t = j
    · exact ⟨i, hil, hih, by rw [if_pos e1]⟩
    · by_cases e2 : t = i
      · exact ⟨j, hjl, hjh, by rw [if_neg e1, if_pos e2]⟩
      · exact ⟨t, ht1, ht2, by rw [if_neg e1, if_neg e2]⟩
  · by_cases e1 : t = j
    · rw [if_pos e1]
      exact keyAt_congr _ _ _ _ (by rw [h4 t, if_pos e1])
    · rw [if_neg e1]
      by_cases e2 : t = i
      · rw [if_pos e2]
        exact keyAt_congr _ _ _ _ (by rw [h4 t, if_neg e1, if_pos e2])
      · rw [if_neg e2]
        exact keyAt_congr _ _ _ _ (by rw [h4 t, if_neg e1, if_neg e2])

/-- The outer loop of `partByPrivot` with enough fuel, from a slice in which the
indices from `low + 1` up to `lo` hold latencies not above that of `low` and
those above `hi` up to `high` hold latencies above it: it ends without panic,
having rearranged the indices above `low` up to `high`, with every latency up to
`j` not above that of `low` and every latency beyond `j` above it. -/
theorem partLoop_spec (n m : Nat) (low high : Int) (hlow0 : 0 ≤ low) (hlh : low ≤ high)
    (hhigh : high < n) (hm : high - low + 1 ≤ m) :
    ∀ (fuel : Nat) (l : List DataPartition) (lo hi : Int), l.length = n → low < lo →
      hi ≤ high → (∀ t, low < t → t < lo → keyAt l t ≤ keyAt l low) →
      (∀ t, hi < t → t ≤ high → keyAt l t > keyAt l low) → 1 ≤ fuel → hi - lo + 2 ≤ fuel →
      ∃ l' j, partLoop m low high fuel l = Result.done (l', j) ∧
        Rearranged l l' (low + 1) high ∧ low ≤ j ∧ j ≤ high ∧
        (∀ t, low < t → t ≤ j → keyAt l' t ≤ keyAt l' low) ∧
        (∀ t, j < t → t ≤ high → keyAt l' t > keyAt l' low) := by
  intro fuel
  induction fuel with
  | zero => intro l lo hi _ _ _ _ _ h1; omega
  | succ fuel ih =>
    intro l lo hi hn hlo hhi hinv1 hinv2 _ hf
    unfold partLoop
    obtain ⟨i, hi1, hi2, hi3, hi4, hi5⟩ :=
      scanUp_spec l low high hlow0 (by omega) m (low + 1) (by omega) (by omega) (by omega)
    obtain ⟨j, hj1, hj2, hj3, hj4, hj5⟩ :=
      scanDown_spec l low hlow0 m high hlh (by omega) (by omega)
    rw [hi1, hj1]
    simp only
    by_cases hij : i ≥ j
    · rw [if_pos hij]
      refine ⟨l, j, rfl, Rearranged.refl _ _ _, hj2, hj3, fun t ht1 ht2 => ?_, hj4⟩
      by_cases htj : t = j
      · subst htj
        exact hj5 ht1
      · exact hi4 t (by omega) (by omega)
    · rw [if_neg hij]
      have hilt : i < j := by omega
      have hki : keyAt l i > keyAt l low := hi5 (by omega)
      have hkj : keyAt l j ≤ keyAt l low := hj5 (by omega)
      have hilo : lo ≤ i := by
        by_contra hc
        have := hinv1 i (by omega) (by omega)
        omega
      have hjhi : j ≤ hi := by
        by_contra hc
        have := hinv2 j (by omega) (by omega)
        omega
      obtain ⟨s', hs1, hs2, hs3⟩ := swap_rearranged l i j (low + 1) high (by omega) (by omega)
        (by omega) (by omega) (by omega) (by omega) (by omega) (by omega)
      rw [hs1]
      simp only
      have hslow : keyAt s' low = keyAt l low := by
        rw [hs3 low, if_neg (by omega), if_neg (by omega)]
      obtain ⟨l', j', h1, h2, h3, h4, h5, h6⟩ := ih s' (i + 1) (j - 1) (hs2.1.trans hn)
        (by omega) (by omega)
        (fun t ht1 ht2 => by
          rw [hslow, hs3 t, if_neg (by omega)]
          by_cases hti : t = i
          · rw [if_pos hti]
            exact hkj
          · rw [if_neg hti]
            exact hi4 t (by omega) (by omega))
        (fun t ht1 ht2 => by
          rw [hslow, hs3 t]
          by_cases htj : t = j
          · rw [if_pos htj]
            exact hki
          · rw [if_neg htj, if_neg (by omega)]
            exact hj4 t (by omega) ht2)
        (by omega) (by omega)
      exact ⟨l', j', h1, hs2.trans h2, h3, h4, h5, h6⟩

/-- Function `partByPrivot` on a range of the slice, with enough fuel: it
returns without panic an index `j` of the range, having rearranged the range so
that no latency before `j` is above that at `j` and none after `j` is below. -/
theorem partByPrivot_spec (m : Nat) (l : List DataPartition) (low high : Int)
    (hlow0 : 0 ≤ low) (hlh : low ≤ high) (hhigh : high < l.length)
    (hm : high - low + 1 ≤ m) :
    ∃ l' j, partByPrivot m l low high = Result.done (l', j) ∧ Rearranged l l' low high ∧
      low ≤ j ∧ j ≤ high ∧
      (∀ t, low ≤ t → t < j → keyAt l' t ≤ keyAt l' j) ∧
      (∀ t, j < t → t ≤ high → keyAt l' j ≤ keyAt l' t) := by
  obtain ⟨p, j, h1, h2, h3, h4, h5, h6⟩ := partLoop_spec l.length m low high hlow0 hlh hhigh hm
    m l (low + 1) high rfl (by omega) (le_refl _) (fun t a b => by omega)
    (fun t a b => by omega) (by omega) (by omega)
  unfold partByPrivot
  rw [h1]
  simp only
  by_cases hne : low ≠ j
  · rw [if_pos hne]
    obtain ⟨s', hs1, hs2, hs3⟩ := swap_rearranged p low j low high hlow0 (by omega)
      (by rw [h2.1]; omega) (by rw [h2.1]; omega) (le_refl _) hlh h3 h4
    rw [hs1]
    refine ⟨s', j, rfl, (h2.widen (by omega) (le_refl _)).trans hs2, h3, h4,
      fun t ht1 ht2 => ?_, fun t ht1 ht2 => ?_⟩
    · rw [hs3 t, hs3 j, if_pos rfl, if_neg (by omega)]
      by_cases htl : t = low
      · rw [if_pos htl]
        exact h5 j (by omega) (le_refl _)
      · rw [if_neg htl]
        exact h5 t (by omega) (by omega)
    · rw [hs3 t, hs3 j, if_pos rfl, if_neg (by omega), if_neg (by omega)]
      exact le_of_lt (h6 t ht1 ht2)
  · have hej : low = j := by
      by_contra hc
      exact hne hc
    rw [if_neg hne]
    subst hej
    exact ⟨p, low, rfl, h2.widen (by omega) (le_refl _), le_refl _, h4,
      fun t ht1 ht2 => by omega, fun t ht1 ht2 => le_of_lt (h6 t ht1 ht2)⟩

/-- Rearranging a range keeps what holds between the indices below the range and
the others, and between the indices up to the range and those beyond it. -/
theorem Rearranged.keeps {l l' : List DataPartition} {low high : Int}
    (h : Rearranged l l' low high)
    (hA : ∀ s t, 0 ≤ s → s < low → low ≤ t → t < l.length → keyAt l s ≤ keyAt l t)
    (hB : ∀ s t, 0 ≤ s → s ≤ high → high < t → t < l.length → keyAt l s ≤ keyAt l t)
    (hhigh : high < l.length) (hlow0 : 0 ≤ low) :
    (∀ s t, 0 ≤ s → s < low → low ≤ t → t < l'.length → keyAt l' s ≤ keyAt l' t) ∧
      (∀ s t, 0 ≤ s → s ≤ high → high < t → t < l'.length → keyAt l' s ≤ keyAt l' t) := by
  constructor
  · intro s t hs0 hs ht htn
    rw [h.1] at htn
    rw [keyAt_congr l' l s s (h.2.2.1 s (Or.inl hs))]
    by_cases hth : t ≤ high
    · obtain ⟨t', a1, a2, a3⟩ := h.2.2.2 t ht hth
      rw [keyAt_congr l' l t t' a3]
      exact hA s t' hs0 hs a1 (by omega)
    · rw [keyAt_congr l' l t t (h.2.2.1 t (Or.inr (by omega)))]
      exact hA s t hs0 hs ht htn
  · intro s t hs0 hs ht htn
    rw [h.1] at htn
    rw [keyAt_congr l' l t t (h.2.2.1 t (Or.inr ht))]
    by_cases hsl : low ≤ s
    · obtain ⟨s', a1, a2, a3⟩ := h.2.2.2 s hsl hs
      rw [keyAt_congr l' l s s' a3]
      exact hB s' t (by omega) a2 ht htn
    · rw [keyAt_congr l' l s s (h.2.2.1 s (Or.inl (by omega)))]
      exact hB s t hs0 hs ht htn

/-- The loop of `selectKminDataPartition` with enough fuel, on a range that
holds `k`, from a slice in which no latency below the range is above one at or
beyond `low`, and none up to `high` is above one beyond the range: it ends
without panic with a permutation in which no latency below `k` is above one at
or beyond `k`. -/
theorem selectLoop_spec (n m : Nat) (k : Int) (hm : n ≤ m) :
    ∀ (fuel : Nat) (l : List DataPartition) (low high : Int), l.length = n → 0 ≤ low →
      low ≤ k → k ≤ high → high < n → high - low + 1 ≤ fuel →
      (∀ s t, 0 ≤ s → s < low → low ≤ t → t < l.length → keyAt l s ≤ keyAt l t) →
      (∀ s t, 0 ≤ s → s ≤ high → high < t → t < l.length → keyAt l s ≤ keyAt l t) →
      ∃ l', selectLoop m k fuel l low high = Result.done l' ∧ l'.length = n ∧ l'.Perm l ∧
        ∀ s t, 0 ≤ s → s < k → k ≤ t → t < n → keyAt l' s ≤ keyAt l' t := by
  intro fuel
  induction fuel with
  | zero => intro l low high _ _ _ _ _ h; omega
  | succ fuel ih =>
    intro l low high hn hlow0 hlk hkh hhigh hf hA hB
    obtain ⟨p, j, h1, h2, h3, h4, h5, h6⟩ := partByPrivot_spec m l low high hlow0 (by omega)
      (by omega) (by omega)
    obtain ⟨hA', hB'⟩ := h2.keeps hA hB (by omega) hlow0
    have hpn : p.length = n := h2.1.trans hn
    rw [hpn] at hA' hB'
    unfold selectLoop
    rw [h1]
    simp only
    by_cases hjk : j < k
    · rw [if_pos hjk]
      obtain ⟨l', a1, a2, a3, a4⟩ := ih p (j + 1) high hpn (by omega) (by omega) hkh hhigh
        (by omega)
        (fun s t hs0 hs ht htn => by
          rw [hpn] at htn
          by_cases hsl : s < low
          · exact hA' s t hs0 hsl (by omega) htn
          · by_cases hth : t ≤ high
            · have e1 : keyAt p s ≤ keyAt p j := by
                by_cases hsj : s = j
                · rw [hsj]
                · exact h5 s (by omega) (by omega)
              exact le_trans e1 (h6 t (by omega) hth)
            · exact hB' s t hs0 (by omega) (by omega) htn)
        (fun s t hs0 hs ht htn => by
          rw [hpn] at htn
          exact hB' s t hs0 hs ht htn)
      exact ⟨l', a1, a2, a3.trans h2.2.1, a4⟩
    · rw [if_neg hjk]
      by_cases hjk' : j > k
      · rw [if_pos hjk']
        obtain ⟨l', a1, a2, a3, a4⟩ := ih p low (j - 1) hpn hlow0 hlk (by omega) (by omega)
          (by omega)
          (fun s t hs0 hs ht htn => by
            rw [hpn] at htn
            exact hA' s t hs0 hs ht htn)
          (fun s t hs0 hs ht htn => by
            rw [hpn] at htn
            by_cases hth : high < t
            · exact hB' s t hs0 (by omega) hth htn
            · by_cases hsl : s < low
              · exact hA' s t hs0 hsl (by omega) htn
              · have e1 : keyAt p s ≤ keyAt p j := h5 s (by omega) (by omega)
                have e2 : keyAt p j ≤ keyAt p t := by
                  by_cases htj : t = j
                  · rw [htj]
                  · exact h6 t (by omega) (by omega)
                exact le_trans e1 e2)
        exact ⟨l', a1, a2, a3.trans h2.2.1, a4⟩
      · rw [if_neg hjk']
        have hej : j = k := by omega
        subst hej
        refine ⟨p, rfl, hpn, h2.2.1, fun s t hs0 hs ht htn => ?_⟩
        by_cases hsl : s < low
        · exact hA' s t hs0 hsl (by omega) htn
        · by_cases hth : high < t
          · exact hB' s t hs0 (by omega) hth htn
          · have e1 : keyAt p s ≤ keyAt p j := h5 s (by omega) hs
            have e2 : keyAt p j ≤ keyAt p t := by
              by_cases htj : t = j
              · rw [htj]
              · exact h6 t (by omega) (by omega)
            exact le_trans e1 e2

/-- Function `selectKminDataPartition` with enough fuel, for `k` from 1 up to
the length of the slice less one (any `k` from 1 on for a slice of one element):
it returns `k` without panic and leaves a permutation in which no latency below
index `k` is above one at or beyond index `k`. -/
theorem selectKminDataPartition_spec (fuel : Nat) (l : List DataPartition) (k : Int)
    (hk1 : 1 ≤ k) (hk : 2 ≤ l.length → k ≤ (l.length : Int) - 1) (hfuel : l.length ≤ fuel) :
    ∃ l', selectKminDataPartition fuel l k = Result.done (l', k) ∧ l'.length = l.length ∧
      l'.Perm l ∧
      ∀ s t, 0 ≤ s → s < k → k ≤ t → t < l.length → keyAt l' s ≤ keyAt l' t := by
  unfold selectKminDataPartition
  by_cases h1 : l.length ≤ 1
  · rw [if_pos h1]
    exact ⟨l, rfl, rfl, List.Perm.refl _, fun s t hs0 hs ht htn => by omega⟩
  · rw [if_neg h1]
    obtain ⟨l', a1, a2, a3, a4⟩ := selectLoop_spec l.length fuel k hfuel fuel l 0
      ((l.length : Int) - 1) rfl (le_refl _) (by omega) (hk (by omega)) (by omega) (by omega)
      (fun s t hs0 hs => by omega) (fun s t hs0 hs ht htn => by omega)
    rw [a1]
    exact ⟨l', rfl, a2, a3, a4⟩

/-- The value `kValue` that `Refresh` computes for a slice of `n` elements, `n`
at least 1, and a `kValueHundred` from 1 to 99: the truncated quotient is the
quotient, and the value lies from 1 to `n`, below `n` when `n` is at least 2. -/
theorem kValue_bounds (n : Nat) (h : Int) (hn : 1 ≤ n) (h1 : 1 ≤ h) (h99 : h ≤ 99) :
    Int.tdiv (((n : Int) - 1) * h) 100 + 1 = ((n : Int) - 1) * h / 100 + 1 ∧
      1 ≤ ((n : Int) - 1) * h / 100 + 1 ∧ ((n : Int) - 1) * h / 100 + 1 ≤ n ∧
      (2 ≤ n → ((n : Int) - 1) * h / 100 + 1 ≤ (n : Int) - 1) := by
  have hn0 : (0 : Int) ≤ (n : Int) - 1 := by omega
  have hP0 : 0 ≤ ((n : Int) - 1) * h := mul_nonneg hn0 (by omega)
  have hP1 : ((n : Int) - 1) * h ≤ ((n : Int) - 1) * 99 := mul_le_mul_of_nonneg_left h99 hn0
  refine ⟨by rw [Int.tdiv_eq_ediv hP0 (by decide)], ?_, ?_, fun h2 => ?_⟩
  · omega
  · omega
  · omega

/-- Method `Refresh` on a non-empty slice, with `kValueHundred` from 1 to 99 and
fuel at least the length: the selector it leaves. -/
theorem Refresh_done (fuel : Nat) (s : KFasterRandomSelector)
    (partitions : List DataPartition) (hne : partitions ≠ []) (h1 : 1 ≤ s.kValueHundred)
    (h99 : s.kValueHundred ≤ 99) (hfuel : partitions.length ≤ fuel) :
    ∃ parted, Refresh fuel s partitions =
        Result.done ⟨s.kValueHundred,
          ((partitions.length : Int) - 1) * s.kValueHundred / 100 + 1, parted⟩ ∧
      1 ≤ ((partitions.length : Int) - 1) * s.kValueHundred / 100 + 1 ∧
      ((partitions.length : Int) - 1) * s.kValueHundred / 100 + 1 ≤ partitions.length ∧
      parted.length = partitions.length ∧ parted.Perm partitions ∧
      ∀ a b, 0 ≤ a → a < ((partitions.length : Int) - 1) * s.kValueHundred / 100 + 1 →
        ((partitions.length : Int) - 1) * s.kValueHundred / 100 + 1 ≤ b →
        b < partitions.length → keyAt parted a ≤ keyAt parted b := by
  have hn : 1 ≤ partitions.length := by
    cases partitions with
    | nil => exact absurd rfl hne
    | cons p ps => simp
  obtain ⟨e1, e2, e3, e4⟩ := kValue_bounds partitions.length s.kValueHundred hn h1 h99
  obtain ⟨l', a1, a2, a3, a4⟩ := selectKminDataPartition_spec fuel partitions
    (((partitions.length : Int) - 1) * s.kValueHundred / 100 + 1) e2 e4 hfuel
  refine ⟨l', ?_, e2, e3, a2, a3, a4⟩
  unfold Refresh
  simp only [e1, a1]

/-- C40. `Refresh` on a non-empty slice of `n` partitions, with `kValueHundred`
from 1 to 99 and fuel at least `n`, ends without panic (no index outside the
slice in `partByPrivot`, `swap` and `selectKminDataPartition`): it sets `kValue`
to `(n - 1) * kValueHundred / 100 + 1`, which lies from 1 to `n`, stores a
permutation of the partitions given, and every partition at an index below
`kValue` has a write latency not above that of every partition at an index from
`kValue` on. -/
theorem Refresh_k_fastest (fuel : Nat) (s : KFasterRandomSelector)
    (partitions : List DataPartition) (hne : partitions ≠ []) (h1 : 1 ≤ s.kValueHundred)
    (h99 : s.kValueHundred ≤ 99) (hfuel : partitions.length ≤ fuel) :
    ∃ parted, Refresh fuel s partitions =
        Result.done ⟨s.kValueHundred,
          ((partitions.length : Int) - 1) * s.kValueHundred / 100 + 1, parted⟩ ∧
      1 ≤ ((partitions.length : Int) - 1) * s.kValueHundred / 100 + 1 ∧
      ((partitions.length : Int) - 1) * s.kValueHundred / 100 + 1 ≤ partitions.length ∧
      parted.Perm partitions ∧
      ∀ (a b : Nat) (pa pb : DataPartition), parted[a]? = some pa → parted[b]? = some pb →
        (a : Int) < ((partitions.length : Int) - 1) * s.kValueHundred / 100 + 1 →
        ((partitions.length : Int) - 1) * s.kValueHundred / 100 + 1 ≤ (b : Int) →
        pa.AvgWrite ≤ pb.AvgWrite := by
  obtain ⟨l', a0, e2, e3, a2, a3, a4⟩ := Refresh_done fuel s partitions hne h1 h99 hfuel
  refine ⟨l', a0, e2, e3, a3, fun a b pa pb ha hb hak hkb => ?_⟩
  have hbn : b < l'.length := (List.getElem?_eq_some_iff.1 hb).1
  have hga : getAt l' (a : Int) = some pa := by
    unfold getAt
    rw [if_neg (by omega)]
    simpa using ha
  have hgb : getAt l' (b : Int) = some pb := by
    unfold getAt
    rw [if_neg (by omega)]
    simpa using hb
  have := a4 a b (by omega) hak hkb (by omega)
  rw [keyAt_of_getAt l' a pa hga, keyAt_of_getAt l' b pb hgb] at this
  exact this

/-- C40 on the sample partitions, of latencies 50, 10, 40, 20, 30, with
`kValueHundred` 50: `kValue` is 3 and the three fastest partitions come first. -/
theorem Refresh_k_fastest_witness :
    Refresh 5 ⟨50, 0, []⟩ sampleParts =
        Result.done ⟨50, 3, [⟨4, 1, 20⟩, ⟨2, 1, 10⟩, ⟨5, 1, 30⟩, ⟨3, 2, 40⟩, ⟨1, 1, 50⟩]⟩ ∧
      ∃ parted, Refresh 5 ⟨50, 0, []⟩ sampleParts =
          Result.done ⟨50, ((sampleParts.length : Int) - 1) * 50 / 100 + 1, parted⟩ ∧
        parted.Perm sampleParts :=
  ⟨by decide,
    match Refresh_k_fastest 5 ⟨50, 0, []⟩ sampleParts (by decide) (by decide) (by decide)
      (by decide) with
    | ⟨parted, h, _, _, hp, _⟩ => ⟨parted, h, hp⟩⟩

/-- The elements of a slice are what its indices hold. -/
theorem mem_iff_getAt (l : List DataPartition) (p : DataPartition) :
    p ∈ l ↔ ∃ t : Int, 0 ≤ t ∧ t < l.length ∧ getAt l t = some p := by
  constructor
  · intro h
    obtain ⟨n, hn, hp⟩ := List.mem_iff_getElem.1 h
    refine ⟨((n : Nat) : Int), by omega, by omega, ?_⟩
    rw [getAt_of_lt l ((n : Nat) : Int) (by omega) (by omega)]
    simp only [List.get_eq_getElem, Int.toNat_ofNat, hp]
  · rintro ⟨t, h0, h1, h2⟩
    rw [getAt_of_lt l t h0 h1] at h2
    simp only [Option.some.injEq] at h2
    rw [← h2]
    exact List.get_mem _ _ _

/-- A loop of `Select` over indices in range: it does not panic; it ends without
a partition exactly when no index holds one that fits, and otherwise with a
partition that fits, held by one of the indices. -/
theorem firstFit_spec (l : List DataPartition) (excluded : DataPartition → Bool)
    (mediaType : Nat) :
    ∀ idxs : List Int, (∀ t ∈ idxs, 0 ≤ t ∧ t < l.length) →
      ∃ r, firstFit l excluded mediaType idxs = Result.done r ∧
        (r = none ↔ ∀ t ∈ idxs, ∀ p, getAt l t = some p → fits excluded mediaType p = false) ∧
        (∀ dp, r = some dp → fits excluded mediaType dp = true ∧
          ∃ t ∈ idxs, getAt l t = some dp) := by
  intro idxs
  induction idxs with
  | nil =>
    intro _
    exact ⟨none, rfl, ⟨fun _ t ht => (by cases ht), fun _ => rfl⟩, fun dp h => (by cases h)⟩
  | cons t ts ih =>
    intro hr
    obtain ⟨h0, h1⟩ := hr t (List.mem_cons_self _ _)
    have hg := getAt_of_lt l t h0 h1
    unfold firstFit
    rw [hg]
    simp only
    by_cases hf : fits excluded mediaType (l.get ⟨t.toNat, by omega⟩) = true
    · rw [if_pos hf]
      refine ⟨_, rfl, ⟨fun h => (by cases h), fun h => ?_⟩, fun dp hdp => ?_⟩
      · have := h t (List.mem_cons_self _ _) _ hg
        rw [hf] at this
        cases this
      · simp only [Option.some.injEq] at hdp
        subst hdp
        exact ⟨hf, t, List.mem_cons_self _ _, hg⟩
    · rw [if_neg hf]
      obtain ⟨r, e1, e2, e3⟩ := ih (fun u hu => hr u (List.mem_cons_of_mem _ hu))
      refine ⟨r, e1, ⟨fun h u hu p hp => ?_, fun h => ?_⟩, fun dp hdp => ?_⟩
      · rcases List.mem_cons.1 hu with rfl | hu
        · rw [hg] at hp
          simp only [Option.some.injEq] at hp
          subst hp
          simpa using hf
        · exact e2.1 h u hu p hp
      · exact e2.2 (fun u hu p hp => h u (List.mem_cons_of_mem _ hu) p hp)
      · obtain ⟨a1, u, hu, a2⟩ := e3 dp hdp
        exact ⟨a1, u, List.mem_cons_of_mem _ hu, a2⟩

/-- The indices of the loop over the faster partitions lie below `kValue`, and
with `index` itself they are all the indices below `kValue`. -/
theorem fasterIndices_spec (k index : Int) (hi0 : 0 ≤ index) (hik : index < k) :
    (∀ t ∈ fasterIndices k index, 0 ≤ t ∧ t < k) ∧
      ∀ t, 0 ≤ t → t < k → t = index ∨ t ∈ fasterIndices k index := by
  have hk : 0 < k := by omega
  constructor
  · intro t ht
    obtain ⟨i, _, rfl⟩ := List.mem_map.1 ht
    rw [Int.tmod_eq_emod (by omega) (by omega)]
    exact ⟨Int.emod_nonneg _ (by omega), Int.emod_lt_of_pos _ hk⟩
  · intro t ht0 htk
    by_cases hti : t = index
    · exact Or.inl hti
    · right
      by_cases hlt : index < t
      · refine List.mem_map.2 ⟨(t - index - 1).toNat, List.mem_range.2 (by omega), ?_⟩
        rw [Int.tmod_eq_emod (by omega) (by omega)]
        have e : index + (((t - index - 1).toNat : Int) + 1) = t := by omega
        rw [e]
        exact Int.emod_eq_of_lt ht0 htk
      · refine List.mem_map.2 ⟨(t - index + k - 1).toNat, List.mem_range.2 (by omega), ?_⟩
        rw [Int.tmod_eq_emod (by omega) (by omega)]
        have e : index + (((t - index + k - 1).toNat : Int) + 1) = t + k := by omega
        rw [e, Int.add_emod_self]
        exact Int.emod_eq_of_lt ht0 htk

/-- The indices of the loop over the slower partitions are the indices from
`kValue` on. -/
theorem slowerIndices_spec (k index : Int) (n : Nat) (hi0 : 0 ≤ index) (hkn : k ≤ n) :
    (∀ t ∈ slowerIndices k index ((n : Int) - k), k ≤ t ∧ t < n) ∧
      ∀ t, k ≤ t → t < n → t ∈ slowerIndices k index ((n : Int) - k) := by
  constructor
  · intro t ht
    obtain ⟨i, hi, rfl⟩ := List.mem_map.1 ht
    have hpos : 0 < (n : Int) - k := by
      have := List.mem_range.1 hi
      omega
    rw [Int.tmod_eq_emod (by omega) (by omega)]
    have h1 := Int.emod_nonneg (index + (i : Int)) (by omega : (n : Int) - k ≠ 0)
    have h2 := Int.emod_lt_of_pos (index + (i : Int)) hpos
    omega
  · intro t htk htn
    have hpos : 0 < (n : Int) - k := by omega
    have h1 := Int.emod_nonneg (t - k - index) (by omega : (n : Int) - k ≠ 0)
    have h2 := Int.emod_lt_of_pos (t - k - index) hpos
    refine List.mem_map.2 ⟨((t - k - index) % ((n : Int) - k)).toNat,
      List.mem_range.2 (by omega), ?_⟩
    rw [Int.tmod_eq_emod (by omega) (by omega)]
    have e : (((t - k - index) % ((n : Int) - k)).toNat : Int) =
        (t - k - index) % ((n : Int) - k) := by omega
    rw [e, Int.add_emod_emod]
    have e2 : index + (t - k - index) = t - k := by omega
    rw [e2, Int.emod_eq_of_lt (by omega) (by omega)]
    omega

/-- Method `Select` on a selector with a non-empty slice, a `kValue` from 1 to
the length and an index below `kValue`: it does not panic; it returns the error
exactly when no partition fits; otherwise it returns a partition that fits,
from an index below `kValue` when one of those fits and from an index from
`kValue` on when none does. -/
theorem Select_spec (s : KFasterRandomSelector) (excluded : DataPartition → Bool)
    (mediaType : Nat) (index : Int) (hk1 : 1 ≤ s.kValue)
    (hkn : s.kValue ≤ s.partitions.length) (hi0 : 0 ≤ index) (hik : index < s.kValue) :
    ∃ r, Select s excluded mediaType index = Result.done r ∧
      (r = none ↔ ∀ p ∈ s.partitions, fits excluded mediaType p = false) ∧
      ∀ dp, r = some dp → fits excluded mediaType dp = true ∧ dp ∈ s.partitions ∧
        ((∃ t p, 0 ≤ t ∧ t < s.kValue ∧ getAt s.partitions t = some p ∧
            fits excluded mediaType p = true) →
          ∃ t, 0 ≤ t ∧ t < s.kValue ∧ getAt s.partitions t = some dp) ∧
        ((∀ t p, 0 ≤ t → t < s.kValue → getAt s.partitions t = some p →
            fits excluded mediaType p = false) →
          ∃ t, s.kValue ≤ t ∧ t < s.partitions.length ∧ getAt s.partitions t = some dp) := by
  have hlen : ¬ s.partitions.length = 0 := by omega
  have hkpos : ¬ s.kValue ≤ 0 := by omega
  obtain ⟨p0, hg⟩ : ∃ p0, getAt s.partitions index = some p0 :=
    ⟨_, getAt_of_lt s.partitions index hi0 (by omega)⟩
  have hm0 : p0 ∈ s.partitions := (mem_iff_getAt _ _).2 ⟨index, hi0, by omega, hg⟩
  obtain ⟨hf1, hf2⟩ := fasterIndices_spec s.kValue index hi0 hik
  obtain ⟨hs1, hs2⟩ := slowerIndices_spec s.kValue index s.partitions.length hi0 hkn
  unfold Select
  rw [if_neg hlen, if_neg hkpos, hg]
  simp only
  by_cases hfit : fits excluded mediaType p0 = true
  · rw [if_pos hfit]
    refine ⟨_, rfl, ⟨fun h => (by cases h), fun h => ?_⟩, fun dp hdp => ?_⟩
    · have := h p0 hm0
      rw [hfit] at this
      cases this
    · simp only [Option.some.injEq] at hdp
      subst hdp
      refine ⟨hfit, hm0, fun _ => ⟨index, hi0, hik, hg⟩, fun hnone => ?_⟩
      have := hnone index _ hi0 hik hg
      rw [hfit] at this
      cases this
  · rw [if_neg hfit]
    have hfit' : fits excluded mediaType p0 = false := by
      simpa using hfit
    obtain ⟨r1, a1, a2, a3⟩ := firstFit_spec s.partitions excluded mediaType
      (fasterIndices s.kValue index) (fun t ht => ⟨(hf1 t ht).1, by have := (hf1 t ht).2; omega⟩)
    rw [a1]
    cases r1 with
    | some dp1 =>
      simp only
      obtain ⟨b1, t, ht, b2⟩ := a3 dp1 rfl
      refine ⟨_, rfl, ⟨fun h => (by cases h), fun h => ?_⟩, fun dp hdp => ?_⟩
      · have hm : dp1 ∈ s.partitions :=
          (mem_iff_getAt _ _).2 ⟨t, (hf1 t ht).1, by have := (hf1 t ht).2; omega, b2⟩
        have := h dp1 hm
        rw [b1] at this
        cases this
      · simp only [Option.some.injEq] at hdp
        subst hdp
        refine ⟨b1, (mem_iff_getAt _ _).2 ⟨t, (hf1 t ht).1, by have := (hf1 t ht).2; omega, b2⟩,
          fun _ => ⟨t, (hf1 t ht).1, (hf1 t ht).2, b2⟩, fun hnone => ?_⟩
        have := hnone t _ (hf1 t ht).1 (hf1 t ht).2 b2
        rw [b1] at this
        cases this
    | none =>
      simp only
      have hfast : ∀ t p, 0 ≤ t → t < s.kValue → getAt s.partitions t = some p →
          fits excluded mediaType p = false := by
        intro t p ht0 htk hp
        rcases hf2 t ht0 htk with rfl | hmem
        · rw [hg] at hp
          simp only [Option.some.injEq] at hp
          subst hp
          exact hfit'
        · exact a2.1 rfl t hmem p hp
      obtain ⟨r2, c1, c2, c3⟩ := firstFit_spec s.partitions excluded mediaType
        (slowerIndices s.kValue index ((s.partitions.length : Int) - s.kValue))
        (fun t ht => ⟨by have := (hs1 t ht).1; omega, (hs1 t ht).2⟩)
      refine ⟨r2, c1, ⟨fun h p hp => ?_, fun h => ?_⟩, fun dp hdp => ?_⟩
      · obtain ⟨t, ht0, htn, hgt⟩ := (mem_iff_getAt _ _).1 hp
        by_cases htk : t < s.kValue
        · exact hfast t p ht0 htk hgt
        · exact c2.1 h t (hs2 t (by omega) htn) p hgt
      · exact c2.2 (fun t ht p hp =>
          h p ((mem_iff_getAt _ _).2 ⟨t, by have := (hs1 t ht).1; omega, (hs1 t ht).2, hp⟩))
      · obtain ⟨d1, t, ht, d2⟩ := c3 dp hdp
        refine ⟨d1, (mem_iff_getAt _ _).2 ⟨t, by have := (hs1 t ht).1; omega, (hs1 t ht).2, d2⟩,
          fun hex => ?_, fun _ => ⟨t, (hs1 t ht).1, (hs1 t ht).2, d2⟩⟩
        obtain ⟨u, p, hu0, huk, hgu, hfu⟩ := hex
        have := hfast u p hu0 huk hgu
        rw [hfu] at this
        cases this

/-- C35. On a selector that `Refresh` produced from a non-empty slice (with
`kValueHundred` from 1 to 99), for every exclusion, media type and index from 0
below `kValue`, `Select` does not panic, so no index is outside the slice; it
returns the error exactly when no partition is both not excluded and of the
media type; otherwise it returns such a partition of the slice, held at an
index below `kValue` whenever one of those indices holds such a partition, and
at an index from `kValue` on when none does. -/
theorem Select_sound_complete (fuel : Nat) (s0 s : KFasterRandomSelector)
    (partitions : List DataPartition) (hne : partitions ≠ []) (h1 : 1 ≤ s0.kValueHundred)
    (h99 : s0.kValueHundred ≤ 99) (hfuel : partitions.length ≤ fuel)
    (hs : Refresh fuel s0 partitions = Result.done s)
    (excluded : DataPartition → Bool) (mediaType : Nat) (index : Int) (hi0 : 0 ≤ index)
    (hik : index < s.kValue) :
    s.partitions.Perm partitions ∧
    ∃ r, Select s excluded mediaType index = Result.done r ∧
      (r = none ↔ ∀ p ∈ s.partitions, fits excluded mediaType p = false) ∧
      ∀ dp, r = some dp → fits excluded mediaType dp = true ∧ dp ∈ s.partitions ∧
        ((∃ t p, 0 ≤ t ∧ t < s.kValue ∧ getAt s.partitions t = some p ∧
            fits excluded mediaType p = true) →
          ∃ t, 0 ≤ t ∧ t < s.kValue ∧ getAt s.partitions t = some dp) ∧
        ((∀ t p, 0 ≤ t → t < s.kValue → getAt s.partitions t = some p →
            fits excluded mediaType p = false) →
          ∃ t, s.kValue ≤ t ∧ t < s.partitions.length ∧ getAt s.partitions t = some dp) := by
  obtain ⟨parted, a0, e2, e3, a2, a3, _⟩ := Refresh_done fuel s0 partitions hne h1 h99 hfuel
  rw [a0] at hs
  simp only [Result.done.injEq] at hs
  subst hs
  exact ⟨a3, Select_spec _ excluded mediaType index e2 (by simp only [a2]; exact e3) hi0 hik⟩

/-- C35 on the selector of the sample partitions, where `kValue` is 3: with
partition 2 excluded and index 1, `Select` for media type 1 returns partition 5,
from index 2; with all partitions but partition 1 excluded it returns
partition 1, from index 4; for media type 3 it returns the error. -/
theorem Select_sound_complete_witness :
    Refresh 5 ⟨50, 0, []⟩ sampleParts = Result.done sampleSelector ∧
      Select sampleSelector (fun p => decide (p.PartitionID = 2)) 1 1 =
        Result.done (some ⟨5, 1, 30⟩) ∧
      Select sampleSelector (fun p => decide (p.PartitionID ≠ 1)) 1 1 =
        Result.done (some ⟨1, 1, 50⟩) ∧
      Select sampleSelector (fun _ => false) 3 1 = Result.done none ∧
      ∃ r, Select sampleSelector (fun _ => false) 3 1 = Result.done r ∧
        (r = none ↔ ∀ p ∈ sampleSelector.partitions, fits (fun _ => false) 3 p = false) :=
  ⟨by decide, by decide, by decide, by decide,
    match (Select_sound_complete 5 ⟨50, 0, []⟩ sampleSelector sampleParts (by decide)
      (by decide) (by decide) (by decide) (by decide) (fun _ => false) 3 1 (by decide)
      (by decide)).2 with
    | ⟨r, h, hiff, _⟩ => ⟨r, h, hiff⟩⟩

end Wrapper

namespace Iterator

/-- The paginator with the bound 101 and the page size 10 is the test's. -/
theorem pageLoop_test : ∀ (fuel : Nat) (next : Int) (ints : List Int),
    pageLoop 101 10 fuel next ints = testNextLoop fuel next ints := by
  intro fuel
  induction fuel with
  | zero => intro next ints; rfl
  | succ fuel ih =>
    intro next ints
    simp only [pageLoop, testNextLoop, ih]
    rfl

/-- The paginator with the bound 101 and the page size 10 is the test's `next`. -/
theorem pageNext_test : pageNext 101 10 = testNext := by
  funext i o
  simp only [pageNext, testNext, pageLoop_test]
  rfl

/-- The numbers from `m + 1`: the first, then those from `m + 2`. -/
theorem seqFrom_succ (m : Int) (c : Nat) : seqFrom m (c + 1) = (m + 1) :: seqFrom (m + 1) c := by
  unfold seqFrom
  rw [List.range_succ_eq_map, List.map_cons, List.map_map]
  refine congrArg₂ List.cons (by simp) (List.map_congr_left (fun k _ => ?_))
  simp only [Function.comp_apply, Nat.cast_succ]
  omega

/-- The numbers from `m + 1` in two runs. -/
theorem seqFrom_append (m : Int) (a b : Nat) :
    seqFrom m a ++ seqFrom (m + a) b = seqFrom m (a + b) := by
  induction a generalizing m with
  | zero => simp [seqFrom]
  | succ a ih =>
    rw [seqFrom_succ, List.cons_append, Nat.add_right_comm, seqFrom_succ]
    have e : m + ((a + 1 : Nat) : Int) = m + 1 + (a : Int) := by omega
    rw [e, ih]

/-- The length of a run of numbers. -/
theorem seqFrom_length (m : Int) (c : Nat) : (seqFrom m c).length = c := by
  simp [seqFrom]

/-- The loop of the paginator: it adds the numbers after `next`, as many as the
fuel, the bound and the page size allow. -/
theorem pageLoop_spec (n p : Nat) : ∀ (fuel : Nat) (next : Int) (ints : List Int),
    pageLoop n p fuel next ints =
      (next + ((min fuel (min ((n : Int) - next).toNat (p - ints.length)) : Nat) : Int),
        ints ++ seqFrom next (min fuel (min ((n : Int) - next).toNat (p - ints.length)))) := by
  intro fuel
  induction fuel with
  | zero =>
    intro next ints
    simp [pageLoop, seqFrom]
  | succ fuel ih =>
    intro next ints
    unfold pageLoop
    by_cases h : next < (n : Int) ∧ ints.length < p
    · rw [if_pos h, ih]
      have e : min (fuel + 1) (min ((n : Int) - next).toNat (p - ints.length)) =
          min fuel (min ((n : Int) - (next + 1)).toNat (p - (ints ++ [next + 1]).length)) + 1 := by
        simp only [List.length_append, List.length_singleton]
        omega
      rw [e, seqFrom_succ, List.append_assoc]
      refine Prod.ext ?_ rfl
      simp only [Nat.cast_succ, List.singleton_append]
      omega
    · rw [if_neg h]
      have e : min (fuel + 1) (min ((n : Int) - next).toNat (p - ints.length)) = 0 := by omega
      rw [e]
      simp [seqFrom]

/-- One page of the paginator from a marker below the bound: the numbers after
the marker, as many as the page size and the bound allow and at least one, with
the next marker `-1` when the bound is reached. -/
theorem pageNext_spec (n p : Nat) (hp : 1 ≤ p) (m : Int) (hmn : m < n) (o : testOut) :
    ∃ c : Nat, 1 ≤ c ∧ m + c ≤ n ∧ (m + c < n → c = p) ∧
      pageNext n p ⟨m⟩ o =
        (⟨seqFrom m c, if m + (c : Int) ≥ (n : Int) then -1 else m + (c : Int)⟩, none) := by
  refine ⟨min p (min ((n : Int) - m).toNat (p - 0)), by omega, by omega, by omega, ?_⟩
  simp only [pageNext, pageLoop_spec, List.length_nil, List.nil_append]

/-- Function `Merged` on the paginator, from a marker below the bound and with
fuel for the numbers left: it returns no error and has merged the numbers after
the marker up to the bound. -/
theorem Merged_pageNext (n p : Nat) (hp : 1 ≤ p) :
    ∀ (fuel : Nat) (m : Int) (acc : List Int) (x : Int) (page : testOut), 0 ≤ m → m < n →
      (n : Int) - m ≤ fuel →
      ∃ log, Merged (pageNext n p) testIterIn testIterOut fuel ⟨m⟩ ⟨acc, x⟩ page =
        some (⟨-1⟩, ⟨acc ++ seqFrom m ((n : Int) - m).toNat, -1⟩, none, log) := by
  intro fuel
  induction fuel with
  | zero => intro m acc x page _ h1 h2; omega
  | succ fuel ih =>
    intro m acc x page hm0 hmn hf
    obtain ⟨c, hc1, hc2, hc3, hpage⟩ := pageNext_spec n p hp m hmn page
    unfold Merged
    simp only [testIterIn, testIterOut, hpage]
    by_cases hend : m + (c : Int) ≥ (n : Int)
    · have hc : ((n : Int) - m).toNat = c := by omega
      simp only [hend, if_true, hc]
      refine ⟨roundEvents, ?_⟩
      simp
    · have hnx : ¬ (m + (c : Int) < 0) := by omega
      simp only [hend, if_false, hnx, decide_False, Bool.false_eq_true]
      obtain ⟨log, hrec⟩ := ih (m + c) (acc ++ seqFrom m c) (m + c)
        ⟨seqFrom m c, m + c⟩ (by omega) (by omega) (by omega)
      simp only [testIterIn, testIterOut] at hrec
      rw [hrec]
      have e : ((n : Int) - m).toNat = c + ((n : Int) - (m + c)).toNat := by omega
      rw [e, ← seqFrom_append, List.append_assoc]
      exact ⟨_, rfl⟩

/-- The loop of the test over `Next` on the paginator, from a marker below the
bound and with fuel for the numbers left and the last call: it ends, no call
returns an error, after every page the marker of the input is the next marker of
the output, and the pages seen hold the numbers after the marker up to the
bound. -/
theorem nextLoop_pageNext (n p : Nat) (hp : 1 ≤ p) :
    ∀ (fuel : Nat) (m : Int) (ints : List Int) (x : Int), 0 ≤ m → m < n → 0 ≤ x →
      (n : Int) - m + 1 ≤ fuel →
      ∃ it seen, nextLoop (pageNext n p) testIterIn testIterOut fuel ⟨⟨m⟩, ⟨ints, x⟩, none⟩ =
          some (it, seen) ∧
        (∀ y ∈ seen, y.err = none ∧ y.inp.marker = y.out.next) ∧
        (seen.map (fun y => y.out.ints)).flatten = seqFrom m ((n : Int) - m).toNat := by
  intro fuel
  induction fuel with
  | zero => intro m ints x _ h1 _ h2; omega
  | succ fuel ih =>
    intro m ints x hm0 hmn hx hf
    obtain ⟨c, hc1, hc2, hc3, hpage⟩ := pageNext_spec n p hp m hmn ⟨ints, x⟩
    have hxd : ¬ (x < 0) := by omega
    have hnext : Next (pageNext n p) testIterIn testIterOut ⟨⟨m⟩, ⟨ints, x⟩, none⟩ =
        (⟨⟨if m + (c : Int) ≥ (n : Int) then -1 else m + (c : Int)⟩,
          ⟨seqFrom m c, if m + (c : Int) ≥ (n : Int) then -1 else m + (c : Int)⟩, none⟩,
          (none, true), [Event.Done, Event.iterate, Event.Update]) := by
      unfold Next
      simp only [testIterIn, testIterOut, hxd, decide_False, Bool.false_eq_true, if_false, hpage]
    unfold nextLoop
    rw [hnext]
    simp only [if_true]
    by_cases hend : m + (c : Int) ≥ (n : Int)
    · have hc : ((n : Int) - m).toNat = c := by omega
      simp only [hend, if_true, hc]
      have hfuel : fuel ≠ 0 := by omega
      obtain ⟨f, rfl⟩ := Nat.exists_eq_succ_of_ne_zero hfuel
      have hdone : Next (pageNext n p) testIterIn testIterOut ⟨⟨-1⟩, ⟨seqFrom m c, -1⟩, none⟩ =
          (⟨⟨-1⟩, ⟨seqFrom m c, -1⟩, none⟩, (none, false), [Event.Done]) := by
        unfold Next
        simp [testIterOut]
      unfold nextLoop
      rw [hdone]
      simp only [Bool.false_eq_true, if_false, Option.map_some']
      refine ⟨_, _, rfl, fun y hy => ?_, by simp⟩
      simp only [List.mem_singleton] at hy
      subst hy
      exact ⟨rfl, rfl⟩
    · simp only [hend, if_false]
      obtain ⟨it, seen, h1, h2, h3⟩ := ih (m + c) (seqFrom m c) (m + c) (by omega) (by omega)
        (by omega) (by omega)
      rw [h1]
      simp only [Option.map_some']
      refine ⟨_, _, rfl, fun y hy => ?_, ?_⟩
      · rcases List.mem_cons.1 hy with rfl | hy
        · exact ⟨rfl, rfl⟩
        · exact h2 y hy
      · have e : ((n : Int) - m).toNat = c + ((n : Int) - (m + c)).toNat := by omega
        rw [List.map_cons, List.flatten_cons, h3, e, ← seqFrom_append]

/-- C38. For the test's paginator with any bound `n` and page size `p`, both at
least 1, and fuel above `n`: the loop that calls `Next` until it has no more
ends, no call returns an error, after every page the marker of the input is the
next marker of the output, and the pages seen through the output, put together,
are what `Merged` accumulates from the same start with no error, namely the
numbers 1 to `n`, `n` in all. -/
theorem Next_Merged_same_pages (n p fuel : Nat) (hn : 1 ≤ n) (hp : 1 ≤ p)
    (hfuel : n + 1 ≤ fuel) :
    ∃ it seen s' log,
      nextLoop (pageNext n p) testIterIn testIterOut fuel (New ⟨0⟩ ⟨[], 0⟩) = some (it, seen) ∧
      (∀ y ∈ seen, y.err = none ∧ y.inp.marker = y.out.next) ∧
      Merged (pageNext n p) testIterIn testIterOut fuel ⟨0⟩ ⟨[], 0⟩ ⟨[], 0⟩ =
        some (s', ⟨(seen.map (fun y => y.out.ints)).flatten, -1⟩, none, log) ∧
      (seen.map (fun y => y.out.ints)).flatten =
        (List.range n).map (fun (k : Nat) => (k : Int) + 1) ∧
      ((seen.map (fun y => y.out.ints)).flatten).length = n := by
  obtain ⟨it, seen, h1, h2, h3⟩ := nextLoop_pageNext n p hp fuel 0 [] 0 (le_refl _) (by omega)
    (le_refl _) (by omega)
  obtain ⟨log, h4⟩ := Merged_pageNext n p hp fuel 0 [] 0 ⟨[], 0⟩ (le_refl _) (by omega)
    (by omega)
  have e : ((n : Int) - 0).toNat = n := by omega
  rw [e] at h3 h4
  refine ⟨it, seen, ⟨-1⟩, log, h1, h2, ?_, ?_, ?_⟩
  · rw [h4, h3, List.nil_append]
  · rw [h3]
    unfold seqFrom
    exact List.map_congr_left (fun k _ => by omega)
  · rw [h3, seqFrom_length]

/-- C38 on the paginator of the test, with the bound 101 and pages of 10, which
is the function `next` of the test: the pages seen through `Next` hold 101
numbers, the numbers that `Merged` accumulates; and with the bound 7 and pages
of 3 the pages seen are 1 to 3, 4 to 6 and 7. -/
theorem Next_Merged_same_pages_witness :
    pageNext 101 10 = testNext ∧
      (∃ it seen s' log,
        nextLoop (pageNext 101 10) testIterIn testIterOut 102 (New ⟨0⟩ ⟨[], 0⟩) =
          some (it, seen) ∧
        Merged (pageNext 101 10) testIterIn testIterOut 102 ⟨0⟩ ⟨[], 0⟩ ⟨[], 0⟩ =
          some (s', ⟨(seen.map (fun y => y.out.ints)).flatten, -1⟩, none, log) ∧
        ((seen.map (fun y => y.out.ints)).flatten).length = 101) ∧
      (nextLoop (pageNext 7 3) testIterIn testIterOut 8 (New ⟨0⟩ ⟨[], 0⟩)).map
          (fun r => r.2.map (fun y => (y.inp.marker, y.out.ints, y.out.next))) =
        some [(3, [1, 2, 3], 3), (6, [4, 5, 6], 6), (-1, [7], -1)] :=
  ⟨pageNext_test,
    match Next_Merged_same_pages 101 10 102 (by decide) (by decide) (by decide) with
    | ⟨it, seen, s', log, h1, _, h3, _, h5⟩ => ⟨it, seen, s', log, h1, h3, h5⟩,
    by decide⟩

end Iterator

namespace Storage

/-- One result per record handled. -/
theorem Handles.length {env : Env} {kv kv' : KVStore} {ps : List ProposalData}
    {rs : List applyRet} (h : Handles env kv ps kv' rs) : rs.length = ps.length := by
  induction h with
  | nil => rfl
  | cons _ _ _ ih => simp [ih]

/-- The loop of `Apply` over records that are handled without error, on a result
slice whose part from `i` on is nil: it ends with their results in the slice from
`i` on and the store they leave. -/
theorem applyLoop_handles {env : Env} {kv kv' : KVStore} {ps : List ProposalData}
    {rs : List applyRet} (h : Handles env kv ps kv' rs) :
    ∀ (filled : List (Option applyRet)) (m : Nat), ps.length ≤ m →
      applyLoop env ps filled.length kv (filled ++ List.replicate m none) =
        (kv', filled ++ rs.map some ++ List.replicate (m - ps.length) none, Exit.done) := by
  induction h with
  | nil kv =>
    intro filled m _
    simp [applyLoop_nil]
  | @cons kv kv' p ps h r rs hrec hret rest ih =>
    intro filled m hm
    rw [applyLoop_cons, hrec]
    simp only [hret]
    obtain ⟨m', rfl⟩ : ∃ m', m = m' + 1 := ⟨m - 1, by simp at hm; omega⟩
    have hset : (filled ++ List.replicate (m' + 1) none).set filled.length (some r) =
        (filled ++ [some r]) ++ List.replicate m' none := by
      rw [List.replicate_succ, List.set_append_right _ _ (le_refl _)]
      simp
    rw [hset]
    have := ih (filled ++ [some r]) m' (by simp at hm; omega)
    simp only [List.length_append, List.length_singleton] at this
    rw [this]
    simp

/-- C4. `Apply(batch, index)` on a shard.  When every record of the batch is
handled without error, `Apply` returns no error and one result per record, the
results of the handlers in order, and `AppliedIndex` is `index` afterwards.
When the records before `p` are handled without error and the handler of `p`
answers the error `e`, `Apply` returns `e`; the results are those of the records
before `p` and nil for `p` and every later record, the store is the one the
handler of `p` left, whatever the later records are, and `AppliedIndex` is what
it was before the call. -/
theorem Apply_appliedIndex (env : Env) (s : Shard) (index : Nat) :
    (∀ pd kv' rs, Handles env s.kv pd kv' rs →
      Apply env s pd index =
          (setAppliedIndex { s with kv := kv' } index, Outcome.returned (rs.map some) none) ∧
        (rs.map some).length = pd.length ∧
        getAppliedIndex (Apply env s pd index).1 = index) ∧
    (∀ pre p post kvp rs h e, Handles env s.kv pre kvp rs → applyRecord env kvp p = some h →
      h.ret = .error e →
      Apply env s (pre ++ p :: post) index =
          ({ s with kv := h.kv },
            Outcome.returned (rs.map some ++ List.replicate (post.length + 1) none) (some e)) ∧
        (rs.map some ++ List.replicate (post.length + 1) none).length =
          (pre ++ p :: post).length ∧
        getAppliedIndex (Apply env s (pre ++ p :: post) index).1 = getAppliedIndex s) := by
  constructor
  · intro pd kv' rs hh
    have hl := applyLoop_handles hh [] pd.length (le_refl _)
    simp only [List.length_nil, List.nil_append, Nat.sub_self, List.replicate_zero,
      List.append_nil] at hl
    have happ : Apply env s pd index =
        (setAppliedIndex { s with kv := kv' } index, Outcome.returned (rs.map some) none) := by
      unfold Apply
      rw [hl]
    refine ⟨happ, by rw [List.length_map, hh.length], ?_⟩
    rw [happ]
    rfl
  · intro pre p post kvp rs h e hh hrec hret
    have hlen : pre.length ≤ (pre ++ p :: post).length := by simp
    have hl := applyLoop_handles hh [] (pre ++ p :: post).length hlen
    have hm : (pre ++ p :: post).length - pre.length = post.length + 1 := by
      simp only [List.length_append, List.length_cons]
      omega
    simp only [List.length_nil, List.nil_append, hm] at hl
    have happ : Apply env s (pre ++ p :: post) index =
        ({ s with kv := h.kv },
          Outcome.returned (rs.map some ++ List.replicate (post.length + 1) none) (some e)) := by
      unfold Apply
      rw [applyLoop_append, hl]
      simp only [applyLoop_cons, hrec, hret]
    refine ⟨happ, ?_, ?_⟩
    · simp only [List.length_append, List.length_map, hh.length, List.length_replicate,
        List.length_cons]
    · rw [happ]
      rfl

/-- C4 in the sample environment, on the empty store at applied index 0 with
index 5: the batch of an insert and a delete returns two results and no error
and leaves the applied index 5; the batch of an insert, an update whose data does
not decode and another insert returns the error of the update with one result,
and leaves the applied index 0 and the store as the first insert left it. -/
theorem Apply_appliedIndex_witness :
    (Apply sampleEnv (sampleShard emptyKV)
        [⟨raftOpInsertBlob, sampleData1⟩, ⟨raftOpDeleteBlob, sampleKey⟩] 5).2 =
        Outcome.returned [some ⟨[getRaw, setRaw], ⟨[7], ⟨3, 0, 0, 0, [], 0⟩⟩⟩,
          some ⟨[getRaw, delRaw], Blob.zero⟩] none ∧
      getAppliedIndex (Apply sampleEnv (sampleShard emptyKV)
        [⟨raftOpInsertBlob, sampleData1⟩, ⟨raftOpDeleteBlob, sampleKey⟩] 5).1 = 5 ∧
      (Apply sampleEnv (sampleShard emptyKV)
        [⟨raftOpInsertBlob, sampleData1⟩, ⟨raftOpUpdateItem, [0]⟩,
          ⟨raftOpInsertBlob, sampleData2⟩] 5).2 =
        Outcome.returned [some ⟨[getRaw, setRaw], ⟨[7], ⟨3, 0, 0, 0, [], 0⟩⟩⟩, none, none]
          (some Err.unmarshal) ∧
      getAppliedIndex (Apply sampleEnv (sampleShard emptyKV)
        [⟨raftOpInsertBlob, sampleData1⟩, ⟨raftOpUpdateItem, [0]⟩,
          ⟨raftOpInsertBlob, sampleData2⟩] 5).1 = 0 ∧
      (Apply sampleEnv (sampleShard emptyKV)
        [⟨raftOpInsertBlob, sampleData1⟩, ⟨raftOpUpdateItem, [0]⟩,
          ⟨raftOpInsertBlob, sampleData2⟩] 5).1.kv.data sampleKey = some [3, 7] :=
  have h1 := (Apply_appliedIndex sampleEnv (sampleShard emptyKV) 5).1
    [⟨raftOpInsertBlob, sampleData1⟩, ⟨raftOpDeleteBlob, sampleKey⟩] _ _
    (Handles.cons (h := ⟨_, _, _⟩) rfl rfl (Handles.cons (h := ⟨_, _, _⟩) rfl rfl (Handles.nil _)))
  have h2 := (Apply_appliedIndex sampleEnv (sampleShard emptyKV) 5).2
    [⟨raftOpInsertBlob, sampleData1⟩] ⟨raftOpUpdateItem, [0]⟩ [⟨raftOpInsertBlob, sampleData2⟩]
    _ _ ⟨_, _, _⟩ Err.unmarshal (Handles.cons (h := ⟨_, _, _⟩) rfl rfl (Handles.nil _)) rfl rfl
  ⟨congrArg Prod.snd h1.1, h1.2.2, congrArg Prod.snd h2.1, h2.2.2,
    (congrArg (fun r => r.1.kv.data sampleKey) h2.1).trans (by decide)⟩

/-- The read loop on a store whose writes may fail leaves the store with the
batches it has written. -/
theorem readBatchesF_data (reads : List (Option (List BatchOp) × Option Err)) :
    ∀ (faults : List (Option Err)) (kv : KVStore),
      (readBatchesF reads faults kv).1.data =
        writeBatches kv.data (writtenBatches reads faults) := by
  induction reads with
  | nil => intro faults kv; rfl
  | cons r reads ih =>
    intro faults kv
    obtain ⟨batch, err⟩ := r
    simp only [readBatchesF, writtenBatches]
    by_cases herr : err ≠ none ∧ err ≠ some Err.eof
    · rw [if_pos herr, if_pos herr]; rfl
    · rw [if_neg herr, if_neg herr]
      cases batch with
      | none =>
        simp only
        by_cases heof : err = some Err.eof
        · simp only [heof, if_true]; rfl
        · simp only [heof, if_false]
          exact ih faults kv
      | some b =>
        simp only
        cases hf : faults.headD none with
        | some e => simp only [KVStore.WriteF]; rfl
        | none =>
          simp only [KVStore.WriteF, KVStore.Write]
          by_cases heof : err = some Err.eof
          · simp only [heof, if_true]; rfl
          · simp only [heof, if_false]
            rw [ih]; rfl

/-- With no fault the read loop is that of the reliable store. -/
theorem readBatchesF_nil (reads : List (Option (List BatchOp) × Option Err)) :
    ∀ kv : KVStore, readBatchesF reads [] kv = readBatches reads kv := by
  induction reads with
  | nil => intro kv; rfl
  | cons r reads ih =>
    intro kv
    obtain ⟨batch, err⟩ := r
    unfold readBatchesF readBatches
    by_cases herr : err ≠ none ∧ err ≠ some Err.eof
    · rw [if_pos herr, if_pos herr]
    · rw [if_neg herr, if_neg herr]
      cases batch with
      | none =>
        by_cases heof : err = some Err.eof
        · simp only [heof, if_true]
        · simp only [heof, if_false]
          exact ih kv
      | some b =>
        simp only [List.headD_nil, KVStore.WriteF, KVStore.Write, List.tail_nil]
        by_cases heof : err = some Err.eof
        · simp only [heof, if_true]
        · simp only [heof, if_false]
          exact ih _

/-- With no fault `ApplySnapshotF` is `ApplySnapshot`. -/
theorem ApplySnapshotF_nil (env : Env) (s : Shard) (header : RaftSnapshotHeader)
    (snap : Snapshot) : ApplySnapshotF env [] s header snap = ApplySnapshot env s header snap := by
  unfold ApplySnapshotF ApplySnapshot
  cases hg : s.rwGate with
  | some g => simp only [prepRWCheck, hg]
  | none =>
    simp only [prepRWCheck, hg, List.headD_nil, KVStore.WriteF, KVStore.Write, List.tail_nil,
      readBatchesF_nil]

/-- With no fault the batches written are the batches consumed. -/
theorem writtenBatches_nil (reads : List (Option (List BatchOp) × Option Err)) :
    writtenBatches reads [] = consumedBatches reads := by
  induction reads with
  | nil => rfl
  | cons r reads ih =>
    obtain ⟨batch, err⟩ := r
    simp only [writtenBatches, consumedBatches, List.headD_nil, List.tail_nil, ih]
    cases batch <;> simp [Option.toList]

/-- C11, amended. An `ApplySnapshot` that returns an error is not atomic; what
it leaves depends on where it failed.  Refused by the read-write check, or
failed in the write of the range delete: the shard is as before.  Otherwise the
store holds its former contents with the shard's key range deleted and the
batches written before the failure on top, for every key, inside the range and
outside; and: a failed batch read or batch write leaves `AppliedIndex` and
`Units` as before; an undecodable member context leaves `Units` as before, with
`AppliedIndex` the index of the snapshot; a failed `SaveShardInfo` leaves the new
index and the new units.  The writes of the store may fail as `faults` says;
with no fault the method is `ApplySnapshot` and the batches written are the
batches consumed. -/
theorem ApplySnapshot_error_state (env : Env) (faults : List (Option Err)) (s : Shard)
    (header : RaftSnapshotHeader) (snap : Snapshot) (e : Err)
    (herr : (ApplySnapshotF env faults s header snap).2 = some e) :
    ((s.rwGate = some e ∧ (ApplySnapshotF env faults s header snap).1 = s) ∨
      (s.rwGate = none ∧ faults.headD none = some e ∧
        (ApplySnapshotF env faults s header snap).1 = s) ∨
      (s.rwGate = none ∧ faults.headD none = none ∧
        (ApplySnapshotF env faults s header snap).1.kv.data =
          writeBatches (rangeDeleted env s.kv.data) (writtenBatches snap.reads faults.tail) ∧
        (((readBatchesF snap.reads faults.tail
              (s.kv.Write [BatchOp.deleteRange env.shardDataPrefix env.shardDataMaxPrefix]).1).2 =
            some e ∧
          getAppliedIndex (ApplySnapshotF env faults s header snap).1 = getAppliedIndex s ∧
          (ApplySnapshotF env faults s header snap).1.Units = s.Units) ∨
        ((readBatchesF snap.reads faults.tail
              (s.kv.Write [BatchOp.deleteRange env.shardDataPrefix env.shardDataMaxPrefix]).1).2 =
            none ∧
          unitsFromMembers env header.Members [] = .error e ∧
          getAppliedIndex (ApplySnapshotF env faults s header snap).1 = snap.index ∧
          (ApplySnapshotF env faults s header snap).1.Units = s.Units) ∨
        ((readBatchesF snap.reads faults.tail
              (s.kv.Write [BatchOp.deleteRange env.shardDataPrefix env.shardDataMaxPrefix]).1).2 =
            none ∧
          ∃ units, unitsFromMembers env header.Members [] = .ok units ∧
            env.saveShardInfo units snap.index = some e ∧
            getAppliedIndex (ApplySnapshotF env faults s header snap).1 = snap.index ∧
            (ApplySnapshotF env faults s header snap).1.Units = units)))) ∧
    ApplySnapshotF env [] s header snap = ApplySnapshot env s header snap ∧
    writtenBatches snap.reads [] = consumedBatches snap.reads := by
  refine ⟨?_, ApplySnapshotF_nil env s header snap, writtenBatches_nil snap.reads⟩
  have hinfl : s.inflight + 1 - 1 = s.inflight := by omega
  unfold ApplySnapshotF at herr ⊢
  cases hg : s.rwGate with
  | some g =>
    left
    simp only [prepRWCheck, hg] at herr ⊢
    by_cases hstop : g = Err.shardStopWriting
    · simp [hstop] at herr
    · simp only [hstop, if_false, Option.some.injEq] at herr ⊢
      exact ⟨herr, trivial⟩
  | none =>
    right
    simp only [prepRWCheck, hg] at herr ⊢
    cases hf : faults.headD none with
    | some e1 =>
      left
      simp only [hf, KVStore.WriteF, Option.some.injEq] at herr ⊢
      refine ⟨trivial, herr, ?_⟩
      simp only [prepRWCheckDone, hinfl, ← hg]
    | none =>
      right
      simp only [hf, KVStore.WriteF, KVStore.Write] at herr ⊢
      have hdata := readBatchesF_data snap.reads faults.tail
        ⟨List.foldl applyBatchOp s.kv.data
            [BatchOp.deleteRange env.shardDataPrefix env.shardDataMaxPrefix],
          s.kv.writes ++
            [KVWrite.write [BatchOp.deleteRange env.shardDataPrefix env.shardDataMaxPrefix]]⟩
      have hrd : List.foldl applyBatchOp s.kv.data
          [BatchOp.deleteRange env.shardDataPrefix env.shardDataMaxPrefix] =
          rangeDeleted env s.kv.data := rfl
      simp only [hrd] at hdata herr ⊢
      rcases hr : readBatchesF snap.reads faults.tail
          ⟨rangeDeleted env s.kv.data, s.kv.writes ++
            [KVWrite.write [BatchOp.deleteRange env.shardDataPrefix env.shardDataMaxPrefix]]⟩
        with ⟨kv2, r⟩
      rw [hr] at hdata herr
      simp only at hdata
      cases r with
      | some e2 =>
        simp only [Option.some.injEq] at herr
        subst herr
        exact ⟨trivial, trivial, hdata, Or.inl ⟨rfl, rfl, rfl⟩⟩
      | none =>
        simp only at herr ⊢
        cases hu : unitsFromMembers env header.Members [] with
        | error e3 =>
          simp only [hu, Option.some.injEq] at herr
          subst herr
          exact ⟨trivial, trivial, hdata,
            Or.inr (Or.inl (by simp [getAppliedIndex, setAppliedIndex, prepRWCheckDone]))⟩
        | ok units =>
          simp only [hu, setAppliedIndex] at herr
          cases hsave : env.saveShardInfo units snap.index with
          | none => simp [hsave] at herr
          | some e4 =>
            simp only [hsave] at herr
            by_cases hstop : e4 = Err.shardStopWriting
            · simp [hstop] at herr
            · simp only [hstop, if_false, Option.some.injEq] at herr
              subst herr
              simp only [setAppliedIndex, hsave, hstop, if_false]
              exact ⟨trivial, trivial, hdata,
                Or.inr (Or.inr (by simp [hsave, getAppliedIndex, prepRWCheckDone]))⟩

/-- C11, amended, in the sample environment.  With the write of the first batch
failing, the ingest returns that error with the key `[1, 9]` of the range
deleted, the key `[1, 5]` of the batch not written and the key `[3]` outside the
range kept; the store is the former one with the range deleted and no batch on
top.  With the write of the range delete failing, the key `[1, 9]` is kept. -/
theorem ApplySnapshot_error_state_witness :
    (ApplySnapshotF sampleEnv [none, some (Err.other 2)] sampleOpenShard sampleHeader
        sampleSnapshot).2 = some (Err.other 2) ∧
      (ApplySnapshotF sampleEnv [none, some (Err.other 2)] sampleOpenShard sampleHeader
        sampleSnapshot).1.kv.data [1, 9] = none ∧
      (ApplySnapshotF sampleEnv [none, some (Err.other 2)] sampleOpenShard sampleHeader
        sampleSnapshot).1.kv.data [1, 5] = none ∧
      (ApplySnapshotF sampleEnv [none, some (Err.other 2)] sampleOpenShard sampleHeader
        sampleSnapshot).1.kv.data [3] = some [1] ∧
      (ApplySnapshotF sampleEnv [some (Err.other 3)] sampleOpenShard sampleHeader
        sampleSnapshot).1.kv.data [1, 9] = some [0] ∧
      writtenBatches sampleSnapshot.reads [some (Err.other 2)] = [] ∧
      (ApplySnapshotF sampleEnv [none, some (Err.other 2)] sampleOpenShard sampleHeader
        sampleSnapshot).1.kv.data =
        writeBatches (rangeDeleted sampleEnv sampleOpenShard.kv.data)
          (writtenBatches sampleSnapshot.reads [some (Err.other 2)]) :=
  ⟨by decide, by decide, by decide, by decide, by decide, by decide,
    match (ApplySnapshot_error_state sampleEnv [none, some (Err.other 2)] sampleOpenShard
      sampleHeader sampleSnapshot (Err.other 2) (by decide)).1 with
    | Or.inl h => absurd h.1 (by decide)
    | Or.inr (Or.inl h) => absurd h.2.1 (by decide)
    | Or.inr (Or.inr h) => h.2.2.1⟩

end Storage
